import Mathlib

/-!
# Tetris beam-search planner: board, pieces, routes, collector and driver

A shallow embedding of `tetris_common.h`, `tetris_common.cc`, `utils.h` and the
sequential parts of `search.cc`, followed by theorems about the embedded
functions.

Conventions of the embedding.

* `unsigned`, `uint32_t` and `uint8_t` values are natural numbers; where the
  source arithmetic can wrap, the reduction `% 2 ^ w` is written out.
* `int` and `int8_t` values are integers.  Every narrowing to `int8_t` in the
  embedded functions is applied to a value inside the `int8_t` range (it lies
  between the coordinates of two poses, has just passed a range test, or is one
  step away from a pose that fits), so it is the identity and is left out.
* The board rows `row_[kH]` are a list of naturals; `Situation.WF` says that the
  list has `kH` entries, each a `uint16_t`.  The `row_4_` view of the union is
  computed from the rows (little endian, four rows per 64-bit word).
* A `RouteResult` (and the result of `FindAllMoves`) is `none` when the embedded
  loop or recursion does not reach its exit within the stated number of rounds;
  the theorems on termination show that this does not happen for rotations
  below the rotation count of the shape.
-/

namespace Tetris

/-! ## utils.h -/

/-- Population count of the low `w` bits (`__builtin_popcount` for `w = 32`,
`__builtin_popcountll` for `w = 64`). -/
def popcnt (w x : Nat) : Nat :=
  ((List.range w).filter (fun i => x.testBit i)).length

/-- Count of trailing zeros of a `w`-bit word: the index of the lowest set bit.
The source requires a non-zero argument; for zero the model gives `w`. -/
def ctz (w x : Nat) : Nat :=
  ((List.range w).find? (fun i => x.testBit i)).getD w

/-- Indices of the set bits in ascending order, as walked by `BitIterator`
(`ctz` of the current value, then `blsr`), for a 32-bit word. -/
def set_bits (v : Nat) : List Nat :=
  (List.range 32).filter (fun i => v.testBit i)

/-! ## tetris_common.h: sizes, shapes, actions, poses -/

def kH : Nat := 20
def kW : Nat := 10

def XInRange (x : Int) : Bool := decide (x ≥ 0) && decide (x < (kW : Int))
def YInRange (y : Int) : Bool := decide (y ≥ 0) && decide (y < (kH : Int))

inductive Shape where
  | kShapeI | kShapeL | kShapeJ | kShapeT | kShapeO | kShapeS | kShapeZ
deriving DecidableEq, Repr

structure Pos where
  x : Int
  y : Int
deriving DecidableEq, Repr

/-- Rotation count `kShapeDesc[shp].cnt`. -/
def Shape.cnt : Shape → Nat
  | .kShapeI => 2
  | .kShapeL => 4
  | .kShapeJ => 4
  | .kShapeT => 4
  | .kShapeO => 1
  | .kShapeS => 2
  | .kShapeZ => 2

/-- Cell offsets `kShapeDesc[shp].pos[rot]`.  Entries of the 4-slot table that
the initialiser does not list are zero-filled, hence four `(0,0)` cells; the
model gives the same for `rot ≥ 4`, where the source indexes past the table. -/
def Shape.pos : Shape → Nat → List Pos
  | .kShapeI, 0 => [⟨0, 0⟩, ⟨0, -1⟩, ⟨0, -2⟩, ⟨0, 1⟩]
  | .kShapeI, 1 => [⟨0, 0⟩, ⟨1, 0⟩, ⟨2, 0⟩, ⟨-1, 0⟩]
  | .kShapeL, 0 => [⟨0, 0⟩, ⟨0, -1⟩, ⟨0, -2⟩, ⟨1, 0⟩]
  | .kShapeL, 1 => [⟨0, 0⟩, ⟨1, 0⟩, ⟨2, 0⟩, ⟨0, 1⟩]
  | .kShapeL, 2 => [⟨0, 0⟩, ⟨-1, 0⟩, ⟨0, 1⟩, ⟨0, 2⟩]
  | .kShapeL, 3 => [⟨0, 0⟩, ⟨0, -1⟩, ⟨-1, 0⟩, ⟨-2, 0⟩]
  | .kShapeJ, 0 => [⟨0, 0⟩, ⟨0, -1⟩, ⟨0, -2⟩, ⟨-1, 0⟩]
  | .kShapeJ, 1 => [⟨0, 0⟩, ⟨0, -1⟩, ⟨1, 0⟩, ⟨2, 0⟩]
  | .kShapeJ, 2 => [⟨0, 0⟩, ⟨1, 0⟩, ⟨0, 1⟩, ⟨0, 2⟩]
  | .kShapeJ, 3 => [⟨0, 0⟩, ⟨-1, 0⟩, ⟨-2, 0⟩, ⟨0, 1⟩]
  | .kShapeT, 0 => [⟨0, 0⟩, ⟨1, 0⟩, ⟨0, 1⟩, ⟨-1, 0⟩]
  | .kShapeT, 1 => [⟨0, 0⟩, ⟨0, -1⟩, ⟨0, 1⟩, ⟨-1, 0⟩]
  | .kShapeT, 2 => [⟨0, 0⟩, ⟨0, -1⟩, ⟨1, 0⟩, ⟨-1, 0⟩]
  | .kShapeT, 3 => [⟨0, 0⟩, ⟨0, -1⟩, ⟨1, 0⟩, ⟨0, 1⟩]
  | .kShapeO, 0 => [⟨0, 0⟩, ⟨0, -1⟩, ⟨1, -1⟩, ⟨1, 0⟩]
  | .kShapeS, 0 => [⟨0, 0⟩, ⟨0, -1⟩, ⟨1, -1⟩, ⟨-1, 0⟩]
  | .kShapeS, 1 => [⟨0, 0⟩, ⟨-1, 0⟩, ⟨-1, -1⟩, ⟨0, 1⟩]
  | .kShapeZ, 0 => [⟨0, 0⟩, ⟨0, -1⟩, ⟨1, 0⟩, ⟨-1, -1⟩]
  | .kShapeZ, 1 => [⟨0, 0⟩, ⟨0, -1⟩, ⟨-1, 1⟩, ⟨-1, 0⟩]
  | _, _ => [⟨0, 0⟩, ⟨0, 0⟩, ⟨0, 0⟩, ⟨0, 0⟩]

structure ShapeBound where
  min_x : Int
  max_x : Int
  min_y : Int
  max_y : Int
deriving DecidableEq, Repr

def minList (l : List Int) : Int := l.foldl min (l.headD 0)
def maxList (l : List Int) : Int := l.foldl max (l.headD 0)

/-- Bounding box `kShapeBounds[shp][rot]` as filled in by `MakeShapeBounds`:
computed for `rot < cnt`, value-initialised (all zero) otherwise. -/
def kShapeBounds (shp : Shape) (rot : Nat) : ShapeBound :=
  if rot < shp.cnt then
    { min_x := minList ((shp.pos rot).map Pos.x)
      max_x := maxList ((shp.pos rot).map Pos.x)
      min_y := minList ((shp.pos rot).map Pos.y)
      max_y := maxList ((shp.pos rot).map Pos.y) }
  else ⟨0, 0, 0, 0⟩

inductive ActionType where
  | kDown | kLeft | kRight | kRotate | kNew
deriving DecidableEq, Repr

/-- Letter `kActionChars[type]` of `"DLRCN"`. -/
def kActionChars : ActionType → Char
  | .kDown => 'D'
  | .kLeft => 'L'
  | .kRight => 'R'
  | .kRotate => 'C'
  | .kNew => 'N'

structure Action where
  type : ActionType := .kNew
  «by» : Nat := 0
deriving DecidableEq, Repr

structure BrickStatus where
  x : Int
  y : Int
  rot : Nat
deriving DecidableEq, Repr

def BrickStatus.ReplaceX (st : BrickStatus) (new_x : Int) : BrickStatus := ⟨new_x, st.y, st.rot⟩
def BrickStatus.ReplaceY (st : BrickStatus) (new_y : Int) : BrickStatus := ⟨st.x, new_y, st.rot⟩
def BrickStatus.ReplaceRot (st : BrickStatus) (new_rot : Nat) : BrickStatus := ⟨st.x, st.y, new_rot⟩

def kSteps : Nat := 10000

/-! ## Situation -/

structure Situation where
  row_ : List Nat := List.replicate 20 0
  step_ : Nat := 0
  score_ : Nat := 0
  collapse_lines_ : Nat := 0
  collapse_count_ : Nat := 0
deriving DecidableEq, Repr

/-- The rows are `kH` values of type `uint16_t`. -/
def Situation.WF (s : Situation) : Prop :=
  s.row_.length = kH ∧ ∀ r ∈ s.row_, r < 65536

instance (s : Situation) : Decidable s.WF := by
  unfold Situation.WF; exact inferInstance

def kRowBitMask : Nat := (1 <<< kW) - 1

/-- Row accessor `operator()(int y)`. -/
def Situation.row (s : Situation) (y : Nat) : Nat := s.row_.getD y 0

/-- Cell accessor `operator()(int x, int y)`: `row_[y] & (1u << x)`. -/
def Situation.cell (s : Situation) (x y : Nat) : Bool := (s.row y).testBit x

/-- The 64-bit view `row_4_[i]` of rows `4i .. 4i+3` (little endian). -/
def Situation.row_4_ (s : Situation) (i : Nat) : Nat :=
  s.row (4 * i) + s.row (4 * i + 1) * 2 ^ 16 + s.row (4 * i + 2) * 2 ^ 32
    + s.row (4 * i + 3) * 2 ^ 48

def Situation.TotalOccupied (s : Situation) : Nat :=
  ((List.range (kH / 4)).map (fun i => popcnt 64 (s.row_4_ i))).sum

/-- Scan of the 64-bit words from index `i` on, `n` words left. -/
def OccupiedHeightFrom (s : Situation) : Nat → Nat → Nat
  | 0, _ => 0
  | n + 1, i =>
    if s.row_4_ i ≠ 0 then kH - (ctz 64 (s.row_4_ i) / 16 + i * 4)
    else OccupiedHeightFrom s n (i + 1)

def Situation.OccupiedHeight (s : Situation) : Nat :=
  OccupiedHeightFrom s (kH / 4) 0

def Situation.CollapsableBitmask (s : Situation) : Nat :=
  (List.range kH).foldl
    (fun r i => if s.row i = kRowBitMask then r ||| (1 <<< i) else r) 0

def kMul : List Nat := [1, 3, 6, 10]

/-- The `for (y = kH - 1; y > 0; --y)` loop of `CollapseInPlace`; the first
argument is `y`, the state is the row array and the write index `wy`. -/
def packRows (mask : Nat) : Nat → List Nat → Nat → List Nat × Nat
  | 0, rows, wy => (rows, wy)
  | y + 1, rows, wy =>
    if mask &&& (1 <<< (y + 1)) = 0 then
      packRows mask y (rows.set wy (rows.getD (y + 1) 0)) (wy - 1)
    else packRows mask y rows wy

/-- The `while (wy != unsigned(-1)) row_[wy--] = 0;` loop; the first argument is
`wy + 1`, so that `0` stands for `unsigned(-1)`. -/
def clearRows : Nat → List Nat → List Nat
  | 0, rows => rows
  | wy + 1, rows => clearRows wy (rows.set wy 0)

/-- `Situation::CollapseInPlace`.  The for loop decrements `wy` at most `kH - 1`
times from `kH - 1`, so `wy` does not wrap there.  `kMul` has four entries; the
model reads 0 past its end, where the source reads out of bounds. -/
def Situation.CollapseInPlace (s : Situation) : Situation :=
  let step := (s.step_ + 1) % 2 ^ 32
  if step ≥ kSteps then { s with step_ := step }
  else
    let collapsable_bitmask := s.CollapsableBitmask
    if collapsable_bitmask ≠ 0 then
      let lines := popcnt 32 collapsable_bitmask
      let packed := packRows collapsable_bitmask (kH - 1) s.row_ (kH - 1)
      { row_ := clearRows (packed.2 + 1) packed.1
        step_ := step
        score_ := (s.score_ + kMul.getD (lines - 1) 0 * s.TotalOccupied) % 2 ^ 32
        collapse_lines_ := (s.collapse_lines_ + lines) % 2 ^ 32
        collapse_count_ := (s.collapse_count_ + 1) % 2 ^ 32 }
    else { s with step_ := step }


/-! ## Collapse: specification-side notions and example boards -/

/-- Number of full rows of the board. -/
def Situation.fullRows (s : Situation) : Nat :=
  ((List.range kH).filter (fun y => s.row y = kRowBitMask)).length

/-- Board with a full bottom row, about to receive the last piece. -/
def lastStepBoard : Situation :=
  { row_ := List.replicate 19 0 ++ [1023], step_ := 9999 }

/-- Board with two full rows and one partly filled row, at step 3. -/
def twoFullRowsBoard : Situation :=
  { row_ := List.replicate 17 0 ++ [1023, 5, 1023], step_ := 3, score_ := 7 }

/-! ## OccupiedHeight: specification-side notion -/

/-- Following the specification's words: the largest `kH - y` over the rows `y`
whose value is non-zero, and 0 when every row is zero. -/
def occupiedHeightSpec (s : Situation) : Nat :=
  (((List.range kH).filter (fun y => s.row y ≠ 0)).map (fun y => kH - y)).foldr max 0

/-- Board whose topmost non-empty row is row 6. -/
def heightBoard : Situation :=
  { row_ := List.replicate 6 0 ++ [512, 0, 3] ++ List.replicate 11 1 }

/-! ## Action::AppendTo and Action::Join, with the specification-side rendering -/

/-- `Action::AppendTo`, with `std::string` as a list of characters. -/
def Action.AppendTo (a : Action) (s : List Char) : List Char :=
  let s1 := if !s.isEmpty then s ++ [','] else s
  let s2 := s1 ++ [kActionChars a.type]
  if a.type ≠ .kNew then
    if a.«by» < 10 then s2 ++ [Char.ofNat (48 + a.«by»)]
    else s2 ++ [Char.ofNat (48 + a.«by» / 10)] ++ [Char.ofNat (48 + a.«by» % 10)]
  else s2

/-- The `while (++it != actions.end())` loop of `Action::Join`; `hold.by` is a
`uint8_t`, so the sum is reduced modulo 256. -/
def joinLoop : Action → List Action → List Char → List Char
  | hold, [], res => hold.AppendTo res
  | hold, it :: rest, res =>
    if hold.type = it.type then
      joinLoop { hold with «by» := (hold.«by» + it.«by») % 256 } rest res
    else joinLoop it rest (hold.AppendTo res)

/-- `Action::Join`. -/
def Action.Join (actions : List Action) : List Char :=
  match actions with
  | [] => []
  | a :: rest => joinLoop a rest []

/-- Specification side: the maximal runs of consecutive same-type actions, each
with its type and the sum of its counts. -/
def actionRuns : List Action → List (ActionType × Nat)
  | [] => []
  | a :: rest =>
    match actionRuns rest with
    | [] => [(a.type, a.«by»)]
    | (t, n) :: more =>
      if t = a.type then (t, a.«by» + n) :: more else (a.type, a.«by») :: (t, n) :: more

/-- Specification side: the text of one record, the letter followed (except for
`N`) by the count in decimal. -/
def renderRun (r : ActionType × Nat) : List Char :=
  kActionChars r.1 :: (if r.1 = .kNew then [] else Nat.toDigits 10 r.2)

/-- The string after `AppendTo` of the records `rs` in turn, starting from `res`
(records as rendered by `renderRun`). -/
def appendRecords (res : List Char) (rs : List (ActionType × Nat)) : List Char :=
  rs.foldl (fun acc r => (if acc.isEmpty then acc else acc ++ [',']) ++ renderRun r) res

/-- An action list with two adjacent `Down` entries. -/
def joinExample : List Action :=
  [⟨.kNew, 0⟩, ⟨.kRotate, 1⟩, ⟨.kDown, 3⟩, ⟨.kDown, 9⟩, ⟨.kLeft, 2⟩, ⟨.kNew, 0⟩]

/-! ## search.cc: State, Solution, MakeSolution -/

/-! ## search.cc: states, global best, solution -/

/-- `struct State`.  The nullable `parent` pointer gives the two constructors:
`orphan` is a state whose `parent` is null, `child` one whose `parent` is set. -/
inductive State where
  | orphan (situ : Situation) (quality : Int) (occupied_height : Nat) (actions : List Action)
  | child (situ : Situation) (quality : Int) (occupied_height : Nat) (parent : State)
      (actions : List Action)
deriving DecidableEq, Repr

def State.situ : State → Situation
  | .orphan s _ _ _ => s
  | .child s _ _ _ _ => s

def State.quality : State → Int
  | .orphan _ q _ _ => q
  | .child _ q _ _ _ => q

def State.occupied_height : State → Nat
  | .orphan _ _ h _ => h
  | .child _ _ h _ _ => h

def State.parent : State → Option State
  | .orphan _ _ _ _ => none
  | .child _ _ _ p _ => some p

def State.actions : State → List Action
  | .orphan _ _ _ a => a
  | .child _ _ _ _ a => a

structure Solution where
  actions : List Action := []
  final_situ : Situation := {}
  score_by_step : List Nat := []
deriving DecidableEq, Repr

/-- The `while (state && state->situ.step_ >= 1)` loop of `MakeSolution`. -/
def makeSolutionLoop : State → List Action → List Action
  | .orphan situ _ _ actions, acc =>
    if situ.step_ ≥ 1 then acc ++ actions.reverse ++ [⟨.kNew, 0⟩] else acc
  | .child situ _ _ parent actions, acc =>
    if situ.step_ ≥ 1 then makeSolutionLoop parent (acc ++ actions.reverse ++ [⟨.kNew, 0⟩])
    else acc

/-- `MakeSolution`. -/
def MakeSolution (state : State) (score_by_step : List Nat) : Solution :=
  { final_situ := state.situ
    score_by_step := score_by_step
    actions := (makeSolutionLoop state []).reverse }

/-- The state followed by its parent, grandparent, ... up to the state without
parent. -/
def State.chain : State → List State
  | .orphan s q h a => [.orphan s q h a]
  | .child s q h p a => .child s q h p a :: p.chain

/-- Specification side: for the nodes given leaf first, the concatenation in
root-to-leaf order of `New` followed by the node's action list. -/
def solutionSpec (nodes : List State) : List Action :=
  nodes.reverse.flatMap (fun n => ⟨.kNew, 0⟩ :: n.actions)

/-- A chain of depth 2: a state at step 2, its parent at step 1, the root. -/
def chainExample : State :=
  .child { step_ := 2 } 0 0
    (.child { step_ := 1 } 0 0 (.orphan {} 0 0 []) [⟨.kRotate, 1⟩, ⟨.kDown, 18⟩])
    [⟨.kLeft, 2⟩, ⟨.kDown, 17⟩]

/-! ## search.cc: board comparison and the global-best update of Solve -/

/-- `Situation::BricksEqual`: the five 64-bit words agree. -/
def Situation.BricksEqual (a other : Situation) : Bool :=
  (List.range (kH / 4)).all (fun i => decide (a.row_4_ i = other.row_4_ i))

/-- `Situation::BricksComp`: sign of the first differing 64-bit word. -/
def Situation.BricksComp (a other : Situation) : Int :=
  match (List.range (kH / 4)).find? (fun i => decide (a.row_4_ i ≠ other.row_4_ i)) with
  | some i => if a.row_4_ i > other.row_4_ i then 1 else -1
  | none => 0

/-- The key `(score_, step_, quality)` of `global_best_key_func`. -/
def global_best_key_func (state : State) : Nat × Nat × Int :=
  (state.situ.score_, state.situ.step_, state.quality)

/-- `operator>` of `std::tuple<uint32_t, uint32_t, int>`: lexicographic. -/
def tupleGt (u v : Nat × Nat × Int) : Bool :=
  decide (u.1 > v.1) ||
    (decide (u.1 = v.1) &&
      (decide (u.2.1 > v.2.1) || (decide (u.2.1 = v.2.1) && decide (u.2.2 > v.2.2))))

/-- One round of the `for (StatePtr& state_ptr : next_step_bests)` loop of
`Solve`; the loop state is `global_best` with `global_best_key`. -/
def globalBestStep (g : State × (Nat × Nat × Int)) (state_ptr : State) :
    State × (Nat × Nat × Int) :=
  let new_key := global_best_key_func state_ptr
  if tupleGt new_key g.2 ||
      (decide (new_key = g.2) && decide (state_ptr.situ.BricksComp g.1.situ > 0)) then
    (state_ptr, new_key)
  else g

/-- The global-best update of one layer of `Solve`. -/
def updateGlobalBest (global_best : State) (next_step_bests : List State) : State :=
  (next_step_bests.foldl globalBestStep (global_best, global_best_key_func global_best)).1

/-- The layer loop of `Solve` as far as the score trajectory goes: the argument
lists are the drained collector contents of the successive layers, the result
is `score_by_step` of the returned solution (empty after an abort). -/
def solveLoop (g_abort_threshold : Nat → Nat) :
    List (List State) → Nat → State → List Nat → List Nat
  | [], _, _, score_by_step => score_by_step
  | next_step_bests :: later, step, global_best, score_by_step =>
    let best := updateGlobalBest global_best next_step_bests
    let current_best_score := best.situ.score_
    if current_best_score < g_abort_threshold step then []
    else solveLoop g_abort_threshold later (step + 1) best
      (score_by_step ++ [current_best_score])

/-! ## search.cc: StateCollector -/

/-- `FastHashBricks`: rotate left by `kW` in 64 bits, xor the next word. -/
def FastHashBricks (situ : Situation) : Nat :=
  (List.range (kH / 4)).foldl
    (fun h i => (((h <<< kW) % 2 ^ 64) ||| (h >>> (64 - kW))) ^^^ situ.row_4_ i) 0

/-- The lambda `better_than` of `StateCollector::Add`. -/
def better_than (a b : Situation) : Bool :=
  decide (a.score_ > b.score_) ||
    (decide (a.score_ = b.score_) && decide (a.collapse_count_ < b.collapse_count_))

/-- Number of shards `StateCollector::kN`. -/
def kN : Nat := 17

/-- `set.insert(state_ptr)` on one shard followed by the replacement of the
stored element when the insert found a `BricksEqual` element and the new state
is `better_than` it.  The hash set is a list without `BricksEqual` duplicates. -/
def shardAdd : List State → State → List State
  | [], state_ptr => [state_ptr]
  | it :: rest, state_ptr =>
    if it.situ.BricksEqual state_ptr.situ then
      if better_than state_ptr.situ it.situ then state_ptr :: rest else it :: rest
    else it :: shardAdd rest state_ptr

/-- `class StateCollector`: the shards `sets_[kN]`, used one caller at a time. -/
structure StateCollector where
  sets_ : Nat → List State := fun _ => []

/-- `StateCollector::Add`. -/
def StateCollector.Add (c : StateCollector) (state_ptr : State) : StateCollector :=
  let i := FastHashBricks state_ptr.situ % kN
  { sets_ := fun j => if j = i then shardAdd (c.sets_ j) state_ptr else c.sets_ j }

/-- `StateCollector::MoveTo`: the shards are appended to `res` in turn. -/
def StateCollector.MoveTo (c : StateCollector) (res : List State) : List State :=
  res ++ (List.range kN).flatMap c.sets_

/-- All of `xs` added to a fresh collector, then drained. -/
def collect (xs : List State) : List State :=
  (xs.foldl StateCollector.Add {}).MoveTo []

/-- The triple (board rows, score, collapse_count) of a state. -/
def State.triple (s : State) : List Nat × Nat × Nat :=
  (s.situ.row_, s.situ.score_, s.situ.collapse_count_)

/-- Invariant of the collector after the states of `S` were added: every stored
state sits in the shard of its hash, was added, and no added state with the
same board is better; the boards inside a shard differ; every added board is
stored. -/
def CollectorInv (c : StateCollector) (S : List State) : Prop :=
  (∀ j, ∀ o ∈ c.sets_ j, FastHashBricks o.situ % kN = j ∧ o ∈ S ∧
      ∀ y ∈ S, y.situ.row_ = o.situ.row_ → better_than y.situ o.situ = false) ∧
  (∀ j, (c.sets_ j).Pairwise (fun a b => a.situ.row_ ≠ b.situ.row_)) ∧
  (∀ x ∈ S, ∃ o ∈ c.sets_ (FastHashBricks x.situ % kN), o.situ.row_ = x.situ.row_)

/-- Three states, two of them on the empty board. -/
def collectExample : List State :=
  [.orphan { score_ := 10, collapse_count_ := 2 } 0 0 [],
   .orphan { row_ := List.replicate 19 0 ++ [3], score_ := 4 } 0 2 [],
   .orphan { score_ := 10, collapse_count_ := 1 } 0 0 []]

/-! ## tetris_common.cc: Fits, PutCopy, the route finder, FindAllMoves, replay -/

/-- `Situation::Fits`.  The cell loop returns false at the first occupied cell
with `y >= 0`; it only reads, so it is the conjunction over the four cells. -/
def Situation.Fits (s : Situation) (shape : Shape) (st : BrickStatus) : Bool :=
  let pos := shape.pos st.rot
  let bounds := kShapeBounds shape st.rot
  if st.x + bounds.min_x < 0 ∨ st.x + bounds.max_x ≥ (kW : Int) then false
  else if st.y + bounds.max_y < 0 ∨ st.y + bounds.max_y ≥ (kH : Int) then false
  else pos.all (fun pp =>
    let x := st.x + pp.x
    let y := st.y + pp.y
    !(decide (y ≥ 0) && s.cell x.toNat y.toNat))

/-- `res(x, y) = true` through `BitRef`: `row_[y] |= (1u << x)`. -/
def Situation.setCell (s : Situation) (x y : Nat) : Situation :=
  { s with row_ := s.row_.set y (s.row y ||| (1 <<< x)) }

/-- `Situation::PutCopy`. -/
def Situation.PutCopy (s : Situation) (shape : Shape) (st : BrickStatus) : Situation :=
  (shape.pos st.rot).foldl (fun res pp =>
    let x := st.x + pp.x
    let y := st.y + pp.y
    if XInRange x && YInRange y then res.setCell x.toNat y.toNat else res) s

/-- Result of a route function: `none` when the call does not return, otherwise
the returned flag and the action list `*res` after the call. -/
abbrev RouteResult := Option (Bool × List Action)

/-- `a && b` on two route calls, the second one working on the list left by the
first. -/
def RouteResult.andThen (a : RouteResult) (b : List Action → RouteResult) : RouteResult :=
  match a with
  | none => none
  | some (false, res) => some (false, res)
  | some (true, res) => b res

/-- `if (attempt) return true; res->resize(size);` -/
def RouteResult.orResize (a : RouteResult) (size : Nat) : RouteResult :=
  match a with
  | none => none
  | some (true, res) => some (true, res)
  | some (false, res) => some (false, res.take size)

/-- Sequencing of the strategies of a route function: stop with `true` as soon
as one strategy returned true, otherwise go on with the list it left. -/
def RouteResult.orElse (a : RouteResult) (k : List Action → RouteResult) : RouteResult :=
  match a with
  | none => none
  | some (true, res) => some (true, res)
  | some (false, res) => k res

/-- The `while (rot != to_rot)` loop of `RotateRouteAppend`: `some (some cnt)` at
the exit, `some none` on `return false`.  After the first round `rot < rot_cnt`
and the rounds cycle through the `rot_cnt ≤ 4` rotations, so a loop that has not
met `to_rot` after four rounds never does: `none`. -/
def rotateLoop (s : Situation) (shp : Shape) (from_ : BrickStatus) (to_rot : Nat) :
    Nat → Nat → Nat → Option (Option Nat)
  | 0, _, _ => none
  | fuel + 1, cnt, rot =>
    if rot ≠ to_rot then
      let cnt1 := (cnt + 1) % 256
      let rot1 := (rot + 1) &&& (shp.cnt - 1)
      if !s.Fits shp (from_.ReplaceRot rot1) then some none
      else rotateLoop s shp from_ to_rot fuel cnt1 rot1
    else some (some cnt)

/-- `Situation::RotateRouteAppend`. -/
def Situation.RotateRouteAppend (s : Situation) (shp : Shape) (from_ : BrickStatus)
    (to_rot : Nat) (res : List Action) : RouteResult :=
  if from_.rot ≠ to_rot then
    match rotateLoop s shp from_ to_rot 5 0 from_.rot with
    | none => none
    | some none => some (false, res)
    | some (some cnt) =>
      if !s.Fits shp (from_.ReplaceRot to_rot) then some (false, res)
      else if cnt ≠ 0 then some (true, res ++ [⟨.kRotate, cnt⟩])
      else some (true, res)
  else some (true, res)

/-- The `for (int x = from.x; x != to_x; x += delta)` loop of
`HorizontalRouteAppend`, `n` rounds left; false on `return false`. -/
def horizontalLoop (s : Situation) (shp : Shape) (from_ : BrickStatus) (delta : Int) :
    Nat → Int → Bool
  | 0, _ => true
  | n + 1, x =>
    if !s.Fits shp (from_.ReplaceX (x + delta)) then false
    else horizontalLoop s shp from_ delta n (x + delta)

/-- `Situation::HorizontalRouteAppend`; the loop makes `|to_x - from.x|` rounds. -/
def Situation.HorizontalRouteAppend (s : Situation) (shp : Shape) (from_ : BrickStatus)
    (to_x : Int) (res : List Action) : RouteResult :=
  if from_.x ≠ to_x then
    let delta : Int := if to_x > from_.x then 1 else -1
    if !horizontalLoop s shp from_ delta (to_x - from_.x).natAbs from_.x then some (false, res)
    else if to_x > from_.x then some (true, res ++ [⟨.kRight, (to_x - from_.x).toNat % 256⟩])
    else some (true, res ++ [⟨.kLeft, (from_.x - to_x).toNat % 256⟩])
  else some (true, res)

/-- The `for (int y = from.y; y != to.y; ++y)` loop of `AppendRouteNaive`. -/
def downLoop (s : Situation) (shp : Shape) (from_ : BrickStatus) : Nat → Int → Bool
  | 0, _ => true
  | n + 1, y =>
    if !s.Fits shp (from_.ReplaceY (y + 1)) then false
    else downLoop s shp from_ n (y + 1)

/-- First part of `AppendRouteNaive`: rotate then move sideways; when that
fails, `resize` and move sideways then rotate; when that fails too, `resize`
again (the function then returns false). -/
def naiveTurn (s : Situation) (shp : Shape) (from_ to_ : BrickStatus) (res : List Action) :
    RouteResult :=
  let size := res.length
  ((s.RotateRouteAppend shp from_ to_.rot res).andThen
      (s.HorizontalRouteAppend shp (from_.ReplaceRot to_.rot) to_.x)).orElse fun res1 =>
    ((s.HorizontalRouteAppend shp from_ to_.x (res1.take size)).andThen
      (s.RotateRouteAppend shp (from_.ReplaceX to_.x) to_.rot)).orResize size

/-- Last part of `AppendRouteNaive`, after `from.x = to.x; from.rot = to.rot;`:
the move down. -/
def naiveDown (s : Situation) (shp : Shape) (from_ to_ : BrickStatus) (size : Nat)
    (res : List Action) : RouteResult :=
  if to_.y > from_.y then
    if !downLoop s shp from_ (to_.y - from_.y).toNat from_.y then some (false, res.take size)
    else some (true, res ++ [⟨.kDown, (to_.y - from_.y).toNat % 256⟩])
  else some (true, res)

/-- `Situation::AppendRouteNaive`. -/
def Situation.AppendRouteNaive (s : Situation) (shp : Shape) (from_ to_ : BrickStatus)
    (res : List Action) : RouteResult :=
  if to_.y < from_.y then some (false, res)
  else
    (naiveTurn s shp from_ to_ res).andThen
      (naiveDown s shp ⟨to_.x, from_.y, to_.rot⟩ to_ res.length)

/-- The type of `AppendRoute` as seen from inside its own body. -/
abbrev RouteFn := BrickStatus → BrickStatus → List Action → Nat → RouteResult

def kBottomLeftRight : Nat := 1

def kTopLeftRight : Nat := 2

def kTSpin : Nat := 4

def kInitialSpin : Nat := 8

/-- The `for (unsigned dx = 1; dx <= 5; ++dx)` loop of the detour below at `to`,
for one `dir`; `(false, res)` when the loop ends or breaks. -/
def bottomLoop (rec : RouteFn) (s : Situation) (shp : Shape) (from_ to_ : BrickStatus)
    (options size dir : Nat) : List Nat → List Action → RouteResult
  | [], res => some (false, res)
  | dx :: more, res =>
    let x : Int := if dir = 0 then to_.x + dx else to_.x - dx
    if !XInRange x then some (false, res)
    else
      let via := to_.ReplaceX x
      if !s.Fits shp via then some (false, res)
      else
        (((rec from_ via res (options ||| kBottomLeftRight)).andThen
            (s.HorizontalRouteAppend shp via to_.x)).orResize size).orElse
          (bottomLoop rec s shp from_ to_ options size dir more)

/-- The `dx` loop of the detour at `from`, for one `dir`. -/
def topLoop (rec : RouteFn) (s : Situation) (shp : Shape) (from_ to_ : BrickStatus)
    (options size dir : Nat) : List Nat → List Action → RouteResult
  | [], res => some (false, res)
  | dx :: more, res =>
    let x : Int := if dir = 0 then from_.x + dx else from_.x - dx
    if !XInRange x then some (false, res)
    else
      let via := from_.ReplaceX x
      if !s.Fits shp via then some (false, res)
      else
        (((s.HorizontalRouteAppend shp from_ x res).andThen
            (fun res1 => rec via to_ res1 (options ||| kTopLeftRight))).orResize size).orElse
          (topLoop rec s shp from_ to_ options size dir more)

/-- The t-spin loop `for (rot = to.rot; (rot = rot ? rot - 1 : rot_cnt - 1) !=
to.rot;)`.  For `to.rot < rot_cnt` it makes at most `rot_cnt - 1 ≤ 3` rounds
before the exit test holds. -/
def tspinLoop (rec : RouteFn) (s : Situation) (shp : Shape) (from_ to_ : BrickStatus)
    (options size : Nat) : Nat → Nat → List Action → RouteResult
  | 0, _, _ => none
  | fuel + 1, rot, res =>
    let rot1 := if rot ≠ 0 then rot - 1 else shp.cnt - 1
    if rot1 ≠ to_.rot then
      let via := to_.ReplaceRot rot1
      if !s.Fits shp via then some (false, res)
      else
        (((rec from_ via res (options ||| kTSpin)).andThen
            (s.RotateRouteAppend shp via to_.rot)).orResize size).orElse
          (tspinLoop rec s shp from_ to_ options size fuel rot1)
    else some (false, res)

/-- The initial-spin loop `for (rot = from.rot; (rot = (rot + 1) & (rot_cnt - 1))
!= from.rot;)`, at most `rot_cnt - 1 ≤ 3` rounds for `from.rot < rot_cnt`. -/
def ispinLoop (rec : RouteFn) (s : Situation) (shp : Shape) (from_ to_ : BrickStatus)
    (options size : Nat) : Nat → Nat → List Action → RouteResult
  | 0, _, _ => none
  | fuel + 1, rot, res =>
    let rot1 := (rot + 1) &&& (shp.cnt - 1)
    if rot1 ≠ from_.rot then
      let via := from_.ReplaceRot rot1
      if !s.Fits shp via then some (false, res)
      else
        (((s.RotateRouteAppend shp from_ rot1 res).andThen
            (fun res1 => rec via to_ res1 (options ||| kInitialSpin))).orResize size).orElse
          (ispinLoop rec s shp from_ to_ options size fuel rot1)
    else some (false, res)

/-- Body of `Situation::AppendRoute`; the first argument bounds the depth of
nested calls, `none` when it is used up. -/
def AppendRouteAux (s : Situation) (shp : Shape) : Nat → RouteFn
  | 0, _, _, _, _ => none
  | fuel + 1, from_, to_, res, options =>
    let size := res.length
    let rec_ := AppendRouteAux s shp fuel
    (s.AppendRouteNaive shp from_ to_ res).orElse fun res0 =>
    (if options &&& kBottomLeftRight = 0 then
        (bottomLoop rec_ s shp from_ to_ options size 0 [1, 2, 3, 4, 5] res0).orElse
          (bottomLoop rec_ s shp from_ to_ options size 1 [1, 2, 3, 4, 5])
      else some (false, res0)).orElse fun res1 =>
    (if options &&& kTopLeftRight = 0 then
        (topLoop rec_ s shp from_ to_ options size 0 [1, 2, 3, 4, 5] res1).orElse
          (topLoop rec_ s shp from_ to_ options size 1 [1, 2, 3, 4, 5])
      else some (false, res1)).orElse fun res2 =>
    (if to_.y > 1 then
        let via := to_.ReplaceY (to_.y - 1)
        if s.Fits shp via then
          ((rec_ from_ via res2 options).andThen (s.AppendRouteNaive shp via to_)).orResize size
        else some (false, res2)
      else some (false, res2)).orElse fun res3 =>
    (if options &&& kTSpin = 0 then tspinLoop rec_ s shp from_ to_ options size 4 to_.rot res3
      else some (false, res3)).orElse fun res4 =>
    (if options &&& kInitialSpin = 0 then
        ispinLoop rec_ s shp from_ to_ options size 4 from_.rot res4
      else some (false, res4))

/-- Depth of nested `AppendRoute` calls that can follow a call with these
arguments: every nested call either sets one more of the four guard bits or
lowers `to.y`, which stays above 0. -/
def routeDepth (options : Nat) (to_ : BrickStatus) : Nat :=
  (if options &&& kBottomLeftRight = 0 then 1 else 0)
    + (if options &&& kTopLeftRight = 0 then 1 else 0)
    + (if options &&& kTSpin = 0 then 1 else 0)
    + (if options &&& kInitialSpin = 0 then 1 else 0)
    + to_.y.toNat + 1

/-- `Situation::AppendRoute`. -/
def Situation.AppendRoute (s : Situation) (shp : Shape) (from_ to_ : BrickStatus)
    (res : List Action) (options : Nat := 0) : RouteResult :=
  AppendRouteAux s shp (routeDepth options to_) from_ to_ res options

structure Candidate where
  st : BrickStatus
  situ : Situation
  actions : List Action
deriving DecidableEq, Repr

/-- The `for (unsigned x : set_bits(remaining_x_bitmask & ~row))` loop of
`FindAllMoves` for one `rot` and `y`; the state is the candidate vector and
`remaining_x_bitmask`.  `none` when a call of `AppendRoute` does not return. -/
def findMovesX (s : Situation) (shp : Shape) (initial_st : BrickStatus) (rot y : Nat) :
    List Nat → List Candidate × Nat → Option (List Candidate × Nat)
  | [], acc => some acc
  | x :: more, (res, remaining_x_bitmask) =>
    let st : BrickStatus := ⟨x, y, rot⟩
    if s.Fits shp st && !s.Fits shp (st.ReplaceY ((y : Int) + 1)) then
      let situ := s.PutCopy shp st
      if situ.row 0 ≠ 0 then findMovesX s shp initial_st rot y more (res, remaining_x_bitmask)
      else
        match s.AppendRoute shp initial_st st [] with
        | none => none
        | some (false, _) =>
          findMovesX s shp initial_st rot y more (res, remaining_x_bitmask)
        | some (true, actions) =>
          findMovesX s shp initial_st rot y more
            (res ++ [⟨st, situ.CollapseInPlace, actions⟩],
              remaining_x_bitmask &&& (4294967295 - (1 <<< x)))
    else findMovesX s shp initial_st rot y more (res, remaining_x_bitmask)

/-- The `for (unsigned y = kH - 1; y > 0; --y)` loop of `FindAllMoves` for one
`rot`; the first argument is `y`. -/
def findMovesY (s : Situation) (shp : Shape) (initial_st : BrickStatus) (rot : Nat) :
    Nat → List Candidate × Nat → Option (List Candidate × Nat)
  | 0, acc => some acc
  | y + 1, (res, remaining_x_bitmask) =>
    if remaining_x_bitmask = 0 then some (res, remaining_x_bitmask)
    else
      let row := s.row (y + 1)
      match findMovesX s shp initial_st rot (y + 1)
          (set_bits (remaining_x_bitmask &&& (4294967295 - row))) (res, remaining_x_bitmask) with
      | none => none
      | some acc => findMovesY s shp initial_st rot y acc

/-- The `for (uint32_t rot = 0; rot < cnt; ++rot)` loop of `FindAllMoves` over
the given rotations. -/
def findMovesRot (s : Situation) (shp : Shape) (initial_st : BrickStatus) :
    List Nat → List Candidate → Option (List Candidate)
  | [], res => some res
  | rot :: more, res =>
    match findMovesY s shp initial_st rot (kH - 1) (res, kRowBitMask) with
    | none => none
    | some acc => findMovesRot s shp initial_st more acc.1

/-- `Situation::FindAllMoves`; the result is the candidate vector `*res`. -/
def Situation.FindAllMoves (s : Situation) (shp : Shape) (initial_st : BrickStatus) :
    Option (List Candidate) :=
  if !s.Fits shp initial_st then some []
  else findMovesRot s shp initial_st (List.range shp.cnt) []

/-- The random number `cur_random_num` after `n` rounds of the generator of
`GenBricks`, in `uint32_t` arithmetic. -/
def curRandomNum : Nat → Nat
  | 0 => 12358
  | n + 1 => ((curRandomNum n * 27073 + 17713) % 2 ^ 32) % 32749

/-- The shape chosen by `GenBricks` for `weight_index`. -/
def shapeOfWeight (weight_index : Nat) : Shape :=
  if weight_index ≤ 1 then .kShapeI
  else if weight_index ≤ 4 then .kShapeL
  else if weight_index ≤ 7 then .kShapeJ
  else if weight_index ≤ 11 then .kShapeT
  else if weight_index ≤ 16 then .kShapeO
  else if weight_index ≤ 22 then .kShapeS
  else .kShapeZ

/-- Entry `kBricks[i]` of the table built by `GenBricks` (`i < kSteps`). -/
def kBricks (i : Nat) : Shape × BrickStatus :=
  let shape := shapeOfWeight (curRandomNum (i + 1) % 29)
  (shape, ⟨4, 0, (i % 4) % shape.cnt⟩)

/-- The `for (unsigned i = action.by; i; --i)` loops of `ReplayAndVerify` for an
action of type `t`; `none` stands for `return false`. -/
def replaySteps (s : Situation) (shp : Shape) (t : ActionType) :
    Nat → BrickStatus → Option BrickStatus
  | 0, st => some st
  | i + 1, st =>
    match t with
    | .kRotate =>
      let st1 := st.ReplaceRot ((st.rot + 1) &&& (shp.cnt - 1))
      if !s.Fits shp st1 then none else replaySteps s shp t i st1
    | .kLeft =>
      if st.x = 0 then none
      else
        let st1 := st.ReplaceX (st.x - 1)
        if !s.Fits shp st1 then none else replaySteps s shp t i st1
    | .kRight =>
      if st.x < 0 ∨ st.x ≥ (kW : Int) - 1 then none
      else
        let st1 := st.ReplaceX (st.x + 1)
        if !s.Fits shp st1 then none else replaySteps s shp t i st1
    | .kDown =>
      if st.y < 0 ∨ st.y ≥ (kH : Int) - 1 then none
      else
        let st1 := st.ReplaceY (st.y + 1)
        if !s.Fits shp st1 then none else replaySteps s shp t i st1
    | .kNew => none

/-- The `for (const Action& action : actions)` loop of `ReplayAndVerify`;
`none` stands for `return false`.  `kNew` fails before any counting. -/
def replayActions (s : Situation) (shp : Shape) : List Action → BrickStatus → Option BrickStatus
  | [], st => some st
  | action :: more, st =>
    if action.type = .kNew then none
    else
      match replaySteps s shp action.type action.«by» st with
      | none => none
      | some st1 => replayActions s shp more st1

/-- `Situation::ReplayAndVerify`. -/
def Situation.ReplayAndVerify (s : Situation) (actions : List Action) (target : Situation) :
    Bool :=
  let shp := (kBricks s.step_).1
  let st := (kBricks s.step_).2
  if !s.Fits shp st then false
  else
    match replayActions s shp actions st with
    | none => false
    | some st1 => ((s.PutCopy shp st1).CollapseInPlace).BricksEqual target

/-- The empty board at step 0. -/
def emptyBoard : Situation := {}

/-- A board whose row 3 is free in columns 0 to 2, column 2 lying under the
overhang of row 2 (occupied from column 2 on); row 4 is free in column 1, and
each row below holds nine cells. -/
def tspinBoard : Situation :=
  { row_ := [0, 0, 0b1111111100, 0b1111111000, 0b1111111101, 511, 1022, 511, 1022, 511, 1022,
      511, 1022, 511, 1022, 511, 1022, 511, 1022, 511] }

/-- A board with an overhang over columns 0 to 5 in row 1 and, below it, a
pocket two rows high (rows 2 and 3, columns 0 to 7) that is open to the top only
through columns 6 and 7; row 0 is free in columns 4 to 7, and each row below the
pocket holds nine cells. -/
def overhangBoard : Situation :=
  { row_ := [0b1100001111, 0b1100111111, 0b1100000000, 0b1100000000, 511, 1022, 511, 1022,
      511, 1022, 511, 1022, 511, 1022, 511, 1022, 511, 1022, 511, 1022] }

/-! ## Routes: specification-side notions -/

/-- One primitive step as the specification words it: Rotate takes `rot` to
`(rot + 1) mod cnt`, Left `x` to `x - 1`, Right `x` to `x + 1`, Down `y` to
`y + 1`.  `New` is not a step of a piece. -/
def stepPose (shp : Shape) (t : ActionType) (st : BrickStatus) : BrickStatus :=
  match t with
  | .kRotate => ⟨st.x, st.y, (st.rot + 1) % shp.cnt⟩
  | .kLeft => ⟨st.x - 1, st.y, st.rot⟩
  | .kRight => ⟨st.x + 1, st.y, st.rot⟩
  | .kDown => ⟨st.x, st.y + 1, st.rot⟩
  | .kNew => st

/-- The single steps of an action list: each action repeated `by` times. -/
def singleSteps (acts : List Action) : List ActionType :=
  acts.flatMap (fun a => List.replicate a.«by» a.type)

/-- The poses reached after each single step, in order. -/
def posesFrom (shp : Shape) : BrickStatus → List ActionType → List BrickStatus
  | _, [] => []
  | st, t :: more => stepPose shp t st :: posesFrom shp (stepPose shp t st) more

/-- The pose after all the single steps. -/
def endPose (shp : Shape) (st : BrickStatus) (steps : List ActionType) : BrickStatus :=
  steps.foldl (fun p t => stepPose shp t p) st

/-- The single steps lead from `from_` to `to_` through poses that all fit. -/
def StepsOk (s : Situation) (shp : Shape) (from_ : BrickStatus) (steps : List ActionType)
    (to_ : BrickStatus) : Prop :=
  (∀ p ∈ posesFrom shp from_ steps, s.Fits shp p = true) ∧ endPose shp from_ steps = to_

instance (s : Situation) (shp : Shape) (from_ : BrickStatus) (steps : List ActionType)
    (to_ : BrickStatus) : Decidable (StepsOk s shp from_ steps to_) := by
  unfold StepsOk; exact inferInstance

/-- The action list is a route from `from_` to `to_`: it holds no `New`, and its
single steps lead from `from_` to `to_` through poses that all fit. -/
def IsRoute (s : Situation) (shp : Shape) (from_ : BrickStatus) (acts : List Action)
    (to_ : BrickStatus) : Prop :=
  (∀ a ∈ acts, a.type ≠ .kNew) ∧ StepsOk s shp from_ (singleSteps acts) to_

/-- What a route function owes its caller: a `false` result leaves the list as
it was, a `true` result has appended a route from `from_` to `to_`. -/
def RouteGood (s : Situation) (shp : Shape) (from_ to_ : BrickStatus) (res : List Action)
    (out : RouteResult) : Prop :=
  ∀ ok r, out = some (ok, r) →
    (ok = false → r = res) ∧
    (ok = true → ∃ acts, r = res ++ acts ∧ IsRoute s shp from_ acts to_)

/-- The weaker contract of an `a && b` attempt before the `resize`: a `false`
result may have left actions behind the old end of the list. -/
def RouteWeak (s : Situation) (shp : Shape) (from_ to_ : BrickStatus) (res : List Action)
    (out : RouteResult) : Prop :=
  ∀ ok r, out = some (ok, r) →
    (ok = false → ∃ acts, r = res ++ acts) ∧
    (ok = true → ∃ acts, r = res ++ acts ∧ IsRoute s shp from_ acts to_)

/-! ## Routes: example steps -/

/-- The nested call is known to return for poses with rotations below the
rotation count, under the given options and target row. -/
def RecTotal (shp : Shape) (rec_ : RouteFn) (options : Nat) (y : Int) : Prop :=
  ∀ (f t : BrickStatus) (r : List Action), f.rot < shp.cnt → t.rot < shp.cnt →
    t.y = y → rec_ f t r options ≠ none

/-! ## FindAllMoves: what a candidate records -/

/-- What `FindAllMoves` records in a candidate: the pose has a rotation below
the rotation count, `situ` is the board after `PutCopy` and `CollapseInPlace`,
and `actions` is what `AppendRoute` appended to the empty list. -/
def CandidateOk (s : Situation) (shp : Shape) (initial_st : BrickStatus) (c : Candidate) :
    Prop :=
  c.st.rot < shp.cnt ∧ c.situ = (s.PutCopy shp c.st).CollapseInPlace ∧
    s.AppendRoute shp initial_st c.st [] = some (true, c.actions)

/-! ## Quality; specification-side notions for the collapse, Fits and the candidates -/

/-- Conversion of an integer value to `int`: the representative of its class
modulo `2 ^ 32` in the signed 32-bit range. -/
def wrap32 (v : Int) : Int := (v + 2147483648) % 4294967296 - 2147483648

/-- The operator `~` on a `uint32_t`. -/
def not32 (v : Nat) : Nat := v ^^^ 4294967295

/-- The `int32` flags read by `Quality`, with their default values. -/
structure QualityFlags where
  quality_row_transition_penalty : Int := 458
  quality_col_transition_penalty : Int := 0
  quality_empty_penalty : Int := 1080
  quality_empty_penalty2 : Int := 0
deriving DecidableEq, Repr

/-- Body of the first loop of `Quality` for row `y`; the state is `r`,
`top_rows` and `last_row`.  The products `int * unsigned` and the compound
assignments to `r` are computed modulo `2 ^ 32`, and `r` is an `int`: every
assignment converts with `wrap32`.  (The difference of the two flags is a signed
subtraction in the source; only its class modulo `2 ^ 32` enters the product.) -/
def qualityTopStep (f : QualityFlags) (s : Situation) (acc : Int × Nat × Nat) (y : Nat) :
    Int × Nat × Nat :=
  let top_rows := acc.2.1
  let last_row := acc.2.2
  let row := s.row y
  let r1 := wrap32 (acc.1 + 600 * (popcnt 32 row : Int))
  let alts := (row ^^^ (row >>> 1)) &&& (kRowBitMask >>> 1)
  let r2 := wrap32 (r1 - f.quality_row_transition_penalty * (popcnt 32 alts : Int))
  let r3 := wrap32 (r2 - f.quality_col_transition_penalty * (popcnt 32 (row ^^^ last_row) : Int))
  let penalty := not32 row &&& top_rows
  let r4 := wrap32 (r3 - (f.quality_empty_penalty - f.quality_empty_penalty2)
    * (popcnt 32 penalty : Int))
  (r4, top_rows ||| row, row)

/-- Body of the second loop of `Quality` for row `y`; the state is `r` and
`bottom_rows`. -/
def qualityBottomStep (f : QualityFlags) (s : Situation) (acc : Int × Nat) (y : Nat) :
    Int × Nat :=
  let bottom_rows := acc.2
  let row := s.row y
  let penalty := row &&& not32 bottom_rows
  (wrap32 (acc.1 - f.quality_empty_penalty2 * (popcnt 32 penalty : Int)), bottom_rows &&& row)

/-- `Situation::Quality`: the first loop runs over `y = 0 .. kH - 1`, the second
over `y = kH - 1 .. 0`. -/
def Situation.Quality (s : Situation) (f : QualityFlags) : Int :=
  let top := (List.range kH).foldl (qualityTopStep f s) (0, 0, 0)
  let bot := (List.range kH).reverse.foldl (qualityBottomStep f s) (top.1, kRowBitMask)
  bot.1

/-- Number of cells `(x, y)` with `x < kW` in the rows `ys` that satisfy `p`. -/
def cellCountRows (p : Nat → Nat → Bool) (ys : List Nat) : Nat :=
  (ys.map (fun y => ((List.range kW).filter (fun x => p x y)).length)).sum

/-- Number of cells `(x, y)` of the `kW` by `kH` grid that satisfy `p`. -/
def cellCount (p : Nat → Nat → Bool) : Nat := cellCountRows p (List.range kH)

/-- Some cell strictly above `(x, y)` in column `x` is occupied. -/
def Situation.occupiedAbove (s : Situation) (x y : Nat) : Bool :=
  (List.range y).any (fun y1 => s.cell x y1)

/-- Some cell strictly below `(x, y)` in column `x` is empty. -/
def Situation.emptyBelow (s : Situation) (x y : Nat) : Bool :=
  (List.range kH).any (fun y1 => decide (y < y1) && !s.cell x y1)

/-- Number `N` of occupied cells. -/
def Situation.cellsN (s : Situation) : Nat := cellCount (fun x y => s.cell x y)

/-- Number `Th` of pairs `(x, y), (x + 1, y)` with `x ≤ kW - 2` whose cells
differ. -/
def Situation.cellsTh (s : Situation) : Nat :=
  cellCount (fun x y => decide (x + 1 < kW) && (s.cell x y != s.cell (x + 1) y))

/-- Number `Tv` of cells that differ from the cell directly above, the row above
row 0 counted as empty. -/
def Situation.cellsTv (s : Situation) : Nat :=
  cellCount (fun x y => s.cell x y != (decide (0 < y) && s.cell x (y - 1)))

/-- Number `H` of empty cells with an occupied cell strictly above. -/
def Situation.cellsH (s : Situation) : Nat :=
  cellCount (fun x y => !s.cell x y && s.occupiedAbove x y)

/-- Number `O` of occupied cells with an empty cell strictly below. -/
def Situation.cellsO (s : Situation) : Nat :=
  cellCount (fun x y => s.cell x y && s.emptyBelow x y)

/-- The weighted sum that the specification gives for `Quality`, as an
integer. -/
def qualitySpec (s : Situation) (f : QualityFlags) : Int :=
  600 * (s.cellsN : Int) - f.quality_row_transition_penalty * (s.cellsTh : Int)
    - f.quality_col_transition_penalty * (s.cellsTv : Int)
    - (f.quality_empty_penalty - f.quality_empty_penalty2) * (s.cellsH : Int)
    - f.quality_empty_penalty2 * (s.cellsO : Int)

/-- Board with the single occupied cell `(4, 19)`. -/
def oneCellBoard : Situation := { row_ := List.replicate 19 0 ++ [16] }

/-- Board with holes and overhangs in its three lowest rows. -/
def holesBoard : Situation := { row_ := List.replicate 17 0 ++ [0b0110011100, 0b1010010110, 0b1110110011] }

/-- The rows that the specification gives after a collapse: the rows
`1 .. kH - 1` that are not full, in their order, under as many zero rows as it
takes to have `kH` rows. -/
def collapseSpec (s : Situation) : List Nat :=
  let surv := (s.row_.drop 1).filter (fun r => r ≠ kRowBitMask)
  List.replicate (kH - surv.length) 0 ++ surv

/-- What the specification asks of `Fits`: every cell has its column in
`[0, kW)`, the lowest cell has its row in `[0, kH)`, and every cell with a
non-negative row is empty on the board. -/
def FitsSpec (s : Situation) (shp : Shape) (st : BrickStatus) : Prop :=
  (∀ p ∈ shp.pos st.rot, 0 ≤ st.x + p.x ∧ st.x + p.x < (kW : Int)) ∧
  (0 ≤ st.y + maxList ((shp.pos st.rot).map Pos.y) ∧
    st.y + maxList ((shp.pos st.rot).map Pos.y) < (kH : Int)) ∧
  ∀ p ∈ shp.pos st.rot, 0 ≤ st.y + p.y →
    s.cell (st.x + p.x).toNat (st.y + p.y).toNat = false

/-- A resting pose that leaves row 0 empty: what `FindAllMoves` checks of a
pose before it asks for a route. -/
def CandidateRests (s : Situation) (shp : Shape) (c : Candidate) : Prop :=
  1 ≤ c.st.y ∧ c.st.rot < shp.cnt ∧ s.Fits shp c.st = true ∧
    s.Fits shp (c.st.ReplaceY (c.st.y + 1)) = false ∧
    (s.PutCopy shp c.st).row 0 = 0 ∧
    c.situ = (s.PutCopy shp c.st).CollapseInPlace

/-! ## search.cc: MoveTopN and ChooseForNextStep -/

/-- `struct ParentQuotaInfo` of `MoveTopN`; `Value` is the type of the keys. -/
structure ParentQuotaInfo (κ : Type) where
  cnt : Nat
  value : κ

/-- The lambda `quota_check` of `MoveTopN`. -/
def quota_check {κ : Type} [DecidableEq κ] (info : ParentQuotaInfo κ) (value : κ)
    (max : Nat) : Bool :=
  decide (info.cnt < max) || decide (value = info.value)

/-- The comparator that `MoveTopN` hands to `std::sort`: greater key first, then
greater board in the order of `BricksComp`. -/
def moveTopNComp {κ : Type} [LinearOrder κ] (key_func : State → κ) (a b : State) : Bool :=
  let u := key_func a
  let v := key_func b
  if u ≠ v then decide (u > v) else decide (a.situ.BricksComp b.situ > 0)

/-- The first `for (unsigned max : ancestor_max)` loop of `MoveTopN`, which
walks up the parents of `node`; the result is `skip`.  The map `quota_map` is
keyed by `State*`; the model keys it by the state, equal states standing for the
same object. -/
def ancestorSkip {κ : Type} [DecidableEq κ] (quota_map : State → ParentQuotaInfo κ)
    (value : κ) : State → List Nat → Bool
  | _, [] => false
  | node, max :: more =>
    match node.parent with
    | none => false
    | some parent =>
      if !quota_check (quota_map parent) value max then true
      else ancestorSkip quota_map value parent more

/-- The second `for (... unsigned max : ancestor_max)` loop of `MoveTopN`, which
increments `cnt` for the parents of `node`; `value` is left as it is. -/
def ancestorCount {κ : Type} (quota_map : State → ParentQuotaInfo κ) :
    State → List Nat → (State → ParentQuotaInfo κ)
  | _, [] => quota_map
  | node, _ :: more =>
    match node.parent with
    | none => quota_map
    | some parent =>
      ancestorCount
        (fun k => if k = parent then { quota_map k with cnt := ((quota_map k).cnt + 1) % 2 ^ 32 }
          else quota_map k)
        parent more

/-- The variables of the main loop of `MoveTopN`: the remaining capacity `n`,
the two quota maps, `res_buffer`, and in `rest` the entries of `from` gone
through that were not moved out. -/
structure TopNWalk (κ : Type) where
  n : Nat
  quota_map : State → ParentQuotaInfo κ
  height_quota_map : Nat → ParentQuotaInfo κ
  res_buffer : List State
  rest : List State

/-- The main loop `for (auto& state_ptr : from)` of `MoveTopN` over the sorted
vector.  A `continue` keeps the entry in `from`, the `break` keeps it and all the
entries after it.  The array `height_quota_map` has `kH` entries; the model reads
a fresh entry for a height of `kH` or more, where the source indexes past the
array. -/
def moveTopNLoop {κ : Type} [DecidableEq κ] (key_func : State → κ) (ancestor_max : List Nat)
    (height_max : Nat) : List State → TopNWalk κ → TopNWalk κ
  | [], w => w
  | state_ptr :: more, w =>
    let value := key_func state_ptr
    if ancestorSkip w.quota_map value state_ptr ancestor_max then
      moveTopNLoop key_func ancestor_max height_max more { w with rest := w.rest ++ [state_ptr] }
    else
      let height_info := w.height_quota_map state_ptr.occupied_height
      if !quota_check height_info value height_max then
        moveTopNLoop key_func ancestor_max height_max more
          { w with rest := w.rest ++ [state_ptr] }
      else if w.n = 0 ∧ (w.res_buffer.isEmpty = true ∨
          some (key_func state_ptr) ≠ w.res_buffer.getLast?.map key_func) then
        { w with rest := w.rest ++ state_ptr :: more }
      else
        moveTopNLoop key_func ancestor_max height_max more
          { n := w.n - 1
            quota_map := ancestorCount w.quota_map state_ptr ancestor_max
            height_quota_map := fun h =>
              if h = state_ptr.occupied_height then
                { height_info with cnt := (height_info.cnt + 1) % 2 ^ 32 }
              else w.height_quota_map h
            res_buffer := w.res_buffer ++ [state_ptr]
            rest := w.rest }

/-- `MoveTopN`; the result is the pair of the vectors `from` and `*to` after the
call, and `zero` is the value-initialised key `Value{}`.  `std::sort` leaves the
order of entries that the comparator does not separate unspecified; the model
keeps them in their order (insertion sort). -/
def MoveTopN {κ : Type} [LinearOrder κ] (zero : κ) (from_ to_ : List State) (n : Nat)
    (ancestor_max : List Nat) (height_max : Nat) (key_func : State → κ) :
    List State × List State :=
  if n = 0 then (from_, to_)
  else if from_.length ≤ n then ([], from_)
  else
    let sorted := from_.insertionSort (fun a b => moveTopNComp key_func b a = false)
    let w := moveTopNLoop key_func ancestor_max height_max sorted
      ⟨n, fun _ => ⟨0, zero⟩, fun _ => ⟨0, zero⟩, [], []⟩
    (w.rest, to_ ++ w.res_buffer)

/-- The flags and the globals derived from them that `ChooseForNextStep` reads;
`score_height_max` and `quality_height_max` are the products
`g_score_keep_count * FLAGS_score_height_quota` and
`g_quality_keep_count * FLAGS_quality_height_quota` converted to `uint32_t`. -/
structure SearchFlags where
  g_score_keep_count : Nat
  g_quality_keep_count : Nat
  g_score_parent_quota : List Nat
  g_quality_parent_quota : List Nat
  score_height_max : Nat
  quality_height_max : Nat
  ignore_score_threshold : Int := 2200
  ignore_height_threshold : Int := 6

/-- Sum of a `uint32_t` and an `int32` flag, computed as `uint32_t`. -/
def addFlag32 (v : Nat) (flag : Int) : Nat := (((v : Int) + flag) % 4294967296).toNat

/-- Key of the first pass of `ChooseForNextStep`: score per collapse (times
10000, in `uint64_t`), score, quality; a `std::tuple`, compared
lexicographically. -/
def scoreKey (state_ptr : State) : Lex (Nat × Lex (Nat × Int)) :=
  toLex ((state_ptr.situ.score_ * 10000) % 2 ^ 64 / max state_ptr.situ.collapse_count_ 1,
    toLex (state_ptr.situ.score_, state_ptr.quality))

/-- Key of the second pass of `ChooseForNextStep`: quality, score; a
`std::pair`, compared lexicographically. -/
def qualityKey (state_ptr : State) : Lex (Int × Nat) :=
  toLex (state_ptr.quality, state_ptr.situ.score_)

/-- `ChooseForNextStep`; the result is the vector `*res`. -/
def ChooseForNextStep (fl : SearchFlags) (orig : List State) : List State :=
  if orig.isEmpty then []
  else
    let max_score := orig.foldl (fun m state_ptr => max m state_ptr.situ.score_) 0
    let max_height := orig.foldl (fun m state_ptr => max m state_ptr.occupied_height) 0
    let orig1 := orig.filter (fun state_ptr =>
      !(decide (addFlag32 state_ptr.situ.score_ fl.ignore_score_threshold < max_score) ||
        decide (addFlag32 state_ptr.occupied_height fl.ignore_height_threshold < max_height)))
    if orig1.length ≤ (fl.g_quality_keep_count + fl.g_score_keep_count) % 2 ^ 32 then orig1
    else
      let pass1 := MoveTopN (toLex (0, toLex (0, 0))) orig1 [] fl.g_score_keep_count
        fl.g_score_parent_quota fl.score_height_max scoreKey
      let pass2 := MoveTopN (toLex (0, 0)) pass1.1 pass1.2 fl.g_quality_keep_count
        fl.g_quality_parent_quota fl.quality_height_max qualityKey
      pass2.2

/-- The five 64-bit words of a board as a tuple in lexicographic order. -/
def boardWords (s : Situation) : Lex (Nat × Lex (Nat × Lex (Nat × Lex (Nat × Nat)))) :=
  toLex (s.row_4_ 0, toLex (s.row_4_ 1, toLex (s.row_4_ 2, toLex (s.row_4_ 3, s.row_4_ 4))))

/-- The pair of key and board words by which `moveTopNComp` orders the
states. -/
def sortKey {κ : Type} (key_func : State → κ) (a : State) :
    Lex (κ × Lex (Nat × Lex (Nat × Lex (Nat × Lex (Nat × Nat))))) :=
  toLex (key_func a, boardWords a.situ)

/-- Three states with pairwise distinct boards. -/
def selectExample : List State :=
  [.orphan { row_ := List.replicate 19 0 ++ [3], score_ := 10, collapse_count_ := 1 } 5 1 [],
   .orphan { row_ := List.replicate 19 0 ++ [5], score_ := 10, collapse_count_ := 1 } 9 1 [],
   .orphan { row_ := List.replicate 19 0 ++ [6], score_ := 30, collapse_count_ := 2 } 7 1 []]

/-- Flags that keep one state per pass, with every quota equal to 1. -/
def selectFlags : SearchFlags := ⟨1, 1, [1], [1], 1, 1, 2200, 6⟩

/-! ## search.cc: PrepareFlags -/

/-- Body of `Situation::AppendRoute` with its nested calls of `AppendRoute` made
through `rec_`. -/
def AppendRouteBody (rec_ : RouteFn) (s : Situation) (shp : Shape) : RouteFn :=
  fun from_ to_ res options =>
    let size := res.length
    (s.AppendRouteNaive shp from_ to_ res).orElse fun res0 =>
    (if options &&& kBottomLeftRight = 0 then
        (bottomLoop rec_ s shp from_ to_ options size 0 [1, 2, 3, 4, 5] res0).orElse
          (bottomLoop rec_ s shp from_ to_ options size 1 [1, 2, 3, 4, 5])
      else some (false, res0)).orElse fun res1 =>
    (if options &&& kTopLeftRight = 0 then
        (topLoop rec_ s shp from_ to_ options size 0 [1, 2, 3, 4, 5] res1).orElse
          (topLoop rec_ s shp from_ to_ options size 1 [1, 2, 3, 4, 5])
      else some (false, res1)).orElse fun res2 =>
    (if to_.y > 1 then
        let via := to_.ReplaceY (to_.y - 1)
        if s.Fits shp via then
          ((rec_ from_ via res2 options).andThen (s.AppendRouteNaive shp via to_)).orResize size
        else some (false, res2)
      else some (false, res2)).orElse fun res3 =>
    (if options &&& kTSpin = 0 then tspinLoop rec_ s shp from_ to_ options size 4 to_.rot res3
      else some (false, res3)).orElse fun res4 =>
    (if options &&& kInitialSpin = 0 then
        ispinLoop rec_ s shp from_ to_ options size 4 from_.rot res4
      else some (false, res4))

/-- The arguments `options1` and `to.y = to_y1` that a call of `AppendRoute`
nested directly in a call with `options` and `to.y = to_y` can have: a detour
with a guard bit that is not set in `options` sets it and keeps `to.y`; the
lift-then-drop detour keeps `options` and lowers `to.y > 1` by one. -/
def NestedCall (options : Nat) (to_y : Int) (options1 : Nat) (to_y1 : Int) : Prop :=
  (∃ flag, (flag = kBottomLeftRight ∨ flag = kTopLeftRight ∨ flag = kTSpin ∨
      flag = kInitialSpin) ∧ options &&& flag = 0 ∧ options1 = options ||| flag ∧
      to_y1 = to_y) ∨
  (options1 = options ∧ 1 < to_y ∧ to_y1 = to_y - 1)

/-- A chain of nested calls of `AppendRoute`, each given by its `options` and
`to.y`. -/
def CallChain (l : List (Nat × Int)) : Prop :=
  List.Chain' (fun a b => NestedCall a.1 a.2 b.1 b.2) l

/-- Number of calls in the chain that were made by the detour guarded by
`flag`: the bit is not set in the caller and set in the callee. -/
def flagEntries (flag : Nat) (l : List (Nat × Int)) : Nat :=
  ((l.zip l.tail).filter
    (fun p => decide (p.1.1 &&& flag = 0) && decide (p.2.1 &&& flag ≠ 0))).length

/-- Number of calls in the chain that were made by the lift-then-drop detour:
the callee has the `options` of the caller. -/
def liftEntries (l : List (Nat × Int)) : Nat :=
  ((l.zip l.tail).filter (fun p => decide (p.2.1 = p.1.1))).length

/-- A board with an overhang over columns 0 to 7 in row 15 and four empty rows
below it. -/
def shaftBoard : Situation :=
  { row_ := List.replicate 15 0 ++ [0b0011111111, 0, 0, 0, 0] }

/-! ## Selection: example inputs -/

/-- Four states without parent and with pairwise distinct boards; the first two
have the same score key, greater than that of the other two. -/
def tieExample : List State :=
  [.orphan { row_ := List.replicate 19 0 ++ [3], score_ := 30, collapse_count_ := 1 } 5 1 [],
   .orphan { row_ := List.replicate 19 0 ++ [5], score_ := 30, collapse_count_ := 1 } 5 1 [],
   .orphan { row_ := List.replicate 19 0 ++ [6], score_ := 10, collapse_count_ := 1 } 7 1 [],
   .orphan { row_ := List.replicate 19 0 ++ [9], score_ := 10, collapse_count_ := 1 } 9 1 []]

/-- Flags with `g_score_keep_count = 1`, `g_quality_keep_count = 2`, no ancestor
quota and a height quota of 10. -/
def tieFlags : SearchFlags := ⟨1, 2, [], [], 10, 10, 2200, 6⟩

/-- Flags with both keep counts equal to 2, no ancestor quota and a height quota
of 10. -/
def tieFlagsWide : SearchFlags := ⟨2, 2, [], [], 10, 10, 2200, 6⟩

/-- The parent of the states of `quotaExample`. -/
def quotaParent : State := .orphan {} 0 0 []

/-- Three children of `quotaParent` with `occupied_height = 1` and pairwise
distinct boards: the first two have the same score key `(300000, 30, 5)`, the
third has the all-zero key. -/
def quotaExample : List State :=
  [.child { row_ := List.replicate 19 0 ++ [3], score_ := 30, collapse_count_ := 1 } 5 1
      quotaParent [],
   .child { row_ := List.replicate 19 0 ++ [5], score_ := 30, collapse_count_ := 1 } 5 1
      quotaParent [],
   .child { row_ := List.replicate 19 0 ++ [6] } 0 1 quotaParent []]

/-! ## search.cc: IsOk and SearchFrom -/

/-- `Situation::IsOk`: false when the five topmost occupied rows hold at most
three cells each. -/
def Situation.IsOk (s : Situation) : Bool :=
  let occupied := s.OccupiedHeight
  if occupied ≥ 5 then
    let y := kH - occupied
    let max := (List.range 5).foldl (fun max i => Nat.max max (popcnt 32 (s.row (y + i)))) 0
    if max ≤ 3 then false else true
  else true

/-- The table `kThresholdHeight` of `SearchFrom`. -/
def kThresholdHeight : List Nat := [kH - 4, kH - 4, kH - 3, kH - 3]

/-- The table `kThresholdOccupied` of `SearchFrom`. -/
def kThresholdOccupied : List Nat :=
  [(kH - 6) * (kW - 1), (kH - 6) * (kW - 1), (kH - 5) * (kW - 1), (kH - 5) * (kW - 1)]

/-- The loop `for (Candidate& cand : vec)` of `SearchFrom`; the state is the list
of the states handed to `res->Add`, and `none` stands for `exit(1)`.  The
difference `collapsed` is computed in `uint32_t`. -/
def searchFromLoop (f : QualityFlags) (state_ptr : State) :
    List Candidate → List State → Option (List State)
  | [], res => some res
  | cand :: more, res =>
    let initial_height := state_ptr.occupied_height
    let initial_collapse_lines := state_ptr.situ.collapse_lines_
    let initial_occupied := state_ptr.situ.TotalOccupied
    let collapsed := (cand.situ.collapse_lines_ + 2 ^ 32 - initial_collapse_lines) % 2 ^ 32
    if collapsed ≥ 1 ∧ collapsed ≤ 4 ∧
        (initial_height < kThresholdHeight.getD (collapsed - 1) 0 ∨
          initial_occupied < kThresholdOccupied.getD (collapsed - 1) 0) then
      searchFromLoop f state_ptr more res
    else if !cand.situ.IsOk then searchFromLoop f state_ptr more res
    else if !state_ptr.situ.ReplayAndVerify cand.actions cand.situ then none
    else
      let quality := cand.situ.Quality f
      let occupied_height := cand.situ.OccupiedHeight
      searchFromLoop f state_ptr more
        (res ++ [.child cand.situ quality occupied_height state_ptr cand.actions])

/-- `SearchFrom`: the states handed to the collector, in the order of the calls
of `res->Add`; `none` when `FindAllMoves` does not return or the process
exits. -/
def SearchFrom (f : QualityFlags) (state_ptr : State) : Option (List State) :=
  let shp := (kBricks state_ptr.situ.step_).1
  let initial_st := (kBricks state_ptr.situ.step_).2
  match state_ptr.situ.FindAllMoves shp initial_st with
  | none => none
  | some vec => searchFromLoop f state_ptr vec []

/-- The state `new State` that `Solve` starts from: the empty board at step 0,
no parent, no actions. -/
def initialState (f : QualityFlags) : State :=
  .orphan {} (Situation.Quality {} f) (Situation.OccupiedHeight {}) []

/-- Number of rows that the placement of the candidate cleared, as the
difference of the two counters `collapse_lines`. -/
def clearedRows (parent : State) (c : Candidate) : Nat :=
  c.situ.collapse_lines_ - parent.situ.collapse_lines_

/-- The filter that the specification gives for the layer expansion: the board
passes `IsOk`, and a placement that cleared `c` rows, `1 ≤ c ≤ 4`, needs the
occupied height and the occupied cells of the parent to reach the entries
`c - 1` of `{16, 16, 17, 17}` and `{126, 126, 135, 135}`. -/
def expansionGate (parent : State) (c : Candidate) : Bool :=
  c.situ.IsOk &&
    (!(decide (1 ≤ clearedRows parent c) && decide (clearedRows parent c ≤ 4)) ||
      (decide (parent.occupied_height ≥ [16, 16, 17, 17].getD (clearedRows parent c - 1) 0) &&
        decide (parent.situ.TotalOccupied
          ≥ [126, 126, 135, 135].getD (clearedRows parent c - 1) 0)))

/-- The child that `SearchFrom` makes of a candidate. -/
def childOf (f : QualityFlags) (parent : State) (c : Candidate) : State :=
  .child c.situ (c.situ.Quality f) c.situ.OccupiedHeight parent c.actions

/-! ## tetris_common.cc: the lowest accepted pose of a column and rotation -/

/-- A pose that `FindAllMoves` accepts: a resting pose (it fits, one row lower it
does not) that leaves row 0 empty and to which `AppendRoute` finds a route from
the spawn pose. -/
def GoodPose (s : Situation) (shp : Shape) (initial_st st : BrickStatus) : Prop :=
  s.Fits shp st = true ∧ s.Fits shp (st.ReplaceY (st.y + 1)) = false ∧
    (s.PutCopy shp st).row 0 = 0 ∧
    ∃ acts, s.AppendRoute shp initial_st st [] = some (true, acts)

/-- The candidate is at the lowest accepted pose of its column and rotation. -/
def LowestGood (s : Situation) (shp : Shape) (initial_st : BrickStatus) (c : Candidate) :
    Prop :=
  GoodPose s shp initial_st c.st ∧
    ∀ y1 : Int, c.st.y < y1 → ¬ GoodPose s shp initial_st ⟨c.st.x, y1, c.st.rot⟩

/-- Invariant of the `y` loop of `FindAllMoves` for the rotation `rot`, the rows
below row `y` being done: `new` are the candidates found for this rotation and
`rem` is `remaining_x_bitmask`. -/
def RotInv (s : Situation) (shp : Shape) (initial_st : BrickStatus) (rot y : Nat)
    (new : List Candidate) (rem : Nat) : Prop :=
  (∀ c ∈ new, c.st.rot = rot ∧ (y : Int) < c.st.y ∧ LowestGood s shp initial_st c ∧
    ∃ x : Nat, c.st.x = (x : Int) ∧ rem.testBit x = false) ∧
  new.Pairwise (fun c1 c2 => c1.st.x ≠ c2.st.x) ∧
  (∀ x : Nat, rem.testBit x = true → x < kW ∧ (∀ c ∈ new, c.st.x ≠ (x : Int)) ∧
    ∀ y1 : Int, (y : Int) < y1 → ¬ GoodPose s shp initial_st ⟨(x : Int), y1, rot⟩)

/-! ## tetris_common.cc: cells of a row list and the cell loop of PutCopy -/

/-- Number of occupied cells of a list of 16-bit rows. -/
def rowsCells (rows : List Nat) : Nat := (rows.map (popcnt 16)).sum

/-- The cell loop of `PutCopy` over a list of offsets. -/
def putCells (st : BrickStatus) (l : List Pos) (s : Situation) : Situation :=
  l.foldl (fun res pp =>
    let x := st.x + pp.x
    let y := st.y + pp.y
    if XInRange x && YInRange y then res.setCell x.toNat y.toNat else res) s

/-! ## tetris_common.cc: an example board for the index of kMul -/

/-- Board with four rows that are full except for column 0, at step 0. -/
def fourWellBoard : Situation :=
  { row_ := List.replicate 16 0 ++ List.replicate 4 1022 }

/-! ## search.cc: the ancestors of a state -/

/-- The `i`-th ancestor of a state along the `parent` pointers: level 0 is the
state itself, level 1 its parent; `none` when the chain ends before. -/
def State.ancestor : Nat → State → Option State
  | 0, s => some s
  | i + 1, s =>
    match s.parent with
    | none => none
    | some p => State.ancestor i p

/-- Number of `parent` links from the state up to the state without parent. -/
def State.depth : State → Nat
  | .orphan _ _ _ _ => 0
  | .child _ _ _ p _ => p.depth + 1

/-- The node `P` is among the ancestors of levels `1 .. L` of `node`: the nodes
whose quota entries the loops over `ancestor_max` (of length `L`) touch. -/
def hasAncestor (P : State) : State → Nat → Bool
  | _, 0 => false
  | node, L + 1 =>
    match node.parent with
    | none => false
    | some p => decide (p = P) || hasAncestor P p L

/-! ## Example data: the notch board and the candidates of the empty board -/

/-- Board at step 0 (the piece `kBricks[0]` is a Z spawned at `(4, 0, rot 0)`)
with row 0 empty, row 1 free in columns 3 to 5, row 2 free in columns 4 and 5,
and nine cells in each row below: the only resting pose of the piece Z that
leaves row 0 empty is `(4, 2, rot 0)`, which fills row 2. -/
def notchBoard : Situation :=
  { row_ := [0, 0b1111000111, 0b1111001111, 511, 1022, 511, 1022, 511, 1022, 511, 1022, 511,
      1022, 511, 1022, 511, 1022, 511, 1022, 511] }

/-- A state without parent for `notchBoard`. -/
def notchState : State :=
  .orphan notchBoard (notchBoard.Quality {}) notchBoard.OccupiedHeight []

/-- The candidate list of `notchBoard` for the piece Z: the pose in the notch,
the board after the collapse of row 2, and the route `D2`. -/
def notchMoves : List Candidate :=
  [⟨⟨4, 2, 0⟩,
    { row_ := [0, 0, 0b1111011111, 511, 1022, 511, 1022, 511, 1022, 511, 1022, 511, 1022, 511,
        1022, 511, 1022, 511, 1022, 511],
      step_ := 1, score_ := 172, collapse_lines_ := 1, collapse_count_ := 1 },
    [⟨.kDown, 2⟩]⟩]

/-- The poses of the candidates of the empty board for the piece I spawned at
`(4, 0, rot 0)`: ten vertical ones, then seven horizontal ones. -/
def emptyBoardIPoses : List BrickStatus :=
  [⟨0, 18, 0⟩, ⟨1, 18, 0⟩, ⟨2, 18, 0⟩, ⟨3, 18, 0⟩, ⟨4, 18, 0⟩, ⟨5, 18, 0⟩, ⟨6, 18, 0⟩,
    ⟨7, 18, 0⟩, ⟨8, 18, 0⟩, ⟨9, 18, 0⟩, ⟨1, 19, 1⟩, ⟨2, 19, 1⟩, ⟨3, 19, 1⟩, ⟨4, 19, 1⟩,
    ⟨5, 19, 1⟩, ⟨6, 19, 1⟩, ⟨7, 19, 1⟩]

/-! ## Theorems: bit masks and CollapseInPlace -/

theorem getD_set_eq (l : List Nat) (i j v : Nat) :
    (l.set i v).getD j 0 = if i = j ∧ i < l.length then v else l.getD j 0 := by
  simp only [List.getD_eq_getElem?_getD, List.getElem?_set]
  by_cases h : i = j
  · subst h
    by_cases h2 : i < l.length
    · simp [h2]
    · simp [h2, List.getElem?_eq_none (Nat.le_of_not_lt h2)]
  · simp [h]

theorem orBits_testBit (p : Nat → Bool) (n j : Nat) :
    ((List.range n).foldl (fun r i => if p i then r ||| (1 <<< i) else r) 0).testBit j
      = (decide (j < n) && p j) := by
  induction n with
  | zero => simp
  | succ n ih =>
    rw [List.range_succ, List.foldl_append]
    simp only [List.foldl_cons, List.foldl_nil]
    have hlt : (j < n + 1) ↔ (j < n ∨ n = j) := by omega
    by_cases hp : p n = true
    · rw [if_pos hp, Nat.testBit_or, ih, Nat.one_shiftLeft, Nat.testBit_two_pow]
      by_cases hj : n = j
      · subst hj; simp [hp]
      · by_cases h1 : j < n <;> simp [hlt, hj, h1]
    · rw [if_neg hp, ih]
      by_cases hj : n = j
      · subst hj; simp [hp]
      · by_cases h1 : j < n <;> simp [hlt, hj, h1]

theorem CollapsableBitmask_testBit (s : Situation) (j : Nat) :
    s.CollapsableBitmask.testBit j = (decide (j < kH) && decide (s.row j = kRowBitMask)) := by
  unfold Situation.CollapsableBitmask
  have := orBits_testBit (fun i => decide (s.row i = kRowBitMask)) kH j
  simpa using this

theorem and_bit_eq_zero (m y : Nat) : (m &&& (1 <<< y) = 0) ↔ m.testBit y = false := by
  rw [Nat.one_shiftLeft]
  constructor
  · intro h
    have := congrArg (fun t => t.testBit y) h
    simpa [Nat.testBit_and, Nat.testBit_two_pow] using this
  · intro h
    apply Nat.eq_of_testBit_eq
    intro i
    simp only [Nat.testBit_and, Nat.testBit_two_pow, Nat.zero_testBit]
    by_cases hi : y = i
    · subst hi; simp [h]
    · simp [hi]

theorem clearRows_getD (n : Nat) : ∀ (rows : List Nat) (i : Nat),
    (clearRows n rows).getD i 0 = if i < n then 0 else rows.getD i 0 := by
  induction n with
  | zero => intro rows i; simp [clearRows]
  | succ n ih =>
    intro rows i
    rw [clearRows, ih, getD_set_eq]
    by_cases h1 : i < n
    · have : i < n + 1 := by omega
      simp [h1, this]
    · by_cases h2 : n = i
      · subst h2
        by_cases h3 : n < rows.length
        · simp [h3]
        · have h4 := List.getD_eq_default rows 0 (Nat.le_of_not_lt h3)
          rw [if_neg (by omega), if_neg (by omega), h4]; simp
      · have : ¬ i < n + 1 := by omega
        simp [h1, h2, this]

/-- Invariant of the packing loop: rows at or below `y` are still the original
ones, and every row above the write index is not full. -/
theorem packRows_inv (mask : Nat) (orig : List Nat)
    (hmask : ∀ i, i < kH → mask.testBit i = false → orig.getD i 0 ≠ kRowBitMask) :
    ∀ (y : Nat) (rows : List Nat) (wy : Nat), y ≤ wy → wy < kH →
      (∀ i, i ≤ y → rows.getD i 0 = orig.getD i 0) →
      (∀ i, wy < i → i < kH → rows.getD i 0 ≠ kRowBitMask) →
      ∀ i, (packRows mask y rows wy).2 < i → i < kH →
        (packRows mask y rows wy).1.getD i 0 ≠ kRowBitMask := by
  intro y
  induction y with
  | zero =>
    intro rows wy _ _ _ h2 i hi hk
    simpa [packRows] using h2 i (by simpa [packRows] using hi) hk
  | succ y ih =>
    intro rows wy hle hwy h1 h2 i hi hik
    rw [packRows] at hi ⊢
    by_cases hb : mask &&& (1 <<< (y + 1)) = 0
    · rw [if_pos hb] at hi ⊢
      have hbit := (and_bit_eq_zero mask (y + 1)).1 hb
      have hne : orig.getD (y + 1) 0 ≠ kRowBitMask := hmask _ (by omega) hbit
      refine ih _ _ (by omega) (by omega) ?_ ?_ i hi hik
      · intro k hk
        rw [getD_set_eq]
        have : ¬ (wy = k ∧ wy < rows.length) := by omega
        rw [if_neg this]
        exact h1 k (by omega)
      · intro k hk hk3
        rw [getD_set_eq]
        by_cases hc : wy = k ∧ wy < rows.length
        · rw [if_pos hc, h1 (y + 1) (le_refl _)]; exact hne
        · rw [if_neg hc]
          by_cases hk2 : wy = k
          · have hlen : rows.length ≤ k := by omega
            rw [List.getD_eq_default _ _ hlen]; decide
          · exact h2 k (by omega) hk3
    · rw [if_neg hb] at hi ⊢
      exact ih rows wy (by omega) hwy (fun k hk => h1 k (by omega)) h2 i hi hik

theorem fullRows_eq_popcnt (s : Situation) : popcnt 32 s.CollapsableBitmask = s.fullRows := by
  unfold popcnt Situation.fullRows
  have h32 : List.range 32 = List.range kH ++ (List.range 12).map (fun i => kH + i) := by decide
  rw [h32, List.filter_append, List.length_append]
  have htail : ((List.range 12).map (fun i => kH + i)).filter
      (fun i => s.CollapsableBitmask.testBit i) = [] := by
    rw [List.filter_eq_nil_iff]
    intro a ha
    rw [List.mem_map] at ha
    obtain ⟨b, _, rfl⟩ := ha
    simp [CollapsableBitmask_testBit]
  rw [htail, List.length_nil, Nat.add_zero]
  congr 1
  apply List.filter_congr
  intro x hx
  rw [List.mem_range] at hx
  simp [CollapsableBitmask_testBit, hx]

theorem CollapsableBitmask_eq_zero_iff (s : Situation) :
    s.CollapsableBitmask = 0 ↔ ∀ y, y < kH → s.row y ≠ kRowBitMask := by
  constructor
  · intro h y hy hfull
    have := CollapsableBitmask_testBit s y
    rw [h] at this
    simp [hy, hfull] at this
  · intro h
    apply Nat.eq_of_testBit_eq
    intro i
    rw [CollapsableBitmask_testBit, Nat.zero_testBit]
    by_cases hi : i < kH
    · simp [h i hi]
    · simp [hi]

/-- C3 (counterexample): on the last step the early return leaves the full
bottom row of `lastStepBoard` in place. -/
theorem C3_full_row_survives_last_step :
    lastStepBoard.WF ∧ lastStepBoard.CollapseInPlace.row 19 = kRowBitMask := by
  decide

/-- C3 (amended): when the incremented step is below `kSteps`, no row of the
board equals the full-row mask after `CollapseInPlace`. -/
theorem C3_no_full_row_after_collapse (s : Situation)
    (hstep : (s.step_ + 1) % 2 ^ 32 < kSteps) (y : Nat) (hy : y < kH) :
    s.CollapseInPlace.row y ≠ kRowBitMask := by
  unfold Situation.CollapseInPlace
  simp only []
  rw [if_neg (by omega)]
  by_cases hm : s.CollapsableBitmask = 0
  · rw [if_neg (by simpa using hm)]
    exact (CollapsableBitmask_eq_zero_iff s).1 hm y hy
  · rw [if_pos hm]
    show (clearRows _ _).getD y 0 ≠ kRowBitMask
    rw [clearRows_getD]
    split
    · decide
    · rename_i hlt
      apply packRows_inv s.CollapsableBitmask s.row_ ?_ (kH - 1) s.row_ (kH - 1) (le_refl _)
        (by decide) (fun _ _ => rfl) ?_ y (by omega) hy
      · intro i hk hi
        rw [CollapsableBitmask_testBit] at hi
        simpa [hk, Situation.row] using hi
      · intro i hi hk
        have : kH = 20 := rfl
        omega

/-- C3 (amended), witness on a board with a full bottom row at step 3. -/
theorem C3_no_full_row_after_collapse_witness :
    ({ lastStepBoard with step_ := 3 } : Situation).CollapseInPlace.row 19 ≠ kRowBitMask :=
  C3_no_full_row_after_collapse { lastStepBoard with step_ := 3 } (by decide) 19 (by decide)

theorem popcnt_zero (w : Nat) : popcnt w 0 = 0 := by
  simp [popcnt]

/-- C4: with `lines` full rows, `1 ≤ lines ≤ 4`, and the incremented step below
`kSteps`, `CollapseInPlace` adds `kMul[lines-1] * TotalOccupied()` (taken on the
board before the collapse) to `score_`, adds `lines` to `collapse_lines_` and 1
to `collapse_count_`, in 32-bit unsigned arithmetic: the new value is the sum
itself whenever the sum is below `2 ^ 32`. -/
theorem C4_collapse_scoring (s : Situation) (hstep : s.step_ + 1 < kSteps)
    (h1 : 1 ≤ s.fullRows) (h4 : s.fullRows ≤ 4) :
    kMul = [1, 3, 6, 10] ∧
    s.CollapseInPlace.score_
      = (s.score_ + kMul.getD (s.fullRows - 1) 0 * s.TotalOccupied) % 2 ^ 32 ∧
    s.CollapseInPlace.collapse_lines_ = (s.collapse_lines_ + s.fullRows) % 2 ^ 32 ∧
    s.CollapseInPlace.collapse_count_ = (s.collapse_count_ + 1) % 2 ^ 32 ∧
    (s.score_ + kMul.getD (s.fullRows - 1) 0 * s.TotalOccupied < 2 ^ 32 →
      s.CollapseInPlace.score_
        = s.score_ + kMul.getD (s.fullRows - 1) 0 * s.TotalOccupied) ∧
    (s.collapse_lines_ + s.fullRows < 2 ^ 32 →
      s.CollapseInPlace.collapse_lines_ = s.collapse_lines_ + s.fullRows) ∧
    (s.collapse_count_ + 1 < 2 ^ 32 →
      s.CollapseInPlace.collapse_count_ = s.collapse_count_ + 1) := by
  have hk : kSteps = 10000 := rfl
  have hmod : (s.step_ + 1) % 2 ^ 32 = s.step_ + 1 := Nat.mod_eq_of_lt (by omega)
  have hm : s.CollapsableBitmask ≠ 0 := by
    intro h0
    have := fullRows_eq_popcnt s
    rw [h0, popcnt_zero] at this
    omega
  have hsc : s.CollapseInPlace.score_
      = (s.score_ + kMul.getD (s.fullRows - 1) 0 * s.TotalOccupied) % 2 ^ 32 := by
    unfold Situation.CollapseInPlace
    simp only []
    rw [hmod, if_neg (by omega), if_pos hm, fullRows_eq_popcnt]
  have hl : s.CollapseInPlace.collapse_lines_ = (s.collapse_lines_ + s.fullRows) % 2 ^ 32 := by
    unfold Situation.CollapseInPlace
    simp only []
    rw [hmod, if_neg (by omega), if_pos hm, fullRows_eq_popcnt]
  have hc : s.CollapseInPlace.collapse_count_ = (s.collapse_count_ + 1) % 2 ^ 32 := by
    unfold Situation.CollapseInPlace
    simp only []
    rw [hmod, if_neg (by omega), if_pos hm]
  refine ⟨rfl, hsc, hl, hc, ?_, ?_, ?_⟩
  · intro h; rw [hsc, Nat.mod_eq_of_lt h]
  · intro h; rw [hl, Nat.mod_eq_of_lt h]
  · intro h; rw [hc, Nat.mod_eq_of_lt h]

/-- C4, witness: two full rows and 22 occupied cells raise the score from 7 to
`7 + 3 * 22`. -/
theorem C4_collapse_scoring_witness :
    twoFullRowsBoard.fullRows = 2 ∧ twoFullRowsBoard.CollapseInPlace.score_ = 7 + 3 * 22 := by
  have h := C4_collapse_scoring twoFullRowsBoard (by decide) (by decide) (by decide)
  refine ⟨by decide, ?_⟩
  rw [h.2.1]
  decide

/-! ## Theorems: OccupiedHeight -/

theorem row_lt_of_WF (s : Situation) (h : s.WF) (y : Nat) : s.row y < 65536 := by
  unfold Situation.row
  by_cases hy : y < s.row_.length
  · rw [List.getD_eq_getElem _ _ hy]
    exact h.2 _ (List.getElem_mem _)
  · rw [List.getD_eq_default _ _ (Nat.le_of_not_lt hy)]; decide

theorem find_range_some (p : Nat → Bool) (k : Nat) (hk : p k = true)
    (hlow : ∀ j, j < k → p j = false) : ∀ n, k < n → (List.range n).find? p = some k := by
  intro n
  induction n with
  | zero => intro h; omega
  | succ n ih =>
    intro h
    rw [List.range_succ, List.find?_append]
    by_cases hlt : k < n
    · rw [ih hlt]; rfl
    · have hkn : k = n := by omega
      subst hkn
      have hnone : (List.range k).find? p = none := by
        rw [List.find?_eq_none]
        intro x hx
        rw [List.mem_range] at hx
        simp [hlow x hx]
      rw [hnone]
      simp [hk]

theorem ctz_eq (w x k : Nat) (hk : x.testBit k = true) (hlow : ∀ j, j < k → x.testBit j = false)
    (hw : k < w) : ctz w x = k := by
  unfold ctz
  rw [find_range_some (fun i => x.testBit i) k hk hlow w hw]
  rfl

theorem lowest_bit (r : Nat) (hr : r ≠ 0) (h16 : r < 65536) :
    ∃ b, b < 16 ∧ r.testBit b = true ∧ ∀ j, j < b → r.testBit j = false := by
  have hex : ∃ i, r.testBit i = true := Nat.ne_zero_implies_bit_true hr
  classical
  refine ⟨Nat.find hex, ?_, Nat.find_spec hex, ?_⟩
  · by_contra hge
    have h1 : r < 2 ^ (Nat.find hex) :=
      lt_of_lt_of_le h16 (by
        have : (65536 : Nat) = 2 ^ 16 := by norm_num
        rw [this]
        exact Nat.pow_le_pow_right (by norm_num) (by omega))
    have := Nat.testBit_lt_two_pow h1
    rw [Nat.find_spec hex] at this
    exact absurd this (by simp)
  · intro j hj
    have := Nat.find_min hex hj
    simpa using this

theorem testBit_pack (a b c d : Nat) (ha : a < 65536) (hb : b < 65536) (hc : c < 65536)
    (j : Nat) :
    (a + b * 2 ^ 16 + c * 2 ^ 32 + d * 2 ^ 48).testBit j =
      if j < 16 then a.testBit j
      else if j < 32 then b.testBit (j - 16)
      else if j < 48 then c.testBit (j - 32)
      else d.testBit (j - 48) := by
  have e1 : a + b * 2 ^ 16 + c * 2 ^ 32 + d * 2 ^ 48
      = 2 ^ 16 * (2 ^ 16 * (2 ^ 16 * d + c) + b) + a := by ring
  rw [e1, Nat.testBit_mul_pow_two_add _ (by norm_num; exact ha)]
  split
  · rfl
  · rename_i h1
    rw [Nat.testBit_mul_pow_two_add _ (by norm_num; exact hb)]
    split
    · rw [if_pos (by omega)]
    · rename_i h2
      rw [if_neg (by omega), Nat.testBit_mul_pow_two_add _ (by norm_num; exact hc)]
      split
      · rw [if_pos (by omega)]; congr 1
      · rw [if_neg (by omega)]; congr 1

theorem ctz_pack (a b c d : Nat) (ha : a < 65536) (hb : b < 65536) (hc : c < 65536)
    (hd : d < 65536) (hne : a ≠ 0 ∨ b ≠ 0 ∨ c ≠ 0 ∨ d ≠ 0) :
    ctz 64 (a + b * 2 ^ 16 + c * 2 ^ 32 + d * 2 ^ 48) / 16 =
      if a ≠ 0 then 0 else if b ≠ 0 then 1 else if c ≠ 0 then 2 else 3 := by
  have hz : ∀ j, (0 : Nat).testBit j = false := Nat.zero_testBit
  by_cases h0 : a ≠ 0
  · rw [if_pos h0]
    obtain ⟨t, ht, hbit, hlow⟩ := lowest_bit a h0 ha
    rw [ctz_eq 64 _ t (by rw [testBit_pack a b c d ha hb hc, if_pos ht]; exact hbit)
      (by intro j hj; rw [testBit_pack a b c d ha hb hc, if_pos (by omega)]; exact hlow j hj)
      (by omega)]
    omega
  · rw [if_neg h0]
    have h0z : a = 0 := by simpa using h0
    by_cases h1 : b ≠ 0
    · rw [if_pos h1]
      obtain ⟨t, ht, hbit, hlow⟩ := lowest_bit b h1 hb
      rw [ctz_eq 64 _ (16 + t)
        (by rw [testBit_pack a b c d ha hb hc, if_neg (by omega), if_pos (by omega)]
            rw [show 16 + t - 16 = t by omega]; exact hbit)
        (by
          intro j hj
          rw [testBit_pack a b c d ha hb hc]
          by_cases hj1 : j < 16
          · rw [if_pos hj1, h0z]; exact hz j
          · rw [if_neg hj1, if_pos (by omega)]; exact hlow _ (by omega))
        (by omega)]
      omega
    · rw [if_neg h1]
      have h1z : b = 0 := by simpa using h1
      by_cases h2 : c ≠ 0
      · rw [if_pos h2]
        obtain ⟨t, ht, hbit, hlow⟩ := lowest_bit c h2 hc
        rw [ctz_eq 64 _ (32 + t)
          (by rw [testBit_pack a b c d ha hb hc, if_neg (by omega), if_neg (by omega),
                if_pos (by omega)]
              rw [show 32 + t - 32 = t by omega]; exact hbit)
          (by
            intro j hj
            rw [testBit_pack a b c d ha hb hc]
            by_cases hj1 : j < 16
            · rw [if_pos hj1, h0z]; exact hz j
            · rw [if_neg hj1]
              by_cases hj2 : j < 32
              · rw [if_pos hj2, h1z]; exact hz _
              · rw [if_neg hj2, if_pos (by omega)]; exact hlow _ (by omega))
          (by omega)]
        omega
      · rw [if_neg h2]
        have h2z : c = 0 := by simpa using h2
        have h3 : d ≠ 0 := by
          rcases hne with h | h | h | h
          · exact absurd h h0
          · exact absurd h h1
          · exact absurd h h2
          · exact h
        obtain ⟨t, ht, hbit, hlow⟩ := lowest_bit d h3 hd
        rw [ctz_eq 64 _ (48 + t)
          (by rw [testBit_pack a b c d ha hb hc, if_neg (by omega), if_neg (by omega),
                if_neg (by omega)]
              rw [show 48 + t - 48 = t by omega]; exact hbit)
          (by
            intro j hj
            rw [testBit_pack a b c d ha hb hc]
            by_cases hj1 : j < 16
            · rw [if_pos hj1, h0z]; exact hz j
            · rw [if_neg hj1]
              by_cases hj2 : j < 32
              · rw [if_pos hj2, h1z]; exact hz _
              · rw [if_neg hj2]
                by_cases hj3 : j < 48
                · rw [if_pos hj3, h2z]; exact hz _
                · rw [if_neg hj3]; exact hlow _ (by omega))
          (by omega)]
        omega

theorem foldr_max_le (l : List Nat) (m : Nat) (h : ∀ x ∈ l, x ≤ m) : l.foldr max 0 ≤ m := by
  induction l with
  | nil => simp
  | cons a t ih =>
    simp only [List.foldr_cons]
    exact max_le (h a (List.mem_cons_self _ _)) (ih (fun x hx => h x (List.mem_cons_of_mem _ hx)))

theorem le_foldr_max (l : List Nat) (m : Nat) (h : m ∈ l) : m ≤ l.foldr max 0 := by
  induction l with
  | nil => simp at h
  | cons a t ih =>
    simp only [List.foldr_cons]
    rcases List.mem_cons.1 h with h1 | h1
    · subst h1; exact le_max_left _ _
    · exact le_trans (ih h1) (le_max_right _ _)

theorem occupiedHeightSpec_zero (s : Situation) (h : ∀ y, y < kH → s.row y = 0) :
    occupiedHeightSpec s = 0 := by
  unfold occupiedHeightSpec
  have : (List.range kH).filter (fun y => s.row y ≠ 0) = [] := by
    rw [List.filter_eq_nil_iff]
    intro a ha
    rw [List.mem_range] at ha
    simp [h a ha]
  rw [this]; rfl

theorem occupiedHeightSpec_first (s : Situation) (y0 : Nat) (hy0 : y0 < kH)
    (hne : s.row y0 ≠ 0) (hlow : ∀ y, y < y0 → s.row y = 0) :
    occupiedHeightSpec s = kH - y0 := by
  unfold occupiedHeightSpec
  apply le_antisymm
  · apply foldr_max_le
    intro x hx
    rw [List.mem_map] at hx
    obtain ⟨y, hy, rfl⟩ := hx
    rw [List.mem_filter] at hy
    have : y0 ≤ y := by
      by_contra hlt
      have := hlow y (by omega)
      simp [this] at hy
    omega
  · apply le_foldr_max
    rw [List.mem_map]
    exact ⟨y0, by rw [List.mem_filter, List.mem_range]; exact ⟨hy0, by simpa using hne⟩, rfl⟩

theorem OccupiedHeightFrom_char (s : Situation) (hwf : s.WF) :
    ∀ n i, i + n = 5 → (∀ y, y < 4 * i → s.row y = 0) →
      ((∀ y, y < kH → s.row y = 0) → OccupiedHeightFrom s n i = 0) ∧
      (∀ y0, y0 < kH → s.row y0 ≠ 0 → (∀ y, y < y0 → s.row y = 0) →
        OccupiedHeightFrom s n i = kH - y0) := by
  have hkH : kH = 20 := rfl
  intro n
  induction n with
  | zero =>
    intro i hi hz
    refine ⟨fun _ => rfl, ?_⟩
    intro y0 hy0 hne _
    exact absurd (hz y0 (by omega)) hne
  | succ n ih =>
    intro i hi hz
    have ha := row_lt_of_WF s hwf (4 * i)
    have hb := row_lt_of_WF s hwf (4 * i + 1)
    have hc := row_lt_of_WF s hwf (4 * i + 2)
    have hd := row_lt_of_WF s hwf (4 * i + 3)
    rw [OccupiedHeightFrom]
    by_cases hw : s.row_4_ i ≠ 0
    · rw [if_pos hw]
      have hsome : s.row (4 * i) ≠ 0 ∨ s.row (4 * i + 1) ≠ 0 ∨ s.row (4 * i + 2) ≠ 0
          ∨ s.row (4 * i + 3) ≠ 0 := by
        by_contra hall
        apply hw
        unfold Situation.row_4_
        omega
      constructor
      · intro hall
        exfalso
        rcases hsome with h | h | h | h
        · exact h (hall _ (by omega))
        · exact h (hall _ (by omega))
        · exact h (hall _ (by omega))
        · exact h (hall _ (by omega))
      · intro y0 hy0 hne hlow
        unfold Situation.row_4_
        rw [ctz_pack _ _ _ _ ha hb hc hd hsome]
        have hge : 4 * i ≤ y0 := by
          by_contra hlt
          exact hne (hz y0 (by omega))
        by_cases h0 : s.row (4 * i) ≠ 0
        · rw [if_pos h0]
          have : y0 = 4 * i := by
            by_contra hne2
            exact h0 (hlow _ (by omega))
          omega
        · rw [if_neg h0]
          have h0z : s.row (4 * i) = 0 := by simpa using h0
          by_cases h1 : s.row (4 * i + 1) ≠ 0
          · rw [if_pos h1]
            have : y0 = 4 * i + 1 := by
              by_contra hne2
              by_cases hlt : y0 < 4 * i + 1
              · have : y0 = 4 * i := by omega
                rw [this] at hne; exact hne h0z
              · exact h1 (hlow _ (by omega))
            omega
          · rw [if_neg h1]
            have h1z : s.row (4 * i + 1) = 0 := by simpa using h1
            by_cases h2 : s.row (4 * i + 2) ≠ 0
            · rw [if_pos h2]
              have : y0 = 4 * i + 2 := by
                by_contra hne2
                by_cases hlt : y0 < 4 * i + 2
                · have hc2 : y0 = 4 * i ∨ y0 = 4 * i + 1 := by omega
                  rcases hc2 with e | e
                  · rw [e] at hne; exact hne h0z
                  · rw [e] at hne; exact hne h1z
                · exact h2 (hlow _ (by omega))
              omega
            · rw [if_neg h2]
              have h2z : s.row (4 * i + 2) = 0 := by simpa using h2
              have h3 : s.row (4 * i + 3) ≠ 0 := by
                rcases hsome with h | h | h | h
                · exact absurd h h0
                · exact absurd h h1
                · exact absurd h h2
                · exact h
              have : y0 = 4 * i + 3 := by
                by_contra hne2
                by_cases hlt : y0 < 4 * i + 3
                · have hc2 : y0 = 4 * i ∨ y0 = 4 * i + 1 ∨ y0 = 4 * i + 2 := by omega
                  rcases hc2 with e | e | e
                  · rw [e] at hne; exact hne h0z
                  · rw [e] at hne; exact hne h1z
                  · rw [e] at hne; exact hne h2z
                · exact h3 (hlow _ (by omega))
              omega
    · rw [if_neg hw]
      have hw0 : s.row_4_ i = 0 := by simpa using hw
      unfold Situation.row_4_ at hw0
      have hz2 : ∀ y, y < 4 * (i + 1) → s.row y = 0 := by
        intro y hy
        by_cases hlt : y < 4 * i
        · exact hz y hlt
        · have hc2 : y = 4 * i ∨ y = 4 * i + 1 ∨ y = 4 * i + 2 ∨ y = 4 * i + 3 := by omega
          rcases hc2 with e | e | e | e <;> rw [e] <;> omega
      exact ih (i + 1) (by omega) hz2

/-- C5: on a well-formed board, `OccupiedHeight` (computed on the packed 64-bit
words with count-trailing-zeros / 16) equals the largest `kH - y` over the rows
`y` with a non-zero value, and 0 when all rows are zero. -/
theorem C5_occupied_height (s : Situation) (hwf : s.WF) :
    s.OccupiedHeight = occupiedHeightSpec s ∧
    ((∀ y, y < kH → s.row y = 0) → s.OccupiedHeight = 0) := by
  have hchar := OccupiedHeightFrom_char s hwf (kH / 4) 0 (by decide) (by intro y hy; omega)
  refine ⟨?_, hchar.1⟩
  unfold Situation.OccupiedHeight
  by_cases hall : ∀ y, y < kH → s.row y = 0
  · rw [hchar.1 hall, occupiedHeightSpec_zero s hall]
  · have hex : ∃ y, y < kH ∧ s.row y ≠ 0 := by
      by_contra hno
      apply hall
      intro y hy
      by_contra hne
      exact hno ⟨y, hy, hne⟩
    classical
    have hspec := Nat.find_spec hex
    have hmin : ∀ y, y < Nat.find hex → s.row y = 0 := by
      intro y hy
      by_contra hne
      have hy2 : y < kH := lt_trans hy hspec.1
      exact Nat.find_min hex hy ⟨hy2, hne⟩
    rw [hchar.2 _ hspec.1 hspec.2 hmin, occupiedHeightSpec_first s _ hspec.1 hspec.2 hmin]

/-- C5, witness: the topmost non-empty row of `heightBoard` is row 6, so the
occupied height is 14. -/
theorem C5_occupied_height_witness :
    heightBoard.OccupiedHeight = occupiedHeightSpec heightBoard ∧
    occupiedHeightSpec heightBoard = 14 :=
  ⟨(C5_occupied_height heightBoard (by decide)).1, by decide⟩

/-! ## Theorems: Action::Join -/

theorem digits_lt_100 : ∀ n, n < 100 →
    Nat.toDigits 10 n = if n < 10 then [Char.ofNat (48 + n)]
      else [Char.ofNat (48 + n / 10), Char.ofNat (48 + n % 10)] := by
  decide

theorem AppendTo_eq (a : Action) (res : List Char) (h : a.«by» < 100) :
    a.AppendTo res
      = (if res.isEmpty then res else res ++ [',']) ++ renderRun (a.type, a.«by») := by
  unfold Action.AppendTo renderRun
  simp only []
  rw [digits_lt_100 _ h]
  by_cases hn : a.type = .kNew
  · by_cases he : res.isEmpty = true <;> simp [hn, he]
  · by_cases he : res.isEmpty = true <;> by_cases h10 : a.«by» < 10 <;> simp [hn, he, h10]

theorem actionRuns_cons_head (a : Action) (l : List Action) :
    ∃ n more, actionRuns (a :: l) = (a.type, n) :: more ∧ a.«by» ≤ n := by
  rw [actionRuns]
  cases h : actionRuns l with
  | nil => exact ⟨a.«by», [], rfl, le_refl _⟩
  | cons r more =>
    obtain ⟨t, n⟩ := r
    by_cases ht : t = a.type
    · subst ht
      exact ⟨a.«by» + n, more, by simp, by omega⟩
    · exact ⟨a.«by», (t, n) :: more, by simp [ht], le_refl _⟩

theorem actionRuns_merge (a b : Action) (l : List Action) (h : a.type = b.type) :
    actionRuns (a :: b :: l) = actionRuns (⟨a.type, a.«by» + b.«by»⟩ :: l) := by
  simp only [actionRuns]
  cases hl : actionRuns l with
  | nil => simp [h]
  | cons r more =>
    obtain ⟨t, n⟩ := r
    by_cases ht : t = b.type
    · subst ht
      simp [h, Nat.add_assoc]
    · have ht2 : ¬ t = a.type := by rw [h]; exact ht
      simp [ht, h]

theorem actionRuns_split (a b : Action) (l : List Action) (h : a.type ≠ b.type) :
    actionRuns (a :: b :: l) = (a.type, a.«by») :: actionRuns (b :: l) := by
  obtain ⟨n, more, he, _⟩ := actionRuns_cons_head b l
  rw [actionRuns, he]
  have : ¬ b.type = a.type := fun e => h e.symm
  simp [this]

theorem joinLoop_eq : ∀ (rest : List Action) (hold : Action) (res : List Char),
    (∀ r ∈ actionRuns (hold :: rest), r.2 < 100) →
    joinLoop hold rest res = appendRecords res (actionRuns (hold :: rest)) := by
  intro rest
  induction rest with
  | nil =>
    intro hold res h
    have hb : hold.«by» < 100 := h (hold.type, hold.«by») (by simp [actionRuns])
    simp [joinLoop, actionRuns, appendRecords, AppendTo_eq hold res hb]
  | cons it rest ih =>
    intro hold res h
    rw [joinLoop]
    by_cases ht : hold.type = it.type
    · rw [if_pos ht]
      rw [actionRuns_merge hold it rest ht] at h ⊢
      obtain ⟨n, more, he, hle⟩ := actionRuns_cons_head ⟨hold.type, hold.«by» + it.«by»⟩ rest
      have hn : n < 100 := h (hold.type, n) (by rw [he]; simp)
      have hsum : hold.«by» + it.«by» < 100 := lt_of_le_of_lt hle hn
      have hmod : (hold.«by» + it.«by») % 256 = hold.«by» + it.«by» :=
        Nat.mod_eq_of_lt (by omega)
      rw [hmod]
      exact ih _ res h
    · rw [if_neg ht]
      rw [actionRuns_split hold it rest ht] at h ⊢
      have hb : hold.«by» < 100 := h (hold.type, hold.«by») (by simp)
      rw [ih it _ (fun r hr => h r (List.mem_cons_of_mem _ hr))]
      simp [appendRecords, AppendTo_eq hold res hb]

theorem renderRun_ne_nil (r : ActionType × Nat) : renderRun r ≠ [] := by
  simp [renderRun]

theorem appendRecords_nonempty (rs : List (ActionType × Nat)) : ∀ (res : List Char),
    res ≠ [] → appendRecords res rs = res ++ (rs.map (fun r => ',' :: renderRun r)).flatten := by
  induction rs with
  | nil => intro res _; simp [appendRecords]
  | cons r rs ih =>
    intro res hres
    have he : res.isEmpty = false := by
      cases res with
      | nil => exact absurd rfl hres
      | cons _ _ => rfl
    have := ih (res ++ [','] ++ renderRun r) (by simp)
    simp only [appendRecords, List.foldl_cons, he] at this ⊢
    simp only [Bool.false_eq_true, if_false]
    rw [this]
    simp

theorem intercalate_cons (r : List Char) (rs : List (List Char)) :
    [','].intercalate (r :: rs) = r ++ (rs.map (fun x => ',' :: x)).flatten := by
  induction rs generalizing r with
  | nil => simp [List.intercalate]
  | cons x rs ih =>
    have := ih x
    simp only [List.intercalate, List.intersperse, List.flatten] at this ⊢
    simp [this]

theorem appendRecords_nil (rs : List (ActionType × Nat)) :
    appendRecords [] rs = [','].intercalate (rs.map renderRun) := by
  cases rs with
  | nil => simp [appendRecords, List.intercalate]
  | cons r rs =>
    have h1 : appendRecords [] (r :: rs) = appendRecords (renderRun r) rs := by
      simp [appendRecords]
    rw [h1, appendRecords_nonempty rs _ (renderRun_ne_nil r), List.map_cons, intercalate_cons,
      List.map_map]
    rfl

/-- C9: when the counts of every maximal run of consecutive same-type actions
sum to less than 100, `Action::Join` returns the records of the runs separated
by commas, a record being the letter of the type followed, except for `N`, by
the decimal digits of the summed count (one digit below 10, two otherwise); the
empty list gives the empty string. -/
theorem C9_join_renders_runs (actions : List Action)
    (h : ∀ r ∈ actionRuns actions, r.2 < 100) :
    Action.Join actions = [','].intercalate ((actionRuns actions).map renderRun) ∧
    (∀ r ∈ actionRuns actions, renderRun r =
      kActionChars r.1 :: (if r.1 = .kNew then [] else Nat.toDigits 10 r.2) ∧
      (Nat.toDigits 10 r.2).length = if r.2 < 10 then 1 else 2) ∧
    Action.Join [] = [] := by
  refine ⟨?_, ?_, rfl⟩
  · cases actions with
    | nil => simp [Action.Join, actionRuns, List.intercalate]
    | cons a rest =>
      rw [Action.Join, joinLoop_eq rest a [] h, appendRecords_nil]
  · intro r hr
    refine ⟨rfl, ?_⟩
    rw [digits_lt_100 _ (h r hr)]
    split <;> rfl

/-- C9, witness: `N`, `C1`, two `D` entries merged into `D12`, `L2`, `N`. -/
theorem C9_join_renders_runs_witness :
    String.mk (Action.Join joinExample) = "N,C1,D12,L2,N" := by
  rw [(C9_join_renders_runs joinExample (by decide)).1]
  decide

/-! ## Theorems: MakeSolution -/

theorem State.chain_ne_nil (s : State) : s.chain ≠ [] := by
  cases s <;> simp [State.chain]

theorem State.chain_head (s : State) : s.chain.head? = some s := by
  cases s <;> simp [State.chain]

theorem reverse_flatMap {α β : Type} (l : List α) (f : α → List β) :
    (l.flatMap f).reverse = l.reverse.flatMap (fun x => (f x).reverse) := by
  induction l with
  | nil => rfl
  | cons a t ih => simp [List.flatMap_cons, List.flatMap_append, ih]

theorem makeSolutionLoop_eq : ∀ (d : Nat) (s : State) (acc : List Action),
    s.chain.map (fun n => n.situ.step_) = (List.range (d + 1)).reverse →
    makeSolutionLoop s acc
      = acc ++ (s.chain.take d).flatMap (fun n => n.actions.reverse ++ [⟨.kNew, 0⟩]) := by
  intro d
  induction d with
  | zero =>
    intro s acc h
    rw [show (List.range (0 + 1)).reverse = [0] from rfl] at h
    cases s with
    | orphan situ q oh a =>
      simp [State.chain, State.situ] at h
      simp [makeSolutionLoop, h]
    | child situ q oh p a =>
      simp [State.chain, State.situ] at h
      exact absurd h.2 (State.chain_ne_nil p)
  | succ d ih =>
    intro s acc h
    rw [List.range_succ, List.reverse_append] at h
    cases s with
    | orphan situ q oh a =>
      simp [State.chain, State.situ] at h
    | child situ q oh p a =>
      simp only [State.chain, List.map_cons, State.situ, List.reverse_singleton,
        List.singleton_append, List.cons.injEq] at h
      have hstep : situ.step_ ≥ 1 := by omega
      rw [makeSolutionLoop, if_pos hstep, ih p _ h.2]
      simp [State.chain, State.actions, List.append_assoc]

/-- C8: for a state `s` at depth `d ≥ 1` whose chain of parents has steps
`d, d-1, ..., 0`, the actions of `MakeSolution(s)` are the concatenation, in
root-to-leaf order over the `d` non-root nodes of the chain, of `New` followed
by the node's stored action list; the list begins with `New`, ends with the
action list of `s`, holds exactly `d` `New` markers when the stored lists hold
none, and `final_situ` is the board of `s`. -/
theorem C8_make_solution (s : State) (d : Nat) (sc : List Nat) (hd : 1 ≤ d)
    (hsteps : s.chain.map (fun n => n.situ.step_) = (List.range (d + 1)).reverse) :
    (MakeSolution s sc).actions = solutionSpec (s.chain.take d) ∧
    (MakeSolution s sc).actions.head? = some ⟨.kNew, 0⟩ ∧
    (∃ front, (MakeSolution s sc).actions = front ++ s.actions) ∧
    ((∀ n ∈ s.chain.take d, ∀ a ∈ n.actions, a.type ≠ .kNew) →
      ((MakeSolution s sc).actions.filter (fun a => a.type = .kNew)).length = d) ∧
    (MakeSolution s sc).final_situ = s.situ := by
  have hact : (MakeSolution s sc).actions = solutionSpec (s.chain.take d) := by
    unfold MakeSolution solutionSpec
    simp only []
    rw [makeSolutionLoop_eq d s [] hsteps, List.nil_append, reverse_flatMap]
    congr 1
    funext n
    simp
  have hlen : s.chain.length = d + 1 := by
    have := congrArg List.length hsteps
    simpa using this
  obtain ⟨rest, hrest⟩ : ∃ rest, s.chain.take d = s :: rest := by
    have hh := State.chain_head s
    cases hc : s.chain with
    | nil => exact absurd hc (State.chain_ne_nil s)
    | cons x xs =>
      rw [hc] at hh
      simp at hh
      obtain ⟨k, rfl⟩ : ∃ k, d = k + 1 := ⟨d - 1, by omega⟩
      exact ⟨xs.take k, by rw [hh]; rfl⟩
  refine ⟨hact, ?_, ?_, ?_, rfl⟩
  · rw [hact, hrest]
    unfold solutionSpec
    rw [List.reverse_cons]
    cases hr : rest.reverse with
    | nil => simp
    | cons y ys => simp
  · rw [hact, hrest]
    unfold solutionSpec
    rw [List.reverse_cons, List.flatMap_append]
    exact ⟨rest.reverse.flatMap (fun n => ⟨.kNew, 0⟩ :: n.actions) ++ [⟨.kNew, 0⟩], by simp⟩
  · intro hno
    rw [hact]
    have hcount : ∀ nodes : List State, (∀ n ∈ nodes, ∀ a ∈ n.actions, a.type ≠ .kNew) →
        ((solutionSpec nodes).filter (fun a => a.type = .kNew)).length = nodes.length := by
      intro nodes
      induction nodes with
      | nil => intro _; rfl
      | cons n t ih =>
        intro hn
        unfold solutionSpec at ih ⊢
        rw [List.reverse_cons, List.flatMap_append, List.filter_append, List.length_append,
          ih (fun m hm => hn m (List.mem_cons_of_mem _ hm))]
        have hnone : n.actions.filter (fun a => a.type = .kNew) = [] := by
          rw [List.filter_eq_nil_iff]
          intro a ha
          simpa using hn n (List.mem_cons_self _ _) a ha
        simp [hnone]
    rw [hcount _ hno, List.length_take, hlen]
    omega

/-- C8, witness: a chain of depth 2. -/
theorem C8_make_solution_witness :
    (MakeSolution chainExample []).actions
      = [⟨.kNew, 0⟩, ⟨.kRotate, 1⟩, ⟨.kDown, 18⟩, ⟨.kNew, 0⟩, ⟨.kLeft, 2⟩, ⟨.kDown, 17⟩] := by
  rw [(C8_make_solution chainExample 2 [] (by decide) (by decide)).1]
  decide

/-! ## Theorems: global best and score trajectory -/

theorem tupleGt_iff_lex (u v : Nat × Nat × Int) :
    tupleGt u v = true ↔ toLex (v.1, toLex (v.2.1, v.2.2)) < toLex (u.1, toLex (u.2.1, u.2.2)) := by
  simp only [tupleGt, Prod.Lex.lt_iff, Bool.or_eq_true, Bool.and_eq_true, decide_eq_true_eq]
  constructor
  · rintro (h | ⟨h1, h2 | ⟨h2, h3⟩⟩)
    · exact Or.inl h
    · exact Or.inr ⟨h1.symm, Or.inl h2⟩
    · exact Or.inr ⟨h1.symm, Or.inr ⟨h2.symm, h3⟩⟩
  · rintro (h | ⟨h1, h2 | ⟨h2, h3⟩⟩)
    · exact Or.inl h
    · exact Or.inr ⟨h1.symm, Or.inl h2⟩
    · exact Or.inr ⟨h1.symm, Or.inr ⟨h2.symm, h3⟩⟩

theorem tupleGt_score (u v : Nat × Nat × Int) (h : tupleGt u v = true) : v.1 ≤ u.1 := by
  simp only [tupleGt, Bool.or_eq_true, Bool.and_eq_true, decide_eq_true_eq] at h
  rcases h with h | ⟨h, _⟩ <;> omega

/-- Invariant of the update loop: the cached key is the key of the held state
and the held score does not drop. -/
theorem globalBest_foldl (l : List State) : ∀ (g : State × (Nat × Nat × Int)),
    g.2 = global_best_key_func g.1 →
    (l.foldl globalBestStep g).2 = global_best_key_func (l.foldl globalBestStep g).1 ∧
    g.1.situ.score_ ≤ (l.foldl globalBestStep g).1.situ.score_ := by
  induction l with
  | nil => intro g hg; exact ⟨hg, le_refl _⟩
  | cons st t ih =>
    intro g hg
    rw [List.foldl_cons]
    by_cases hc : (tupleGt (global_best_key_func st) g.2 ||
      (decide (global_best_key_func st = g.2) && decide (st.situ.BricksComp g.1.situ > 0))) = true
    · have hstep : globalBestStep g st = (st, global_best_key_func st) := by
        unfold globalBestStep; simp only []; rw [if_pos hc]
      rw [hstep]
      obtain ⟨h1, h2⟩ := ih (st, global_best_key_func st) rfl
      refine ⟨h1, le_trans ?_ h2⟩
      rw [Bool.or_eq_true] at hc
      rcases hc with hc | hc
      · have := tupleGt_score _ _ hc
        rw [hg] at this
        exact this
      · rw [Bool.and_eq_true, decide_eq_true_eq] at hc
        have := congrArg Prod.fst hc.1
        rw [hg] at this
        exact le_of_eq this.symm
    · have hstep : globalBestStep g st = g := by
        unfold globalBestStep; simp only []; rw [if_neg hc]
      rw [hstep]
      exact ih g hg

theorem updateGlobalBest_score (gb : State) (l : List State) :
    gb.situ.score_ ≤ (updateGlobalBest gb l).situ.score_ :=
  (globalBest_foldl l (gb, global_best_key_func gb) rfl).2

theorem solveLoop_sorted (abort : Nat → Nat) : ∀ (layers : List (List State)) (step : Nat)
    (gb : State) (acc : List Nat),
    acc.Pairwise (fun a b => a ≤ b) → (∀ x ∈ acc, x ≤ gb.situ.score_) →
    (solveLoop abort layers step gb acc).Pairwise (fun a b => a ≤ b) := by
  intro layers
  induction layers with
  | nil => intro step gb acc h _; exact h
  | cons l later ih =>
    intro step gb acc hs hle
    rw [solveLoop]
    split
    · exact List.Pairwise.nil
    · have hmono := updateGlobalBest_score gb l
      apply ih
      · rw [List.pairwise_append]
        refine ⟨hs, List.pairwise_singleton _ _, ?_⟩
        intro a ha b hb
        rw [List.mem_singleton] at hb
        subst hb
        exact le_trans (hle a ha) hmono
      · intro x hx
        rw [List.mem_append, List.mem_singleton] at hx
        rcases hx with hx | hx
        · exact le_trans (hle x hx) hmono
        · exact le_of_eq hx

/-- C7: in the update loop of `Solve` the global best is replaced only by a
state whose key `(score, step, quality)` is lexicographically greater, or equal
with `BricksComp > 0`; the score of the global best after a layer is at least
the score before it; and the score trajectory recorded over any sequence of
layers is non-decreasing. -/
theorem C7_score_trajectory_monotone (abort : Nat → Nat) (layers : List (List State))
    (initial_state : State) :
    (∀ (g : State) (st : State),
      globalBestStep (g, global_best_key_func g) st = (g, global_best_key_func g) ∨
      (globalBestStep (g, global_best_key_func g) st = (st, global_best_key_func st) ∧
        (toLex (g.situ.score_, toLex (g.situ.step_, g.quality))
            < toLex (st.situ.score_, toLex (st.situ.step_, st.quality)) ∨
          (global_best_key_func st = global_best_key_func g ∧
            st.situ.BricksComp g.situ > 0)))) ∧
    (∀ (g : State) (l : List State), g.situ.score_ ≤ (updateGlobalBest g l).situ.score_) ∧
    (solveLoop abort layers 0 initial_state []).Pairwise (fun a b => a ≤ b) := by
  refine ⟨?_, updateGlobalBest_score, ?_⟩
  · intro g st
    by_cases hc : (tupleGt (global_best_key_func st) (global_best_key_func g) ||
      (decide (global_best_key_func st = global_best_key_func g) &&
        decide (st.situ.BricksComp g.situ > 0))) = true
    · right
      refine ⟨by unfold globalBestStep; simp only []; rw [if_pos hc], ?_⟩
      rw [Bool.or_eq_true] at hc
      rcases hc with hc | hc
      · left
        exact (tupleGt_iff_lex _ _).1 hc
      · right
        simpa using hc
    · left
      unfold globalBestStep; simp only []; rw [if_neg hc]
  · exact solveLoop_sorted abort layers 0 initial_state [] List.Pairwise.nil
      (by intro x hx; simp at hx)

/-! ## Theorems: StateCollector -/

theorem pack_inj (a b c d a2 b2 c2 d2 : Nat) (ha : a < 65536) (hb : b < 65536)
    (hc : c < 65536) (ha2 : a2 < 65536) (hb2 : b2 < 65536)
    (hc2 : c2 < 65536)
    (h : a + b * 2 ^ 16 + c * 2 ^ 32 + d * 2 ^ 48 = a2 + b2 * 2 ^ 16 + c2 * 2 ^ 32 + d2 * 2 ^ 48) :
    a = a2 ∧ b = b2 ∧ c = c2 ∧ d = d2 := by
  omega

theorem row_eq_of_row_4_eq (a b : Situation) (ha : a.WF) (hb : b.WF) (i : Nat)
    (h : a.row_4_ i = b.row_4_ i) (y : Nat) (hy : y / 4 = i) : a.row y = b.row y := by
  unfold Situation.row_4_ at h
  have := pack_inj _ _ _ _ _ _ _ _ (row_lt_of_WF a ha (4 * i)) (row_lt_of_WF a ha (4 * i + 1))
    (row_lt_of_WF a ha (4 * i + 2)) (row_lt_of_WF b hb (4 * i)) (row_lt_of_WF b hb (4 * i + 1))
    (row_lt_of_WF b hb (4 * i + 2)) h
  have hc : y = 4 * i ∨ y = 4 * i + 1 ∨ y = 4 * i + 2 ∨ y = 4 * i + 3 := by omega
  rcases hc with e | e | e | e <;> rw [e] <;> simp [this]

theorem BricksEqual_iff (a b : Situation) (ha : a.WF) (hb : b.WF) :
    a.BricksEqual b = true ↔ a.row_ = b.row_ := by
  constructor
  · intro h
    unfold Situation.BricksEqual at h
    rw [List.all_eq_true] at h
    apply List.ext_getElem (by rw [ha.1, hb.1])
    intro y h1 h2
    have hy : y < kH := by rw [← ha.1]; exact h1
    have hk : kH = 20 := rfl
    have hw := h (y / 4) (by rw [List.mem_range]; omega)
    have := row_eq_of_row_4_eq a b ha hb (y / 4) (by simpa using hw) y rfl
    unfold Situation.row at this
    rwa [List.getD_eq_getElem _ _ h1, List.getD_eq_getElem _ _ h2] at this
  · intro h
    unfold Situation.BricksEqual
    rw [List.all_eq_true]
    intro i _
    simp [Situation.row_4_, Situation.row, h]

theorem FastHashBricks_congr (a b : Situation) (h : a.row_ = b.row_) :
    FastHashBricks a = FastHashBricks b := by
  unfold FastHashBricks
  have : ∀ i, a.row_4_ i = b.row_4_ i := by
    intro i; simp [Situation.row_4_, Situation.row, h]
  simp [this]

theorem better_than_irrefl (a : Situation) : better_than a a = false := by
  simp [better_than]

theorem better_than_trans (x e y : Situation) (h1 : better_than x e = true)
    (h2 : better_than y e = false) : better_than y x = false := by
  simp only [better_than, Bool.or_eq_true, Bool.and_eq_true, decide_eq_true_eq,
    Bool.or_eq_false_iff, Bool.and_eq_false_iff, decide_eq_false_iff_not] at *
  omega

theorem shardAdd_mem (x : State) : ∀ (L : List State) (o : State),
    o ∈ shardAdd L x → o = x ∨ o ∈ L := by
  intro L
  induction L with
  | nil => intro o h; simpa [shardAdd] using h
  | cons it rest ih =>
    intro o h
    rw [shardAdd] at h
    split at h
    · split at h
      · rcases List.mem_cons.1 h with h | h
        · exact Or.inl h
        · exact Or.inr (List.mem_cons_of_mem _ h)
      · exact Or.inr h
    · rcases List.mem_cons.1 h with h | h
      · exact Or.inr (h ▸ List.mem_cons_self _ _)
      · rcases ih o h with h | h
        · exact Or.inl h
        · exact Or.inr (List.mem_cons_of_mem _ h)

theorem shardAdd_has_new (x : State) (hx : x.situ.WF) : ∀ (L : List State),
    (∀ o ∈ L, o.situ.WF) → ∃ o ∈ shardAdd L x, o.situ.row_ = x.situ.row_ := by
  intro L
  induction L with
  | nil => intro _; exact ⟨x, by simp [shardAdd], rfl⟩
  | cons it rest ih =>
    intro hwf
    rw [shardAdd]
    by_cases he : it.situ.BricksEqual x.situ = true
    · rw [if_pos he]
      have hrows := (BricksEqual_iff _ _ (hwf it (List.mem_cons_self _ _)) hx).1 he
      split
      · exact ⟨x, List.mem_cons_self _ _, rfl⟩
      · exact ⟨it, List.mem_cons_self _ _, hrows⟩
    · rw [if_neg he]
      obtain ⟨o, ho, hr⟩ := ih (fun o h => hwf o (List.mem_cons_of_mem _ h))
      exact ⟨o, List.mem_cons_of_mem _ ho, hr⟩

theorem shardAdd_keeps_boards (x : State) (hx : x.situ.WF) : ∀ (L : List State),
    (∀ o ∈ L, o.situ.WF) → ∀ e ∈ L, ∃ o ∈ shardAdd L x, o.situ.row_ = e.situ.row_ := by
  intro L
  induction L with
  | nil => intro _ e he; simp at he
  | cons it rest ih =>
    intro hwf e he
    rw [shardAdd]
    by_cases hq : it.situ.BricksEqual x.situ = true
    · rw [if_pos hq]
      have hrows := (BricksEqual_iff _ _ (hwf it (List.mem_cons_self _ _)) hx).1 hq
      split
      · rcases List.mem_cons.1 he with h | h
        · exact ⟨x, List.mem_cons_self _ _, by rw [h, hrows]⟩
        · exact ⟨e, List.mem_cons_of_mem _ h, rfl⟩
      · exact ⟨e, he, rfl⟩
    · rw [if_neg hq]
      rcases List.mem_cons.1 he with h | h
      · exact ⟨it, List.mem_cons_self _ _, by rw [h]⟩
      · obtain ⟨o, ho, hr⟩ := ih (fun o h => hwf o (List.mem_cons_of_mem _ h)) e h
        exact ⟨o, List.mem_cons_of_mem _ ho, hr⟩

theorem shardAdd_pairwise (x : State) (hx : x.situ.WF) : ∀ (L : List State),
    (∀ o ∈ L, o.situ.WF) → L.Pairwise (fun a b => a.situ.row_ ≠ b.situ.row_) →
    (shardAdd L x).Pairwise (fun a b => a.situ.row_ ≠ b.situ.row_) := by
  intro L
  induction L with
  | nil => intro _ _; simp [shardAdd]
  | cons it rest ih =>
    intro hwf hp
    rw [List.pairwise_cons] at hp
    rw [shardAdd]
    by_cases hq : it.situ.BricksEqual x.situ = true
    · rw [if_pos hq]
      have hrows := (BricksEqual_iff _ _ (hwf it (List.mem_cons_self _ _)) hx).1 hq
      split
      · rw [List.pairwise_cons]
        exact ⟨fun b hb => by rw [← hrows]; exact hp.1 b hb, hp.2⟩
      · rw [List.pairwise_cons]; exact hp
    · rw [if_neg hq]
      have hne : it.situ.row_ ≠ x.situ.row_ := fun h =>
        hq ((BricksEqual_iff _ _ (hwf it (List.mem_cons_self _ _)) hx).2 h)
      rw [List.pairwise_cons]
      refine ⟨?_, ih (fun o h => hwf o (List.mem_cons_of_mem _ h)) hp.2⟩
      intro b hb
      rcases shardAdd_mem x rest b hb with h | h
      · rw [h]; exact hne
      · exact hp.1 b h

theorem shardAdd_not_better (x : State) (hx : x.situ.WF) : ∀ (L : List State),
    (∀ o ∈ L, o.situ.WF) → L.Pairwise (fun a b => a.situ.row_ ≠ b.situ.row_) →
    ∀ o ∈ shardAdd L x, o.situ.row_ = x.situ.row_ → better_than x.situ o.situ = false := by
  intro L
  induction L with
  | nil =>
    intro _ _ o ho _
    have : o = x := by simpa [shardAdd] using ho
    rw [this]; exact better_than_irrefl _
  | cons it rest ih =>
    intro hwf hp o ho hr
    rw [List.pairwise_cons] at hp
    rw [shardAdd] at ho
    by_cases hq : it.situ.BricksEqual x.situ = true
    · rw [if_pos hq] at ho
      have hrows := (BricksEqual_iff _ _ (hwf it (List.mem_cons_self _ _)) hx).1 hq
      by_cases hb : better_than x.situ it.situ = true
      · rw [if_pos hb] at ho
        rcases List.mem_cons.1 ho with h | h
        · rw [h]; exact better_than_irrefl _
        · exact absurd (hrows.trans hr.symm) (hp.1 o h)
      · rw [if_neg hb] at ho
        rcases List.mem_cons.1 ho with h | h
        · rw [h]; simpa using hb
        · exact absurd (hrows.trans hr.symm) (hp.1 o h)
    · rw [if_neg hq] at ho
      have hne : it.situ.row_ ≠ x.situ.row_ := fun h =>
        hq ((BricksEqual_iff _ _ (hwf it (List.mem_cons_self _ _)) hx).2 h)
      rcases List.mem_cons.1 ho with h | h
      · rw [h] at hr; exact absurd hr hne
      · exact ih (fun o h => hwf o (List.mem_cons_of_mem _ h)) hp.2 o h hr

theorem shardAdd_origin (x : State) (hx : x.situ.WF) : ∀ (L : List State),
    (∀ o ∈ L, o.situ.WF) → L.Pairwise (fun a b => a.situ.row_ ≠ b.situ.row_) →
    ∀ o ∈ shardAdd L x, o ∈ L ∨
      (o = x ∧ ∀ e ∈ L, e.situ.row_ = x.situ.row_ → better_than x.situ e.situ = true) := by
  intro L
  induction L with
  | nil =>
    intro _ _ o ho
    right
    exact ⟨by simpa [shardAdd] using ho, fun e he => by simp at he⟩
  | cons it rest ih =>
    intro hwf hp o ho
    rw [List.pairwise_cons] at hp
    rw [shardAdd] at ho
    by_cases hq : it.situ.BricksEqual x.situ = true
    · rw [if_pos hq] at ho
      have hrows := (BricksEqual_iff _ _ (hwf it (List.mem_cons_self _ _)) hx).1 hq
      by_cases hb : better_than x.situ it.situ = true
      · rw [if_pos hb] at ho
        rcases List.mem_cons.1 ho with h | h
        · right
          refine ⟨h, ?_⟩
          intro e he her
          rcases List.mem_cons.1 he with h2 | h2
          · rw [h2]; exact hb
          · exact absurd (hrows.trans her.symm) (hp.1 e h2)
        · exact Or.inl (List.mem_cons_of_mem _ h)
      · rw [if_neg hb] at ho
        exact Or.inl ho
    · rw [if_neg hq] at ho
      have hne : it.situ.row_ ≠ x.situ.row_ := fun h =>
        hq ((BricksEqual_iff _ _ (hwf it (List.mem_cons_self _ _)) hx).2 h)
      rcases List.mem_cons.1 ho with h | h
      · exact Or.inl (h ▸ List.mem_cons_self _ _)
      · rcases ih (fun o h => hwf o (List.mem_cons_of_mem _ h)) hp.2 o h with h2 | ⟨h2, h3⟩
        · exact Or.inl (List.mem_cons_of_mem _ h2)
        · right
          refine ⟨h2, ?_⟩
          intro e he her
          rcases List.mem_cons.1 he with h4 | h4
          · rw [h4] at her; exact absurd her hne
          · exact h3 e h4 her

theorem CollectorInv_Add (c : StateCollector) (S : List State) (x : State)
    (hS : ∀ y ∈ S, y.situ.WF) (hx : x.situ.WF) (h : CollectorInv c S) :
    CollectorInv (c.Add x) (x :: S) := by
  obtain ⟨h1, h2, h3⟩ := h
  have hLwf : ∀ o ∈ c.sets_ (FastHashBricks x.situ % kN), o.situ.WF :=
    fun o ho => hS o (h1 _ o ho).2.1
  have hLp := h2 (FastHashBricks x.situ % kN)
  refine ⟨?_, ?_, ?_⟩
  · intro j o ho
    unfold StateCollector.Add at ho
    simp only [] at ho
    by_cases hj : j = FastHashBricks x.situ % kN
    · rw [if_pos hj] at ho
      subst hj
      rcases shardAdd_origin x hx _ hLwf hLp o ho with hold | ⟨hnew, hbest⟩
      · obtain ⟨ha, hb, hc⟩ := h1 _ o hold
        refine ⟨ha, List.mem_cons_of_mem _ hb, ?_⟩
        intro y hy hr
        rcases List.mem_cons.1 hy with e | e
        · rw [e] at hr ⊢
          exact shardAdd_not_better x hx _ hLwf hLp o ho hr.symm
        · exact hc y e hr
      · subst hnew
        refine ⟨rfl, List.mem_cons_self _ _, ?_⟩
        intro y hy hr
        rcases List.mem_cons.1 hy with e | e
        · rw [e]; exact better_than_irrefl _
        · obtain ⟨e2, he2, hr2⟩ := h3 y e
          rw [FastHashBricks_congr _ _ hr] at he2
          have hb1 := hbest e2 he2 (hr2.trans hr)
          have hb2 := (h1 _ e2 he2).2.2 y e hr2.symm
          exact better_than_trans _ _ _ hb1 hb2
    · rw [if_neg hj] at ho
      obtain ⟨ha, hb, hc⟩ := h1 _ o ho
      refine ⟨ha, List.mem_cons_of_mem _ hb, ?_⟩
      intro y hy hr
      rcases List.mem_cons.1 hy with e | e
      · exfalso
        apply hj
        rw [e] at hr
        rw [← ha, FastHashBricks_congr _ _ hr]
      · exact hc y e hr
  · intro j
    unfold StateCollector.Add
    simp only []
    by_cases hj : j = FastHashBricks x.situ % kN
    · rw [if_pos hj]
      subst hj
      exact shardAdd_pairwise x hx _ hLwf hLp
    · rw [if_neg hj]; exact h2 j
  · intro y hy
    unfold StateCollector.Add
    simp only []
    by_cases hj : FastHashBricks y.situ % kN = FastHashBricks x.situ % kN
    · rw [if_pos hj, hj]
      rcases List.mem_cons.1 hy with e | e
      · rw [e]; exact shardAdd_has_new x hx _ hLwf
      · obtain ⟨o, ho, hr⟩ := h3 y e
        rw [hj] at ho
        obtain ⟨o2, ho2, hr2⟩ := shardAdd_keeps_boards x hx _ hLwf o ho
        exact ⟨o2, ho2, hr2.trans hr⟩
    · rw [if_neg hj]
      rcases List.mem_cons.1 hy with e | e
      · rw [e] at hj; exact absurd rfl hj
      · exact h3 y e

theorem CollectorInv_foldl : ∀ (xs : List State) (c : StateCollector) (S : List State),
    (∀ y ∈ S, y.situ.WF) → (∀ y ∈ xs, y.situ.WF) → CollectorInv c S →
    CollectorInv (xs.foldl StateCollector.Add c) (xs.reverse ++ S) := by
  intro xs
  induction xs with
  | nil => intro c S _ _ h; simpa using h
  | cons x t ih =>
    intro c S hS hxs h
    rw [List.foldl_cons, List.reverse_cons, List.append_assoc]
    apply ih
    · intro y hy
      rcases List.mem_cons.1 hy with e | e
      · rw [e]; exact hxs x (List.mem_cons_self _ _)
      · exact hS y e
    · exact fun y hy => hxs y (List.mem_cons_of_mem _ hy)
    · exact CollectorInv_Add c S x hS (hxs x (List.mem_cons_self _ _)) h

theorem collect_inv (xs : List State) (hwf : ∀ y ∈ xs, y.situ.WF) :
    CollectorInv (xs.foldl StateCollector.Add {}) xs := by
  have h0 : CollectorInv {} [] :=
    ⟨fun j o ho => by simp at ho, fun j => List.Pairwise.nil, fun x hx => by simp at hx⟩
  have h := CollectorInv_foldl xs {} [] (by simp) hwf h0
  obtain ⟨h1, h2, h3⟩ := h
  refine ⟨?_, h2, ?_⟩
  · intro j o ho
    obtain ⟨a, b, c⟩ := h1 j o ho
    exact ⟨a, by simpa using b, fun y hy => c y (by simpa using hy)⟩
  · intro x hx
    exact h3 x (by simpa using hx)

theorem kN_pos : 0 < kN := by decide

theorem mem_collect (xs : List State) (o : State) :
    o ∈ collect xs ↔ ∃ j, j < kN ∧ o ∈ (xs.foldl StateCollector.Add {}).sets_ j := by
  unfold collect StateCollector.MoveTo
  simp [List.mem_flatMap, List.mem_range]

/-- The drained output: one state per added board, each an added state that no
added state with the same board beats on score or, at equal score, on
`collapse_count_`. -/
theorem collect_spec (xs : List State) (hwf : ∀ y ∈ xs, y.situ.WF) :
    (collect xs).Pairwise (fun a b => a.situ.row_ ≠ b.situ.row_) ∧
    (∀ x ∈ xs, ∃ o ∈ collect xs, o.situ.row_ = x.situ.row_) ∧
    (∀ o ∈ collect xs, o ∈ xs ∧ ∀ x ∈ xs, x.situ.row_ = o.situ.row_ →
      x.situ.score_ ≤ o.situ.score_ ∧
      (x.situ.score_ = o.situ.score_ → o.situ.collapse_count_ ≤ x.situ.collapse_count_)) := by
  obtain ⟨h1, h2, h3⟩ := collect_inv xs hwf
  refine ⟨?_, ?_, ?_⟩
  · unfold collect StateCollector.MoveTo
    rw [List.nil_append, List.pairwise_flatMap]
    refine ⟨fun j _ => h2 j, ?_⟩
    have hr : (List.range kN).Pairwise (fun a b => a ≠ b) := List.nodup_range kN
    refine hr.imp ?_
    intro a b hab x hx y hy hrows
    apply hab
    rw [← (h1 a x hx).1, ← (h1 b y hy).1, FastHashBricks_congr _ _ hrows]
  · intro x hx
    obtain ⟨o, ho, hr⟩ := h3 x hx
    exact ⟨o, (mem_collect xs o).2 ⟨_, Nat.mod_lt _ kN_pos, ho⟩, hr⟩
  · intro o ho
    obtain ⟨j, _, hj⟩ := (mem_collect xs o).1 ho
    obtain ⟨_, hmem, hbest⟩ := h1 j o hj
    refine ⟨hmem, ?_⟩
    intro x hx hr
    have := hbest x hx hr
    simp only [better_than, Bool.or_eq_false_iff, Bool.and_eq_false_iff,
      decide_eq_false_iff_not] at this
    omega

theorem collect_triple_subset (xs ys : List State) (hwf : ∀ y ∈ xs, y.situ.WF)
    (hp : ∀ y, y ∈ ys ↔ y ∈ xs) (t : List Nat × Nat × Nat)
    (ht : t ∈ (collect xs).map State.triple) : t ∈ (collect ys).map State.triple := by
  have hwfy : ∀ y ∈ ys, y.situ.WF := fun y hy => hwf y ((hp y).1 hy)
  obtain ⟨_, hx2, hx3⟩ := collect_spec xs hwf
  obtain ⟨_, hy2, hy3⟩ := collect_spec ys hwfy
  rw [List.mem_map] at ht ⊢
  obtain ⟨o, ho, rfl⟩ := ht
  obtain ⟨hox, hobest⟩ := hx3 o ho
  obtain ⟨o2, ho2, hr⟩ := hy2 o ((hp o).2 hox)
  obtain ⟨ho2y, ho2best⟩ := hy3 o2 ho2
  have a1 := hobest o2 ((hp o2).1 ho2y) hr
  have a2 := ho2best o ((hp o).2 hox) hr.symm
  refine ⟨o2, ho2, ?_⟩
  unfold State.triple
  have e1 : o2.situ.score_ = o.situ.score_ := by omega
  have e2 : o2.situ.collapse_count_ = o.situ.collapse_count_ := by
    have := a1.2 e1
    have := a2.2 e1.symm
    omega
  rw [hr, e1, e2]

/-- C6: the collector, used sequentially on states with well-formed boards.
After `Add` on any sequence and `MoveTo`, the output holds exactly one state for
each distinct board added; that state was added and has the maximum score among
the added states with its board and, among those of maximum score, the minimum
`collapse_count_`.  For every permutation of the sequence the drained
(board, score, collapse_count) triples are the same. -/
theorem C6_collector_keeps_best (xs : List State) (hwf : ∀ y ∈ xs, y.situ.WF) :
    (collect xs).Pairwise (fun a b => a.situ.row_ ≠ b.situ.row_) ∧
    (∀ x ∈ xs, ∃ o ∈ collect xs, o.situ.row_ = x.situ.row_) ∧
    (∀ o ∈ collect xs, o ∈ xs ∧ ∀ x ∈ xs, x.situ.row_ = o.situ.row_ →
      x.situ.score_ ≤ o.situ.score_ ∧
      (x.situ.score_ = o.situ.score_ → o.situ.collapse_count_ ≤ x.situ.collapse_count_)) ∧
    (∀ ys : List State, ys.Perm xs →
      ∀ t, t ∈ (collect ys).map State.triple ↔ t ∈ (collect xs).map State.triple) := by
  obtain ⟨h1, h2, h3⟩ := collect_spec xs hwf
  refine ⟨h1, h2, h3, ?_⟩
  intro ys hperm t
  have hp : ∀ y, y ∈ ys ↔ y ∈ xs := fun y => hperm.mem_iff
  constructor
  · exact collect_triple_subset ys xs (fun y hy => hwf y ((hp y).1 hy))
      (fun y => (hp y).symm) t
  · exact collect_triple_subset xs ys hwf hp t

/-- C6, witness: of the two states on the empty board the one with score 10 and
`collapse_count_` 1 is kept. -/
theorem C6_collector_keeps_best_witness :
    (collect collectExample).map State.triple
      = [(List.replicate 20 0, 10, 1), (List.replicate 19 0 ++ [3], 4, 0)] ∧
    (collect collectExample).Pairwise (fun a b => a.situ.row_ ≠ b.situ.row_) :=
  ⟨by decide, (C6_collector_keeps_best collectExample (by decide)).1⟩

/-! ## Theorems: soundness of the route finder -/

theorem kShapeBounds_sign (shp : Shape) (rot : Nat) :
    (kShapeBounds shp rot).min_x ≤ 0 ∧ 0 ≤ (kShapeBounds shp rot).max_x ∧
    0 ≤ (kShapeBounds shp rot).max_y ∧ (kShapeBounds shp rot).max_y ≤ 2 := by
  by_cases h : rot < 4
  · interval_cases rot <;> cases shp <;> decide
  · have hc : ¬ rot < shp.cnt := by
      have : shp.cnt ≤ 4 := by cases shp <;> decide
      omega
    unfold kShapeBounds
    rw [if_neg hc]
    decide

theorem Fits_range (s : Situation) (shp : Shape) (st : BrickStatus)
    (h : s.Fits shp st = true) :
    0 ≤ st.x ∧ st.x < (kW : Int) ∧ -2 ≤ st.y ∧ st.y < (kH : Int) := by
  obtain ⟨h1, h2, h3, h4⟩ := kShapeBounds_sign shp st.rot
  unfold Situation.Fits at h
  simp only [] at h
  split at h
  · exact absurd h (by simp)
  · rename_i hx
    split at h
    · exact absurd h (by simp)
    · rename_i hy
      omega

theorem and_cnt_eq_mod (shp : Shape) (r : Nat) : r &&& (shp.cnt - 1) = r % shp.cnt := by
  cases shp
  · exact Nat.and_pow_two_sub_one_eq_mod r 1
  · exact Nat.and_pow_two_sub_one_eq_mod r 2
  · exact Nat.and_pow_two_sub_one_eq_mod r 2
  · exact Nat.and_pow_two_sub_one_eq_mod r 2
  · exact Nat.and_pow_two_sub_one_eq_mod r 0
  · exact Nat.and_pow_two_sub_one_eq_mod r 1
  · exact Nat.and_pow_two_sub_one_eq_mod r 1

theorem posesFrom_append (shp : Shape) : ∀ (a : List ActionType) (st : BrickStatus)
    (b : List ActionType),
    posesFrom shp st (a ++ b) = posesFrom shp st a ++ posesFrom shp (endPose shp st a) b := by
  intro a
  induction a with
  | nil => intro st b; rfl
  | cons t more ih =>
    intro st b
    show stepPose shp t st :: posesFrom shp (stepPose shp t st) (more ++ b) = _
    rw [ih]
    rfl

theorem endPose_append (shp : Shape) (a b : List ActionType) (st : BrickStatus) :
    endPose shp st (a ++ b) = endPose shp (endPose shp st a) b := by
  simp [endPose, List.foldl_append]

theorem StepsOk_nil (s : Situation) (shp : Shape) (st : BrickStatus) : StepsOk s shp st [] st :=
  ⟨fun p hp => by simp [posesFrom] at hp, rfl⟩

theorem StepsOk_append (s : Situation) (shp : Shape) (a b : List ActionType)
    (st mid fin : BrickStatus) (h1 : StepsOk s shp st a mid) (h2 : StepsOk s shp mid b fin) :
    StepsOk s shp st (a ++ b) fin := by
  constructor
  · intro p hp
    rw [posesFrom_append, List.mem_append] at hp
    rcases hp with hp | hp
    · exact h1.1 p hp
    · rw [h1.2] at hp; exact h2.1 p hp
  · rw [endPose_append, h1.2, h2.2]

theorem StepsOk_cons (s : Situation) (shp : Shape) (t : ActionType) (more : List ActionType)
    (st fin : BrickStatus) (hfit : s.Fits shp (stepPose shp t st) = true)
    (h : StepsOk s shp (stepPose shp t st) more fin) : StepsOk s shp st (t :: more) fin := by
  constructor
  · intro p hp
    simp only [posesFrom, List.mem_cons] at hp
    rcases hp with hp | hp
    · rw [hp]; exact hfit
    · exact h.1 p hp
  · simpa [endPose] using h.2

theorem singleSteps_append (a b : List Action) :
    singleSteps (a ++ b) = singleSteps a ++ singleSteps b := by
  simp [singleSteps, List.flatMap_append]

theorem singleSteps_single (t : ActionType) (n : Nat) :
    singleSteps [⟨t, n⟩] = List.replicate n t := by
  simp [singleSteps]

theorem IsRoute_nil (s : Situation) (shp : Shape) (st : BrickStatus) : IsRoute s shp st [] st :=
  ⟨fun a ha => by simp at ha, StepsOk_nil s shp st⟩

theorem IsRoute_append (s : Situation) (shp : Shape) (a b : List Action)
    (st mid fin : BrickStatus) (h1 : IsRoute s shp st a mid) (h2 : IsRoute s shp mid b fin) :
    IsRoute s shp st (a ++ b) fin := by
  constructor
  · intro x hx
    rcases List.mem_append.1 hx with h | h
    · exact h1.1 x h
    · exact h2.1 x h
  · rw [singleSteps_append]
    exact StepsOk_append s shp _ _ st mid fin h1.2 h2.2

theorem IsRoute_single (s : Situation) (shp : Shape) (t : ActionType) (n : Nat)
    (st fin : BrickStatus) (ht : t ≠ .kNew) (h : StepsOk s shp st (List.replicate n t) fin) :
    IsRoute s shp st [⟨t, n⟩] fin := by
  constructor
  · intro a ha
    rw [List.mem_singleton] at ha
    rw [ha]; exact ht
  · rw [singleSteps_single]; exact h

theorem rotateLoop_sound (s : Situation) (shp : Shape) (from_ : BrickStatus) (to_rot : Nat) :
    ∀ (fuel cnt rot c : Nat), cnt + fuel ≤ 255 →
      rotateLoop s shp from_ to_rot fuel cnt rot = some (some c) →
      ∃ k, c = cnt + k ∧
        StepsOk s shp (from_.ReplaceRot rot) (List.replicate k .kRotate)
          (from_.ReplaceRot to_rot) := by
  intro fuel
  induction fuel with
  | zero => intro cnt rot c _ h; simp [rotateLoop] at h
  | succ fuel ih =>
    intro cnt rot c hb h
    rw [rotateLoop] at h
    by_cases hr : rot = to_rot
    · rw [if_neg (by simpa using hr)] at h
      simp only [Option.some.injEq] at h
      exact ⟨0, by omega, by rw [hr]; exact StepsOk_nil _ _ _⟩
    · rw [if_pos hr] at h
      simp only [] at h
      by_cases hf : s.Fits shp (from_.ReplaceRot ((rot + 1) &&& (shp.cnt - 1))) = true
      · rw [if_neg (by simp [hf])] at h
        have hc : (cnt + 1) % 256 = cnt + 1 := Nat.mod_eq_of_lt (by omega)
        rw [hc] at h
        obtain ⟨k, hk, hs⟩ := ih _ _ c (by omega) h
        refine ⟨k + 1, by omega, ?_⟩
        rw [List.replicate_succ]
        have hstep : stepPose shp .kRotate (from_.ReplaceRot rot)
            = from_.ReplaceRot ((rot + 1) &&& (shp.cnt - 1)) := by
          simp [stepPose, BrickStatus.ReplaceRot, and_cnt_eq_mod]
        exact StepsOk_cons s shp _ _ _ _ (by rw [hstep]; exact hf) (by rw [hstep]; exact hs)
      · rw [if_pos (by simp [hf])] at h
        simp at h

theorem ReplaceRot_self (st : BrickStatus) : st.ReplaceRot st.rot = st := rfl

theorem ReplaceX_self (st : BrickStatus) : st.ReplaceX st.x = st := rfl

theorem ReplaceY_self (st : BrickStatus) : st.ReplaceY st.y = st := rfl

theorem RotateRouteAppend_good (s : Situation) (shp : Shape) (from_ : BrickStatus)
    (to_rot : Nat) (res : List Action) :
    RouteGood s shp from_ (from_.ReplaceRot to_rot) res
      (s.RotateRouteAppend shp from_ to_rot res) := by
  intro ok r h
  unfold Situation.RotateRouteAppend at h
  by_cases hr : from_.rot = to_rot
  · rw [if_neg (by simpa using hr)] at h
    simp only [Option.some.injEq, Prod.mk.injEq] at h
    obtain ⟨h1, h2⟩ := h
    subst h1 h2
    refine ⟨fun h => by simp at h, fun _ => ⟨[], by simp, ?_⟩⟩
    rw [← hr]; exact IsRoute_nil _ _ _
  · rw [if_pos hr] at h
    cases hl : rotateLoop s shp from_ to_rot 5 0 from_.rot with
    | none => rw [hl] at h; simp at h
    | some o =>
      rw [hl] at h
      cases o with
      | none =>
        simp only [Option.some.injEq, Prod.mk.injEq] at h
        obtain ⟨h1, h2⟩ := h
        subst h1 h2
        exact ⟨fun _ => rfl, fun h => by simp at h⟩
      | some cnt =>
        simp only [] at h
        obtain ⟨k, hk, hs⟩ := rotateLoop_sound s shp from_ to_rot 5 0 from_.rot cnt (by omega) hl
        rw [ReplaceRot_self] at hs
        split at h
        · simp only [Option.some.injEq, Prod.mk.injEq] at h
          obtain ⟨h1, h2⟩ := h
          subst h1 h2
          exact ⟨fun _ => rfl, fun h => by simp at h⟩
        · split at h
          · simp only [Option.some.injEq, Prod.mk.injEq] at h
            obtain ⟨h1, h2⟩ := h
            subst h1 h2
            refine ⟨fun h => by simp at h, fun _ => ⟨_, rfl, ?_⟩⟩
            apply IsRoute_single _ _ _ _ _ _ (by decide)
            have : cnt = k := by omega
            rw [this]; exact hs
          · rename_i hz
            simp only [Option.some.injEq, Prod.mk.injEq] at h
            obtain ⟨h1, h2⟩ := h
            subst h1 h2
            refine ⟨fun h => by simp at h, fun _ => ⟨[], by simp, ?_⟩⟩
            have hk0 : k = 0 := by
              have : cnt = 0 := by simpa using hz
              omega
            subst hk0
            have := hs.2
            simp only [List.replicate_zero, endPose, List.foldl_nil] at this
            rw [← this]; exact IsRoute_nil _ _ _

theorem horizontalLoop_sound (s : Situation) (shp : Shape) (from_ : BrickStatus) (right : Bool) :
    ∀ (n : Nat) (x : Int),
      horizontalLoop s shp from_ (if right then 1 else -1) n x = true →
      StepsOk s shp (from_.ReplaceX x) (List.replicate n (if right then .kRight else .kLeft))
        (from_.ReplaceX (x + n * (if right then 1 else -1))) ∧
      (1 ≤ n → 0 ≤ x + (if right then 1 else -1) ∧ x + (if right then 1 else -1) < 10 ∧
        0 ≤ x + n * (if right then 1 else -1) ∧ x + n * (if right then 1 else -1) < 10) := by
  intro n
  induction n with
  | zero =>
    intro x _
    refine ⟨?_, fun h => by omega⟩
    simp only [List.replicate_zero, Nat.cast_zero, zero_mul, add_zero]
    exact StepsOk_nil _ _ _
  | succ n ih =>
    intro x h
    rw [horizontalLoop] at h
    by_cases hf : s.Fits shp (from_.ReplaceX (x + (if right then 1 else -1))) = true
    · rw [if_neg (by simp [hf])] at h
      obtain ⟨h1, h2⟩ := ih _ h
      have hrange := Fits_range s shp _ hf
      simp only [BrickStatus.ReplaceX] at hrange
      have hkW : (kW : Int) = 10 := rfl
      constructor
      · rw [List.replicate_succ]
        have hstep : stepPose shp (if right then ActionType.kRight else ActionType.kLeft)
            (from_.ReplaceX x) = from_.ReplaceX (x + (if right then 1 else -1)) := by
          cases right <;> simp [stepPose, BrickStatus.ReplaceX]; rfl
        have hend : x + ((n + 1 : Nat) : Int) * (if right then 1 else -1)
            = x + (if right then 1 else -1) + (n : Int) * (if right then 1 else -1) := by
          push_cast; ring
        rw [hend]
        exact StepsOk_cons s shp _ _ _ _ (by rw [hstep]; exact hf) (by rw [hstep]; exact h1)
      · intro _
        by_cases hn : 1 ≤ n
        · have := h2 hn
          cases right <;> simp at this hrange ⊢ <;> omega
        · have hn0 : n = 0 := by omega
          subst hn0
          cases right <;> simp at hrange ⊢ <;> omega
    · rw [if_pos (by simp [hf])] at h
      simp at h

theorem HorizontalRouteAppend_good (s : Situation) (shp : Shape) (from_ : BrickStatus)
    (to_x : Int) (res : List Action) :
    RouteGood s shp from_ (from_.ReplaceX to_x) res
      (s.HorizontalRouteAppend shp from_ to_x res) := by
  intro ok r h
  unfold Situation.HorizontalRouteAppend at h
  by_cases hx : from_.x = to_x
  · rw [if_neg (by simpa using hx)] at h
    simp only [Option.some.injEq, Prod.mk.injEq] at h
    obtain ⟨h1, h2⟩ := h
    subst h1 h2
    refine ⟨fun h => by simp at h, fun _ => ⟨[], by simp, ?_⟩⟩
    rw [← hx]; exact IsRoute_nil _ _ _
  · rw [if_pos hx] at h
    simp only [] at h
    by_cases hgt : to_x > from_.x
    · simp only [if_pos hgt] at h
      split at h
      · simp only [Option.some.injEq, Prod.mk.injEq] at h
        obtain ⟨h1, h2⟩ := h
        subst h1 h2
        exact ⟨fun _ => rfl, fun h => by simp at h⟩
      · rename_i hl
        simp only [Option.some.injEq, Prod.mk.injEq] at h
        obtain ⟨h1, h2⟩ := h
        subst h1 h2
        refine ⟨fun h => by simp at h, fun _ => ⟨_, rfl, ?_⟩⟩
        have hl2 : horizontalLoop s shp from_ (if true then 1 else -1)
            (to_x - from_.x).natAbs from_.x = true := by simpa using hl
        obtain ⟨hs, hb⟩ := horizontalLoop_sound s shp from_ true _ _ hl2
        have hb2 := hb (by omega)
        simp only [if_true] at hb2 hs
        have hn : (to_x - from_.x).toNat % 256 = (to_x - from_.x).natAbs := by omega
        have hend : from_.x + ((to_x - from_.x).natAbs : Int) * 1 = to_x := by omega
        rw [hn]
        rw [hend, ReplaceX_self] at hs
        exact IsRoute_single _ _ _ _ _ _ (by decide) hs
    · simp only [if_neg hgt] at h
      split at h
      · simp only [Option.some.injEq, Prod.mk.injEq] at h
        obtain ⟨h1, h2⟩ := h
        subst h1 h2
        exact ⟨fun _ => rfl, fun h => by simp at h⟩
      · rename_i hl
        simp only [Option.some.injEq, Prod.mk.injEq] at h
        obtain ⟨h1, h2⟩ := h
        subst h1 h2
        refine ⟨fun h => by simp at h, fun _ => ⟨_, rfl, ?_⟩⟩
        have hl2 : horizontalLoop s shp from_ (if false then 1 else -1)
            (to_x - from_.x).natAbs from_.x = true := by simpa using hl
        obtain ⟨hs, hb⟩ := horizontalLoop_sound s shp from_ false _ _ hl2
        have hb2 := hb (by omega)
        simp only [Bool.false_eq_true, if_false] at hb2 hs
        have hn : (from_.x - to_x).toNat % 256 = (to_x - from_.x).natAbs := by omega
        have hend : from_.x + ((to_x - from_.x).natAbs : Int) * -1 = to_x := by omega
        rw [hn]
        rw [hend, ReplaceX_self] at hs
        exact IsRoute_single _ _ _ _ _ _ (by decide) hs

theorem downLoop_sound (s : Situation) (shp : Shape) (from_ : BrickStatus) :
    ∀ (n : Nat) (y : Int), downLoop s shp from_ n y = true →
      StepsOk s shp (from_.ReplaceY y) (List.replicate n .kDown) (from_.ReplaceY (y + n)) ∧
      (1 ≤ n → -2 ≤ y + 1 ∧ y + n < 20) := by
  intro n
  induction n with
  | zero =>
    intro y _
    refine ⟨?_, fun h => by omega⟩
    simp only [List.replicate_zero, Nat.cast_zero, add_zero]
    exact StepsOk_nil _ _ _
  | succ n ih =>
    intro y h
    rw [downLoop] at h
    by_cases hf : s.Fits shp (from_.ReplaceY (y + 1)) = true
    · rw [if_neg (by simp [hf])] at h
      obtain ⟨h1, h2⟩ := ih _ h
      have hrange := Fits_range s shp _ hf
      simp only [BrickStatus.ReplaceY] at hrange
      have hkH : (kH : Int) = 20 := rfl
      constructor
      · rw [List.replicate_succ]
        have hstep : stepPose shp .kDown (from_.ReplaceY y) = from_.ReplaceY (y + 1) := rfl
        have hend : y + ((n + 1 : Nat) : Int) = y + 1 + (n : Int) := by push_cast; ring
        rw [hend]
        exact StepsOk_cons s shp _ _ _ _ (by rw [hstep]; exact hf) (by rw [hstep]; exact h1)
      · intro _
        by_cases hn : 1 ≤ n
        · have := h2 hn
          push_cast
          omega
        · have hn0 : n = 0 := by omega
          subst hn0
          simp
          omega
    · rw [if_pos (by simp [hf])] at h
      simp at h

theorem RouteGood.weak {s : Situation} {shp : Shape} {from_ to_ : BrickStatus}
    {res : List Action} {out : RouteResult} (h : RouteGood s shp from_ to_ res out) :
    RouteWeak s shp from_ to_ res out := by
  intro ok r hr
  obtain ⟨h1, h2⟩ := h ok r hr
  exact ⟨fun hf => ⟨[], by rw [h1 hf]; simp⟩, h2⟩

theorem RouteGood_false (s : Situation) (shp : Shape) (from_ to_ : BrickStatus)
    (res : List Action) : RouteGood s shp from_ to_ res (some (false, res)) := by
  intro ok r h
  simp only [Option.some.injEq, Prod.mk.injEq] at h
  obtain ⟨h1, h2⟩ := h
  subst h1 h2
  exact ⟨fun _ => rfl, fun h => by simp at h⟩

theorem andThen_weak (s : Situation) (shp : Shape) (from_ mid to_ : BrickStatus)
    (res : List Action) (a : RouteResult) (b : List Action → RouteResult)
    (ha : RouteWeak s shp from_ mid res a)
    (hb : ∀ r1, RouteWeak s shp mid to_ r1 (b r1)) :
    RouteWeak s shp from_ to_ res (a.andThen b) := by
  intro ok r h
  match a, ha, h with
  | none, _, h => simp [RouteResult.andThen] at h
  | some (false, r1), ha, h =>
    simp only [RouteResult.andThen, Option.some.injEq, Prod.mk.injEq] at h
    obtain ⟨h1, h2⟩ := h
    subst h1 h2
    exact ⟨fun _ => (ha false r1 rfl).1 rfl, fun h => by simp at h⟩
  | some (true, r1), ha, h =>
    simp only [RouteResult.andThen] at h
    obtain ⟨acts1, he1, hroute1⟩ := (ha true r1 rfl).2 rfl
    obtain ⟨hf, ht⟩ := hb r1 ok r h
    constructor
    · intro hok
      obtain ⟨acts2, he2⟩ := hf hok
      exact ⟨acts1 ++ acts2, by rw [he2, he1, List.append_assoc]⟩
    · intro hok
      obtain ⟨acts2, he2, hroute2⟩ := ht hok
      exact ⟨acts1 ++ acts2, by rw [he2, he1, List.append_assoc],
        IsRoute_append s shp _ _ _ _ _ hroute1 hroute2⟩

theorem orResize_good (s : Situation) (shp : Shape) (from_ to_ : BrickStatus)
    (res : List Action) (a : RouteResult) (ha : RouteWeak s shp from_ to_ res a) :
    RouteGood s shp from_ to_ res (a.orResize res.length) := by
  intro ok r h
  match a, ha, h with
  | none, _, h => simp [RouteResult.orResize] at h
  | some (true, r1), ha, h =>
    simp only [RouteResult.orResize, Option.some.injEq, Prod.mk.injEq] at h
    obtain ⟨h1, h2⟩ := h
    subst h1 h2
    exact ⟨fun h => by simp at h, fun _ => (ha true r1 rfl).2 rfl⟩
  | some (false, r1), ha, h =>
    simp only [RouteResult.orResize, Option.some.injEq, Prod.mk.injEq] at h
    obtain ⟨h1, h2⟩ := h
    subst h1 h2
    obtain ⟨acts, he⟩ := (ha false r1 rfl).1 rfl
    exact ⟨fun _ => by rw [he]; simp, fun h => by simp at h⟩

theorem orElse_weak_good (s : Situation) (shp : Shape) (from_ to_ : BrickStatus)
    (res : List Action) (a : RouteResult) (k : List Action → RouteResult)
    (ha : RouteWeak s shp from_ to_ res a)
    (hk : ∀ acts, RouteGood s shp from_ to_ res (k (res ++ acts))) :
    RouteGood s shp from_ to_ res (a.orElse k) := by
  intro ok r h
  match a, ha, h with
  | none, _, h => simp [RouteResult.orElse] at h
  | some (true, r1), ha, h =>
    simp only [RouteResult.orElse, Option.some.injEq, Prod.mk.injEq] at h
    obtain ⟨h1, h2⟩ := h
    subst h1 h2
    exact ⟨fun h => by simp at h, fun _ => (ha true r1 rfl).2 rfl⟩
  | some (false, r1), ha, h =>
    simp only [RouteResult.orElse] at h
    obtain ⟨acts, he⟩ := (ha false r1 rfl).1 rfl
    subst he
    exact hk acts ok r h

theorem orElse_good (s : Situation) (shp : Shape) (from_ to_ : BrickStatus)
    (res : List Action) (a : RouteResult) (k : List Action → RouteResult)
    (ha : RouteGood s shp from_ to_ res a) (hk : RouteGood s shp from_ to_ res (k res)) :
    RouteGood s shp from_ to_ res (a.orElse k) := by
  intro ok r h
  match a, ha, h with
  | none, _, h => simp [RouteResult.orElse] at h
  | some (true, r1), ha, h =>
    simp only [RouteResult.orElse, Option.some.injEq, Prod.mk.injEq] at h
    obtain ⟨h1, h2⟩ := h
    subst h1 h2
    exact ⟨fun h => by simp at h, fun _ => (ha true r1 rfl).2 rfl⟩
  | some (false, r1), ha, h =>
    simp only [RouteResult.orElse] at h
    have := (ha false r1 rfl).1 rfl
    subst this
    exact hk ok r h

theorem naiveTurn_good (s : Situation) (shp : Shape) (from_ to_ : BrickStatus)
    (res : List Action) :
    RouteGood s shp from_ ⟨to_.x, from_.y, to_.rot⟩ res (naiveTurn s shp from_ to_ res) := by
  unfold naiveTurn
  apply orElse_weak_good
  · exact andThen_weak s shp from_ (from_.ReplaceRot to_.rot) _ res _ _
      (RotateRouteAppend_good s shp from_ to_.rot res).weak
      (fun r1 => (HorizontalRouteAppend_good s shp _ to_.x r1).weak)
  · intro acts
    have ht : (res ++ acts).take res.length = res := by simp
    rw [ht]
    exact orResize_good s shp from_ _ res _
      (andThen_weak s shp from_ (from_.ReplaceX to_.x) _ res _ _
        (HorizontalRouteAppend_good s shp from_ to_.x res).weak
        (fun r1 => (RotateRouteAppend_good s shp _ to_.rot r1).weak))

theorem naiveDown_good (s : Situation) (shp : Shape) (from_ to_ : BrickStatus)
    (hx : from_.x = to_.x) (hrot : from_.rot = to_.rot) (hy : ¬ to_.y < from_.y)
    (res acts1 : List Action) (ok : Bool) (r : List Action)
    (h : naiveDown s shp from_ to_ res.length (res ++ acts1) = some (ok, r)) :
    (ok = false → r = res) ∧
    (ok = true → ∃ acts2, r = res ++ acts1 ++ acts2 ∧ IsRoute s shp from_ acts2 to_) := by
  unfold naiveDown at h
  have hto : to_ = from_.ReplaceY to_.y := by
    cases to_; cases from_; simp_all [BrickStatus.ReplaceY]
  by_cases hgt : to_.y > from_.y
  · rw [if_pos hgt] at h
    by_cases hl : downLoop s shp from_ (to_.y - from_.y).toNat from_.y = true
    · rw [if_neg (by simp [hl])] at h
      simp only [Option.some.injEq, Prod.mk.injEq] at h
      obtain ⟨h1, h2⟩ := h
      subst h1 h2
      refine ⟨fun h => by simp at h, fun _ => ⟨_, rfl, ?_⟩⟩
      obtain ⟨hs, hb⟩ := downLoop_sound s shp _ _ _ hl
      have hb2 := hb (by omega)
      have hn : (to_.y - from_.y).toNat % 256 = (to_.y - from_.y).toNat := by omega
      have hend : from_.y + ((to_.y - from_.y).toNat : Int) = to_.y := by omega
      rw [hend, ReplaceY_self, ← hto] at hs
      rw [hn]
      exact IsRoute_single _ _ _ _ _ _ (by decide) hs
    · rw [if_pos (by simp [hl])] at h
      simp only [Option.some.injEq, Prod.mk.injEq] at h
      obtain ⟨h1, h2⟩ := h
      subst h1 h2
      exact ⟨fun _ => by simp, fun h => by simp at h⟩
  · rw [if_neg hgt] at h
    simp only [Option.some.injEq, Prod.mk.injEq] at h
    obtain ⟨h1, h2⟩ := h
    subst h1 h2
    refine ⟨fun h => by simp at h, fun _ => ⟨[], by simp, ?_⟩⟩
    have hyeq : to_.y = from_.y := by omega
    have : to_ = from_ := by rw [hto, hyeq]; rfl
    rw [this]; exact IsRoute_nil _ _ _

theorem AppendRouteNaive_good (s : Situation) (shp : Shape) (from_ to_ : BrickStatus)
    (res : List Action) :
    RouteGood s shp from_ to_ res (s.AppendRouteNaive shp from_ to_ res) := by
  unfold Situation.AppendRouteNaive
  by_cases hy : to_.y < from_.y
  · rw [if_pos hy]; exact RouteGood_false _ _ _ _ _
  · rw [if_neg hy]
    have hturn := naiveTurn_good s shp from_ to_ res
    intro ok r h
    match hT : naiveTurn s shp from_ to_ res, hturn, h with
    | none, _, h => simp [RouteResult.andThen] at h
    | some (false, r1), hturn, h =>
      simp only [RouteResult.andThen, Option.some.injEq, Prod.mk.injEq] at h
      obtain ⟨h1, h2⟩ := h
      subst h1 h2
      exact ⟨fun _ => (hturn false r1 rfl).1 rfl, fun h => by simp at h⟩
    | some (true, r1), hturn, h =>
      simp only [RouteResult.andThen] at h
      obtain ⟨acts1, he1, hroute1⟩ := (hturn true r1 rfl).2 rfl
      subst he1
      obtain ⟨hf, ht⟩ := naiveDown_good s shp ⟨to_.x, from_.y, to_.rot⟩ to_ rfl rfl hy
        res acts1 ok r h
      refine ⟨hf, fun hok => ?_⟩
      obtain ⟨acts2, he2, hroute2⟩ := ht hok
      exact ⟨acts1 ++ acts2, by rw [he2, List.append_assoc],
        IsRoute_append s shp _ _ _ _ _ hroute1 hroute2⟩

theorem bottomLoop_good (rec_ : RouteFn) (s : Situation) (shp : Shape)
    (from_ to_ : BrickStatus) (options dir : Nat)
    (hrec : ∀ f t r o, RouteGood s shp f t r (rec_ f t r o)) (res : List Action) :
    ∀ dxs, RouteGood s shp from_ to_ res
      (bottomLoop rec_ s shp from_ to_ options res.length dir dxs res) := by
  intro dxs
  induction dxs with
  | nil => exact RouteGood_false _ _ _ _ _
  | cons dx more ih =>
    rw [bottomLoop]
    simp only []
    generalize (if dir = 0 then to_.x + (dx : Int) else to_.x - (dx : Int)) = x
    by_cases h1 : (!XInRange x) = true
    · rw [if_pos h1]; exact RouteGood_false _ _ _ _ _
    · rw [if_neg h1]
      by_cases h2 : (!s.Fits shp (to_.ReplaceX x)) = true
      · rw [if_pos h2]; exact RouteGood_false _ _ _ _ _
      · rw [if_neg h2]
        apply orElse_good _ _ _ _ _ _ _ _ ih
        apply orResize_good
        exact andThen_weak s shp from_ _ _ res _ _ (hrec _ _ _ _).weak
          (fun r1 => (HorizontalRouteAppend_good s shp _ to_.x r1).weak)

theorem topLoop_good (rec_ : RouteFn) (s : Situation) (shp : Shape)
    (from_ to_ : BrickStatus) (options dir : Nat)
    (hrec : ∀ f t r o, RouteGood s shp f t r (rec_ f t r o)) (res : List Action) :
    ∀ dxs, RouteGood s shp from_ to_ res
      (topLoop rec_ s shp from_ to_ options res.length dir dxs res) := by
  intro dxs
  induction dxs with
  | nil => exact RouteGood_false _ _ _ _ _
  | cons dx more ih =>
    rw [topLoop]
    simp only []
    generalize (if dir = 0 then from_.x + (dx : Int) else from_.x - (dx : Int)) = x
    by_cases h1 : (!XInRange x) = true
    · rw [if_pos h1]; exact RouteGood_false _ _ _ _ _
    · rw [if_neg h1]
      by_cases h2 : (!s.Fits shp (from_.ReplaceX x)) = true
      · rw [if_pos h2]; exact RouteGood_false _ _ _ _ _
      · rw [if_neg h2]
        apply orElse_good _ _ _ _ _ _ _ _ ih
        apply orResize_good
        exact andThen_weak s shp from_ _ _ res _ _
          (HorizontalRouteAppend_good s shp from_ _ res).weak
          (fun r1 => (hrec _ _ _ _).weak)

theorem tspinLoop_good (rec_ : RouteFn) (s : Situation) (shp : Shape)
    (from_ to_ : BrickStatus) (options : Nat)
    (hrec : ∀ f t r o, RouteGood s shp f t r (rec_ f t r o)) (res : List Action) :
    ∀ fuel rot, RouteGood s shp from_ to_ res
      (tspinLoop rec_ s shp from_ to_ options res.length fuel rot res) := by
  intro fuel
  induction fuel with
  | zero => intro rot ok r h; simp [tspinLoop] at h
  | succ fuel ih =>
    intro rot
    rw [tspinLoop]
    simp only []
    generalize (if rot ≠ 0 then rot - 1 else shp.cnt - 1) = rot1
    by_cases h1 : rot1 ≠ to_.rot
    · rw [if_pos h1]
      by_cases h2 : (!s.Fits shp (to_.ReplaceRot rot1)) = true
      · rw [if_pos h2]; exact RouteGood_false _ _ _ _ _
      · rw [if_neg h2]
        apply orElse_good _ _ _ _ _ _ _ _ (ih _)
        apply orResize_good
        exact andThen_weak s shp from_ _ _ res _ _ (hrec _ _ _ _).weak
          (fun r1 => (RotateRouteAppend_good s shp _ to_.rot r1).weak)
    · rw [if_neg h1]; exact RouteGood_false _ _ _ _ _

theorem ispinLoop_good (rec_ : RouteFn) (s : Situation) (shp : Shape)
    (from_ to_ : BrickStatus) (options : Nat)
    (hrec : ∀ f t r o, RouteGood s shp f t r (rec_ f t r o)) (res : List Action) :
    ∀ fuel rot, RouteGood s shp from_ to_ res
      (ispinLoop rec_ s shp from_ to_ options res.length fuel rot res) := by
  intro fuel
  induction fuel with
  | zero => intro rot ok r h; simp [ispinLoop] at h
  | succ fuel ih =>
    intro rot
    rw [ispinLoop]
    simp only []
    generalize ((rot + 1) &&& (shp.cnt - 1)) = rot1
    by_cases h1 : rot1 ≠ from_.rot
    · rw [if_pos h1]
      by_cases h2 : (!s.Fits shp (from_.ReplaceRot rot1)) = true
      · rw [if_pos h2]; exact RouteGood_false _ _ _ _ _
      · rw [if_neg h2]
        apply orElse_good _ _ _ _ _ _ _ _ (ih _)
        apply orResize_good
        exact andThen_weak s shp from_ _ _ res _ _
          (RotateRouteAppend_good s shp from_ _ res).weak
          (fun r1 => (hrec _ _ _ _).weak)
    · rw [if_neg h1]; exact RouteGood_false _ _ _ _ _

theorem AppendRouteAux_good (s : Situation) (shp : Shape) :
    ∀ (fuel : Nat) (from_ to_ : BrickStatus) (res : List Action) (options : Nat),
      RouteGood s shp from_ to_ res (AppendRouteAux s shp fuel from_ to_ res options) := by
  intro fuel
  induction fuel with
  | zero => intro from_ to_ res options ok r h; simp [AppendRouteAux] at h
  | succ fuel ih =>
    intro from_ to_ res options
    rw [AppendRouteAux]
    simp only []
    apply orElse_good _ _ _ _ _ _ _ (AppendRouteNaive_good s shp from_ to_ res)
    apply orElse_good
    · split
      · apply orElse_good
        · exact bottomLoop_good _ s shp from_ to_ options 0 ih res _
        · exact bottomLoop_good _ s shp from_ to_ options 1 ih res _
      · exact RouteGood_false _ _ _ _ _
    apply orElse_good
    · split
      · apply orElse_good
        · exact topLoop_good _ s shp from_ to_ options 0 ih res _
        · exact topLoop_good _ s shp from_ to_ options 1 ih res _
      · exact RouteGood_false _ _ _ _ _
    apply orElse_good
    · split
      · split
        · apply orResize_good
          exact andThen_weak s shp from_ _ _ res _ _ (ih _ _ _ _).weak
            (fun r1 => (AppendRouteNaive_good s shp _ to_ r1).weak)
        · exact RouteGood_false _ _ _ _ _
      · exact RouteGood_false _ _ _ _ _
    apply orElse_good
    · split
      · exact tspinLoop_good _ s shp from_ to_ options ih res _ _
      · exact RouteGood_false _ _ _ _ _
    · split
      · exact ispinLoop_good _ s shp from_ to_ options ih res _ _
      · exact RouteGood_false _ _ _ _ _

theorem AppendRoute_good (s : Situation) (shp : Shape) (from_ to_ : BrickStatus)
    (res : List Action) (options : Nat) :
    RouteGood s shp from_ to_ res (s.AppendRoute shp from_ to_ res options) :=
  AppendRouteAux_good s shp _ from_ to_ res options

/-! ## Theorems: C2 and the counterexample of C10 -/

/-- C2: route finder soundness.  When `AppendRoute` returns true, the actions it
appended, executed as single steps from `from` (Rotate: `rot` to `(rot+1) mod
cnt`, Left: `x-1`, Right: `x+1`, Down: `y+1`, each repeated `by` times), pass
only through poses that fit on the board and end exactly at `to`. -/
theorem C2_route_sound (s : Situation) (shp : Shape) (from_ to_ : BrickStatus)
    (res : List Action) (options : Nat) (res1 : List Action)
    (_hfrom : from_.rot < shp.cnt) (_hto : to_.rot < shp.cnt)
    (h : s.AppendRoute shp from_ to_ res options = some (true, res1)) :
    ∃ acts, res1 = res ++ acts ∧
      (∀ p ∈ posesFrom shp from_ (singleSteps acts), s.Fits shp p = true) ∧
      endPose shp from_ (singleSteps acts) = to_ := by
  obtain ⟨acts, he, hroute⟩ := (AppendRoute_good s shp from_ to_ res options true res1 h).2 rfl
  exact ⟨acts, he, hroute.2.1, hroute.2.2⟩

set_option maxRecDepth 100000 in
/-- On `tspinBoard` the finder reaches the cavity from the spawn pose by a route
that ends in a rotation. -/
theorem tspin_route :
    tspinBoard.AppendRoute .kShapeT ⟨4, 0, 0⟩ ⟨1, 3, 0⟩ []
      = some (true, [⟨.kRight, 1⟩, ⟨.kRotate, 1⟩, ⟨.kLeft, 4⟩, ⟨.kDown, 3⟩, ⟨.kRotate, 3⟩]) := by
  decide

/-- C2, witness: the route into the cavity of `tspinBoard`, ending in a
rotation. -/
theorem C2_route_sound_witness :
    ∃ acts, [⟨.kRight, 1⟩, ⟨.kRotate, 1⟩, ⟨.kLeft, 4⟩, ⟨.kDown, 3⟩, ⟨.kRotate, 3⟩] = [] ++ acts ∧
      (∀ p ∈ posesFrom .kShapeT ⟨4, 0, 0⟩ (singleSteps acts),
        tspinBoard.Fits .kShapeT p = true) ∧
      endPose .kShapeT ⟨4, 0, 0⟩ (singleSteps acts) = ⟨1, 3, 0⟩ :=
  C2_route_sound tspinBoard .kShapeT ⟨4, 0, 0⟩ ⟨1, 3, 0⟩ [] 0 _ (by decide) (by decide)
    tspin_route

theorem StepsOk_cons_inv (s : Situation) (shp : Shape) (t : ActionType)
    (more : List ActionType) (st fin : BrickStatus) (h : StepsOk s shp st (t :: more) fin) :
    s.Fits shp (stepPose shp t st) = true ∧ StepsOk s shp (stepPose shp t st) more fin := by
  obtain ⟨h1, h2⟩ := h
  refine ⟨h1 _ (by simp [posesFrom]), ?_, ?_⟩
  · intro p hp
    exact h1 p (by simp only [posesFrom, List.mem_cons]; exact Or.inr hp)
  · simpa [endPose] using h2

theorem StepsOk_append_inv (s : Situation) (shp : Shape) (a b : List ActionType)
    (st fin : BrickStatus) (h : StepsOk s shp st (a ++ b) fin) :
    StepsOk s shp st a (endPose shp st a) ∧ StepsOk s shp (endPose shp st a) b fin := by
  obtain ⟨h1, h2⟩ := h
  rw [posesFrom_append] at h1
  rw [endPose_append] at h2
  exact ⟨⟨fun p hp => h1 p (List.mem_append_left _ hp), rfl⟩,
    ⟨fun p hp => h1 p (List.mem_append_right _ hp), h2⟩⟩

theorem cnt_pos (shp : Shape) : 0 < shp.cnt := by cases shp <;> decide

theorem cnt_le_four (shp : Shape) : shp.cnt ≤ 4 := by cases shp <;> decide

theorem rotateLoop_total (s : Situation) (shp : Shape) (from_ : BrickStatus) (to_rot : Nat) :
    ∀ (n fuel cnt rot : Nat), n < fuel → rot < shp.cnt → (rot + n) % shp.cnt = to_rot →
      rotateLoop s shp from_ to_rot fuel cnt rot ≠ none := by
  intro n
  induction n with
  | zero =>
    intro fuel cnt rot hf hrot he
    obtain ⟨f, rfl⟩ : ∃ f, fuel = f + 1 := ⟨fuel - 1, by omega⟩
    rw [Nat.add_zero, Nat.mod_eq_of_lt hrot] at he
    rw [rotateLoop, if_neg (by simpa using he)]
    simp
  | succ n ih =>
    intro fuel cnt rot hf hrot he
    obtain ⟨f, rfl⟩ : ∃ f, fuel = f + 1 := ⟨fuel - 1, by omega⟩
    rw [rotateLoop]
    split
    · simp only []
      split
      · simp
      · apply ih f _ _ (by omega)
        · rw [and_cnt_eq_mod]; exact Nat.mod_lt _ (cnt_pos shp)
        · rw [and_cnt_eq_mod, Nat.mod_add_mod, ← he]
          congr 1
          omega
    · simp

theorem exists_rot_distance (shp : Shape) (rot to_rot : Nat) (h1 : rot < shp.cnt)
    (h2 : to_rot < shp.cnt) : ∃ n, n < 4 ∧ (rot + n) % shp.cnt = to_rot := by
  refine ⟨(to_rot + shp.cnt - rot) % shp.cnt, ?_, ?_⟩
  · exact lt_of_lt_of_le (Nat.mod_lt _ (cnt_pos shp)) (cnt_le_four shp)
  · cases shp <;> simp only [Shape.cnt] at * <;> omega

theorem RotateRouteAppend_total (s : Situation) (shp : Shape) (from_ : BrickStatus)
    (to_rot : Nat) (res : List Action) (h1 : from_.rot < shp.cnt) (h2 : to_rot < shp.cnt) :
    s.RotateRouteAppend shp from_ to_rot res ≠ none := by
  unfold Situation.RotateRouteAppend
  split
  · obtain ⟨n, hn, he⟩ := exists_rot_distance shp from_.rot to_rot h1 h2
    have := rotateLoop_total s shp from_ to_rot n 5 0 from_.rot (by omega) h1 he
    cases hl : rotateLoop s shp from_ to_rot 5 0 from_.rot with
    | none => exact absurd hl this
    | some o =>
      cases o with
      | none => simp
      | some c =>
        simp only []
        split
        · simp
        · split <;> simp
  · simp

theorem HorizontalRouteAppend_total (s : Situation) (shp : Shape) (from_ : BrickStatus)
    (to_x : Int) (res : List Action) : s.HorizontalRouteAppend shp from_ to_x res ≠ none := by
  unfold Situation.HorizontalRouteAppend
  simp only []
  repeat' split
  all_goals simp

theorem andThen_total (a : RouteResult) (b : List Action → RouteResult) (ha : a ≠ none)
    (hb : ∀ r, b r ≠ none) : a.andThen b ≠ none := by
  match a, ha with
  | none, ha => exact absurd rfl ha
  | some (false, r1), _ => simp [RouteResult.andThen]
  | some (true, r1), _ => simpa [RouteResult.andThen] using hb r1

theorem orResize_total (a : RouteResult) (size : Nat) (ha : a ≠ none) :
    a.orResize size ≠ none := by
  match a, ha with
  | none, ha => exact absurd rfl ha
  | some (false, r1), _ => simp [RouteResult.orResize]
  | some (true, r1), _ => simp [RouteResult.orResize]

theorem orElse_total (a : RouteResult) (k : List Action → RouteResult) (ha : a ≠ none)
    (hk : ∀ r, k r ≠ none) : a.orElse k ≠ none := by
  match a, ha with
  | none, ha => exact absurd rfl ha
  | some (true, r1), _ => simp [RouteResult.orElse]
  | some (false, r1), _ => simpa [RouteResult.orElse] using hk r1

theorem some_ne_none_false (res : List Action) :
    (some (false, res) : RouteResult) ≠ none := by simp

theorem naiveDown_total (s : Situation) (shp : Shape) (from_ to_ : BrickStatus) (size : Nat)
    (res : List Action) : naiveDown s shp from_ to_ size res ≠ none := by
  unfold naiveDown
  split
  · split <;> simp
  · simp

theorem AppendRouteNaive_total (s : Situation) (shp : Shape) (from_ to_ : BrickStatus)
    (res : List Action) (h1 : from_.rot < shp.cnt) (h2 : to_.rot < shp.cnt) :
    s.AppendRouteNaive shp from_ to_ res ≠ none := by
  unfold Situation.AppendRouteNaive
  split
  · simp
  · apply andThen_total
    · unfold naiveTurn
      apply orElse_total
      · exact andThen_total _ _ (RotateRouteAppend_total s shp from_ _ res h1 h2)
          (fun r => HorizontalRouteAppend_total s shp _ _ r)
      · intro r
        apply orResize_total
        exact andThen_total _ _ (HorizontalRouteAppend_total s shp _ _ _)
          (fun r1 => RotateRouteAppend_total s shp _ _ r1 h1 h2)
    · intro r; exact naiveDown_total s shp _ _ _ r

theorem bottomLoop_total (rec_ : RouteFn) (s : Situation) (shp : Shape)
    (from_ to_ : BrickStatus) (options size dir : Nat) (h1 : from_.rot < shp.cnt)
    (h2 : to_.rot < shp.cnt)
    (hrec : RecTotal shp rec_ (options ||| kBottomLeftRight) to_.y) :
    ∀ dxs res, bottomLoop rec_ s shp from_ to_ options size dir dxs res ≠ none := by
  intro dxs
  induction dxs with
  | nil => intro res; simp [bottomLoop]
  | cons dx more ih =>
    intro res
    rw [bottomLoop]
    simp only []
    generalize (if dir = 0 then to_.x + (dx : Int) else to_.x - (dx : Int)) = x
    split
    · simp
    · split
      · simp
      · apply orElse_total _ _ _ ih
        apply orResize_total
        exact andThen_total _ _ (hrec _ _ _ h1 h2 rfl)
          (fun r => HorizontalRouteAppend_total s shp _ _ r)

theorem topLoop_total (rec_ : RouteFn) (s : Situation) (shp : Shape)
    (from_ to_ : BrickStatus) (options size dir : Nat) (h1 : from_.rot < shp.cnt)
    (h2 : to_.rot < shp.cnt)
    (hrec : RecTotal shp rec_ (options ||| kTopLeftRight) to_.y) :
    ∀ dxs res, topLoop rec_ s shp from_ to_ options size dir dxs res ≠ none := by
  intro dxs
  induction dxs with
  | nil => intro res; simp [topLoop]
  | cons dx more ih =>
    intro res
    rw [topLoop]
    simp only []
    generalize (if dir = 0 then from_.x + (dx : Int) else from_.x - (dx : Int)) = x
    split
    · simp
    · split
      · simp
      · apply orElse_total _ _ _ ih
        apply orResize_total
        exact andThen_total _ _ (HorizontalRouteAppend_total s shp _ _ _)
          (fun r => hrec _ _ _ h1 h2 rfl)

theorem tspinLoop_total (rec_ : RouteFn) (s : Situation) (shp : Shape)
    (from_ to_ : BrickStatus) (options size : Nat) (h1 : from_.rot < shp.cnt)
    (h2 : to_.rot < shp.cnt)
    (hrec : RecTotal shp rec_ (options ||| kTSpin) to_.y) :
    ∀ (n fuel rot : Nat) (res : List Action), 1 ≤ n → n ≤ fuel → rot < shp.cnt →
      (to_.rot + n) % shp.cnt = rot →
      tspinLoop rec_ s shp from_ to_ options size fuel rot res ≠ none := by
  intro n
  induction n with
  | zero => intro fuel rot res h; omega
  | succ n ih =>
    intro fuel rot res _ hf hrot he
    obtain ⟨f, rfl⟩ : ∃ f, fuel = f + 1 := ⟨fuel - 1, by omega⟩
    rw [tspinLoop]
    simp only []
    have hr1 : (if rot ≠ 0 then rot - 1 else shp.cnt - 1) < shp.cnt := by
      have := cnt_pos shp
      split <;> omega
    have hnext : (to_.rot + n) % shp.cnt = (if rot ≠ 0 then rot - 1 else shp.cnt - 1) := by
      cases shp <;> simp only [Shape.cnt] at * <;> split <;> omega
    generalize (if rot ≠ 0 then rot - 1 else shp.cnt - 1) = rot1 at hr1 hnext
    split
    · rename_i hne
      split
      · simp
      · have hn1 : 1 ≤ n := by
          by_contra hc
          have : n = 0 := by omega
          subst this
          rw [Nat.add_zero, Nat.mod_eq_of_lt h2] at hnext
          exact hne hnext.symm
        apply orElse_total _ _ _ (fun r => ih f rot1 r hn1 (by omega) hr1 hnext)
        apply orResize_total
        exact andThen_total _ _ (hrec _ _ _ h1 hr1 rfl)
          (fun r => RotateRouteAppend_total s shp _ _ r hr1 h2)
    · simp

theorem ispinLoop_total (rec_ : RouteFn) (s : Situation) (shp : Shape)
    (from_ to_ : BrickStatus) (options size : Nat) (h1 : from_.rot < shp.cnt)
    (h2 : to_.rot < shp.cnt)
    (hrec : RecTotal shp rec_ (options ||| kInitialSpin) to_.y) :
    ∀ (n fuel rot : Nat) (res : List Action), 1 ≤ n → n ≤ fuel → rot < shp.cnt →
      (rot + n) % shp.cnt = from_.rot →
      ispinLoop rec_ s shp from_ to_ options size fuel rot res ≠ none := by
  intro n
  induction n with
  | zero => intro fuel rot res h; omega
  | succ n ih =>
    intro fuel rot res _ hf hrot he
    obtain ⟨f, rfl⟩ : ∃ f, fuel = f + 1 := ⟨fuel - 1, by omega⟩
    rw [ispinLoop]
    simp only []
    rw [and_cnt_eq_mod]
    have hr1 : (rot + 1) % shp.cnt < shp.cnt := Nat.mod_lt _ (cnt_pos shp)
    have hnext : ((rot + 1) % shp.cnt + n) % shp.cnt = from_.rot := by
      rw [Nat.mod_add_mod, ← he]; congr 1; omega
    generalize (rot + 1) % shp.cnt = rot1 at hr1 hnext
    split
    · rename_i hne
      split
      · simp
      · have hn1 : 1 ≤ n := by
          by_contra hc
          have : n = 0 := by omega
          subst this
          rw [Nat.add_zero, Nat.mod_eq_of_lt hr1] at hnext
          exact hne hnext
        apply orElse_total _ _ _ (fun r => ih f rot1 r hn1 (by omega) hr1 hnext)
        apply orResize_total
        exact andThen_total _ _ (RotateRouteAppend_total s shp _ _ _ h1 hr1)
          (fun r => hrec _ _ _ hr1 h2 rfl)
    · simp

theorem or_and_flag (o f g : Nat) : (o ||| f) &&& g = (o &&& g) ||| (f &&& g) := by
  apply Nat.eq_of_testBit_eq
  intro i
  simp only [Nat.testBit_and, Nat.testBit_or]
  cases o.testBit i <;> cases f.testBit i <;> cases g.testBit i <;> rfl

theorem flag_other (o f g : Nat) (hfg : f &&& g = 0) : (o ||| f) &&& g = o &&& g := by
  rw [or_and_flag, hfg, Nat.or_zero]

theorem flag_self (o f : Nat) (h0 : o &&& f = 0) : (o ||| f) &&& f = f := by
  rw [or_and_flag, h0, Nat.zero_or, Nat.and_self]

theorem routeDepth_flag (options f : Nat) (to_ via : BrickStatus) (hy : via.y = to_.y)
    (hf : f = kBottomLeftRight ∨ f = kTopLeftRight ∨ f = kTSpin ∨ f = kInitialSpin)
    (h0 : options &&& f = 0) : routeDepth (options ||| f) via + 1 ≤ routeDepth options to_ := by
  unfold routeDepth
  rw [hy]
  unfold kBottomLeftRight kTopLeftRight kTSpin kInitialSpin at *
  rcases hf with h | h | h | h <;> subst h
  · rw [flag_self _ _ h0, flag_other _ 1 2 (by decide), flag_other _ 1 4 (by decide),
      flag_other _ 1 8 (by decide),
      show (if (1 : Nat) = 0 then (1 : Nat) else 0) = 0 from rfl, if_pos h0]
    omega
  · rw [flag_self _ _ h0, flag_other _ 2 1 (by decide), flag_other _ 2 4 (by decide),
      flag_other _ 2 8 (by decide),
      show (if (2 : Nat) = 0 then (1 : Nat) else 0) = 0 from rfl, if_pos h0]
    omega
  · rw [flag_self _ _ h0, flag_other _ 4 1 (by decide), flag_other _ 4 2 (by decide),
      flag_other _ 4 8 (by decide),
      show (if (4 : Nat) = 0 then (1 : Nat) else 0) = 0 from rfl, if_pos h0]
    omega
  · rw [flag_self _ _ h0, flag_other _ 8 1 (by decide), flag_other _ 8 2 (by decide),
      flag_other _ 8 4 (by decide),
      show (if (8 : Nat) = 0 then (1 : Nat) else 0) = 0 from rfl, if_pos h0]
    omega

theorem AppendRouteAux_total (s : Situation) (shp : Shape) :
    ∀ (fuel : Nat) (from_ to_ : BrickStatus) (res : List Action) (options : Nat),
      from_.rot < shp.cnt → to_.rot < shp.cnt → routeDepth options to_ ≤ fuel →
      AppendRouteAux s shp fuel from_ to_ res options ≠ none := by
  intro fuel
  induction fuel with
  | zero =>
    intro from_ to_ res options _ _ hd
    unfold routeDepth at hd
    omega
  | succ fuel ih =>
    intro from_ to_ res options h1 h2 hd
    have hflag : ∀ f, (f = kBottomLeftRight ∨ f = kTopLeftRight ∨ f = kTSpin ∨
        f = kInitialSpin) → options &&& f = 0 →
        RecTotal shp (AppendRouteAux s shp fuel) (options ||| f) to_.y := by
      intro f hf h0 fr t r hfr ht hty
      apply ih _ _ _ _ hfr ht
      have := routeDepth_flag options f to_ t hty hf h0
      omega
    rw [AppendRouteAux]
    simp only []
    apply orElse_total _ _ (AppendRouteNaive_total s shp from_ to_ res h1 h2)
    intro r0
    apply orElse_total
    · split
      · rename_i h0
        apply orElse_total
        · exact bottomLoop_total _ s shp from_ to_ options _ 0 h1 h2
            (hflag _ (Or.inl rfl) h0) _ _
        · intro r
          exact bottomLoop_total _ s shp from_ to_ options _ 1 h1 h2
            (hflag _ (Or.inl rfl) h0) _ _
      · simp
    intro r1
    apply orElse_total
    · split
      · rename_i h0
        apply orElse_total
        · exact topLoop_total _ s shp from_ to_ options _ 0 h1 h2
            (hflag _ (Or.inr (Or.inl rfl)) h0) _ _
        · intro r
          exact topLoop_total _ s shp from_ to_ options _ 1 h1 h2
            (hflag _ (Or.inr (Or.inl rfl)) h0) _ _
      · simp
    intro r2
    apply orElse_total
    · split
      · rename_i hy
        split
        · apply orResize_total
          apply andThen_total
          · refine ih _ _ _ _ h1 (show (to_.ReplaceY (to_.y - 1)).rot < shp.cnt from h2) ?_
            unfold routeDepth at hd ⊢
            simp only [BrickStatus.ReplaceY]
            omega
          · intro r
            exact AppendRouteNaive_total s shp _ _ r h2 h2
        · simp
      · simp
    intro r3
    apply orElse_total
    · split
      · rename_i h0
        exact tspinLoop_total _ s shp from_ to_ options _ h1 h2
          (hflag _ (Or.inr (Or.inr (Or.inl rfl))) h0) shp.cnt 4 to_.rot _ (cnt_pos shp)
          (cnt_le_four shp) h2 (by
            rw [Nat.add_mod_right, Nat.mod_eq_of_lt h2])
      · simp
    intro r4
    split
    · rename_i h0
      exact ispinLoop_total _ s shp from_ to_ options _ h1 h2
        (hflag _ (Or.inr (Or.inr (Or.inr rfl))) h0) shp.cnt 4 from_.rot _ (cnt_pos shp)
        (cnt_le_four shp) h1 (by
          rw [Nat.add_mod_right, Nat.mod_eq_of_lt h1])
    · simp

theorem AppendRoute_total (s : Situation) (shp : Shape) (from_ to_ : BrickStatus)
    (res : List Action) (options : Nat) (h1 : from_.rot < shp.cnt) (h2 : to_.rot < shp.cnt) :
    s.AppendRoute shp from_ to_ res options ≠ none :=
  AppendRouteAux_total s shp _ from_ to_ res options h1 h2 (le_refl _)

/-! ## Theorems: FindAllMoves and the replay (C1) -/

theorem findMovesX_spec (s : Situation) (shp : Shape) (initial_st : BrickStatus)
    (rot y : Nat) (hinit : initial_st.rot < shp.cnt) (hrot : rot < shp.cnt) :
    ∀ (xs : List Nat) (acc : List Candidate × Nat),
      (∀ c ∈ acc.1, CandidateOk s shp initial_st c) →
      ∃ acc1, findMovesX s shp initial_st rot y xs acc = some acc1 ∧
        ∀ c ∈ acc1.1, CandidateOk s shp initial_st c := by
  intro xs
  induction xs with
  | nil => intro acc h; exact ⟨acc, rfl, h⟩
  | cons x more ih =>
    intro acc h
    obtain ⟨res, remaining⟩ := acc
    rw [findMovesX]
    simp only []
    split
    · split
      · exact ih _ h
      · have htot := AppendRoute_total s shp initial_st ⟨x, y, rot⟩ [] 0 hinit hrot
        cases hr : s.AppendRoute shp initial_st ⟨x, y, rot⟩ [] with
        | none => exact absurd hr htot
        | some p =>
          obtain ⟨ok, actions⟩ := p
          cases ok with
          | false => exact ih _ h
          | true =>
            apply ih
            intro c hc
            simp only [List.mem_append, List.mem_singleton] at hc
            rcases hc with hc | hc
            · exact h c hc
            · subst hc
              exact ⟨hrot, rfl, hr⟩
    · exact ih _ h

theorem findMovesY_spec (s : Situation) (shp : Shape) (initial_st : BrickStatus)
    (rot : Nat) (hinit : initial_st.rot < shp.cnt) (hrot : rot < shp.cnt) :
    ∀ (y : Nat) (acc : List Candidate × Nat),
      (∀ c ∈ acc.1, CandidateOk s shp initial_st c) →
      ∃ acc1, findMovesY s shp initial_st rot y acc = some acc1 ∧
        ∀ c ∈ acc1.1, CandidateOk s shp initial_st c := by
  intro y
  induction y with
  | zero => intro acc h; exact ⟨acc, rfl, h⟩
  | succ y ih =>
    intro acc h
    obtain ⟨res, remaining⟩ := acc
    rw [findMovesY]
    split
    · exact ⟨_, rfl, h⟩
    · simp only []
      obtain ⟨acc1, he, h1⟩ := findMovesX_spec s shp initial_st rot (y + 1) hinit hrot
        (set_bits (remaining &&& (4294967295 - s.row (y + 1)))) (res, remaining) h
      rw [he]
      exact ih acc1 h1

theorem findMovesRot_spec (s : Situation) (shp : Shape) (initial_st : BrickStatus)
    (hinit : initial_st.rot < shp.cnt) :
    ∀ (rots : List Nat) (res : List Candidate), (∀ r ∈ rots, r < shp.cnt) →
      (∀ c ∈ res, CandidateOk s shp initial_st c) →
      ∃ res1, findMovesRot s shp initial_st rots res = some res1 ∧
        ∀ c ∈ res1, CandidateOk s shp initial_st c := by
  intro rots
  induction rots with
  | nil => intro res _ h; exact ⟨res, rfl, h⟩
  | cons rot more ih =>
    intro res hr h
    rw [findMovesRot]
    obtain ⟨acc1, he, h1⟩ := findMovesY_spec s shp initial_st rot hinit
      (hr rot (List.mem_cons_self _ _)) (kH - 1) (res, kRowBitMask) h
    rw [he]
    exact ih acc1.1 (fun r hm => hr r (List.mem_cons_of_mem _ hm)) h1

theorem FindAllMoves_spec (s : Situation) (shp : Shape) (initial_st : BrickStatus)
    (hinit : initial_st.rot < shp.cnt) :
    ∃ cands, s.FindAllMoves shp initial_st = some cands ∧
      ∀ c ∈ cands, s.Fits shp initial_st = true ∧ CandidateOk s shp initial_st c := by
  unfold Situation.FindAllMoves
  by_cases hf : s.Fits shp initial_st = true
  · rw [if_neg (by simp [hf])]
    obtain ⟨res1, he, h1⟩ := findMovesRot_spec s shp initial_st hinit (List.range shp.cnt) []
      (fun r hr => List.mem_range.1 hr) (fun c hc => by simp at hc)
    exact ⟨res1, he, fun c hc => ⟨hf, h1 c hc⟩⟩
  · rw [if_pos (by simp [hf])]
    exact ⟨[], rfl, fun c hc => by simp at hc⟩

theorem replaySteps_ok (s : Situation) (shp : Shape) (t : ActionType) (ht : t ≠ .kNew) :
    ∀ (n : Nat) (st fin : BrickStatus), s.Fits shp st = true → 0 ≤ st.y →
      StepsOk s shp st (List.replicate n t) fin →
      replaySteps s shp t n st = some fin ∧ s.Fits shp fin = true ∧ 0 ≤ fin.y := by
  intro n
  induction n with
  | zero =>
    intro st fin hfit hy h
    have := h.2
    simp only [List.replicate_zero, endPose, List.foldl_nil] at this
    subst this
    exact ⟨rfl, hfit, hy⟩
  | succ n ih =>
    intro st fin hfit hy h
    rw [List.replicate_succ] at h
    obtain ⟨hf1, hrest⟩ := StepsOk_cons_inv s shp _ _ _ _ h
    have hr0 := Fits_range s shp _ hfit
    have hr1 := Fits_range s shp _ hf1
    have hkW : (kW : Int) = 10 := rfl
    have hkH : (kH : Int) = 20 := rfl
    cases t with
    | kNew => exact absurd rfl ht
    | kRotate =>
      have hstep : stepPose shp .kRotate st
          = st.ReplaceRot ((st.rot + 1) &&& (shp.cnt - 1)) := by
        rw [and_cnt_eq_mod]; rfl
      rw [hstep] at hf1 hrest
      rw [replaySteps]
      rw [if_neg (by simp [hf1])]
      exact ih _ fin hf1 hy hrest
    | kLeft =>
      have hstep : stepPose shp .kLeft st = st.ReplaceX (st.x - 1) := rfl
      rw [hstep] at hf1 hrest hr1
      simp only [BrickStatus.ReplaceX] at hr1
      rw [replaySteps]
      rw [if_neg (by omega), if_neg (by simp [hf1])]
      exact ih _ fin hf1 hy hrest
    | kRight =>
      have hstep : stepPose shp .kRight st = st.ReplaceX (st.x + 1) := rfl
      rw [hstep] at hf1 hrest hr1
      simp only [BrickStatus.ReplaceX] at hr1
      rw [replaySteps]
      rw [if_neg (by omega), if_neg (by simp [hf1])]
      exact ih _ fin hf1 hy hrest
    | kDown =>
      have hstep : stepPose shp .kDown st = st.ReplaceY (st.y + 1) := rfl
      rw [hstep] at hf1 hrest hr1
      simp only [BrickStatus.ReplaceY] at hr1
      rw [replaySteps]
      rw [if_neg (by omega), if_neg (by simp [hf1])]
      exact ih _ fin hf1 (by simp only [BrickStatus.ReplaceY]; omega) hrest

theorem replayActions_ok (s : Situation) (shp : Shape) :
    ∀ (acts : List Action) (st fin : BrickStatus), s.Fits shp st = true → 0 ≤ st.y →
      IsRoute s shp st acts fin → replayActions s shp acts st = some fin := by
  intro acts
  induction acts with
  | nil =>
    intro st fin _ _ h
    have := h.2.2
    simp only [singleSteps, List.flatMap_nil, endPose, List.foldl_nil] at this
    rw [this]; rfl
  | cons a more ih =>
    intro st fin hfit hy h
    have hne : a.type ≠ .kNew := h.1 a (List.mem_cons_self _ _)
    have hsteps := h.2
    have hs : singleSteps (a :: more) = List.replicate a.«by» a.type ++ singleSteps more := by
      simp [singleSteps]
    rw [hs] at hsteps
    obtain ⟨h1, h2⟩ := StepsOk_append_inv s shp _ _ _ _ hsteps
    obtain ⟨he, hf1, hy1⟩ := replaySteps_ok s shp a.type hne a.«by» st _ hfit hy h1
    rw [replayActions, if_neg hne, he]
    exact ih _ fin hf1 hy1 ⟨fun x hx => h.1 x (List.mem_cons_of_mem _ hx), h2⟩

theorem BricksEqual_self (a : Situation) : a.BricksEqual a = true := by
  simp [Situation.BricksEqual]

theorem kBricks_rot (i : Nat) : (kBricks i).2.rot < (kBricks i).1.cnt := by
  simp only [kBricks]
  exact Nat.mod_lt _ (cnt_pos _)

theorem kBricks_y (i : Nat) : (kBricks i).2.y = 0 := rfl

/-- C1: for a board `b` with `b.step < kSteps`, `FindAllMoves` on the piece
`kBricks[b.step]` returns, and every candidate `c` it returns passes
`b.ReplayAndVerify(c.actions, c.situ)`: the replay from the spawn pose goes only
through poses that fit, meets none of the guards, ends at the candidate's pose,
and the board after `PutCopy` and `CollapseInPlace` is the candidate's board. -/
theorem C1_candidates_pass_replay (b : Situation) (_hstep : b.step_ < kSteps) :
    ∃ cands, b.FindAllMoves (kBricks b.step_).1 (kBricks b.step_).2 = some cands ∧
      ∀ c ∈ cands,
        replayActions b (kBricks b.step_).1 c.actions (kBricks b.step_).2 = some c.st ∧
        c.situ = (b.PutCopy (kBricks b.step_).1 c.st).CollapseInPlace ∧
        b.ReplayAndVerify c.actions c.situ = true := by
  obtain ⟨cands, he, hc⟩ := FindAllMoves_spec b (kBricks b.step_).1 (kBricks b.step_).2
    (kBricks_rot _)
  refine ⟨cands, he, ?_⟩
  intro c hmem
  obtain ⟨hfit, _, hsitu, hroute⟩ := hc c hmem
  obtain ⟨acts, hacts, hr⟩ := (AppendRoute_good b _ _ _ [] 0 true c.actions hroute).2 rfl
  rw [List.nil_append] at hacts
  subst hacts
  have hreplay := replayActions_ok b _ c.actions _ c.st hfit (by rw [kBricks_y]) hr
  refine ⟨hreplay, hsitu, ?_⟩
  unfold Situation.ReplayAndVerify
  simp only []
  rw [if_neg (by simp [hfit]), hreplay]
  simp only []
  rw [hsitu]
  exact BricksEqual_self _

set_option maxRecDepth 1000000 in
/-- On `notchBoard` the enumeration for the piece Z spawned at `(4, 0, rot 0)`
returns one candidate, the pose in the notch, whose placement clears row 2. -/
theorem notch_moves : notchBoard.FindAllMoves .kShapeZ ⟨4, 0, 0⟩ = some notchMoves := by
  decide

/-- C1, witness: on `notchBoard`, at step 0, the piece `kBricks[0]` is the Z
spawned at `(4, 0, rot 0)`; the enumeration returns one candidate, and every
candidate passes the replay. -/
theorem C1_candidates_pass_replay_witness :
    kBricks notchBoard.step_ = (.kShapeZ, ⟨4, 0, 0⟩) ∧
    notchBoard.FindAllMoves .kShapeZ ⟨4, 0, 0⟩ = some notchMoves ∧
    notchMoves.length = 1 ∧
    ∃ cands, notchBoard.FindAllMoves (kBricks notchBoard.step_).1
        (kBricks notchBoard.step_).2 = some cands ∧
      ∀ c ∈ cands,
        replayActions notchBoard (kBricks notchBoard.step_).1 c.actions
          (kBricks notchBoard.step_).2 = some c.st ∧
        c.situ = (notchBoard.PutCopy (kBricks notchBoard.step_).1 c.st).CollapseInPlace ∧
        notchBoard.ReplayAndVerify c.actions c.situ = true :=
  ⟨by decide, notch_moves, rfl, C1_candidates_pass_replay notchBoard (by decide)⟩

/-! ## Theorems: the empty board, the T-spin, the piece sequence (C11 to C14) -/

set_option maxRecDepth 1000000 in
/-- The poses of the candidates that `FindAllMoves` returns on the empty board
for the piece I spawned at `(4, 0, rot 0)`. -/
theorem emptyBoard_I_poses :
    (emptyBoard.FindAllMoves .kShapeI ⟨4, 0, 0⟩).map (fun cands => cands.map Candidate.st)
      = some emptyBoardIPoses := by
  decide

theorem map_eq_some_iff_exists {α β : Type} (o : Option α) (f : α → β) (b : β)
    (h : o.map f = some b) : ∃ a, o = some a ∧ f a = b := by
  cases o with
  | none => exact absurd h (by simp)
  | some a => exact ⟨a, rfl, by simpa using h⟩

/-- C11 (counterexample): on the empty board at step 0, `FindAllMoves` for the
piece I spawned vertical returns 17 candidates, not 10: the enumeration walks
every rotation, so the 7 horizontal resting poses are returned as well. -/
theorem C11_seventeen_candidates :
    (emptyBoard.FindAllMoves .kShapeI ⟨4, 0, 0⟩).map List.length = some 17 ∧
    (emptyBoard.FindAllMoves .kShapeI ⟨4, 0, 0⟩).map List.length ≠ some 10 := by
  obtain ⟨l, hl, hp⟩ := map_eq_some_iff_exists _ _ _ emptyBoard_I_poses
  have hlen : l.length = 17 := by
    have h := congrArg List.length hp
    rw [List.length_map] at h
    exact h
  rw [hl, Option.map_some', hlen]
  exact ⟨rfl, by decide⟩

set_option maxRecDepth 100000 in
/-- C11 (amended): on the empty board at step 0, `FindAllMoves` for the piece I
spawned vertical returns 17 candidates: the 10 vertical ones (rot 0), one per
column `x = 0..9`, followed by the 7 horizontal ones (rot 1) at `x = 1..7`;
every candidate has its lowest cell in the bottom row `kH - 1`, every resulting
board has exactly 4 occupied cells, step 1, and no candidate clears a row. -/
theorem C11_empty_board_I :
    emptyBoard.step_ = 0 ∧
    (emptyBoard.FindAllMoves .kShapeI ⟨4, 0, 0⟩).map
        (fun cands => cands.map (fun c => (c.st.x, c.st.y, c.st.rot))) =
      some [(0, 18, 0), (1, 18, 0), (2, 18, 0), (3, 18, 0), (4, 18, 0), (5, 18, 0),
        (6, 18, 0), (7, 18, 0), (8, 18, 0), (9, 18, 0), (1, 19, 1), (2, 19, 1),
        (3, 19, 1), (4, 19, 1), (5, 19, 1), (6, 19, 1), (7, 19, 1)] ∧
    ∀ c ∈ (emptyBoard.FindAllMoves .kShapeI ⟨4, 0, 0⟩).getD [],
      c.st.y + (kShapeBounds .kShapeI c.st.rot).max_y = (kH : Int) - 1 ∧
      c.situ.TotalOccupied = 4 ∧ c.situ.collapse_lines_ = 0 ∧
      c.situ.collapse_count_ = 0 ∧ c.situ.score_ = 0 ∧ c.situ.step_ = 1 ∧
      c.situ.row_ = (emptyBoard.PutCopy .kShapeI c.st).row_ := by
  obtain ⟨l, hl, hp⟩ := map_eq_some_iff_exists _ _ _ emptyBoard_I_poses
  obtain ⟨cands, he, hok⟩ := FindAllMoves_spec emptyBoard .kShapeI ⟨4, 0, 0⟩ (by decide)
  have hcl : cands = l := Option.some.inj (he.symm.trans hl)
  subst hcl
  have hall : ∀ st ∈ emptyBoardIPoses,
      st.y + (kShapeBounds .kShapeI st.rot).max_y = (kH : Int) - 1 ∧
      ((emptyBoard.PutCopy .kShapeI st).CollapseInPlace).TotalOccupied = 4 ∧
      ((emptyBoard.PutCopy .kShapeI st).CollapseInPlace).collapse_lines_ = 0 ∧
      ((emptyBoard.PutCopy .kShapeI st).CollapseInPlace).collapse_count_ = 0 ∧
      ((emptyBoard.PutCopy .kShapeI st).CollapseInPlace).score_ = 0 ∧
      ((emptyBoard.PutCopy .kShapeI st).CollapseInPlace).step_ = 1 ∧
      ((emptyBoard.PutCopy .kShapeI st).CollapseInPlace).row_
        = (emptyBoard.PutCopy .kShapeI st).row_ := by
    decide
  refine ⟨rfl, ?_, ?_⟩
  · rw [hl, Option.map_some']
    have h2 : cands.map (fun c => (c.st.x, c.st.y, c.st.rot))
        = (cands.map Candidate.st).map (fun st => (st.x, st.y, st.rot)) := by
      rw [List.map_map]
      rfl
    rw [h2, hp]
    rfl
  · rw [hl]
    intro c hc
    have hc2 : c ∈ cands := hc
    have hst : c.st ∈ emptyBoardIPoses := by
      rw [← hp]
      exact List.mem_map_of_mem _ hc2
    have hsitu := (hok c hc2).2.2.1
    rw [hsitu]
    exact hall c.st hst

set_option maxRecDepth 100000 in
/-- C12: the T-spin scenario exists.  On `tspinBoard` the free cells of rows 3
and 4 are exactly the four cells of the piece T at `to = (1, 3, rot 0)`, a
T-shaped cavity whose cell `(2, 3)` lies under the occupied cell `(2, 2)`.
From the spawn pose `(4, 0, rot 0)` `AppendRouteNaive` returns false,
`AppendRoute` returns true, the last action of the route it appends is a
Rotate, and replaying the route ends with the piece at `to`, where it fits and
rests, filling the cavity. -/
theorem C12_tspin_scenario :
    ∃ route : List Action,
      tspinBoard.WF ∧
      tspinBoard.cell 2 2 = true ∧
      (∀ x < kW, ∀ y < 2,
        (tspinBoard.cell x (y + 3) = false ↔
          (⟨(x : Int) - 1, (y : Int)⟩ : Pos) ∈ Shape.kShapeT.pos 0)) ∧
      tspinBoard.Fits .kShapeT ⟨4, 0, 0⟩ = true ∧
      tspinBoard.AppendRouteNaive .kShapeT ⟨4, 0, 0⟩ ⟨1, 3, 0⟩ [] = some (false, []) ∧
      tspinBoard.AppendRoute .kShapeT ⟨4, 0, 0⟩ ⟨1, 3, 0⟩ [] = some (true, route) ∧
      route.getLast?.map Action.type = some .kRotate ∧
      replayActions tspinBoard .kShapeT route ⟨4, 0, 0⟩ = some ⟨1, 3, 0⟩ ∧
      tspinBoard.Fits .kShapeT ⟨1, 3, 0⟩ = true ∧
      tspinBoard.Fits .kShapeT ⟨1, 4, 0⟩ = false ∧
      (tspinBoard.PutCopy .kShapeT ⟨1, 3, 0⟩).row 3 = kRowBitMask ∧
      (tspinBoard.PutCopy .kShapeT ⟨1, 3, 0⟩).row 4 = kRowBitMask :=
  ⟨[⟨.kRight, 1⟩, ⟨.kRotate, 1⟩, ⟨.kLeft, 4⟩, ⟨.kDown, 3⟩, ⟨.kRotate, 3⟩], by decide,
    by decide, by decide, by decide, by decide, tspin_route, by decide, by decide, by decide,
    by decide, by decide, by decide⟩

/-- C13 (counterexample): the first output of the generator of `GenBricks` is
not 21197. -/
theorem C13_first_output_differs :
    curRandomNum 1 ≠ 21197 ∧ (12358 * 27073 + 17713) % 32749 ≠ 21197 := by
  decide

/-- C13 (amended): the first output of the generator of `GenBricks`,
`r1 = (12358 * 27073 + 17713) mod 32749`, equals 22063; the 32-bit product does
not wrap, and the first piece, chosen by `r1 mod 29 = 23`, is Z. -/
theorem C13_first_output :
    curRandomNum 0 = 12358 ∧
    curRandomNum 1 = (12358 * 27073 + 17713) % 32749 ∧
    curRandomNum 1 = 22063 ∧
    12358 * 27073 + 17713 < 2 ^ 32 ∧
    curRandomNum 1 % 29 = 23 ∧ (kBricks 0).1 = .kShapeZ := by
  decide

theorem spawn_fits (shp : Shape) (r : Nat) (h : r < shp.cnt) :
    emptyBoard.Fits shp ⟨4, 0, r⟩ = true := by
  have h4 := cnt_le_four shp
  have hr : r < 4 := by omega
  cases shp <;> interval_cases r <;> rfl

/-- C14: for every index `i < kSteps`, `kBricks[i]` has the spawn pose `x = 4`,
`y = 0`, `rot = (i mod 4) mod cnt` with `cnt` the rotation count of its shape,
so `rot < cnt`, and that pose fits on the empty board. -/
theorem C14_spawn_pose_fits (i : Nat) (_hi : i < kSteps) :
    (kBricks i).2 = ⟨4, 0, (i % 4) % (kBricks i).1.cnt⟩ ∧
    (kBricks i).2.rot < (kBricks i).1.cnt ∧
    emptyBoard.Fits (kBricks i).1 (kBricks i).2 = true := by
  refine ⟨by simp only [kBricks], kBricks_rot i, ?_⟩
  have h := spawn_fits (kBricks i).1 (kBricks i).2.rot (kBricks_rot i)
  exact h

/-- C14, witness: the piece `kBricks[0]`, a Z spawned at `(4, 0, rot 0)`, fits on
the empty board. -/
theorem C14_spawn_pose_fits_witness :
    (0 < kSteps ∧ kBricks 0 = (.kShapeZ, ⟨4, 0, 0⟩)) ∧
    (kBricks 0).2 = ⟨4, 0, (0 % 4) % (kBricks 0).1.cnt⟩ ∧
    (kBricks 0).2.rot < (kBricks 0).1.cnt ∧
    emptyBoard.Fits (kBricks 0).1 (kBricks 0).2 = true :=
  ⟨by decide, C14_spawn_pose_fits 0 (by decide)⟩

/-! ## Theorems: the rows after CollapseInPlace (C15, C17) -/

theorem clearRows_eq (n : Nat) : ∀ (rows : List Nat), n ≤ rows.length →
    clearRows n rows = List.replicate n 0 ++ rows.drop n := by
  induction n with
  | zero => intro rows _; simp [clearRows]
  | succ n ih =>
    intro rows h
    rw [clearRows, ih _ (by simp; omega), List.replicate_succ', List.append_assoc]
    congr 1
    rw [List.set_eq_take_append_cons_drop, if_pos (by omega)]
    have hl : (rows.take n).length = n := by simp; omega
    rw [List.drop_left' hl]
    rfl

/-- Invariant of the packing loop, rows as lists: the rows up to the write index
are the original ones, the rows after it are the rows read so far that are not
full. -/
theorem packRows_rows (mask : Nat) (orig : List Nat) (hlen : orig.length = kH)
    (hmask : ∀ i, i < kH → (mask &&& (1 <<< i) = 0 ↔ orig.getD i 0 ≠ kRowBitMask)) :
    ∀ (y : Nat) (rows : List Nat) (wy : Nat), y ≤ wy → wy < kH →
      rows = orig.take (wy + 1) ++ (orig.drop (y + 1)).filter (fun r => r ≠ kRowBitMask) →
      wy + 1 + ((orig.drop (y + 1)).filter (fun r => r ≠ kRowBitMask)).length = kH →
      (packRows mask y rows wy).1 = orig.take ((packRows mask y rows wy).2 + 1)
          ++ (orig.drop 1).filter (fun r => r ≠ kRowBitMask) ∧
        (packRows mask y rows wy).2 + 1
          + ((orig.drop 1).filter (fun r => r ≠ kRowBitMask)).length = kH := by
  intro y
  induction y with
  | zero =>
    intro rows wy _ _ h1 h2
    exact ⟨by simpa [packRows] using h1, by simpa [packRows] using h2⟩
  | succ y ih =>
    intro rows wy hle hwy h1 h2
    have hy : y + 1 < orig.length := by omega
    have hdrop : orig.drop (y + 1) = orig[y + 1] :: orig.drop (y + 1 + 1) :=
      List.drop_eq_getElem_cons hy
    have hget : orig.getD (y + 1) 0 = orig[y + 1] := by
      rw [List.getD_eq_getElem?_getD, List.getElem?_eq_getElem hy]; rfl
    have hrow : rows.getD (y + 1) 0 = orig[y + 1] := by
      rw [h1, List.getD_eq_getElem?_getD, List.getElem?_append_left (by simp; omega),
        List.getElem?_take_of_lt (by omega), List.getElem?_eq_getElem hy]
      rfl
    rw [packRows]
    by_cases hb : mask &&& (1 <<< (y + 1)) = 0
    · rw [if_pos hb]
      have hne : orig[y + 1] ≠ kRowBitMask := by
        have := (hmask (y + 1) (by omega)).1 hb
        rwa [hget] at this
      have hfilt : (orig.drop (y + 1)).filter (fun r => r ≠ kRowBitMask)
          = orig[y + 1] :: (orig.drop (y + 1 + 1)).filter (fun r => r ≠ kRowBitMask) := by
        rw [hdrop, List.filter_cons_of_pos (by simpa using hne)]
      have hwy1 : wy - 1 + 1 = wy := by omega
      refine ih _ (wy - 1) (by omega) (by omega) ?_ ?_
      · rw [hwy1, hfilt, hrow, h1]
        have hwl : wy < orig.length := by omega
        rw [List.take_succ, List.getElem?_eq_getElem hwl]
        have hl : (orig.take wy).length = wy := by simp; omega
        simp only [Option.toList, List.append_assoc, List.singleton_append]
        rw [List.set_append_right _ _ (by omega), hl, Nat.sub_self]
        rfl
      · rw [hwy1, hfilt, List.length_cons]; omega
    · rw [if_neg hb]
      have hfull : orig[y + 1] = kRowBitMask := by
        by_contra hne
        exact hb ((hmask (y + 1) (by omega)).2 (by rwa [hget]))
      have hfilt : (orig.drop (y + 1)).filter (fun r => r ≠ kRowBitMask)
          = (orig.drop (y + 1 + 1)).filter (fun r => r ≠ kRowBitMask) := by
        rw [hdrop, List.filter_cons_of_neg (by simpa using hfull)]
      refine ih rows wy (by omega) hwy ?_ ?_
      · rw [hfilt]; exact h1
      · rw [hfilt]; exact h2

theorem CollapseInPlace_rows (s : Situation) (hlen : s.row_.length = kH)
    (hstep : s.step_ + 1 < kSteps) (hfull : ∃ y, y < kH ∧ s.row y = kRowBitMask) :
    s.CollapseInPlace.row_ = collapseSpec s := by
  have hk : kSteps = 10000 := rfl
  have hmod : (s.step_ + 1) % 2 ^ 32 = s.step_ + 1 := Nat.mod_eq_of_lt (by omega)
  have hm : s.CollapsableBitmask ≠ 0 := by
    intro h0
    obtain ⟨y, hy, hf⟩ := hfull
    exact (CollapsableBitmask_eq_zero_iff s).1 h0 y hy hf
  unfold Situation.CollapseInPlace
  simp only []
  rw [hmod, if_neg (by omega), if_pos hm]
  show clearRows _ _ = _
  have hinv := packRows_rows s.CollapsableBitmask s.row_ hlen (fun i hi => by
      rw [and_bit_eq_zero, CollapsableBitmask_testBit]
      simp [hi, Situation.row]) (kH - 1) s.row_ (kH - 1) (le_refl _) (by decide)
      (by
        have h1 : kH - 1 + 1 = s.row_.length := by rw [hlen]; rfl
        rw [h1, List.take_length, List.drop_length]; simp)
      (by
        have h1 : kH - 1 + 1 = s.row_.length := by rw [hlen]; rfl
        rw [h1, List.drop_length]; simp [hlen])
  obtain ⟨hrows, hwy⟩ := hinv
  rw [clearRows_eq _ _ (by
    rw [hrows, List.length_append, List.length_take]
    omega)]
  rw [hrows]
  have hl : (s.row_.take ((packRows s.CollapsableBitmask (kH - 1) s.row_ (kH - 1)).2 + 1)).length
      = (packRows s.CollapsableBitmask (kH - 1) s.row_ (kH - 1)).2 + 1 := by
    rw [List.length_take]; omega
  rw [List.drop_left' hl]
  unfold collapseSpec
  simp only []
  congr 2
  omega

/-- C15: `CollapseInPlace` increases `step` by exactly 1 (the counter is a
`uint32_t`, taken below its maximum); and when the board has no full row, or the
incremented step is at least `kSteps`, every row, the score, `collapse_lines`
and `collapse_count` are unchanged, and so are `Quality` (for all flag values),
`OccupiedHeight` and `TotalOccupied`. -/
theorem C15_collapse_frame (s : Situation) (f : QualityFlags) (hstep : s.step_ + 1 < 2 ^ 32) :
    s.CollapseInPlace.step_ = s.step_ + 1 ∧
    ((∀ y, y < kH → s.row y ≠ kRowBitMask) ∨ kSteps ≤ s.step_ + 1 →
      s.CollapseInPlace.row_ = s.row_ ∧
      s.CollapseInPlace.score_ = s.score_ ∧
      s.CollapseInPlace.collapse_lines_ = s.collapse_lines_ ∧
      s.CollapseInPlace.collapse_count_ = s.collapse_count_ ∧
      s.CollapseInPlace.Quality f = s.Quality f ∧
      s.CollapseInPlace.OccupiedHeight = s.OccupiedHeight ∧
      s.CollapseInPlace.TotalOccupied = s.TotalOccupied) := by
  have hmod : (s.step_ + 1) % 2 ^ 32 = s.step_ + 1 := Nat.mod_eq_of_lt hstep
  constructor
  · unfold Situation.CollapseInPlace
    simp only [hmod]
    split
    · rfl
    · split <;> rfl
  · intro h
    have he : s.CollapseInPlace = { s with step_ := s.step_ + 1 } := by
      unfold Situation.CollapseInPlace
      simp only [hmod]
      rcases h with h | h
      · have h0 := (CollapsableBitmask_eq_zero_iff s).2 h
        split
        · rfl
        · rw [if_neg (by simpa using h0)]
      · rw [if_pos h]
    rw [he]
    exact ⟨rfl, rfl, rfl, rfl, rfl, rfl, rfl⟩

/-- C15, witness: `lastStepBoard` has a full bottom row and is at step 9999;
the collapse moves it to step 10000 and changes nothing else. -/
theorem C15_collapse_frame_witness :
    lastStepBoard.CollapseInPlace.step_ = 9999 + 1 ∧
    lastStepBoard.row 19 = kRowBitMask ∧
    lastStepBoard.CollapseInPlace.row_ = lastStepBoard.row_ ∧
    lastStepBoard.CollapseInPlace.score_ = lastStepBoard.score_ ∧
    lastStepBoard.CollapseInPlace.collapse_lines_ = lastStepBoard.collapse_lines_ ∧
    lastStepBoard.CollapseInPlace.collapse_count_ = lastStepBoard.collapse_count_ ∧
    lastStepBoard.CollapseInPlace.Quality {} = lastStepBoard.Quality {} ∧
    lastStepBoard.CollapseInPlace.OccupiedHeight = lastStepBoard.OccupiedHeight ∧
    lastStepBoard.CollapseInPlace.TotalOccupied = lastStepBoard.TotalOccupied :=
  ⟨(C15_collapse_frame lastStepBoard {} (by decide)).1, by decide,
    (C15_collapse_frame lastStepBoard {} (by decide)).2 (Or.inr (by decide))⟩

/-- C17: for a board of `kH` rows with `step + 1 < kSteps` and at least one full
row, the rows after `CollapseInPlace` are, top to bottom, zero rows followed by
the rows `1 .. kH - 1` of the original board that are not full, in their
original order, `kH` rows in all.  Row 0 is not copied; when it is empty the
result is all the rows that are not full, packed to the bottom under zeros. -/
theorem C17_collapse_packs_rows (s : Situation) (hlen : s.row_.length = kH)
    (hstep : s.step_ + 1 < kSteps) (hfull : ∃ y, y < kH ∧ s.row y = kRowBitMask) :
    s.CollapseInPlace.row_ =
      List.replicate (kH - ((s.row_.drop 1).filter (fun r => r ≠ kRowBitMask)).length) 0
        ++ (s.row_.drop 1).filter (fun r => r ≠ kRowBitMask) ∧
    s.CollapseInPlace.row_.length = kH ∧
    s.CollapseInPlace.row_ = collapseSpec s ∧
    (s.row 0 = 0 → s.CollapseInPlace.row_ =
      List.replicate (kH - (s.row_.filter (fun r => r ≠ kRowBitMask)).length) 0
        ++ s.row_.filter (fun r => r ≠ kRowBitMask)) := by
  have h := CollapseInPlace_rows s hlen hstep hfull
  have hsurv : ((s.row_.drop 1).filter (fun r => r ≠ kRowBitMask)).length ≤ kH - 1 := by
    refine le_trans (List.length_filter_le _ _) ?_
    rw [List.length_drop, hlen]
  have hk : kH = 20 := rfl
  refine ⟨h, ?_, h, ?_⟩
  · rw [h]
    unfold collapseSpec
    simp only [List.length_append, List.length_replicate]
    omega
  · intro h0
    rw [h]
    unfold collapseSpec
    simp only []
    have hpos : 0 < s.row_.length := by omega
    have hsplit : s.row_ = 0 :: s.row_.drop 1 := by
      have := List.drop_eq_getElem_cons (l := s.row_) (n := 0) hpos
      rw [List.drop_zero] at this
      have h00 : s.row_[0] = 0 := by
        have : s.row_.getD 0 0 = 0 := h0
        rwa [List.getD_eq_getElem?_getD, List.getElem?_eq_getElem hpos] at this
      rw [h00] at this
      exact this
    have hfilt : s.row_.filter (fun r => r ≠ kRowBitMask)
        = 0 :: (s.row_.drop 1).filter (fun r => r ≠ kRowBitMask) := by
      conv_lhs => rw [hsplit]
      rw [List.filter_cons_of_pos (by decide)]
    rw [hfilt, List.length_cons]
    have hrep : kH - ((s.row_.drop 1).filter (fun r => r ≠ kRowBitMask)).length
        = (kH - (((s.row_.drop 1).filter (fun r => r ≠ kRowBitMask)).length + 1)) + 1 := by
      omega
    rw [hrep, List.replicate_succ', List.append_assoc]
    rfl

/-- C17, witness: `twoFullRowsBoard` has rows 17 and 19 full and row 18 equal to
5; after the collapse, row 19 is 5 and the rows above are zero. -/
theorem C17_collapse_packs_rows_witness :
    twoFullRowsBoard.CollapseInPlace.row_ = List.replicate 19 0 ++ [5] :=
  (C17_collapse_packs_rows twoFullRowsBoard (by decide) (by decide)
    ⟨19, by decide, by decide⟩).1

/-! ## Theorems: Quality as a weighted count of cells (C18) -/

theorem wrap32_add (a b : Int) : wrap32 (wrap32 a + b) = wrap32 (a + b) := by
  unfold wrap32; omega

theorem wrap32_sub (a b : Int) : wrap32 (wrap32 a - b) = wrap32 (a - b) := by
  unfold wrap32; omega

theorem wrap32_of_range (v : Int) (h1 : -2147483648 ≤ v) (h2 : v < 2147483648) :
    wrap32 v = v := by
  unfold wrap32; omega

/-- The population count of a word whose bits below 32 are those of the
predicate `p` on the columns below `kW`. -/
theorem popcnt_count (m : Nat) (p : Nat → Bool)
    (hb : ∀ x, x < 32 → m.testBit x = (decide (x < kW) && p x)) :
    popcnt 32 m = ((List.range kW).filter p).length := by
  unfold popcnt
  have h32 : List.range 32 = List.range kW ++ (List.range 22).map (fun i => kW + i) := by
    decide
  rw [h32, List.filter_append, List.length_append]
  have htail : ((List.range 22).map (fun i => kW + i)).filter (fun i => m.testBit i) = [] := by
    rw [List.filter_eq_nil_iff]
    intro a ha
    rw [List.mem_map] at ha
    obtain ⟨b, hb1, rfl⟩ := ha
    rw [List.mem_range] at hb1
    have hk : kW = 10 := rfl
    rw [hb _ (by omega)]
    simp
  rw [htail, List.length_nil, Nat.add_zero]
  congr 1
  apply List.filter_congr
  intro x hx
  rw [List.mem_range] at hx
  have hk : kW = 10 := rfl
  rw [hb x (by omega)]
  simp [hx]

theorem cell_ge (s : Situation) (hrows : ∀ y, y < kH → s.row y < 2 ^ kW)
    (x y : Nat) (hy : y < kH) (hx : kW ≤ x) : s.cell x y = false := by
  unfold Situation.cell
  exact Nat.testBit_lt_two_pow (lt_of_lt_of_le (hrows y hy)
    (Nat.pow_le_pow_right (by decide) hx))

theorem occupiedAbove_ge (s : Situation) (hrows : ∀ y, y < kH → s.row y < 2 ^ kW)
    (x n : Nat) (hn : n ≤ kH) (hx : kW ≤ x) : s.occupiedAbove x n = false := by
  unfold Situation.occupiedAbove
  rw [List.any_eq_false]
  intro y hy
  rw [List.mem_range] at hy
  simp [cell_ge s hrows x y (by omega) hx]

theorem occupiedAbove_succ (s : Situation) (x n : Nat) :
    s.occupiedAbove x (n + 1) = (s.occupiedAbove x n || s.cell x n) := by
  unfold Situation.occupiedAbove
  rw [List.range_succ, List.any_append]
  simp

theorem cellCountRows_succ (p : Nat → Nat → Bool) (n : Nat) :
    cellCountRows p (List.range (n + 1))
      = cellCountRows p (List.range n) + ((List.range kW).filter (fun x => p x n)).length := by
  unfold cellCountRows
  rw [List.range_succ]
  simp

theorem mask_shift_testBit (x : Nat) :
    (kRowBitMask >>> 1).testBit x = decide (x + 1 < kW) := by
  have h : kRowBitMask >>> 1 = 2 ^ 9 - 1 := by decide
  rw [h, Nat.testBit_two_pow_sub_one]
  have hk : kW = 10 := rfl
  by_cases hx : x < 9
  · simp [hx]; omega
  · simp [hx]; omega

theorem not32_testBit (v x : Nat) (hx : x < 32) : (not32 v).testBit x = !v.testBit x := by
  unfold not32
  have h : 4294967295 = 2 ^ 32 - 1 := by norm_num
  rw [Nat.testBit_xor, h, Nat.testBit_two_pow_sub_one]
  simp [hx]

/-- Invariant of the first loop of `Quality` after `n` rows. -/
theorem qualityTop_inv (f : QualityFlags) (s : Situation)
    (hrows : ∀ y, y < kH → s.row y < 2 ^ kW) : ∀ n, n ≤ kH →
    ((List.range n).foldl (qualityTopStep f s) (0, 0, 0)).1 =
      wrap32 (600 * (cellCountRows (fun x y => s.cell x y) (List.range n) : Int)
        - f.quality_row_transition_penalty *
          (cellCountRows (fun x y => decide (x + 1 < kW) && (s.cell x y != s.cell (x + 1) y))
            (List.range n) : Int)
        - f.quality_col_transition_penalty *
          (cellCountRows (fun x y => s.cell x y != (decide (0 < y) && s.cell x (y - 1)))
            (List.range n) : Int)
        - (f.quality_empty_penalty - f.quality_empty_penalty2) *
          (cellCountRows (fun x y => !s.cell x y && s.occupiedAbove x y) (List.range n) : Int)) ∧
    (∀ x, ((List.range n).foldl (qualityTopStep f s) (0, 0, 0)).2.1.testBit x
      = s.occupiedAbove x n) ∧
    (∀ x, ((List.range n).foldl (qualityTopStep f s) (0, 0, 0)).2.2.testBit x
      = (decide (0 < n) && s.cell x (n - 1))) := by
  intro n
  induction n with
  | zero =>
    intro _
    refine ⟨?_, ?_, ?_⟩
    · simp [cellCountRows, wrap32]
    · intro x; simp [Situation.occupiedAbove]
    · intro x; simp
  | succ n ih =>
    intro hn
    obtain ⟨ihr, iht, ihl⟩ := ih (by omega)
    have hfold : (List.range (n + 1)).foldl (qualityTopStep f s) (0, 0, 0)
        = qualityTopStep f s ((List.range n).foldl (qualityTopStep f s) (0, 0, 0)) n := by
      rw [List.range_succ, List.foldl_append]; rfl
    rw [hfold]
    generalize (List.range n).foldl (qualityTopStep f s) (0, 0, 0) = acc at ihr iht ihl ⊢
    obtain ⟨r, top_rows, last_row⟩ := acc
    simp only at ihr iht ihl
    have e1 : popcnt 32 (s.row n) = ((List.range kW).filter (fun x => s.cell x n)).length := by
      apply popcnt_count
      intro x _
      by_cases hx : x < kW
      · simp [hx, Situation.cell]
      · simpa [hx] using cell_ge s hrows x n (by omega) (by omega)
    have e2 : popcnt 32 ((s.row n ^^^ (s.row n >>> 1)) &&& (kRowBitMask >>> 1))
        = ((List.range kW).filter
            (fun x => decide (x + 1 < kW) && (s.cell x n != s.cell (x + 1) n))).length := by
      apply popcnt_count
      intro x _
      rw [Nat.testBit_and, Nat.testBit_xor, Nat.testBit_shiftRight, mask_shift_testBit]
      have hk : kW = 10 := rfl
      by_cases hx : x + 1 < kW
      · have hx2 : x < kW := by omega
        simp [hx, hx2, Situation.cell, Nat.add_comm]
      · simp [hx]
    have e3 : popcnt 32 (s.row n ^^^ last_row)
        = ((List.range kW).filter
            (fun x => s.cell x n != (decide (0 < n) && s.cell x (n - 1)))).length := by
      apply popcnt_count
      intro x _
      rw [Nat.testBit_xor, ihl]
      by_cases hx : x < kW
      · simp [hx, Situation.cell]
      · have h1 := cell_ge s hrows x n (by omega) (by omega)
        have h2 : (decide (0 < n) && s.cell x (n - 1)) = false := by
          by_cases h0 : 0 < n
          · simp [cell_ge s hrows x (n - 1) (by omega) (by omega)]
          · simp [h0]
        have h1b : (s.row n).testBit x = false := h1
        simp [hx, h1, h1b, h2]
    have e4 : popcnt 32 (not32 (s.row n) &&& top_rows)
        = ((List.range kW).filter (fun x => !s.cell x n && s.occupiedAbove x n)).length := by
      apply popcnt_count
      intro x hx32
      rw [Nat.testBit_and, not32_testBit _ _ hx32, iht]
      by_cases hx : x < kW
      · simp [hx, Situation.cell]
      · simp [hx, occupiedAbove_ge s hrows x n (by omega) (by omega)]
    refine ⟨?_, ?_, ?_⟩
    · simp only [qualityTopStep]
      rw [e1, e2, e3, e4, ihr]
      simp only [wrap32_sub, wrap32_add]
      congr 1
      rw [cellCountRows_succ, cellCountRows_succ, cellCountRows_succ, cellCountRows_succ]
      push_cast
      ring
    · intro x
      simp only [qualityTopStep]
      rw [Nat.testBit_or, iht, occupiedAbove_succ]
      rfl
    · intro x
      simp only [qualityTopStep]
      simp [Situation.cell]

theorem emptyBelow_eq (s : Situation) (x k m : Nat) (hk : k + 1 + m = kH) :
    s.emptyBelow x k = !(List.range' (k + 1) m).all (fun y => s.cell x y) := by
  rw [Bool.eq_iff_iff]
  simp only [Situation.emptyBelow, List.any_eq_true, List.mem_range, Bool.and_eq_true,
    decide_eq_true_eq, Bool.not_eq_true', List.all_eq_false, List.mem_range'_1,
    Bool.not_eq_true]
  constructor
  · rintro ⟨y, hy, hky, hc⟩
    exact ⟨y, ⟨by omega, by omega⟩, hc⟩
  · rintro ⟨y, ⟨h1, h2⟩, hc⟩
    exact ⟨y, by omega, by omega, hc⟩

theorem kRowBitMask_testBit (x : Nat) : kRowBitMask.testBit x = decide (x < kW) := by
  have h : kRowBitMask = 2 ^ kW - 1 := by decide
  rw [h, Nat.testBit_two_pow_sub_one]

/-- Invariant of the second loop of `Quality` after the rows `k .. kH - 1`. -/
theorem qualityBottom_inv (f : QualityFlags) (s : Situation)
    (hrows : ∀ y, y < kH → s.row y < 2 ^ kW) (v0 : Int) : ∀ m k, k + m = kH →
    ((List.range' k m).foldr (fun y a => qualityBottomStep f s a y)
        (wrap32 v0, kRowBitMask)).1 =
      wrap32 (v0 - f.quality_empty_penalty2 *
        (cellCountRows (fun x y => s.cell x y && s.emptyBelow x y) (List.range' k m) : Int)) ∧
    (∀ x, ((List.range' k m).foldr (fun y a => qualityBottomStep f s a y)
        (wrap32 v0, kRowBitMask)).2.testBit x =
      (decide (x < kW) && (List.range' k m).all (fun y => s.cell x y))) := by
  intro m
  induction m with
  | zero =>
    intro k _
    refine ⟨?_, ?_⟩
    · simp [cellCountRows]
    · intro x; simp [kRowBitMask_testBit]
  | succ m ih =>
    intro k hk
    obtain ⟨ihr, ihb⟩ := ih (k + 1) (by omega)
    rw [List.range'_succ, List.foldr_cons]
    generalize (List.range' (k + 1) m).foldr (fun y a => qualityBottomStep f s a y)
      (wrap32 v0, kRowBitMask) = acc at ihr ihb ⊢
    obtain ⟨r, bottom_rows⟩ := acc
    simp only at ihr ihb
    have e : popcnt 32 (s.row k &&& not32 bottom_rows)
        = ((List.range kW).filter (fun x => s.cell x k && s.emptyBelow x k)).length := by
      apply popcnt_count
      intro x hx32
      rw [Nat.testBit_and, not32_testBit _ _ hx32, ihb, emptyBelow_eq s x k m (by omega)]
      by_cases hx : x < kW
      · simp [hx, Situation.cell]
      · have h1 : (s.row k).testBit x = false := cell_ge s hrows x k (by omega) (by omega)
        simp [hx, h1]
    refine ⟨?_, ?_⟩
    · simp only [qualityBottomStep]
      rw [e, ihr]
      simp only [wrap32_sub]
      congr 1
      simp only [cellCountRows, List.map_cons, List.sum_cons]
      push_cast
      ring
    · intro x
      simp only [qualityBottomStep]
      rw [Nat.testBit_and, ihb, List.all_cons]
      simp only [Situation.cell]
      cases decide (x < kW) <;> cases (s.row k).testBit x <;> simp

theorem Quality_eq_wrap (s : Situation) (f : QualityFlags)
    (hrows : ∀ y, y < kH → s.row y < 2 ^ kW) :
    s.Quality f = wrap32 (qualitySpec s f) := by
  obtain ⟨htop, _, _⟩ := qualityTop_inv f s hrows kH (le_refl _)
  unfold Situation.Quality
  simp only []
  rw [List.foldl_reverse, htop, List.range_eq_range']
  rw [(qualityBottom_inv f s hrows _ kH 0 (by omega)).1]
  rw [← List.range_eq_range']
  rfl

theorem cellCountRows_le (p : Nat → Nat → Bool) (ys : List Nat) :
    cellCountRows p ys ≤ kW * ys.length := by
  unfold cellCountRows
  induction ys with
  | nil => simp
  | cons y t ih =>
    simp only [List.map_cons, List.sum_cons, List.length_cons]
    have h := List.length_filter_le (fun x => p x y) (List.range kW)
    rw [List.length_range] at h
    rw [Nat.mul_succ]
    omega

theorem cellCount_le (p : Nat → Nat → Bool) : cellCount p ≤ 200 := by
  have h := cellCountRows_le p (List.range kH)
  rw [List.length_range] at h
  exact h

theorem mul_count_bound (a : Int) (n : Nat) (B : Int) (h1 : -B ≤ a) (h2 : a ≤ B)
    (hn : n ≤ 200) : -(200 * B) ≤ a * (n : Int) ∧ a * (n : Int) ≤ 200 * B := by
  have hn0 : (0 : Int) ≤ (n : Int) := Int.ofNat_nonneg n
  have hn1 : (n : Int) ≤ 200 := by exact_mod_cast hn
  have hB : 0 ≤ B := by omega
  constructor
  · nlinarith [mul_nonneg (sub_nonneg.2 h1 |> fun h => (by linarith : (0 : Int) ≤ a + B)) hn0,
      mul_nonneg hB (sub_nonneg.2 hn1)]
  · nlinarith [mul_nonneg (by linarith : (0 : Int) ≤ B - a) hn0,
      mul_nonneg hB (sub_nonneg.2 hn1)]

set_option maxRecDepth 100000 in
/-- C18 (counterexample): with `quality_row_transition_penalty = 2147483647` and
the other flags at their defaults, the board with the single cell `(4, 19)` has
`N = 1`, `Th = 2`, `Tv = 1`, `H = O = 0`; the weighted sum is `-4294966694`,
which is no `int`, and `Quality` returns 602. -/
theorem C18_quality_wraps :
    (∀ y, y < kH → oneCellBoard.row y < 2 ^ kW) ∧
    (oneCellBoard.cellsN = 1 ∧ oneCellBoard.cellsTh = 2 ∧ oneCellBoard.cellsTv = 1 ∧
      oneCellBoard.cellsH = 0 ∧ oneCellBoard.cellsO = 0) ∧
    qualitySpec oneCellBoard ⟨2147483647, 0, 1080, 0⟩ = -4294966694 ∧
    oneCellBoard.Quality ⟨2147483647, 0, 1080, 0⟩ = 602 ∧
    oneCellBoard.Quality ⟨2147483647, 0, 1080, 0⟩
      ≠ qualitySpec oneCellBoard ⟨2147483647, 0, 1080, 0⟩ := by
  refine ⟨by decide, by decide, by decide, by decide, by decide⟩

/-- C18 (amended): for every board whose rows use only the low `kW` bits and for
all flag values `R`, `C`, `E`, `E2`, `Quality` is the value
`600*N - R*Th - C*Tv - (E - E2)*H - E2*O` converted to `int`, that is reduced
modulo `2 ^ 32` into the signed range; it equals that value whenever the value
lies in the range of `int`, in particular when the four flags lie between
`-1000000` and `1000000`; with the defaults it is `600*N - 458*Th - 1080*H`. -/
theorem C18_quality_formula (s : Situation) (f : QualityFlags)
    (hrows : ∀ y, y < kH → s.row y < 2 ^ kW) :
    s.Quality f = wrap32 (600 * (s.cellsN : Int)
      - f.quality_row_transition_penalty * (s.cellsTh : Int)
      - f.quality_col_transition_penalty * (s.cellsTv : Int)
      - (f.quality_empty_penalty - f.quality_empty_penalty2) * (s.cellsH : Int)
      - f.quality_empty_penalty2 * (s.cellsO : Int)) ∧
    (-2147483648 ≤ qualitySpec s f → qualitySpec s f < 2147483648 →
      s.Quality f = qualitySpec s f) ∧
    ((-1000000 ≤ f.quality_row_transition_penalty ∧
        f.quality_row_transition_penalty ≤ 1000000) →
      (-1000000 ≤ f.quality_col_transition_penalty ∧
        f.quality_col_transition_penalty ≤ 1000000) →
      (-1000000 ≤ f.quality_empty_penalty ∧ f.quality_empty_penalty ≤ 1000000) →
      (-1000000 ≤ f.quality_empty_penalty2 ∧ f.quality_empty_penalty2 ≤ 1000000) →
      s.Quality f = qualitySpec s f) ∧
    s.Quality {} = 600 * (s.cellsN : Int) - 458 * (s.cellsTh : Int)
      - 1080 * (s.cellsH : Int) := by
  have hw := Quality_eq_wrap s f hrows
  have hN : s.cellsN ≤ 200 := cellCount_le _
  have hTh : s.cellsTh ≤ 200 := cellCount_le _
  have hTv : s.cellsTv ≤ 200 := cellCount_le _
  have hH : s.cellsH ≤ 200 := cellCount_le _
  have hO : s.cellsO ≤ 200 := cellCount_le _
  refine ⟨hw, ?_, ?_, ?_⟩
  · intro h1 h2
    rw [hw, wrap32_of_range _ h1 h2]
  · intro hR hC hE hE2
    rw [hw]
    have b1 := mul_count_bound _ _ 1000000 hR.1 hR.2 hTh
    have b2 := mul_count_bound _ _ 1000000 hC.1 hC.2 hTv
    have b3 := mul_count_bound (f.quality_empty_penalty - f.quality_empty_penalty2) _ 2000000
      (by omega) (by omega) hH
    have b4 := mul_count_bound _ _ 1000000 hE2.1 hE2.2 hO
    apply wrap32_of_range
    · unfold qualitySpec; omega
    · unfold qualitySpec; omega
  · rw [Quality_eq_wrap s {} hrows]
    have e : qualitySpec s {} = 600 * (s.cellsN : Int) - 458 * (s.cellsTh : Int)
        - 1080 * (s.cellsH : Int) := by
      simp only [qualitySpec]
      ring
    rw [e]
    apply wrap32_of_range <;> omega

set_option maxRecDepth 100000 in
/-- C18 (amended), witness: `holesBoard` with the flags 100, 7, 1000, 13. -/
theorem C18_quality_formula_witness :
    (∀ y, y < kH → holesBoard.row y < 2 ^ kW) ∧
    holesBoard.Quality ⟨100, 7, 1000, 13⟩ = qualitySpec holesBoard ⟨100, 7, 1000, 13⟩ ∧
    holesBoard.Quality {} = 600 * (holesBoard.cellsN : Int) - 458 * (holesBoard.cellsTh : Int)
      - 1080 * (holesBoard.cellsH : Int) :=
  ⟨by decide,
    (C18_quality_formula holesBoard ⟨100, 7, 1000, 13⟩ (by decide)).2.2.1
      (by decide) (by decide) (by decide) (by decide),
    (C18_quality_formula holesBoard ⟨100, 7, 1000, 13⟩ (by decide)).2.2.2⟩

/-! ## Theorems: Fits and the candidates of FindAllMoves (C19, C20) -/

/-- The bounding box of a rotation below the rotation count bounds the four
cells and is attained by them. -/
theorem kShapeBounds_spec (shp : Shape) (rot : Nat) (h : rot < shp.cnt) :
    (shp.pos rot).length = 4 ∧
    (∀ p ∈ shp.pos rot, (kShapeBounds shp rot).min_x ≤ p.x ∧
      p.x ≤ (kShapeBounds shp rot).max_x ∧ p.y ≤ (kShapeBounds shp rot).max_y) ∧
    (∃ p ∈ shp.pos rot, p.x = (kShapeBounds shp rot).min_x) ∧
    (∃ p ∈ shp.pos rot, p.x = (kShapeBounds shp rot).max_x) ∧
    (∃ p ∈ shp.pos rot, p.y = (kShapeBounds shp rot).max_y) ∧
    (kShapeBounds shp rot).max_y = maxList ((shp.pos rot).map Pos.y) := by
  have h4 := cnt_le_four shp
  have hr : rot < 4 := by omega
  cases shp <;> interval_cases rot <;> decide

theorem Fits_iff_spec (s : Situation) (shp : Shape) (st : BrickStatus)
    (hrot : st.rot < shp.cnt) : s.Fits shp st = true ↔ FitsSpec s shp st := by
  obtain ⟨_, hb, ⟨p1, hp1, e1⟩, ⟨p2, hp2, e2⟩, _, e4⟩ := kShapeBounds_spec shp st.rot hrot
  unfold Situation.Fits FitsSpec
  simp only []
  rw [← e4]
  constructor
  · intro h
    split at h
    · exact absurd h (by simp)
    · rename_i hx
      split at h
      · exact absurd h (by simp)
      · rename_i hy
        refine ⟨?_, by omega, ?_⟩
        · intro p hp
          have := hb p hp
          omega
        · intro p hp hy0
          rw [List.all_eq_true] at h
          have := h p hp
          simpa [hy0] using this
  · rintro ⟨hx, hy, hc⟩
    have hx1 := hx p1 hp1
    have hx2 := hx p2 hp2
    rw [if_neg (by omega), if_neg (by omega), List.all_eq_true]
    intro p hp
    by_cases hy0 : 0 ≤ st.y + p.y
    · simp [hy0, hc p hp hy0]
    · simp [hy0]

/-- C19: for a rotation below the rotation count, `Fits` returns true if and
only if every one of the four cells has its column `x + dx` in `[0, kW)`, the
row `y + max_dy` of the lowest cell is in `[0, kH)`, where `max_dy` is the
greatest `dy` of the four cells, and every cell with row `y + dy ≥ 0` is empty
on the board; cells with a negative row are not read.  Under the range
conditions every cell that `Fits` reads has its column in `[0, kW)` and its row
in `[0, kH)`. -/
theorem C19_fits_iff (s : Situation) (shp : Shape) (st : BrickStatus)
    (hrot : st.rot < shp.cnt) :
    (s.Fits shp st = true ↔
      (∀ p ∈ shp.pos st.rot, 0 ≤ st.x + p.x ∧ st.x + p.x < (kW : Int)) ∧
      (0 ≤ st.y + maxList ((shp.pos st.rot).map Pos.y) ∧
        st.y + maxList ((shp.pos st.rot).map Pos.y) < (kH : Int)) ∧
      ∀ p ∈ shp.pos st.rot, 0 ≤ st.y + p.y →
        s.cell (st.x + p.x).toNat (st.y + p.y).toNat = false) ∧
    ((shp.pos st.rot).length = 4 ∧
      (∃ p ∈ shp.pos st.rot, p.y = maxList ((shp.pos st.rot).map Pos.y)) ∧
      ∀ p ∈ shp.pos st.rot, p.y ≤ maxList ((shp.pos st.rot).map Pos.y)) ∧
    ((∀ p ∈ shp.pos st.rot, 0 ≤ st.x + p.x ∧ st.x + p.x < (kW : Int)) →
      (0 ≤ st.y + maxList ((shp.pos st.rot).map Pos.y) ∧
        st.y + maxList ((shp.pos st.rot).map Pos.y) < (kH : Int)) →
      ∀ p ∈ shp.pos st.rot, 0 ≤ st.y + p.y →
        XInRange (st.x + p.x) = true ∧ YInRange (st.y + p.y) = true) := by
  obtain ⟨h4, hb, _, _, hmax, e4⟩ := kShapeBounds_spec shp st.rot hrot
  refine ⟨Fits_iff_spec s shp st hrot, ⟨h4, ?_, ?_⟩, ?_⟩
  · rw [← e4]; exact hmax
  · intro p hp
    rw [← e4]; exact (hb p hp).2.2
  · intro hx hy p hp hy0
    have h1 := hx p hp
    have h2 := (hb p hp).2.2
    rw [e4] at h2
    simp only [XInRange, YInRange, decide_eq_true_eq, Bool.and_eq_true]
    omega

/-- C19, witness: the piece T at `(1, 3, rot 0)` fits into the cavity of
`tspinBoard`. -/
theorem C19_fits_iff_witness :
    tspinBoard.Fits .kShapeT ⟨1, 3, 0⟩ = true ∧
    ((∀ p ∈ Shape.kShapeT.pos 0, 0 ≤ (1 : Int) + p.x ∧ (1 : Int) + p.x < (kW : Int)) ∧
      (0 ≤ (3 : Int) + maxList ((Shape.kShapeT.pos 0).map Pos.y) ∧
        (3 : Int) + maxList ((Shape.kShapeT.pos 0).map Pos.y) < (kH : Int)) ∧
      ∀ p ∈ Shape.kShapeT.pos 0, 0 ≤ (3 : Int) + p.y →
        tspinBoard.cell ((1 : Int) + p.x).toNat ((3 : Int) + p.y).toNat = false) :=
  ⟨by decide, (C19_fits_iff tspinBoard .kShapeT ⟨1, 3, 0⟩ (by decide)).1.1 (by decide)⟩

theorem findMovesX_rests (s : Situation) (shp : Shape) (initial_st : BrickStatus)
    (rot y : Nat) (hy : 1 ≤ y) (hrot : rot < shp.cnt) :
    ∀ (xs : List Nat) (acc acc1 : List Candidate × Nat),
      (∀ c ∈ acc.1, CandidateRests s shp c) →
      findMovesX s shp initial_st rot y xs acc = some acc1 →
      ∀ c ∈ acc1.1, CandidateRests s shp c := by
  intro xs
  induction xs with
  | nil =>
    intro acc acc1 h he
    simp only [findMovesX, Option.some.injEq] at he
    rw [← he]; exact h
  | cons x more ih =>
    intro acc acc1 h he
    obtain ⟨res, remaining⟩ := acc
    rw [findMovesX] at he
    simp only [] at he
    split at he
    · rename_i hfit
      split at he
      · exact ih _ _ h he
      · rename_i hrow0
        split at he
        · exact absurd he (by simp)
        · exact ih _ _ h he
        · refine ih _ _ ?_ he
          intro c hc
          simp only [List.mem_append, List.mem_singleton] at hc
          rcases hc with hc | hc
          · exact h c hc
          · subst hc
            simp only [Bool.and_eq_true, Bool.not_eq_true'] at hfit
            refine ⟨?_, hrot, hfit.1, hfit.2, ?_, rfl⟩
            · show (1 : Int) ≤ (y : Int)
              exact_mod_cast hy
            · simpa using hrow0
    · exact ih _ _ h he

theorem findMovesY_rests (s : Situation) (shp : Shape) (initial_st : BrickStatus)
    (rot : Nat) (hrot : rot < shp.cnt) :
    ∀ (y : Nat) (acc acc1 : List Candidate × Nat),
      (∀ c ∈ acc.1, CandidateRests s shp c) →
      findMovesY s shp initial_st rot y acc = some acc1 →
      ∀ c ∈ acc1.1, CandidateRests s shp c := by
  intro y
  induction y with
  | zero =>
    intro acc acc1 h he
    simp only [findMovesY, Option.some.injEq] at he
    rw [← he]; exact h
  | succ y ih =>
    intro acc acc1 h he
    obtain ⟨res, remaining⟩ := acc
    rw [findMovesY] at he
    split at he
    · simp only [Option.some.injEq] at he
      rw [← he]; exact h
    · simp only [] at he
      split at he
      · exact absurd he (by simp)
      · rename_i acc2 hx
        exact ih _ _ (findMovesX_rests s shp initial_st rot (y + 1) (by omega) hrot _ _ _ h hx) he

theorem findMovesRot_rests (s : Situation) (shp : Shape) (initial_st : BrickStatus) :
    ∀ (rots : List Nat) (res res1 : List Candidate), (∀ r ∈ rots, r < shp.cnt) →
      (∀ c ∈ res, CandidateRests s shp c) →
      findMovesRot s shp initial_st rots res = some res1 →
      ∀ c ∈ res1, CandidateRests s shp c := by
  intro rots
  induction rots with
  | nil =>
    intro res res1 _ h he
    simp only [findMovesRot, Option.some.injEq] at he
    rw [← he]; exact h
  | cons rot more ih =>
    intro res res1 hr h he
    rw [findMovesRot] at he
    split at he
    · exact absurd he (by simp)
    · rename_i acc hy
      exact ih _ _ (fun r hm => hr r (List.mem_cons_of_mem _ hm))
        (findMovesY_rests s shp initial_st rot (hr rot (List.mem_cons_self _ _)) _ _ _ h hy) he

/-- C20: every candidate `c` returned by `FindAllMoves` has `c.st.y ≥ 1` and a
rotation below the rotation count; `c.st` fits on the board and the same pose
one row lower does not; the board after `PutCopy` at `c.st` has row 0 empty; and
`c.situ` is that board after `CollapseInPlace`.  If the spawn pose does not fit,
the candidate list is empty.  For a spawn rotation below the rotation count the
enumeration returns. -/
theorem C20_candidates_rest (s : Situation) (shp : Shape) (initial_st : BrickStatus) :
    (∀ cands, s.FindAllMoves shp initial_st = some cands → ∀ c ∈ cands,
      1 ≤ c.st.y ∧ c.st.rot < shp.cnt ∧ s.Fits shp c.st = true ∧
      s.Fits shp (c.st.ReplaceY (c.st.y + 1)) = false ∧
      (s.PutCopy shp c.st).row 0 = 0 ∧
      c.situ = (s.PutCopy shp c.st).CollapseInPlace) ∧
    (s.Fits shp initial_st = false → s.FindAllMoves shp initial_st = some []) ∧
    (initial_st.rot < shp.cnt → ∃ cands, s.FindAllMoves shp initial_st = some cands) := by
  refine ⟨?_, ?_, ?_⟩
  · intro cands he c hc
    unfold Situation.FindAllMoves at he
    split at he
    · simp only [Option.some.injEq] at he
      rw [← he] at hc
      simp at hc
    · exact findMovesRot_rests s shp initial_st _ _ _ (fun r hr => List.mem_range.1 hr)
        (fun c hc => by simp at hc) he c hc
  · intro hf
    unfold Situation.FindAllMoves
    rw [if_pos (by simp [hf])]
  · intro hinit
    obtain ⟨cands, he, _⟩ := FindAllMoves_spec s shp initial_st hinit
    exact ⟨cands, he⟩

/-- C20, witness: on `notchBoard` the enumeration for the piece Z spawned at
`(4, 0, rot 0)` returns the candidate in the notch, which rests and leaves row 0
empty; no candidate is returned for the spawn pose `(0, 19, rot 0)`, which does
not fit. -/
theorem C20_candidates_rest_witness :
    notchBoard.FindAllMoves .kShapeZ ⟨4, 0, 0⟩ = some notchMoves ∧
    (∀ c ∈ notchMoves,
      1 ≤ c.st.y ∧ c.st.rot < Shape.kShapeZ.cnt ∧ notchBoard.Fits .kShapeZ c.st = true ∧
      notchBoard.Fits .kShapeZ (c.st.ReplaceY (c.st.y + 1)) = false ∧
      (notchBoard.PutCopy .kShapeZ c.st).row 0 = 0 ∧
      c.situ = (notchBoard.PutCopy .kShapeZ c.st).CollapseInPlace) ∧
    notchBoard.FindAllMoves .kShapeZ ⟨0, 19, 0⟩ = some [] :=
  ⟨notch_moves,
    (C20_candidates_rest notchBoard .kShapeZ ⟨4, 0, 0⟩).1 notchMoves notch_moves,
    (C20_candidates_rest notchBoard .kShapeZ ⟨0, 19, 0⟩).2.1 (by decide)⟩

/-! ## Theorems: the selection does not depend on the input order (C16) -/

theorem BricksComp_pos_iff (a b : Situation) :
    a.BricksComp b > 0 ↔ boardWords b < boardWords a := by
  have hr : List.range (kH / 4) = [0, 1, 2, 3, 4] := by decide
  simp only [Situation.BricksComp, boardWords, hr, List.find?_cons, List.find?_nil,
    Prod.Lex.lt_iff, ofLex_toLex, EmbeddingLike.apply_eq_iff_eq, Prod.mk.injEq]
  by_cases h0 : a.row_4_ 0 = b.row_4_ 0
  · by_cases h1 : a.row_4_ 1 = b.row_4_ 1
    · by_cases h2 : a.row_4_ 2 = b.row_4_ 2
      · by_cases h3 : a.row_4_ 3 = b.row_4_ 3
        · by_cases h4 : a.row_4_ 4 = b.row_4_ 4
          · simp [h0, h1, h2, h3, h4]
          · by_cases h : b.row_4_ 4 < a.row_4_ 4 <;> simp [h0, h1, h2, h3, h4, h]
        · by_cases h : b.row_4_ 3 < a.row_4_ 3 <;> simp [h0, h1, h2, h3, h, Ne.symm h3]
      · by_cases h : b.row_4_ 2 < a.row_4_ 2 <;> simp [h0, h1, h2, h, Ne.symm h2]
    · by_cases h : b.row_4_ 1 < a.row_4_ 1 <;> simp [h0, h1, h, Ne.symm h1]
  · by_cases h : b.row_4_ 0 < a.row_4_ 0 <;> simp [h0, h, Ne.symm h0]

theorem boardWords_eq_iff (a b : Situation) :
    boardWords a = boardWords b ↔ a.BricksEqual b = true := by
  have hr : List.range (kH / 4) = [0, 1, 2, 3, 4] := by decide
  simp only [Situation.BricksEqual, boardWords, hr, EmbeddingLike.apply_eq_iff_eq,
    Prod.mk.injEq, List.all_cons, List.all_nil, Bool.and_true, Bool.and_eq_true,
    decide_eq_true_eq]

/-- The comparator of `MoveTopN` is the strict order of the pairs of key and
board words. -/
theorem moveTopNComp_iff {κ : Type} [LinearOrder κ] (key_func : State → κ) (a b : State) :
    moveTopNComp key_func a b = true ↔ sortKey key_func b < sortKey key_func a := by
  simp only [moveTopNComp, sortKey, Prod.Lex.lt_iff, ofLex_toLex]
  by_cases h : key_func a = key_func b
  · simp [h, BricksComp_pos_iff]
  · have h2 : ¬ key_func b = key_func a := fun e => h e.symm
    simp [h, h2]

theorem moveTopNComp_false_iff {κ : Type} [LinearOrder κ] (key_func : State → κ) (a b : State) :
    moveTopNComp key_func b a = false ↔ sortKey key_func b ≤ sortKey key_func a := by
  rw [← not_lt, ← moveTopNComp_iff, Bool.not_eq_true]

theorem sortKey_eq_iff {κ : Type} (key_func : State → κ) (a b : State) :
    sortKey key_func a = sortKey key_func b ↔
      key_func a = key_func b ∧ a.situ.BricksEqual b.situ = true := by
  simp only [sortKey, EmbeddingLike.apply_eq_iff_eq, Prod.mk.injEq, boardWords_eq_iff]

theorem BricksEqual_symm (a b : Situation) : a.BricksEqual b = b.BricksEqual a := by
  rw [Bool.eq_iff_iff, ← boardWords_eq_iff, ← boardWords_eq_iff]
  exact eq_comm

/-- In a list of states with pairwise distinct boards, two members with equal
boards are the same member. -/
theorem eq_of_BricksEqual (l : List State)
    (hd : l.Pairwise (fun a b => a.situ.BricksEqual b.situ = false))
    (a b : State) (ha : a ∈ l) (hb : b ∈ l) (he : a.situ.BricksEqual b.situ = true) : a = b := by
  by_contra hne
  have := hd.forall (fun x y hxy => by rw [BricksEqual_symm]; exact hxy) ha hb hne
  rw [he] at this
  exact absurd this (by simp)

/-- Two orderings of the same members, both sorted for a relation that is
antisymmetric on the members, are the same list. -/
theorem sorted_perm_unique {α : Type} (r : α → α → Prop) :
    ∀ (l1 l2 : List α), l1.Perm l2 → l1.Pairwise r → l2.Pairwise r →
      (∀ a ∈ l1, ∀ b ∈ l1, r a b → r b a → a = b) → l1 = l2 := by
  intro l1
  induction l1 with
  | nil => intro l2 hp _ _ _; exact (List.Perm.nil_eq hp)
  | cons a t ih =>
    intro l2 hp h1 h2 hanti
    cases l2 with
    | nil => exact absurd hp.length_eq (by simp)
    | cons b u =>
      have hab : a = b := by
        by_contra hne
        have ha : a ∈ b :: u := hp.subset (List.mem_cons_self _ _)
        have hb : b ∈ a :: t := hp.symm.subset (List.mem_cons_self _ _)
        have ha2 : a ∈ u := by
          rcases List.mem_cons.1 ha with h | h
          · exact absurd h hne
          · exact h
        have hb2 : b ∈ t := by
          rcases List.mem_cons.1 hb with h | h
          · exact absurd h.symm hne
          · exact h
        have r1 : r a b := (List.pairwise_cons.1 h1).1 b hb2
        have r2 : r b a := (List.pairwise_cons.1 h2).1 a ha2
        exact hne (hanti a (List.mem_cons_self _ _) b hb r1 r2)
      subst hab
      have hp2 : t.Perm u := (List.perm_cons a).1 hp
      rw [ih u hp2 (List.pairwise_cons.1 h1).2 (List.pairwise_cons.1 h2).2
        (fun x hx y hy => hanti x (List.mem_cons_of_mem _ hx) y (List.mem_cons_of_mem _ hy))]

/-- What `std::sort` guarantees of its result for the comparator of `MoveTopN`
determines the result, when the boards are pairwise distinct. -/
theorem sorted_unique {κ : Type} [LinearOrder κ] (key_func : State → κ) (xs l1 l2 : List State)
    (hd : xs.Pairwise (fun a b => a.situ.BricksEqual b.situ = false))
    (h1 : l1.Perm xs) (h2 : l2.Perm xs)
    (s1 : l1.Pairwise (fun a b => moveTopNComp key_func b a = false))
    (s2 : l2.Pairwise (fun a b => moveTopNComp key_func b a = false)) : l1 = l2 := by
  refine sorted_perm_unique _ l1 l2 (h1.trans h2.symm) s1 s2 ?_
  intro a ha b hb r1 r2
  rw [moveTopNComp_false_iff] at r1 r2
  have he := le_antisymm r2 r1
  exact eq_of_BricksEqual xs hd a b (h1.subset ha) (h1.subset hb)
    ((sortKey_eq_iff key_func a b).1 he).2

theorem insertionSort_sorted {κ : Type} [LinearOrder κ] (key_func : State → κ) (l : List State) :
    (l.insertionSort (fun a b => moveTopNComp key_func b a = false)).Pairwise
      (fun a b => moveTopNComp key_func b a = false) := by
  haveI : IsTotal State (fun a b => moveTopNComp key_func b a = false) :=
    ⟨fun a b => by
      simp only [moveTopNComp_false_iff]
      exact le_total _ _⟩
  haveI : IsTrans State (fun a b => moveTopNComp key_func b a = false) :=
    ⟨fun a b c h1 h2 => by
      simp only [moveTopNComp_false_iff] at h1 h2 ⊢
      exact le_trans h2 h1⟩
  exact List.sorted_insertionSort _ l

theorem insertionSort_perm_eq {κ : Type} [LinearOrder κ] (key_func : State → κ)
    (xs ys : List State) (hp : xs.Perm ys)
    (hd : xs.Pairwise (fun a b => a.situ.BricksEqual b.situ = false)) :
    xs.insertionSort (fun a b => moveTopNComp key_func b a = false) =
      ys.insertionSort (fun a b => moveTopNComp key_func b a = false) :=
  sorted_unique key_func xs _ _ hd (List.perm_insertionSort _ xs)
    ((List.perm_insertionSort _ ys).trans hp.symm)
    (insertionSort_sorted key_func xs) (insertionSort_sorted key_func ys)

/-- The entries that the main loop of `MoveTopN` leaves in `from` are the ones
left before, followed by entries of the walked list in their order. -/
theorem moveTopNLoop_rest {κ : Type} [DecidableEq κ] (key_func : State → κ)
    (ancestor_max : List Nat) (height_max : Nat) :
    ∀ (l : List State) (w : TopNWalk κ), ∃ l1, l1.Sublist l ∧
      (moveTopNLoop key_func ancestor_max height_max l w).rest = w.rest ++ l1 := by
  intro l
  induction l with
  | nil => intro w; exact ⟨[], List.Sublist.refl _, by simp [moveTopNLoop]⟩
  | cons a t ih =>
    intro w
    rw [moveTopNLoop]
    simp only []
    split
    · obtain ⟨l1, hs, he⟩ := ih { w with rest := w.rest ++ [a] }
      exact ⟨a :: l1, hs.cons₂ a, by rw [he]; simp⟩
    · split
      · obtain ⟨l1, hs, he⟩ := ih { w with rest := w.rest ++ [a] }
        exact ⟨a :: l1, hs.cons₂ a, by rw [he]; simp⟩
      · split
        · exact ⟨a :: t, List.Sublist.refl _, rfl⟩
        · obtain ⟨l1, hs, he⟩ := ih _
          exact ⟨l1, hs.cons a, he⟩

theorem pairwise_distinct_perm (l1 l2 : List State) (hp : l1.Perm l2)
    (hd : l1.Pairwise (fun a b => a.situ.BricksEqual b.situ = false)) :
    l2.Pairwise (fun a b => a.situ.BricksEqual b.situ = false) :=
  hp.pairwise hd (fun {x y} hxy => by rw [BricksEqual_symm]; exact hxy)

/-- Two calls of `MoveTopN` on two orderings of a vector `from` with pairwise
distinct boards, and on two orderings of `*to`, leave two orderings of the same
vectors. -/
theorem MoveTopN_perm {κ : Type} [LinearOrder κ] (zero : κ) (f1 f2 t1 t2 : List State)
    (n : Nat) (ancestor_max : List Nat) (height_max : Nat) (key_func : State → κ)
    (hf : f1.Perm f2) (ht : t1.Perm t2)
    (hd : f1.Pairwise (fun a b => a.situ.BricksEqual b.situ = false)) :
    (MoveTopN zero f1 t1 n ancestor_max height_max key_func).1.Perm
      (MoveTopN zero f2 t2 n ancestor_max height_max key_func).1 ∧
    (MoveTopN zero f1 t1 n ancestor_max height_max key_func).2.Perm
      (MoveTopN zero f2 t2 n ancestor_max height_max key_func).2 ∧
    (MoveTopN zero f1 t1 n ancestor_max height_max key_func).1.Pairwise
      (fun a b => a.situ.BricksEqual b.situ = false) := by
  unfold MoveTopN
  by_cases hn : n = 0
  · rw [if_pos hn, if_pos hn]
    exact ⟨hf, ht, hd⟩
  · rw [if_neg hn, if_neg hn]
    by_cases hl : f1.length ≤ n
    · rw [if_pos hl, if_pos (by rw [← hf.length_eq]; exact hl)]
      exact ⟨List.Perm.refl _, hf, List.Pairwise.nil⟩
    · rw [if_neg hl, if_neg (by rw [← hf.length_eq]; exact hl)]
      simp only []
      rw [← insertionSort_perm_eq key_func f1 f2 hf hd]
      refine ⟨List.Perm.refl _, ht.append_right _, ?_⟩
      obtain ⟨l1, hs, he⟩ := moveTopNLoop_rest key_func ancestor_max height_max
        (f1.insertionSort (fun a b => moveTopNComp key_func b a = false))
        ⟨n, fun _ => ⟨0, zero⟩, fun _ => ⟨0, zero⟩, [], []⟩
      rw [he, List.nil_append]
      exact (pairwise_distinct_perm _ _ (List.perm_insertionSort _ f1).symm hd).sublist hs

theorem foldl_max_perm (g : State → Nat) (xs ys : List State) (hp : xs.Perm ys) (m : Nat) :
    xs.foldl (fun m state_ptr => max m (g state_ptr)) m
      = ys.foldl (fun m state_ptr => max m (g state_ptr)) m := by
  apply hp.foldl_eq'
  intro a _ b _ z
  simp only [max_assoc, max_comm (g a) (g b)]

theorem ChooseForNextStep_perm (fl : SearchFlags) (xs ys : List State) (hp : xs.Perm ys)
    (hd : xs.Pairwise (fun a b => a.situ.BricksEqual b.situ = false)) :
    (ChooseForNextStep fl xs).Perm (ChooseForNextStep fl ys) := by
  unfold ChooseForNextStep
  by_cases he : xs = []
  · subst he
    rw [List.Perm.nil_eq hp]
  · have he2 : ys ≠ [] := fun h => he (by subst h; exact List.Perm.eq_nil hp)
    have e1 : xs.isEmpty = false := by cases xs <;> simp_all
    have e2 : ys.isEmpty = false := by cases ys <;> simp_all
    rw [e1, e2]
    simp only [Bool.false_eq_true, if_false]
    rw [foldl_max_perm (fun s => s.situ.score_) xs ys hp,
      foldl_max_perm (fun s => s.occupied_height) xs ys hp]
    generalize hq : (fun state_ptr : State =>
      !(decide (addFlag32 state_ptr.situ.score_ fl.ignore_score_threshold
          < ys.foldl (fun m state_ptr => max m state_ptr.situ.score_) 0) ||
        decide (addFlag32 state_ptr.occupied_height fl.ignore_height_threshold
          < ys.foldl (fun m state_ptr => max m state_ptr.occupied_height) 0))) = q
    have hp1 : (xs.filter q).Perm (ys.filter q) := hp.filter q
    have hd1 : (xs.filter q).Pairwise (fun a b => a.situ.BricksEqual b.situ = false) :=
      hd.sublist (List.filter_sublist _)
    by_cases hl : (xs.filter q).length
        ≤ (fl.g_quality_keep_count + fl.g_score_keep_count) % 2 ^ 32
    · rw [if_pos hl, if_pos (by rw [← hp1.length_eq]; exact hl)]
      exact hp1
    · rw [if_neg hl, if_neg (by rw [← hp1.length_eq]; exact hl)]
      obtain ⟨h1, h2, h3⟩ := MoveTopN_perm (toLex (0, toLex (0, 0))) (xs.filter q) (ys.filter q)
        [] [] fl.g_score_keep_count fl.g_score_parent_quota fl.score_height_max scoreKey
        hp1 (List.Perm.refl _) hd1
      exact (MoveTopN_perm (toLex (0, 0)) _ _ _ _ fl.g_quality_keep_count
        fl.g_quality_parent_quota fl.quality_height_max qualityKey h1 h2 h3).2.1

/-- C16: for two orderings `xs`, `ys` of the same collection of states with
pairwise distinct boards (`BricksEqual` false on every pair), `ChooseForNextStep`
returns the same states, as a set and with the same multiplicities.  The reason:
for every key function the comparator of `MoveTopN` (greater key first, then
`BricksComp` positive) is irreflexive and transitive, it orders every two
distinct members of the collection, and so any two sorted orderings of the
collection, whatever `std::sort` does, are the same sequence. -/
theorem C16_selection_order_independent (fl : SearchFlags) (xs ys : List State)
    (hperm : xs.Perm ys)
    (hdist : xs.Pairwise (fun a b => a.situ.BricksEqual b.situ = false)) :
    (∀ s, s ∈ ChooseForNextStep fl xs ↔ s ∈ ChooseForNextStep fl ys) ∧
    (ChooseForNextStep fl xs).Perm (ChooseForNextStep fl ys) ∧
    (∀ (κ : Type) [LinearOrder κ] (key_func : State → κ),
      (∀ a, moveTopNComp key_func a a = false) ∧
      (∀ a b c, moveTopNComp key_func a b = true → moveTopNComp key_func b c = true →
        moveTopNComp key_func a c = true) ∧
      (∀ a ∈ xs, ∀ b ∈ xs, a ≠ b →
        moveTopNComp key_func a b = true ∨ moveTopNComp key_func b a = true) ∧
      (∀ l1 l2 : List State, l1.Perm xs → l2.Perm xs →
        l1.Pairwise (fun a b => moveTopNComp key_func b a = false) →
        l2.Pairwise (fun a b => moveTopNComp key_func b a = false) → l1 = l2)) := by
  have hp := ChooseForNextStep_perm fl xs ys hperm hdist
  refine ⟨fun s => hp.mem_iff, hp, ?_⟩
  intro κ _ key_func
  refine ⟨?_, ?_, ?_, ?_⟩
  · intro a
    rw [← Bool.not_eq_true, moveTopNComp_iff]
    exact lt_irrefl _
  · intro a b c h1 h2
    rw [moveTopNComp_iff] at h1 h2 ⊢
    exact lt_trans h2 h1
  · intro a ha b hb hne
    rw [moveTopNComp_iff, moveTopNComp_iff]
    rcases lt_trichotomy (sortKey key_func a) (sortKey key_func b) with h | h | h
    · exact Or.inr h
    · exact absurd (eq_of_BricksEqual xs hdist a b ha hb
        ((sortKey_eq_iff key_func a b).1 h).2) hne
    · exact Or.inl h
  · intro l1 l2 h1 h2 s1 s2
    exact sorted_unique key_func xs l1 l2 hdist h1 h2 s1 s2

set_option maxRecDepth 100000 in
/-- C16, witness: three states with pairwise distinct boards, one kept per pass;
the list and its reverse give the same selection, the states with bottom rows 6
and 5. -/
theorem C16_selection_order_independent_witness :
    (ChooseForNextStep selectFlags selectExample).map (fun s => s.situ.row 19) = [6, 5] ∧
    ∀ s, s ∈ ChooseForNextStep selectFlags selectExample ↔
      s ∈ ChooseForNextStep selectFlags selectExample.reverse :=
  ⟨by decide,
    (C16_selection_order_independent selectFlags selectExample selectExample.reverse
      (List.reverse_perm selectExample).symm (by decide)).1⟩

/-! ## Theorems: failure atomicity of the route finder (C27) -/

/-- C27: failure atomicity of the route finder.  For `AppendRoute`,
`AppendRouteNaive`, `RotateRouteAppend` and `HorizontalRouteAppend`, on every
board, shape, poses and initial list `res`: a call that returns false leaves
`res` exactly as it was, and after a call that returns true the original list is
a prefix of `res`. -/
theorem C27_failure_atomic (s : Situation) (shp : Shape) (from_ to_ : BrickStatus)
    (res : List Action) (options to_rot : Nat) (to_x : Int) :
    ((∀ r, s.AppendRoute shp from_ to_ res options = some (false, r) → r = res) ∧
      (∀ r, s.AppendRoute shp from_ to_ res options = some (true, r) → res <+: r)) ∧
    ((∀ r, s.AppendRouteNaive shp from_ to_ res = some (false, r) → r = res) ∧
      (∀ r, s.AppendRouteNaive shp from_ to_ res = some (true, r) → res <+: r)) ∧
    ((∀ r, s.RotateRouteAppend shp from_ to_rot res = some (false, r) → r = res) ∧
      (∀ r, s.RotateRouteAppend shp from_ to_rot res = some (true, r) → res <+: r)) ∧
    ((∀ r, s.HorizontalRouteAppend shp from_ to_x res = some (false, r) → r = res) ∧
      (∀ r, s.HorizontalRouteAppend shp from_ to_x res = some (true, r) → res <+: r)) := by
  have key : ∀ (t : BrickStatus) (out : RouteResult), RouteGood s shp from_ t res out →
      (∀ r, out = some (false, r) → r = res) ∧ (∀ r, out = some (true, r) → res <+: r) := by
    intro t out hg
    refine ⟨fun r h => (hg false r h).1 rfl, fun r h => ?_⟩
    obtain ⟨acts, he, _⟩ := (hg true r h).2 rfl
    exact ⟨acts, he.symm⟩
  exact ⟨key _ _ (AppendRoute_good s shp from_ to_ res options),
    key _ _ (AppendRouteNaive_good s shp from_ to_ res),
    key _ _ (RotateRouteAppend_good s shp from_ to_rot res),
    key _ _ (HorizontalRouteAppend_good s shp from_ to_x res)⟩

set_option maxRecDepth 100000 in
/-- C27, witness: on `overhangBoard` the call for the piece O towards the pose
`(4, 1)`, whose cell `(4, 1)` is occupied, returns false and leaves the list
`[D1]` as it was; the call towards the pose `(6, 3)` at the bottom of the open
columns returns true and `[D1]` is a prefix of the result. -/
theorem C27_failure_atomic_witness :
    (∃ r, overhangBoard.AppendRoute .kShapeO ⟨4, 0, 0⟩ ⟨4, 1, 0⟩ [⟨.kDown, 1⟩] = some (false, r) ∧
      r = [⟨.kDown, 1⟩]) ∧
    (∃ r, overhangBoard.AppendRoute .kShapeO ⟨4, 0, 0⟩ ⟨6, 3, 0⟩ [⟨.kDown, 1⟩] = some (true, r) ∧
      [⟨.kDown, 1⟩] <+: r) :=
  ⟨(fun h => ⟨[⟨.kDown, 1⟩], h,
      (C27_failure_atomic overhangBoard .kShapeO ⟨4, 0, 0⟩ ⟨4, 1, 0⟩ [⟨.kDown, 1⟩] 0 0 0).1.1 _ h⟩)
      (by decide),
    (fun h => ⟨[⟨.kDown, 1⟩, ⟨.kRight, 2⟩, ⟨.kDown, 3⟩], h,
      (C27_failure_atomic overhangBoard .kShapeO ⟨4, 0, 0⟩ ⟨6, 3, 0⟩ [⟨.kDown, 1⟩] 0 0 0).1.2 _ h⟩)
      (by decide)⟩

/-! ## Theorems: the keep counts of PrepareFlags (C25) -/

theorem AppendRouteAux_succ (s : Situation) (shp : Shape) (fuel : Nat)
    (from_ to_ : BrickStatus) (res : List Action) (options : Nat) :
    AppendRouteAux s shp (fuel + 1) from_ to_ res options
      = AppendRouteBody (AppendRouteAux s shp fuel) s shp from_ to_ res options := rfl

theorem bottomLoop_congr (rec1 rec2 : RouteFn) (s : Situation) (shp : Shape)
    (from_ to_ : BrickStatus) (options size dir : Nat)
    (h : ∀ f t r, t.y = to_.y →
      rec1 f t r (options ||| kBottomLeftRight) = rec2 f t r (options ||| kBottomLeftRight)) :
    ∀ (dxs : List Nat) (res : List Action),
      bottomLoop rec1 s shp from_ to_ options size dir dxs res
        = bottomLoop rec2 s shp from_ to_ options size dir dxs res := by
  intro dxs
  induction dxs with
  | nil => intro res; rfl
  | cons dx more ih =>
    intro res
    have ihf : bottomLoop rec1 s shp from_ to_ options size dir more
        = bottomLoop rec2 s shp from_ to_ options size dir more := funext ih
    have hx : ∀ x, rec1 from_ (to_.ReplaceX x) res (options ||| kBottomLeftRight)
        = rec2 from_ (to_.ReplaceX x) res (options ||| kBottomLeftRight) :=
      fun x => h from_ (to_.ReplaceX x) res rfl
    simp only [bottomLoop]
    rw [hx, ihf]

theorem topLoop_congr (rec1 rec2 : RouteFn) (s : Situation) (shp : Shape)
    (from_ to_ : BrickStatus) (options size dir : Nat)
    (h : ∀ f t r, t.y = to_.y →
      rec1 f t r (options ||| kTopLeftRight) = rec2 f t r (options ||| kTopLeftRight)) :
    ∀ (dxs : List Nat) (res : List Action),
      topLoop rec1 s shp from_ to_ options size dir dxs res
        = topLoop rec2 s shp from_ to_ options size dir dxs res := by
  intro dxs
  induction dxs with
  | nil => intro res; rfl
  | cons dx more ih =>
    intro res
    have ihf : topLoop rec1 s shp from_ to_ options size dir more
        = topLoop rec2 s shp from_ to_ options size dir more := funext ih
    have hf : (fun res1 => rec1 (from_.ReplaceX (if dir = 0 then from_.x + dx else from_.x - dx))
        to_ res1 (options ||| kTopLeftRight))
        = (fun res1 => rec2 (from_.ReplaceX (if dir = 0 then from_.x + dx else from_.x - dx))
        to_ res1 (options ||| kTopLeftRight)) := funext (fun r => h _ to_ r rfl)
    simp only [topLoop]
    rw [hf, ihf]

theorem tspinLoop_congr (rec1 rec2 : RouteFn) (s : Situation) (shp : Shape)
    (from_ to_ : BrickStatus) (options size : Nat)
    (h : ∀ f t r, t.y = to_.y →
      rec1 f t r (options ||| kTSpin) = rec2 f t r (options ||| kTSpin)) :
    ∀ (fuel rot : Nat) (res : List Action),
      tspinLoop rec1 s shp from_ to_ options size fuel rot res
        = tspinLoop rec2 s shp from_ to_ options size fuel rot res := by
  intro fuel
  induction fuel with
  | zero => intro rot res; rfl
  | succ fuel ih =>
    intro rot res
    have ihf : ∀ rot1, tspinLoop rec1 s shp from_ to_ options size fuel rot1
        = tspinLoop rec2 s shp from_ to_ options size fuel rot1 := fun rot1 => funext (ih rot1)
    have hx : ∀ x, rec1 from_ (to_.ReplaceRot x) res (options ||| kTSpin)
        = rec2 from_ (to_.ReplaceRot x) res (options ||| kTSpin) :=
      fun x => h from_ (to_.ReplaceRot x) res rfl
    simp only [tspinLoop]
    rw [hx, ihf]

theorem ispinLoop_congr (rec1 rec2 : RouteFn) (s : Situation) (shp : Shape)
    (from_ to_ : BrickStatus) (options size : Nat)
    (h : ∀ f t r, t.y = to_.y →
      rec1 f t r (options ||| kInitialSpin) = rec2 f t r (options ||| kInitialSpin)) :
    ∀ (fuel rot : Nat) (res : List Action),
      ispinLoop rec1 s shp from_ to_ options size fuel rot res
        = ispinLoop rec2 s shp from_ to_ options size fuel rot res := by
  intro fuel
  induction fuel with
  | zero => intro rot res; rfl
  | succ fuel ih =>
    intro rot res
    have ihf : ∀ rot1, ispinLoop rec1 s shp from_ to_ options size fuel rot1
        = ispinLoop rec2 s shp from_ to_ options size fuel rot1 := fun rot1 => funext (ih rot1)
    have hf : (fun res1 => rec1 (from_.ReplaceRot ((rot + 1) &&& (shp.cnt - 1)))
        to_ res1 (options ||| kInitialSpin))
        = (fun res1 => rec2 (from_.ReplaceRot ((rot + 1) &&& (shp.cnt - 1)))
        to_ res1 (options ||| kInitialSpin)) := funext (fun r => h _ to_ r rfl)
    simp only [ispinLoop]
    rw [hf, ihf]

/-- The body of `AppendRoute` makes its nested calls with arguments related to
its own by `NestedCall` only. -/
theorem AppendRouteBody_congr (rec1 rec2 : RouteFn) (s : Situation) (shp : Shape)
    (from_ to_ : BrickStatus) (res : List Action) (options : Nat)
    (h : ∀ f t r o, NestedCall options to_.y o t.y → rec1 f t r o = rec2 f t r o) :
    AppendRouteBody rec1 s shp from_ to_ res options
      = AppendRouteBody rec2 s shp from_ to_ res options := by
  have hflag : ∀ flag, (flag = kBottomLeftRight ∨ flag = kTopLeftRight ∨ flag = kTSpin ∨
      flag = kInitialSpin) → options &&& flag = 0 → ∀ f t r, t.y = to_.y →
      rec1 f t r (options ||| flag) = rec2 f t r (options ||| flag) := by
    intro flag hf h0 f t r hy
    exact h f t r _ (Or.inl ⟨flag, hf, h0, rfl, hy⟩)
  unfold AppendRouteBody
  simp only []
  congr 1
  funext res0
  have e1 : (if options &&& kBottomLeftRight = 0 then
        (bottomLoop rec1 s shp from_ to_ options res.length 0 [1, 2, 3, 4, 5] res0).orElse
          (bottomLoop rec1 s shp from_ to_ options res.length 1 [1, 2, 3, 4, 5])
      else some (false, res0)) = (if options &&& kBottomLeftRight = 0 then
        (bottomLoop rec2 s shp from_ to_ options res.length 0 [1, 2, 3, 4, 5] res0).orElse
          (bottomLoop rec2 s shp from_ to_ options res.length 1 [1, 2, 3, 4, 5])
      else some (false, res0)) := by
    by_cases h0 : options &&& kBottomLeftRight = 0
    · rw [if_pos h0, if_pos h0]
      have hc := bottomLoop_congr rec1 rec2 s shp from_ to_ options res.length
      rw [hc 0 (hflag _ (Or.inl rfl) h0)]
      congr 1
      funext r
      exact hc 1 (hflag _ (Or.inl rfl) h0) _ r
    · rw [if_neg h0, if_neg h0]
  rw [e1]
  congr 1
  funext res1
  have e2 : (if options &&& kTopLeftRight = 0 then
        (topLoop rec1 s shp from_ to_ options res.length 0 [1, 2, 3, 4, 5] res1).orElse
          (topLoop rec1 s shp from_ to_ options res.length 1 [1, 2, 3, 4, 5])
      else some (false, res1)) = (if options &&& kTopLeftRight = 0 then
        (topLoop rec2 s shp from_ to_ options res.length 0 [1, 2, 3, 4, 5] res1).orElse
          (topLoop rec2 s shp from_ to_ options res.length 1 [1, 2, 3, 4, 5])
      else some (false, res1)) := by
    by_cases h0 : options &&& kTopLeftRight = 0
    · rw [if_pos h0, if_pos h0]
      have hc := topLoop_congr rec1 rec2 s shp from_ to_ options res.length
      rw [hc 0 (hflag _ (Or.inr (Or.inl rfl)) h0)]
      congr 1
      funext r
      exact hc 1 (hflag _ (Or.inr (Or.inl rfl)) h0) _ r
    · rw [if_neg h0, if_neg h0]
  rw [e2]
  congr 1
  funext res2
  have e3 : (if to_.y > 1 then
        if s.Fits shp (to_.ReplaceY (to_.y - 1)) = true then
          ((rec1 from_ (to_.ReplaceY (to_.y - 1)) res2 options).andThen
            (s.AppendRouteNaive shp (to_.ReplaceY (to_.y - 1)) to_)).orResize res.length
        else some (false, res2)
      else some (false, res2)) = (if to_.y > 1 then
        if s.Fits shp (to_.ReplaceY (to_.y - 1)) = true then
          ((rec2 from_ (to_.ReplaceY (to_.y - 1)) res2 options).andThen
            (s.AppendRouteNaive shp (to_.ReplaceY (to_.y - 1)) to_)).orResize res.length
        else some (false, res2)
      else some (false, res2)) := by
    by_cases hy : to_.y > 1
    · rw [if_pos hy, if_pos hy, h _ _ _ _ (Or.inr ⟨rfl, hy, rfl⟩)]
    · rw [if_neg hy, if_neg hy]
  rw [e3]
  congr 1
  funext res3
  have e4 : (if options &&& kTSpin = 0 then
        tspinLoop rec1 s shp from_ to_ options res.length 4 to_.rot res3
      else some (false, res3)) = (if options &&& kTSpin = 0 then
        tspinLoop rec2 s shp from_ to_ options res.length 4 to_.rot res3
      else some (false, res3)) := by
    by_cases h0 : options &&& kTSpin = 0
    · rw [if_pos h0, if_pos h0]
      exact tspinLoop_congr rec1 rec2 s shp from_ to_ options res.length
        (hflag _ (Or.inr (Or.inr (Or.inl rfl))) h0) _ _ _
    · rw [if_neg h0, if_neg h0]
  rw [e4]
  congr 1
  funext res4
  by_cases h0 : options &&& kInitialSpin = 0
  · rw [if_pos h0, if_pos h0]
    exact ispinLoop_congr rec1 rec2 s shp from_ to_ options res.length
      (hflag _ (Or.inr (Or.inr (Or.inr rfl))) h0) _ _ _
  · rw [if_neg h0, if_neg h0]

theorem NestedCall_depth (o : Nat) (y : Int) (o1 : Nat) (y1 : Int) (h : NestedCall o y o1 y1) :
    routeDepth o1 ⟨0, y1, 0⟩ + 1 ≤ routeDepth o ⟨0, y, 0⟩ := by
  rcases h with ⟨flag, hf, h0, rfl, rfl⟩ | ⟨rfl, hy, rfl⟩
  · exact routeDepth_flag o flag ⟨0, y1, 0⟩ ⟨0, y1, 0⟩ rfl hf h0
  · unfold routeDepth
    simp only []
    omega

theorem CallChain_length : ∀ (l : List (Nat × Int)) (a : Nat × Int),
    CallChain (a :: l) → (a :: l).length ≤ routeDepth a.1 ⟨0, a.2, 0⟩ := by
  intro l
  induction l with
  | nil =>
    intro a _
    unfold routeDepth
    simp only [List.length_singleton]
    omega
  | cons b rest ih =>
    intro a h
    have h1 := List.chain'_cons.1 h
    have := ih b h1.2
    have hd := NestedCall_depth a.1 a.2 b.1 b.2 h1.1
    simp only [List.length_cons] at this ⊢
    omega

theorem or_eq_zero_left (a b : Nat) (h : a ||| b = 0) : a = 0 := by
  apply Nat.eq_of_testBit_eq
  intro i
  have := congrArg (fun t => t.testBit i) h
  simp only [Nat.testBit_or, Nat.zero_testBit, Bool.or_eq_false_iff] at this
  rw [this.1, Nat.zero_testBit]

theorem NestedCall_flag_mono (o : Nat) (y : Int) (o1 : Nat) (y1 : Int) (F : Nat)
    (h : NestedCall o y o1 y1) (hF : o &&& F ≠ 0) : o1 &&& F ≠ 0 := by
  rcases h with ⟨flag, _, _, rfl, _⟩ | ⟨rfl, _, _⟩
  · rw [or_and_flag]
    intro h0
    exact hF (or_eq_zero_left _ _ h0)
  · exact hF

theorem flagEntries_cons (F : Nat) (a b : Nat × Int) (rest : List (Nat × Int)) :
    flagEntries F (a :: b :: rest)
      = (if a.1 &&& F = 0 ∧ b.1 &&& F ≠ 0 then 1 else 0) + flagEntries F (b :: rest) := by
  unfold flagEntries
  simp only [List.tail_cons, List.zip_cons_cons, List.filter_cons]
  by_cases h : a.1 &&& F = 0 ∧ b.1 &&& F ≠ 0
  · have h2 : (decide (a.1 &&& F = 0) && decide (b.1 &&& F ≠ 0)) = true := by simpa using h
    rw [if_pos h2, if_pos h, List.length_cons]
    omega
  · have h2 : ¬ (decide (a.1 &&& F = 0) && decide (b.1 &&& F ≠ 0)) = true := by simpa using h
    rw [if_neg h2, if_neg h]
    omega

theorem flagEntries_zero (F : Nat) : ∀ (l : List (Nat × Int)) (a : Nat × Int),
    CallChain (a :: l) → a.1 &&& F ≠ 0 → flagEntries F (a :: l) = 0 := by
  intro l
  induction l with
  | nil => intro a _ _; rfl
  | cons b rest ih =>
    intro a h hF
    have h1 := List.chain'_cons.1 h
    rw [flagEntries_cons, if_neg (fun hc => hF hc.1),
      ih b h1.2 (NestedCall_flag_mono _ _ _ _ F h1.1 hF)]

theorem flagEntries_le_one (F : Nat) : ∀ (l : List (Nat × Int)), CallChain l →
    flagEntries F l ≤ 1 := by
  intro l
  induction l with
  | nil => intro _; exact Nat.zero_le _
  | cons a rest ih =>
    intro h
    cases rest with
    | nil => exact Nat.zero_le _
    | cons b rest =>
      have h1 := List.chain'_cons.1 h
      rw [flagEntries_cons]
      by_cases hc : a.1 &&& F = 0 ∧ b.1 &&& F ≠ 0
      · rw [if_pos hc, flagEntries_zero F rest b h1.2 hc.2]
      · rw [if_neg hc, Nat.zero_add]
        exact ih h1.2

theorem liftEntries_cons (a b : Nat × Int) (rest : List (Nat × Int)) :
    liftEntries (a :: b :: rest)
      = (if b.1 = a.1 then 1 else 0) + liftEntries (b :: rest) := by
  unfold liftEntries
  simp only [List.tail_cons, List.zip_cons_cons, List.filter_cons]
  by_cases h : b.1 = a.1
  · rw [if_pos (by simpa using h), if_pos h, List.length_cons]
    omega
  · rw [if_neg (by simpa using h), if_neg h]
    omega

theorem liftEntries_le : ∀ (l : List (Nat × Int)) (a : Nat × Int),
    CallChain (a :: l) → liftEntries (a :: l) ≤ (a.2 - 1).toNat := by
  intro l
  induction l with
  | nil => intro a _; exact Nat.zero_le _
  | cons b rest ih =>
    intro a h
    have h1 := List.chain'_cons.1 h
    have h2 := ih b h1.2
    rw [liftEntries_cons]
    rcases h1.1 with ⟨flag, hf, h0, he, hy⟩ | ⟨he, hy, hy1⟩
    · have hne : b.1 ≠ a.1 := by
        intro hc
        rw [he] at hc
        have h3 := flag_self a.1 flag h0
        rw [hc, h0] at h3
        have h4 : flag ≠ 0 := by
          unfold kBottomLeftRight kTopLeftRight kTSpin kInitialSpin at hf
          omega
        exact h4 h3.symm
      rw [hy] at h2
      rw [if_neg hne]
      omega
    · rw [if_pos he]
      omega

set_option maxRecDepth 100000 in
/-- C28 (counterexample): on `shaftBoard`, for the piece O and the target
`(0, 19)` under the overhang, with all four guard bits set in `options`: the
call nests a call for `to.y = 18`, which nests a call for `to.y = 17`, both by
the lift-then-drop detour and both with the same `options`.  A nesting depth of
2 does not suffice, a depth of 3 does. -/
theorem C28_lift_nests_twice :
    (15 &&& kBottomLeftRight ≠ 0 ∧ 15 &&& kTopLeftRight ≠ 0 ∧ 15 &&& kTSpin ≠ 0 ∧
      15 &&& kInitialSpin ≠ 0) ∧
    AppendRouteBody (fun _ t r o => if o = 15 ∧ t.y = 18 then none else some (false, r))
      shaftBoard .kShapeO ⟨4, 0, 0⟩ ⟨0, 19, 0⟩ [] 15 = none ∧
    AppendRouteBody (fun _ t r o => if o = 15 ∧ t.y = 17 then none else some (false, r))
      shaftBoard .kShapeO ⟨4, 0, 0⟩ ⟨0, 18, 0⟩ [] 15 = none ∧
    AppendRouteAux shaftBoard .kShapeO 2 ⟨4, 0, 0⟩ ⟨0, 19, 0⟩ [] 15 = none ∧
    AppendRouteAux shaftBoard .kShapeO 3 ⟨4, 0, 0⟩ ⟨0, 19, 0⟩ [] 15 = some (false, []) ∧
    CallChain [(15, 19), (15, 18), (15, 17)] ∧
    liftEntries [(15, 19), (15, 18), (15, 17)] = 2 := by
  refine ⟨by decide, by decide, by decide, by decide, by decide, ?_, by decide⟩
  unfold CallChain
  refine List.chain'_cons.2 ⟨Or.inr ⟨rfl, by decide, rfl⟩, List.chain'_cons.2
    ⟨Or.inr ⟨rfl, by decide, rfl⟩, List.chain'_singleton _⟩⟩

/-- C28 (amended): for poses with rotations below the rotation count
`AppendRoute` terminates, without a depth counter: a nesting depth of
`routeDepth options to`, the number of guard bits not set in `options` plus
`to.y` plus 1, suffices.  The nested calls made by a call are related to it by
`NestedCall`: each sets one of the four guard bits that was not set, or is the
call of the lift-then-drop detour, which keeps `options` and lowers `to.y > 1`
by one.  So along every chain of nested calls the chain is no longer than
`routeDepth`, each of the four guarded detours is entered at most once, and the
lift-then-drop detour is entered at most `to.y - 1` times. -/
theorem C28_route_terminates (s : Situation) (shp : Shape) (from_ to_ : BrickStatus)
    (res : List Action) (options : Nat) (h1 : from_.rot < shp.cnt) (h2 : to_.rot < shp.cnt) :
    s.AppendRoute shp from_ to_ res options ≠ none ∧
    (∀ fuel, routeDepth options to_ ≤ fuel →
      AppendRouteAux s shp fuel from_ to_ res options ≠ none) ∧
    (∀ fuel, AppendRouteAux s shp (fuel + 1) from_ to_ res options
      = AppendRouteBody (AppendRouteAux s shp fuel) s shp from_ to_ res options) ∧
    (∀ rec1 rec2 : RouteFn,
      (∀ f t r o, NestedCall options to_.y o t.y → rec1 f t r o = rec2 f t r o) →
      AppendRouteBody rec1 s shp from_ to_ res options
        = AppendRouteBody rec2 s shp from_ to_ res options) ∧
    (∀ l : List (Nat × Int), CallChain ((options, to_.y) :: l) →
      ((options, to_.y) :: l).length ≤ routeDepth options to_ ∧
      flagEntries kBottomLeftRight ((options, to_.y) :: l) ≤ 1 ∧
      flagEntries kTopLeftRight ((options, to_.y) :: l) ≤ 1 ∧
      flagEntries kTSpin ((options, to_.y) :: l) ≤ 1 ∧
      flagEntries kInitialSpin ((options, to_.y) :: l) ≤ 1 ∧
      liftEntries ((options, to_.y) :: l) ≤ (to_.y - 1).toNat) := by
  refine ⟨AppendRoute_total s shp from_ to_ res options h1 h2,
    fun fuel hf => AppendRouteAux_total s shp fuel from_ to_ res options h1 h2 hf,
    fun fuel => rfl,
    fun rec1 rec2 h => AppendRouteBody_congr rec1 rec2 s shp from_ to_ res options h, ?_⟩
  intro l hl
  exact ⟨CallChain_length l _ hl, flagEntries_le_one _ _ hl, flagEntries_le_one _ _ hl,
    flagEntries_le_one _ _ hl, flagEntries_le_one _ _ hl, liftEntries_le l _ hl⟩

set_option maxRecDepth 100000 in
/-- C28 (amended), witness: the call on `shaftBoard` with no guard bit set. -/
theorem C28_route_terminates_witness :
    shaftBoard.AppendRoute .kShapeO ⟨4, 0, 0⟩ ⟨0, 19, 0⟩ [] 0 ≠ none ∧
    routeDepth 0 ⟨0, 19, 0⟩ = 24 :=
  ⟨(C28_route_terminates shaftBoard .kShapeO ⟨4, 0, 0⟩ ⟨0, 19, 0⟩ [] 0 (by decide)
    (by decide)).1, by decide⟩

/-! ## Theorems: the two passes and the quota tie of MoveTopN (C23, C24) -/

set_option maxRecDepth 100000 in
/-- C23 (divergence): on `tieExample` with `tieFlags` (one state kept by score,
two by quality) the pre-prune keeps the four states, the first pass selects the
two states of score 30, which have the same key, and leaves the two others; the
second pass, with two states left and a capacity of two, takes the branch
`from.size() <= n`, which assigns what is left to `*to`.  The frontier is the two
states of score 10: the states selected by the first pass are missing, and the
frontier is not the concatenation of the two selections. -/
theorem C23_first_pass_overwritten :
    (MoveTopN (toLex (0, toLex (0, 0))) tieExample [] tieFlags.g_score_keep_count
        tieFlags.g_score_parent_quota tieFlags.score_height_max scoreKey).2.map
      (fun s => s.situ.score_) = [30, 30] ∧
    (MoveTopN (toLex (0, toLex (0, 0))) tieExample [] tieFlags.g_score_keep_count
        tieFlags.g_score_parent_quota tieFlags.score_height_max scoreKey).1.map
      (fun s => s.situ.score_) = [10, 10] ∧
    ChooseForNextStep tieFlags tieExample =
      (MoveTopN (toLex (0, toLex (0, 0))) tieExample [] tieFlags.g_score_keep_count
        tieFlags.g_score_parent_quota tieFlags.score_height_max scoreKey).1 ∧
    (ChooseForNextStep tieFlags tieExample).map (fun s => s.situ.score_) = [10, 10] ∧
    (∀ s ∈ (MoveTopN (toLex (0, toLex (0, 0))) tieExample [] tieFlags.g_score_keep_count
        tieFlags.g_score_parent_quota tieFlags.score_height_max scoreKey).2,
      s ∉ ChooseForNextStep tieFlags tieExample) := by
  refine ⟨by decide, by decide, by decide, by decide, by decide⟩

set_option maxRecDepth 100000 in
/-- C24 (divergence): `ParentQuotaInfo::value` is never assigned, so the tie that
`quota_check` admits past the quota is one with the all-zero key, not with the
key last accepted.  On `quotaExample`, three children of one parent at one
height, with an ancestor quota of 1: the first state is accepted; the second,
whose key equals the key just accepted, is skipped; the third, whose key is the
all-zero key and differs from the key last accepted, is accepted.  The same
happens with a height quota of 1 and no ancestor quota, and nothing is skipped
when both quotas are 10. -/
theorem C24_quota_tie_is_with_zero_key :
    quotaExample.map scoreKey =
      [toLex (300000, toLex (30, 5)), toLex (300000, toLex (30, 5)), toLex (0, toLex (0, 0))] ∧
    quotaExample.map State.parent = [some quotaParent, some quotaParent, some quotaParent] ∧
    quotaExample.map State.occupied_height = [1, 1, 1] ∧
    ((MoveTopN (toLex (0, toLex (0, 0))) quotaExample [] 2 [1] 10 scoreKey).2.map
        (fun s => s.situ.row 19) = [5, 6] ∧
      (MoveTopN (toLex (0, toLex (0, 0))) quotaExample [] 2 [1] 10 scoreKey).1.map
        (fun s => s.situ.row 19) = [3]) ∧
    ((MoveTopN (toLex (0, toLex (0, 0))) quotaExample [] 2 [] 1 scoreKey).2.map
        (fun s => s.situ.row 19) = [5, 6] ∧
      (MoveTopN (toLex (0, toLex (0, 0))) quotaExample [] 2 [] 1 scoreKey).1.map
        (fun s => s.situ.row 19) = [3]) ∧
    (MoveTopN (toLex (0, toLex (0, 0))) quotaExample [] 2 [] 10 scoreKey).2.map
      (fun s => s.situ.row 19) = [5, 3] := by
  refine ⟨by decide, by decide, by decide, ⟨by decide, by decide⟩, ⟨by decide, by decide⟩,
    by decide⟩

/-! ## Theorems: the pre-prune of ChooseForNextStep (C26) -/

/-- The main loop of `MoveTopN` moves to `res_buffer` entries of the walked list
only. -/
theorem moveTopNLoop_buffer {κ : Type} [DecidableEq κ] (key_func : State → κ)
    (ancestor_max : List Nat) (height_max : Nat) :
    ∀ (l : List State) (w : TopNWalk κ),
      ∀ s ∈ (moveTopNLoop key_func ancestor_max height_max l w).res_buffer,
        s ∈ w.res_buffer ∨ s ∈ l := by
  intro l
  induction l with
  | nil => intro w s hs; exact Or.inl (by simpa [moveTopNLoop] using hs)
  | cons a t ih =>
    intro w s hs
    rw [moveTopNLoop] at hs
    simp only [] at hs
    split at hs
    · rcases ih _ s hs with h | h
      · exact Or.inl h
      · exact Or.inr (List.mem_cons_of_mem _ h)
    · split at hs
      · rcases ih _ s hs with h | h
        · exact Or.inl h
        · exact Or.inr (List.mem_cons_of_mem _ h)
      · split at hs
        · exact Or.inl hs
        · rcases ih _ s hs with h | h
          · simp only [List.mem_append, List.mem_singleton] at h
            rcases h with h | h
            · exact Or.inl h
            · exact Or.inr (h ▸ List.mem_cons_self _ _)
          · exact Or.inr (List.mem_cons_of_mem _ h)

/-- `MoveTopN` puts into `*to` only states that were in `*to` or in `from`. -/
theorem MoveTopN_subset {κ : Type} [LinearOrder κ] (zero : κ) (from_ to_ : List State)
    (n : Nat) (ancestor_max : List Nat) (height_max : Nat) (key_func : State → κ) :
    (∀ s ∈ (MoveTopN zero from_ to_ n ancestor_max height_max key_func).2,
      s ∈ to_ ∨ s ∈ from_) ∧
    (∀ s ∈ (MoveTopN zero from_ to_ n ancestor_max height_max key_func).1, s ∈ from_) := by
  unfold MoveTopN
  by_cases hn : n = 0
  · rw [if_pos hn]
    exact ⟨fun s hs => Or.inl hs, fun s hs => hs⟩
  · rw [if_neg hn]
    by_cases hl : from_.length ≤ n
    · rw [if_pos hl]
      exact ⟨fun s hs => Or.inr hs, fun s hs => by simp at hs⟩
    · rw [if_neg hl]
      simp only []
      have hperm := List.perm_insertionSort
        (fun a b => moveTopNComp key_func b a = false) from_
      constructor
      · intro s hs
        rcases List.mem_append.1 hs with h | h
        · exact Or.inl h
        · rcases moveTopNLoop_buffer key_func ancestor_max height_max _ _ s h with h1 | h1
          · simp at h1
          · exact Or.inr (hperm.subset h1)
      · intro s hs
        obtain ⟨l1, hsub, he⟩ := moveTopNLoop_rest key_func ancestor_max height_max
          (from_.insertionSort (fun a b => moveTopNComp key_func b a = false))
          ⟨n, fun _ => ⟨0, zero⟩, fun _ => ⟨0, zero⟩, [], []⟩
        rw [he, List.nil_append] at hs
        exact hperm.subset (hsub.subset hs)

theorem foldl_max_le (g : State → Nat) (M : Nat) : ∀ (l : List State) (m : Nat), m ≤ M →
    (∀ s ∈ l, g s ≤ M) → l.foldl (fun m state_ptr => max m (g state_ptr)) m ≤ M := by
  intro l
  induction l with
  | nil => intro m hm _; exact hm
  | cons a t ih =>
    intro m hm h
    exact ih _ (max_le hm (h a (List.mem_cons_self _ _)))
      (fun s hs => h s (List.mem_cons_of_mem _ hs))

theorem le_foldl_max (g : State → Nat) : ∀ (l : List State) (m : Nat),
    m ≤ l.foldl (fun m state_ptr => max m (g state_ptr)) m ∧
    ∀ s ∈ l, g s ≤ l.foldl (fun m state_ptr => max m (g state_ptr)) m := by
  intro l
  induction l with
  | nil => intro m; exact ⟨le_refl _, fun s hs => by simp at hs⟩
  | cons a t ih =>
    intro m
    obtain ⟨h1, h2⟩ := ih (max m (g a))
    refine ⟨le_trans (le_max_left _ _) h1, ?_⟩
    intro s hs
    rcases List.mem_cons.1 hs with h | h
    · rw [h]; exact le_trans (le_max_right _ _) h1
    · exact h2 s h

theorem foldl_max_eq (g : State → Nat) (l : List State) (M : Nat)
    (h1 : ∀ s ∈ l, g s ≤ M) (h2 : ∃ s ∈ l, g s = M) :
    l.foldl (fun m state_ptr => max m (g state_ptr)) 0 = M := by
  apply le_antisymm
  · exact foldl_max_le g M l 0 (Nat.zero_le _) h1
  · obtain ⟨s, hs, he⟩ := h2
    rw [← he]
    exact (le_foldl_max g l 0).2 s hs

theorem addFlag32_le (v : Nat) (t : Nat) : addFlag32 v t ≤ v + t := by
  unfold addFlag32
  omega

theorem addFlag32_eq (v : Nat) (t : Nat) (h : v + t < 2 ^ 32) : addFlag32 v t = v + t := by
  unfold addFlag32
  omega

/-- Every state of the frontier passed the pre-prune of `ChooseForNextStep`. -/
theorem ChooseForNextStep_subset (fl : SearchFlags) (orig : List State) :
    ∀ s ∈ ChooseForNextStep fl orig, s ∈ orig ∧
      ¬ addFlag32 s.situ.score_ fl.ignore_score_threshold
        < orig.foldl (fun m state_ptr => max m state_ptr.situ.score_) 0 ∧
      ¬ addFlag32 s.occupied_height fl.ignore_height_threshold
        < orig.foldl (fun m state_ptr => max m state_ptr.occupied_height) 0 := by
  intro s hs
  unfold ChooseForNextStep at hs
  split at hs
  · simp at hs
  · simp only [] at hs
    have key : ∀ x, x ∈ orig.filter (fun state_ptr =>
        !(decide (addFlag32 state_ptr.situ.score_ fl.ignore_score_threshold
            < orig.foldl (fun m state_ptr => max m state_ptr.situ.score_) 0) ||
          decide (addFlag32 state_ptr.occupied_height fl.ignore_height_threshold
            < orig.foldl (fun m state_ptr => max m state_ptr.occupied_height) 0))) →
        x ∈ orig ∧
        ¬ addFlag32 x.situ.score_ fl.ignore_score_threshold
          < orig.foldl (fun m state_ptr => max m state_ptr.situ.score_) 0 ∧
        ¬ addFlag32 x.occupied_height fl.ignore_height_threshold
          < orig.foldl (fun m state_ptr => max m state_ptr.occupied_height) 0 := by
      intro x hx
      rw [List.mem_filter] at hx
      refine ⟨hx.1, ?_⟩
      simpa using hx.2
    split at hs
    · exact key s hs
    · rcases (MoveTopN_subset _ _ _ _ _ _ _).1 s hs with h | h
      · rcases (MoveTopN_subset _ _ _ _ _ _ _).1 s h with h1 | h1
        · simp at h1
        · exact key s h1
      · exact key s ((MoveTopN_subset _ _ _ _ _ _ _).2 s h)

/-- C26: with the default thresholds, for a non-empty input list with maximum
score `max_score` and maximum occupied height `max_height`, every state of the
frontier returned by `ChooseForNextStep` is a state of the input with
`score + 2200 ≥ max_score` and `occupied_height + 6 ≥ max_height`; and when the
number of input states with both properties is at most
`score_keep_count + quality_keep_count`, the frontier is exactly the list of
those states (the sums being below `2 ^ 32`, as `uint32_t` sums that do not
wrap). -/
theorem C26_pre_prune (fl : SearchFlags) (orig : List State) (max_score max_height : Nat)
    (hs : fl.ignore_score_threshold = 2200) (hh : fl.ignore_height_threshold = 6)
    (hms : (∀ s ∈ orig, s.situ.score_ ≤ max_score) ∧ ∃ s ∈ orig, s.situ.score_ = max_score)
    (hmh : (∀ s ∈ orig, s.occupied_height ≤ max_height) ∧
      ∃ s ∈ orig, s.occupied_height = max_height) :
    (∀ s ∈ ChooseForNextStep fl orig, s ∈ orig ∧ s.situ.score_ + 2200 ≥ max_score ∧
      s.occupied_height + 6 ≥ max_height) ∧
    ((∀ s ∈ orig, s.situ.score_ + 2200 < 2 ^ 32 ∧ s.occupied_height + 6 < 2 ^ 32) →
      fl.g_score_keep_count + fl.g_quality_keep_count < 2 ^ 32 →
      (orig.filter (fun s => decide (s.situ.score_ + 2200 ≥ max_score) &&
          decide (s.occupied_height + 6 ≥ max_height))).length
        ≤ fl.g_score_keep_count + fl.g_quality_keep_count →
      ChooseForNextStep fl orig = orig.filter (fun s =>
        decide (s.situ.score_ + 2200 ≥ max_score) &&
          decide (s.occupied_height + 6 ≥ max_height))) := by
  have e1 := foldl_max_eq (fun s => s.situ.score_) orig max_score hms.1 hms.2
  have e2 := foldl_max_eq (fun s => s.occupied_height) orig max_height hmh.1 hmh.2
  constructor
  · intro s hmem
    obtain ⟨h1, h2, h3⟩ := ChooseForNextStep_subset fl orig s hmem
    rw [e1, hs] at h2
    rw [e2, hh] at h3
    have a1 := addFlag32_le s.situ.score_ 2200
    have a2 := addFlag32_le s.occupied_height 6
    refine ⟨h1, ?_, ?_⟩
    · have : addFlag32 s.situ.score_ ((2200 : Nat) : Int) ≤ s.situ.score_ + 2200 := a1
      simp only [Nat.cast_ofNat] at this
      omega
    · have : addFlag32 s.occupied_height ((6 : Nat) : Int) ≤ s.occupied_height + 6 := a2
      simp only [Nat.cast_ofNat] at this
      omega
  · intro hwrap hsum hlen
    obtain ⟨s0, hs0, _⟩ := hms.2
    have hne : orig.isEmpty = false := by cases orig <;> simp_all
    have hfilter : orig.filter (fun state_ptr =>
        !(decide (addFlag32 state_ptr.situ.score_ fl.ignore_score_threshold
            < orig.foldl (fun m state_ptr => max m state_ptr.situ.score_) 0) ||
          decide (addFlag32 state_ptr.occupied_height fl.ignore_height_threshold
            < orig.foldl (fun m state_ptr => max m state_ptr.occupied_height) 0)))
        = orig.filter (fun s => decide (s.situ.score_ + 2200 ≥ max_score) &&
          decide (s.occupied_height + 6 ≥ max_height)) := by
      apply List.filter_congr
      intro s hmem
      have b1 : addFlag32 s.situ.score_ ((2200 : Nat) : Int) = s.situ.score_ + 2200 :=
        addFlag32_eq _ _ (hwrap s hmem).1
      have b2 : addFlag32 s.occupied_height ((6 : Nat) : Int) = s.occupied_height + 6 :=
        addFlag32_eq _ _ (hwrap s hmem).2
      simp only [Nat.cast_ofNat] at b1 b2
      rw [e1, e2, hs, hh, b1, b2, Bool.eq_iff_iff]
      simp only [Bool.not_eq_true', Bool.or_eq_false_iff, decide_eq_false_iff_not, not_lt,
        Bool.and_eq_true, decide_eq_true_eq, ge_iff_le]
    unfold ChooseForNextStep
    rw [hne]
    simp only [Bool.false_eq_true, if_false]
    rw [hfilter, if_pos]
    rw [Nat.mod_eq_of_lt (by omega)]
    omega

set_option maxRecDepth 100000 in
/-- C26, witness: on `tieExample` with `tieFlags` and the maxima 30 and 1 the
four states pass the pre-prune; with a capacity of 2 + 2 the frontier is the
list of the four states. -/
theorem C26_pre_prune_witness :
    (∀ s ∈ ChooseForNextStep tieFlags tieExample, s ∈ tieExample ∧
      s.situ.score_ + 2200 ≥ 30 ∧ s.occupied_height + 6 ≥ 1) ∧
    ChooseForNextStep tieFlagsWide tieExample = tieExample :=
  ⟨(C26_pre_prune tieFlags tieExample 30 1 rfl rfl (by decide) (by decide)).1,
    ((C26_pre_prune tieFlagsWide tieExample 30 1 rfl rfl
      (by decide) (by decide)).2 (by decide) (by decide) (by decide)).trans (by decide)⟩

/-! ## Theorems: CollapseInPlace fields and the loop of SearchFrom -/

theorem CollapseInPlace_noop (s : Situation)
    (h : kSteps ≤ (s.step_ + 1) % 2 ^ 32 ∨ ∀ y, y < kH → s.row y ≠ kRowBitMask) :
    s.CollapseInPlace = { s with step_ := (s.step_ + 1) % 2 ^ 32 } := by
  unfold Situation.CollapseInPlace
  simp only []
  rcases h with h | h
  · rw [if_pos h]
  · have h0 := (CollapsableBitmask_eq_zero_iff s).2 h
    split
    · rfl
    · rw [if_neg (by simpa using h0)]

theorem CollapseInPlace_collapse (s : Situation) (hlen : s.row_.length = kH)
    (hstep : (s.step_ + 1) % 2 ^ 32 < kSteps) (hfull : ∃ y, y < kH ∧ s.row y = kRowBitMask) :
    s.CollapseInPlace.row_ = collapseSpec s ∧
    s.CollapseInPlace.collapse_lines_ = (s.collapse_lines_ + s.fullRows) % 2 ^ 32 ∧
    s.CollapseInPlace.step_ = (s.step_ + 1) % 2 ^ 32 := by
  have hm : s.CollapsableBitmask ≠ 0 := by
    intro h0
    obtain ⟨y, hy, hf⟩ := hfull
    exact (CollapsableBitmask_eq_zero_iff s).1 h0 y hy hf
  have h0 := CollapseInPlace_rows { s with step_ := 0 } hlen
    (show (0 : Nat) + 1 < kSteps by decide) hfull
  have hm0 : ({ s with step_ := 0 } : Situation).CollapsableBitmask ≠ 0 := hm
  refine ⟨?_, ?_, ?_⟩
  · have e : s.CollapseInPlace.row_ = ({ s with step_ := 0 } : Situation).CollapseInPlace.row_ := by
      unfold Situation.CollapseInPlace
      simp only []
      rw [if_neg (by omega), if_pos hm, if_neg (by decide), if_pos hm0]
      rfl
    rw [e, h0]
    rfl
  · unfold Situation.CollapseInPlace
    simp only []
    rw [if_neg (by omega), if_pos hm, fullRows_eq_popcnt]
  · unfold Situation.CollapseInPlace
    simp only []
    rw [if_neg (by omega), if_pos hm]

theorem fullRows_le (s : Situation) : s.fullRows ≤ kH := by
  unfold Situation.fullRows
  refine le_trans (List.length_filter_le _ _) ?_
  rw [List.length_range]

theorem fullRows_eq_zero_iff (s : Situation) :
    s.fullRows = 0 ↔ ∀ y, y < kH → s.row y ≠ kRowBitMask := by
  unfold Situation.fullRows
  rw [List.length_eq_zero, List.filter_eq_nil_iff]
  constructor
  · intro h y hy
    simpa using h y (List.mem_range.2 hy)
  · intro h y hy
    simpa using h y (List.mem_range.1 hy)

/-- The counter `collapse_lines` after `CollapseInPlace`. -/
theorem CollapseInPlace_lines (s : Situation) (hlines : s.collapse_lines_ + kH < 2 ^ 32) :
    s.CollapseInPlace.collapse_lines_ =
      s.collapse_lines_ + (if (s.step_ + 1) % 2 ^ 32 < kSteps then s.fullRows else 0) := by
  by_cases hstep : (s.step_ + 1) % 2 ^ 32 < kSteps
  · rw [if_pos hstep]
    by_cases hf : s.fullRows = 0
    · rw [CollapseInPlace_noop s (Or.inr ((fullRows_eq_zero_iff s).1 hf)), hf]
      rfl
    · have hm : s.CollapsableBitmask ≠ 0 := by
        intro h0
        exact hf ((fullRows_eq_zero_iff s).2 ((CollapsableBitmask_eq_zero_iff s).1 h0))
      have hle := fullRows_le s
      unfold Situation.CollapseInPlace
      simp only []
      rw [if_neg (by omega), if_pos hm, fullRows_eq_popcnt]
      exact Nat.mod_eq_of_lt (by omega)
  · rw [if_neg hstep, CollapseInPlace_noop s (Or.inl (by omega))]
    rfl

theorem setCell_fields (s : Situation) (x y : Nat) :
    (s.setCell x y).step_ = s.step_ ∧ (s.setCell x y).score_ = s.score_ ∧
    (s.setCell x y).collapse_lines_ = s.collapse_lines_ ∧
    (s.setCell x y).collapse_count_ = s.collapse_count_ ∧
    (s.setCell x y).row_.length = s.row_.length :=
  ⟨rfl, rfl, rfl, rfl, by simp [Situation.setCell]⟩

theorem PutCopy_fields (shp : Shape) (st : BrickStatus) (s : Situation) :
    (s.PutCopy shp st).step_ = s.step_ ∧ (s.PutCopy shp st).score_ = s.score_ ∧
    (s.PutCopy shp st).collapse_lines_ = s.collapse_lines_ ∧
    (s.PutCopy shp st).collapse_count_ = s.collapse_count_ ∧
    (s.PutCopy shp st).row_.length = s.row_.length := by
  unfold Situation.PutCopy
  generalize shp.pos st.rot = l
  induction l generalizing s with
  | nil => exact ⟨rfl, rfl, rfl, rfl, rfl⟩
  | cons p t ih =>
    rw [List.foldl_cons]
    simp only []
    split
    · obtain ⟨h1, h2, h3, h4, h5⟩ := ih (s.setCell (st.x + p.x).toNat (st.y + p.y).toNat)
      obtain ⟨g1, g2, g3, g4, g5⟩ := setCell_fields s (st.x + p.x).toNat (st.y + p.y).toNat
      exact ⟨h1.trans g1, h2.trans g2, h3.trans g3, h4.trans g4, h5.trans g5⟩
    · exact ih s

/-- A candidate recorded by `FindAllMoves` passes `ReplayAndVerify`. -/
theorem ReplayAndVerify_candidate (b : Situation) (c : Candidate)
    (hfit : b.Fits (kBricks b.step_).1 (kBricks b.step_).2 = true)
    (hc : CandidateOk b (kBricks b.step_).1 (kBricks b.step_).2 c) :
    b.ReplayAndVerify c.actions c.situ = true := by
  obtain ⟨_, hsitu, hroute⟩ := hc
  obtain ⟨acts, hacts, hr⟩ := (AppendRoute_good b _ _ _ [] 0 true c.actions hroute).2 rfl
  rw [List.nil_append] at hacts
  subst hacts
  have hreplay := replayActions_ok b _ c.actions _ c.st hfit (by rw [kBricks_y]) hr
  unfold Situation.ReplayAndVerify
  simp only []
  rw [if_neg (by simp [hfit]), hreplay]
  simp only []
  rw [hsitu]
  exact BricksEqual_self _

theorem expansionGate_eq (parent : State) (c : Candidate)
    (hk : ∃ k, k ≤ kH ∧ c.situ.collapse_lines_ = parent.situ.collapse_lines_ + k)
    (hlines : parent.situ.collapse_lines_ + kH < 2 ^ 32) :
    (c.situ.collapse_lines_ + 2 ^ 32 - parent.situ.collapse_lines_) % 2 ^ 32
      = clearedRows parent c := by
  obtain ⟨k, hk1, hk2⟩ := hk
  unfold clearedRows
  have hkH : kH = 20 := rfl
  omega

theorem expansionGate_iff (parent : State) (c : Candidate) :
    expansionGate parent c = true ↔ c.situ.IsOk = true ∧
      ¬ (clearedRows parent c ≥ 1 ∧ clearedRows parent c ≤ 4 ∧
        (parent.occupied_height < [16, 16, 17, 17].getD (clearedRows parent c - 1) 0 ∨
          parent.situ.TotalOccupied
            < [126, 126, 135, 135].getD (clearedRows parent c - 1) 0)) := by
  unfold expansionGate
  simp only [Bool.and_eq_true, Bool.or_eq_true, Bool.not_eq_true', decide_eq_true_eq,
    Bool.and_eq_false_iff, decide_eq_false_iff_not, ge_iff_le]
  generalize [16, 16, 17, 17].getD (clearedRows parent c - 1) 0 = th
  generalize [126, 126, 135, 135].getD (clearedRows parent c - 1) 0 = to_
  constructor
  · rintro ⟨h1, h2⟩
    refine ⟨h1, ?_⟩
    rintro ⟨g1, g2, g3⟩
    rcases h2 with (h2 | h2) | h2 <;> omega
  · rintro ⟨h1, h2⟩
    refine ⟨h1, ?_⟩
    by_cases g1 : 1 ≤ clearedRows parent c
    · by_cases g2 : clearedRows parent c ≤ 4
      · right
        constructor
        · by_contra hc
          exact h2 ⟨g1, g2, Or.inl (by omega)⟩
        · by_contra hc
          exact h2 ⟨g1, g2, Or.inr (by omega)⟩
      · exact Or.inl (Or.inr g2)
    · exact Or.inl (Or.inl g1)

theorem searchFromLoop_eq (f : QualityFlags) (parent : State)
    (hlines : parent.situ.collapse_lines_ + kH < 2 ^ 32) :
    ∀ (cands : List Candidate) (res : List State),
      (∀ c ∈ cands, parent.situ.ReplayAndVerify c.actions c.situ = true ∧
        ∃ k, k ≤ kH ∧ c.situ.collapse_lines_ = parent.situ.collapse_lines_ + k) →
      searchFromLoop f parent cands res
        = some (res ++ (cands.filter (expansionGate parent)).map (childOf f parent)) := by
  intro cands
  induction cands with
  | nil => intro res _; simp [searchFromLoop]
  | cons c more ih =>
    intro res h
    obtain ⟨hrv, hk⟩ := h c (List.mem_cons_self _ _)
    have ihm := fun r => ih r (fun x hx => h x (List.mem_cons_of_mem _ hx))
    have hcol := expansionGate_eq parent c hk hlines
    have hth : kThresholdHeight = [16, 16, 17, 17] := by decide
    have hto : kThresholdOccupied = [126, 126, 135, 135] := by decide
    have hiff := expansionGate_iff parent c
    rw [searchFromLoop]
    simp only []
    rw [hcol, hth, hto]
    by_cases hg : clearedRows parent c ≥ 1 ∧ clearedRows parent c ≤ 4 ∧
        (parent.occupied_height < [16, 16, 17, 17].getD (clearedRows parent c - 1) 0 ∨
          parent.situ.TotalOccupied < [126, 126, 135, 135].getD (clearedRows parent c - 1) 0)
    · rw [if_pos hg, ihm]
      have hgate : ¬ expansionGate parent c = true := fun hc => (hiff.1 hc).2 hg
      rw [List.filter_cons_of_neg hgate]
    · rw [if_neg hg]
      by_cases hok : c.situ.IsOk = true
      · rw [if_neg (by simp [hok]), if_neg (by simp [hrv]), ihm]
        have hgate : expansionGate parent c = true := hiff.2 ⟨hok, hg⟩
        rw [List.filter_cons_of_pos hgate, List.map_cons, List.append_assoc]
        rfl
      · rw [if_pos (by simp [hok]), ihm]
        have hgate : ¬ expansionGate parent c = true := fun hc => hok (hiff.1 hc).1
        rw [List.filter_cons_of_neg hgate]

/-! ## Theorems: the layer expansion filter (C22) -/

/-- The counter `collapse_lines` of a candidate board of `FindAllMoves`. -/
theorem candidate_lines (b : Situation) (shp : Shape) (c : Candidate)
    (hlines : b.collapse_lines_ + kH < 2 ^ 32)
    (hsitu : c.situ = (b.PutCopy shp c.st).CollapseInPlace) :
    c.situ.collapse_lines_ = b.collapse_lines_ +
      (if (b.step_ + 1) % 2 ^ 32 < kSteps then (b.PutCopy shp c.st).fullRows else 0) := by
  obtain ⟨h1, _, h3, _, _⟩ := PutCopy_fields shp c.st b
  rw [hsitu, CollapseInPlace_lines _ (by rw [h3]; exact hlines), h1, h3]

/-- C22: for a parent state with `step < kSteps` (and `collapse_lines` below the
wrap of `uint32_t`), `SearchFrom` returns, and the states it hands to the
collector are the children of exactly those candidates of `FindAllMoves` whose
board passes `IsOk` and which, when the placement cleared `c` rows with
`1 ≤ c ≤ 4`, have the parent's `occupied_height ≥ kThresholdHeight[c-1]` and
the parent's `TotalOccupied ≥ kThresholdOccupied[c-1]`, with
`kThresholdHeight = {16,16,17,17}` and `kThresholdOccupied = {126,126,135,135}`.
The number `c` is the difference of the counters `collapse_lines`, the number of
full rows after `PutCopy` (0 on the last step).  A candidate that cleared no row
is emitted if and only if it passes `IsOk`; one that cleared 4 rows is emitted
only if the parent's `occupied_height ≥ kH - 3` and
`TotalOccupied ≥ (kH - 5) * (kW - 1)`. -/
theorem C22_expansion_filter (f : QualityFlags) (parent : State)
    (hstep : parent.situ.step_ < kSteps)
    (hlines : parent.situ.collapse_lines_ + kH < 2 ^ 32) :
    kThresholdHeight = [16, 16, 17, 17] ∧ kThresholdOccupied = [126, 126, 135, 135] ∧
    ∃ cands, parent.situ.FindAllMoves (kBricks parent.situ.step_).1
        (kBricks parent.situ.step_).2 = some cands ∧
      SearchFrom f parent
        = some ((cands.filter (expansionGate parent)).map
            (fun c => .child c.situ (c.situ.Quality f) c.situ.OccupiedHeight parent c.actions)) ∧
      ∀ c ∈ cands,
        c.situ.collapse_lines_ = parent.situ.collapse_lines_ + clearedRows parent c ∧
        clearedRows parent c = (if parent.situ.step_ + 1 < kSteps then
          (parent.situ.PutCopy (kBricks parent.situ.step_).1 c.st).fullRows else 0) ∧
        (expansionGate parent c = true ↔ c.situ.IsOk = true ∧
          (1 ≤ clearedRows parent c → clearedRows parent c ≤ 4 →
            parent.occupied_height ≥ [16, 16, 17, 17].getD (clearedRows parent c - 1) 0 ∧
            parent.situ.TotalOccupied
              ≥ [126, 126, 135, 135].getD (clearedRows parent c - 1) 0)) ∧
        (clearedRows parent c = 0 → (expansionGate parent c = true ↔ c.situ.IsOk = true)) ∧
        (clearedRows parent c = 4 → expansionGate parent c = true →
          parent.occupied_height ≥ kH - 3 ∧
          parent.situ.TotalOccupied ≥ (kH - 5) * (kW - 1)) := by
  have hk : kSteps = 10000 := rfl
  have hmod : (parent.situ.step_ + 1) % 2 ^ 32 = parent.situ.step_ + 1 :=
    Nat.mod_eq_of_lt (by omega)
  obtain ⟨cands, he, hc⟩ := FindAllMoves_spec parent.situ (kBricks parent.situ.step_).1
    (kBricks parent.situ.step_).2 (kBricks_rot _)
  have hl : ∀ c ∈ cands, c.situ.collapse_lines_ = parent.situ.collapse_lines_ +
      (if parent.situ.step_ + 1 < kSteps then
        (parent.situ.PutCopy (kBricks parent.situ.step_).1 c.st).fullRows else 0) := by
    intro c hmem
    have := candidate_lines parent.situ (kBricks parent.situ.step_).1 c hlines (hc c hmem).2.2.1
    rwa [hmod] at this
  have hcl : ∀ c ∈ cands, clearedRows parent c = (if parent.situ.step_ + 1 < kSteps then
      (parent.situ.PutCopy (kBricks parent.situ.step_).1 c.st).fullRows else 0) := by
    intro c hmem
    unfold clearedRows
    rw [hl c hmem]
    omega
  refine ⟨by decide, by decide, cands, he, ?_, ?_⟩
  · unfold SearchFrom
    simp only []
    rw [he]
    simp only []
    rw [searchFromLoop_eq f parent hlines cands [] ?_]
    · rfl
    · intro c hmem
      refine ⟨ReplayAndVerify_candidate parent.situ c (hc c hmem).1 (hc c hmem).2, ?_⟩
      refine ⟨_, ?_, hl c hmem⟩
      split
      · exact fullRows_le _
      · exact Nat.zero_le _
  · intro c hmem
    have hiff := expansionGate_iff parent c
    refine ⟨?_, hcl c hmem, ?_, ?_, ?_⟩
    · rw [hcl c hmem]; exact hl c hmem
    · rw [hiff]
      constructor
      · rintro ⟨h1, h2⟩
        refine ⟨h1, fun g1 g2 => ?_⟩
        constructor
        · by_contra hcn
          exact h2 ⟨g1, g2, Or.inl (by omega)⟩
        · by_contra hcn
          exact h2 ⟨g1, g2, Or.inr (by omega)⟩
      · rintro ⟨h1, h2⟩
        refine ⟨h1, ?_⟩
        rintro ⟨g1, g2, g3⟩
        have := h2 g1 g2
        omega
    · intro h0
      rw [hiff]
      constructor
      · exact fun h => h.1
      · intro h
        exact ⟨h, fun hg => by omega⟩
    · intro h4 hg
      have h2 := (hiff.1 hg).2
      rw [h4] at h2
      have e1 : [16, 16, 17, 17].getD (4 - 1) 0 = 17 := rfl
      have e2 : [126, 126, 135, 135].getD (4 - 1) 0 = 135 := rfl
      rw [e1, e2] at h2
      have e3 : kH - 3 = 17 := rfl
      have e4 : (kH - 5) * (kW - 1) = 135 := rfl
      rw [e3, e4]
      constructor
      · by_contra hcn
        exact h2 ⟨by omega, by omega, Or.inl (by omega)⟩
      · by_contra hcn
        exact h2 ⟨by omega, by omega, Or.inr (by omega)⟩

set_option maxRecDepth 1000000 in
/-- On `notchBoard` the single candidate is emitted by `SearchFrom`: the child
has occupied height 18 and one cleared row. -/
theorem notch_children :
    (SearchFrom {} notchState).map
        (fun l => l.map (fun s => (s.occupied_height, s.situ.collapse_lines_)))
      = some [(18, 1)] := by
  decide

set_option maxRecDepth 100000 in
/-- C22, witness: `notchState` has occupied height 19 and 168 occupied cells,
which pass the thresholds 16 and 126 for one cleared row; its candidate, which
clears one row, is emitted. -/
theorem C22_expansion_filter_witness :
    (∃ cands, notchState.situ.FindAllMoves (kBricks notchState.situ.step_).1
        (kBricks notchState.situ.step_).2 = some cands ∧
      SearchFrom {} notchState
        = some ((cands.filter (expansionGate notchState)).map
            (fun c => .child c.situ (c.situ.Quality {}) c.situ.OccupiedHeight notchState
              c.actions))) ∧
    notchState.occupied_height = 19 ∧ notchState.situ.TotalOccupied = 168 ∧
    notchMoves.map (fun c => clearedRows notchState c) = [1] ∧
    (SearchFrom {} notchState).map
        (fun l => l.map (fun s => (s.occupied_height, s.situ.collapse_lines_)))
      = some [(18, 1)] :=
  ⟨(C22_expansion_filter {} notchState (by decide) (by decide)).2.2.imp
      (fun _ h => ⟨h.1, h.2.1⟩),
    by decide, by decide, by decide, notch_children⟩

/-! ## Theorems: occupied height of the emitted states (C30) -/

theorem WF_setCell (s : Situation) (hwf : s.WF) (x y : Nat) (hx : x < 16) :
    (s.setCell x y).WF := by
  unfold Situation.setCell Situation.WF
  refine ⟨by simpa using hwf.1, ?_⟩
  intro r hr
  rcases List.mem_or_eq_of_mem_set hr with h | h
  · exact hwf.2 r h
  · rw [h]
    have h1 : s.row y < 2 ^ 16 := row_lt_of_WF s hwf y
    have h2 : 1 <<< x < 2 ^ 16 := by
      rw [Nat.one_shiftLeft]
      exact Nat.pow_lt_pow_right (by decide) hx
    exact Nat.or_lt_two_pow h1 h2

theorem WF_PutCopy (shp : Shape) (st : BrickStatus) (s : Situation) (hwf : s.WF) :
    (s.PutCopy shp st).WF := by
  unfold Situation.PutCopy
  generalize shp.pos st.rot = l
  induction l generalizing s with
  | nil => exact hwf
  | cons p t ih =>
    rw [List.foldl_cons]
    simp only []
    split
    · rename_i hr
      apply ih
      apply WF_setCell s hwf
      simp only [Bool.and_eq_true, XInRange, decide_eq_true_eq] at hr
      have hk : (kW : Int) = 10 := rfl
      omega
    · exact ih s hwf

theorem collapseSpec_WF (s : Situation) (hwf : s.WF) :
    (collapseSpec s).length = kH ∧ (∀ r ∈ collapseSpec s, r < 65536) ∧
    (collapseSpec s).getD 0 0 = 0 := by
  have hsurv : ((s.row_.drop 1).filter (fun r => r ≠ kRowBitMask)).length ≤ kH - 1 := by
    refine le_trans (List.length_filter_le _ _) ?_
    rw [List.length_drop, hwf.1]
  have hk : kH = 20 := rfl
  unfold collapseSpec
  simp only []
  refine ⟨?_, ?_, ?_⟩
  · rw [List.length_append, List.length_replicate]
    omega
  · intro r hr
    rcases List.mem_append.1 hr with h | h
    · rw [(List.mem_replicate.1 h).2]; decide
    · exact hwf.2 r (List.mem_of_mem_drop (List.mem_filter.1 h).1)
  · have hpos : kH - ((s.row_.drop 1).filter (fun r => r ≠ kRowBitMask)).length
        = (kH - ((s.row_.drop 1).filter (fun r => r ≠ kRowBitMask)).length - 1) + 1 := by
      omega
    rw [hpos, List.replicate_succ]
    rfl

theorem WF_CollapseInPlace (s : Situation) (hwf : s.WF) :
    s.CollapseInPlace.WF ∧ (s.row 0 = 0 → s.CollapseInPlace.row 0 = 0) := by
  by_cases h : kSteps ≤ (s.step_ + 1) % 2 ^ 32 ∨ ∀ y, y < kH → s.row y ≠ kRowBitMask
  · rw [CollapseInPlace_noop s h]
    exact ⟨hwf, fun h0 => h0⟩
  · have hstep : (s.step_ + 1) % 2 ^ 32 < kSteps := by
      by_contra hc
      exact h (Or.inl (by omega))
    have hfull : ∃ y, y < kH ∧ s.row y = kRowBitMask := by
      by_contra hc
      apply h
      right
      intro y hy hf
      exact hc ⟨y, hy, hf⟩
    obtain ⟨hrows, _, _⟩ := CollapseInPlace_collapse s hwf.1 hstep hfull
    obtain ⟨h1, h2, h3⟩ := collapseSpec_WF s hwf
    refine ⟨⟨by rw [hrows]; exact h1, by rw [hrows]; exact h2⟩, fun _ => ?_⟩
    unfold Situation.row
    rw [hrows]
    exact h3

theorem OccupiedHeight_le (s : Situation) (hwf : s.WF) (h0 : s.row 0 = 0) :
    s.OccupiedHeight ≤ kH - 1 := by
  have hchar := OccupiedHeightFrom_char s hwf (kH / 4) 0 (by decide) (by intro y hy; omega)
  unfold Situation.OccupiedHeight
  by_cases hall : ∀ y, y < kH → s.row y = 0
  · rw [hchar.1 hall]; exact Nat.zero_le _
  · have hex : ∃ y, y < kH ∧ s.row y ≠ 0 := by
      by_contra hno
      apply hall
      intro y hy
      by_contra hne
      exact hno ⟨y, hy, hne⟩
    classical
    have hspec := Nat.find_spec hex
    have hmin : ∀ y, y < Nat.find hex → s.row y = 0 := by
      intro y hy
      by_contra hne
      have hy2 : y < kH := lt_trans hy hspec.1
      exact Nat.find_min hex hy ⟨hy2, hne⟩
    rw [hchar.2 _ hspec.1 hspec.2 hmin]
    have hpos : 0 < Nat.find hex := by
      by_contra hc
      have : Nat.find hex = 0 := by omega
      rw [this] at hspec
      exact hspec.2 h0
    omega

theorem FindAllMoves_rests (s : Situation) (shp : Shape) (initial_st : BrickStatus)
    (cands : List Candidate) (he : s.FindAllMoves shp initial_st = some cands) :
    ∀ c ∈ cands, CandidateRests s shp c := by
  intro c hc
  unfold Situation.FindAllMoves at he
  split at he
  · simp only [Option.some.injEq] at he
    rw [← he] at hc
    simp at hc
  · exact findMovesRot_rests s shp initial_st _ _ _ (fun r hr => List.mem_range.1 hr)
      (fun c hc => by simp at hc) he c hc

/-- The board of a candidate of `FindAllMoves` has `kH` rows of 16 bits, an
empty row 0 and an occupied height of at most `kH - 1`. -/
theorem candidate_board (b : Situation) (hwf : b.WF) (shp : Shape) (c : Candidate)
    (hc : CandidateRests b shp c) :
    c.situ.WF ∧ c.situ.row 0 = 0 ∧ c.situ.OccupiedHeight ≤ kH - 1 := by
  obtain ⟨_, _, _, _, h0, hsitu⟩ := hc
  have h1 := WF_CollapseInPlace _ (WF_PutCopy shp c.st b hwf)
  rw [← hsitu] at h1
  exact ⟨h1.1, h1.2 h0, OccupiedHeight_le _ h1.1 (h1.2 h0)⟩

/-- Every state that the loop of `SearchFrom` hands to the collector is the
child made of one of the candidates. -/
theorem searchFromLoop_mem (f : QualityFlags) (parent : State) :
    ∀ (cands : List Candidate) (res out : List State),
      searchFromLoop f parent cands res = some out →
      ∀ s ∈ out, s ∈ res ∨ ∃ c ∈ cands, s = childOf f parent c := by
  intro cands
  induction cands with
  | nil =>
    intro res out h s hs
    simp only [searchFromLoop, Option.some.injEq] at h
    rw [← h] at hs
    exact Or.inl hs
  | cons c more ih =>
    intro res out h s hs
    rw [searchFromLoop] at h
    simp only [] at h
    have lift : (s ∈ res ∨ ∃ c1 ∈ more, s = childOf f parent c1) →
        s ∈ res ∨ ∃ c1 ∈ c :: more, s = childOf f parent c1 := by
      rintro (h1 | ⟨c1, h1, h2⟩)
      · exact Or.inl h1
      · exact Or.inr ⟨c1, List.mem_cons_of_mem _ h1, h2⟩
    split at h
    · exact lift (ih _ _ h s hs)
    · split at h
      · exact lift (ih _ _ h s hs)
      · split at h
        · exact absurd h (by simp)
        · rcases ih _ _ h s hs with h1 | ⟨c1, h1, h2⟩
          · rcases List.mem_append.1 h1 with h3 | h3
            · exact Or.inl h3
            · rw [List.mem_singleton] at h3
              exact Or.inr ⟨c, List.mem_cons_self _ _, h3⟩
          · exact Or.inr ⟨c1, List.mem_cons_of_mem _ h1, h2⟩

theorem eq_some_getD {α : Type} (o : Option (List α)) (h : o.isSome = true) :
    o = some (o.getD []) := by
  cases o with
  | none => exact absurd h (by simp)
  | some v => rfl

/-- C30: for a board of `kH` rows of 16 bits, every candidate board returned by
`FindAllMoves` has row 0 empty after `CollapseInPlace` and so an occupied height
of at most `kH - 1 = 19`; the initial state has occupied height 0; every state
that `SearchFrom` emits caches the occupied height of such a board.  `MoveTopN`
indexes `height_quota_map` with the `occupied_height` of the entries of `from`:
when these are below `kH` for the input of `ChooseForNextStep`, they are below
`kH` for every entry that either pass walks, and for the frontier. -/
theorem C30_height_index_in_bounds (b : Situation) (hwf : b.WF) (f : QualityFlags) :
    (∀ shp initial_st cands, b.FindAllMoves shp initial_st = some cands → ∀ c ∈ cands,
      c.situ.WF ∧ c.situ.row 0 = 0 ∧ c.situ.OccupiedHeight ≤ kH - 1) ∧
    ((initialState f).occupied_height = 0 ∧ (initialState f).situ.WF) ∧
    (∀ parent children, parent.situ = b → SearchFrom f parent = some children →
      ∀ s ∈ children, s.situ.WF ∧ s.occupied_height = s.situ.OccupiedHeight ∧
        s.occupied_height ≤ kH - 1 ∧ s.occupied_height < kH) ∧
    (∀ (κ : Type) [LinearOrder κ] (zero : κ) (from_ to_ : List State) (n : Nat)
      (ancestor_max : List Nat) (height_max : Nat) (key_func : State → κ),
      (∀ s ∈ from_, s.occupied_height < kH) →
      (∀ s ∈ from_.insertionSort (fun a b => moveTopNComp key_func b a = false),
        s.occupied_height < kH) ∧
      (∀ s ∈ (MoveTopN zero from_ to_ n ancestor_max height_max key_func).1,
        s.occupied_height < kH)) ∧
    (∀ fl orig, (∀ s ∈ orig, s.occupied_height < kH) →
      ∀ s ∈ ChooseForNextStep fl orig, s.occupied_height < kH) := by
  refine ⟨?_, ⟨show Situation.OccupiedHeight {} = 0 by decide,
    show Situation.WF {} by decide⟩, ?_, ?_, ?_⟩
  · intro shp initial_st cands he c hc
    exact candidate_board b hwf shp c (FindAllMoves_rests b shp initial_st cands he c hc)
  · intro parent children hb hs s hmem
    unfold SearchFrom at hs
    simp only [] at hs
    split at hs
    · exact absurd hs (by simp)
    · rename_i vec hv
      rcases searchFromLoop_mem f parent vec [] children hs s hmem with h | ⟨c, hc, he⟩
      · simp at h
      · rw [hb] at hv
        obtain ⟨h1, _, h3⟩ := candidate_board b hwf _ c (FindAllMoves_rests b _ _ vec hv c hc)
        rw [he]
        have hk : kH = 20 := rfl
        exact ⟨h1, rfl, h3, by
          show c.situ.OccupiedHeight < kH
          omega⟩
  · intro κ _ zero from_ to_ n ancestor_max height_max key_func h
    refine ⟨fun s hs => h s ((List.perm_insertionSort _ from_).subset hs), fun s hs => ?_⟩
    exact h s ((MoveTopN_subset zero from_ to_ n ancestor_max height_max key_func).2 s hs)
  · intro fl orig h s hs
    exact h s (ChooseForNextStep_subset fl orig s hs).1

/-- C30, witness: the child of `notchState` has occupied height 18. -/
theorem C30_height_index_in_bounds_witness :
    (SearchFrom {} notchState).map
        (fun l => l.map (fun s => (s.occupied_height, s.situ.collapse_lines_)))
      = some [(18, 1)] ∧
    ∀ s ∈ (SearchFrom {} notchState).getD [], s.situ.WF ∧
      s.occupied_height = s.situ.OccupiedHeight ∧ s.occupied_height ≤ kH - 1 ∧
      s.occupied_height < kH :=
  ⟨notch_children, (C30_height_index_in_bounds notchBoard (by decide) {}).2.2.1 notchState
    ((SearchFrom {} notchState).getD []) rfl
    (eq_some_getD _ (by
      obtain ⟨l, hl, _⟩ := map_eq_some_iff_exists _ _ _ notch_children
      rw [hl]
      rfl))⟩

/-! ## Theorems: one candidate per rotation and column, the lowest (C21) -/

theorem not32_sub_testBit (v i : Nat) (hv : v < 2 ^ 32) :
    (4294967295 - v).testBit i = (decide (i < 32) && !v.testBit i) := by
  have h : 4294967295 - v = 2 ^ 32 - (v + 1) := by omega
  rw [h, Nat.testBit_two_pow_sub_succ hv]

theorem clear_bit_testBit (rem x i : Nat) (hx : x < 32)
    (h : (rem &&& (4294967295 - (1 <<< x))).testBit i = true) :
    rem.testBit i = true ∧ x ≠ i := by
  have hlt : 1 <<< x < 2 ^ 32 := by
    rw [Nat.one_shiftLeft]
    exact Nat.pow_lt_pow_right (by decide) hx
  rw [Nat.testBit_and, not32_sub_testBit _ _ hlt, Nat.one_shiftLeft, Nat.testBit_two_pow] at h
  simp only [Bool.and_eq_true, decide_eq_true_eq, Bool.not_eq_true', decide_eq_false_iff_not] at h
  exact ⟨h.1, h.2.2⟩

theorem findMovesX_inv (s : Situation) (shp : Shape) (initial_st : BrickStatus)
    (rot y : Nat) :
    ∀ (xs : List Nat) (res : List Candidate) (rem : Nat) (acc1 : List Candidate × Nat),
      xs.Nodup → (∀ x ∈ xs, x < 32) →
      findMovesX s shp initial_st rot y xs (res, rem) = some acc1 →
      ∃ new, acc1.1 = res ++ new ∧
        (∀ c ∈ new, c.st.rot = rot ∧ c.st.y = (y : Int) ∧ GoodPose s shp initial_st c.st ∧
          ∃ x ∈ xs, c.st.x = (x : Int)) ∧
        new.Pairwise (fun c1 c2 => c1.st.x ≠ c2.st.x) ∧
        (∀ i, acc1.2.testBit i = true →
          rem.testBit i = true ∧ ∀ c ∈ new, c.st.x ≠ (i : Int)) ∧
        (∀ x ∈ xs, (∀ c ∈ new, c.st.x ≠ (x : Int)) →
          ¬ GoodPose s shp initial_st ⟨(x : Int), (y : Int), rot⟩) := by
  intro xs
  induction xs with
  | nil =>
    intro res rem acc1 _ _ he
    simp only [findMovesX, Option.some.injEq] at he
    subst he
    exact ⟨[], by simp, by simp, List.Pairwise.nil, by simp, by simp⟩
  | cons x more ih =>
    intro res rem acc1 hnd hlt he
    have hnd2 := (List.nodup_cons.1 hnd).2
    have hxm := (List.nodup_cons.1 hnd).1
    have hlt2 : ∀ x1 ∈ more, x1 < 32 := fun x1 h => hlt x1 (List.mem_cons_of_mem _ h)
    -- the case where no candidate is added for `x`
    have skip : ¬ GoodPose s shp initial_st ⟨(x : Int), (y : Int), rot⟩ →
        findMovesX s shp initial_st rot y more (res, rem) = some acc1 →
        ∃ new, acc1.1 = res ++ new ∧
        (∀ c ∈ new, c.st.rot = rot ∧ c.st.y = (y : Int) ∧ GoodPose s shp initial_st c.st ∧
          ∃ x1 ∈ x :: more, c.st.x = (x1 : Int)) ∧
        new.Pairwise (fun c1 c2 => c1.st.x ≠ c2.st.x) ∧
        (∀ i, acc1.2.testBit i = true →
          rem.testBit i = true ∧ ∀ c ∈ new, c.st.x ≠ (i : Int)) ∧
        (∀ x1 ∈ x :: more, (∀ c ∈ new, c.st.x ≠ (x1 : Int)) →
          ¬ GoodPose s shp initial_st ⟨(x1 : Int), (y : Int), rot⟩) := by
      intro hng h1
      obtain ⟨new, e1, c1, c2, c3, c4⟩ := ih res rem acc1 hnd2 hlt2 h1
      refine ⟨new, e1, ?_, c2, c3, ?_⟩
      · intro c hc
        obtain ⟨a1, a2, a3, x1, a4, a5⟩ := c1 c hc
        exact ⟨a1, a2, a3, x1, List.mem_cons_of_mem _ a4, a5⟩
      · intro x1 hx1 hall
        rcases List.mem_cons.1 hx1 with h | h
        · rw [h]; exact hng
        · exact c4 x1 h hall
    rw [findMovesX] at he
    simp only [] at he
    split at he
    · rename_i hfit
      simp only [Bool.and_eq_true, Bool.not_eq_true'] at hfit
      split at he
      · rename_i hrow0
        exact skip (fun hg => hrow0 hg.2.2.1) he
      · rename_i hrow0
        split at he
        · exact absurd he (by simp)
        · rename_i r hroute
          refine skip (fun hg => ?_) he
          obtain ⟨acts, ha⟩ := hg.2.2.2
          rw [hroute] at ha
          simp at ha
        · rename_i actions hroute
          obtain ⟨new, e1, c1, c2, c3, c4⟩ := ih _ _ acc1 hnd2 hlt2 he
          have hgood : GoodPose s shp initial_st ⟨(x : Int), (y : Int), rot⟩ :=
            ⟨hfit.1, hfit.2, by simpa using hrow0, actions, hroute⟩
          refine ⟨⟨⟨(x : Int), (y : Int), rot⟩,
            (s.PutCopy shp ⟨(x : Int), (y : Int), rot⟩).CollapseInPlace, actions⟩ :: new,
            ?_, ?_, ?_, ?_, ?_⟩
          · rw [e1]; simp
          · intro c hc
            rcases List.mem_cons.1 hc with h | h
            · rw [h]
              exact ⟨rfl, rfl, hgood, x, List.mem_cons_self _ _, rfl⟩
            · obtain ⟨a1, a2, a3, x1, a4, a5⟩ := c1 c h
              exact ⟨a1, a2, a3, x1, List.mem_cons_of_mem _ a4, a5⟩
          · refine List.pairwise_cons.2 ⟨?_, c2⟩
            intro c hc
            obtain ⟨_, _, _, x1, a4, a5⟩ := c1 c hc
            rw [a5]
            intro hxe
            have hxe2 : (x : Int) = (x1 : Int) := hxe
            have : x = x1 := by exact_mod_cast hxe2
            exact hxm (this ▸ a4)
          · intro i hi
            obtain ⟨h0, h3⟩ := c3 i hi
            obtain ⟨h1, h2⟩ := clear_bit_testBit rem x i (hlt x (List.mem_cons_self _ _)) h0
            refine ⟨h1, ?_⟩
            intro c hc
            rcases List.mem_cons.1 hc with h | h
            · rw [h]
              intro hxe
              have hxe2 : (x : Int) = (i : Int) := hxe
              exact h2 (by exact_mod_cast hxe2)
            · exact h3 c h
          · intro x1 hx1 hall
            rcases List.mem_cons.1 hx1 with h | h
            · exact absurd (by rw [h]) (hall _ (List.mem_cons_self _ _))
            · exact c4 x1 h (fun c hc => hall c (List.mem_cons_of_mem _ hc))
    · rename_i hfit
      refine skip (fun hg => hfit ?_) he
      simp only [Bool.and_eq_true, Bool.not_eq_true']
      exact ⟨hg.1, hg.2.1⟩

theorem origin_mem_pos (shp : Shape) (rot : Nat) (h : rot < shp.cnt) :
    (⟨0, 0⟩ : Pos) ∈ shp.pos rot := by
  have h4 := cnt_le_four shp
  have hr : rot < 4 := by omega
  cases shp <;> interval_cases rot <;> decide

theorem Fits_origin_empty (s : Situation) (shp : Shape) (x y rot : Nat) (hrot : rot < shp.cnt)
    (h : s.Fits shp ⟨(x : Int), (y : Int), rot⟩ = true) : (s.row y).testBit x = false := by
  have hs := (Fits_iff_spec s shp ⟨(x : Int), (y : Int), rot⟩ hrot).1 h
  have := hs.2.2 ⟨0, 0⟩ (origin_mem_pos shp rot hrot) (by simp)
  simpa [Situation.cell] using this

theorem mem_set_bits (v x : Nat) : x ∈ set_bits v ↔ x < 32 ∧ v.testBit x = true := by
  simp [set_bits]

theorem set_bits_nodup (v : Nat) : (set_bits v).Nodup :=
  (List.nodup_range 32).filter _

theorem RotInv_init (s : Situation) (shp : Shape) (initial_st : BrickStatus) (rot : Nat) :
    RotInv s shp initial_st rot (kH - 1) [] kRowBitMask := by
  refine ⟨by simp, List.Pairwise.nil, ?_⟩
  intro x hx
  rw [kRowBitMask_testBit] at hx
  refine ⟨by simpa using hx, by simp, ?_⟩
  intro y1 hy1 hg
  have := (Fits_range s shp _ hg.1).2.2.2
  simp only [kH] at this hy1
  simp only [Nat.reduceSub, Nat.cast_ofNat] at hy1
  omega

theorem findMovesY_inv (s : Situation) (hwf : s.WF) (shp : Shape) (initial_st : BrickStatus)
    (rot : Nat) (hrot : rot < shp.cnt) :
    ∀ (y : Nat) (res new : List Candidate) (rem : Nat) (acc1 : List Candidate × Nat),
      RotInv s shp initial_st rot y new rem →
      findMovesY s shp initial_st rot y (res ++ new, rem) = some acc1 →
      ∃ new1, acc1.1 = res ++ new1 ∧
        (∀ c ∈ new1, c.st.rot = rot ∧ LowestGood s shp initial_st c) ∧
        new1.Pairwise (fun c1 c2 => c1.st.x ≠ c2.st.x) := by
  intro y
  induction y with
  | zero =>
    intro res new rem acc1 hinv he
    simp only [findMovesY, Option.some.injEq] at he
    subst he
    exact ⟨new, rfl, fun c hc => ⟨(hinv.1 c hc).1, (hinv.1 c hc).2.2.1⟩, hinv.2.1⟩
  | succ y ih =>
    intro res new rem acc1 hinv he
    rw [findMovesY] at he
    split at he
    · simp only [Option.some.injEq] at he
      subst he
      exact ⟨new, rfl, fun c hc => ⟨(hinv.1 c hc).1, (hinv.1 c hc).2.2.1⟩, hinv.2.1⟩
    · simp only [] at he
      split at he
      · exact absurd he (by simp)
      · rename_i acc2 hx
        obtain ⟨i1, i2, i3⟩ := hinv
        have hrow : s.row (y + 1) < 2 ^ 32 := by
          have : s.row (y + 1) < 65536 := by
            unfold Situation.row
            by_cases hlen : y + 1 < s.row_.length
            · rw [List.getD_eq_getElem _ _ hlen]
              exact hwf.2 _ (List.getElem_mem _)
            · rw [List.getD_eq_default _ _ (by omega)]
              decide
          omega
        have hxs : ∀ x ∈ set_bits (rem &&& (4294967295 - s.row (y + 1))),
            x < 32 ∧ rem.testBit x = true := by
          intro x hx1
          rw [mem_set_bits, Nat.testBit_and] at hx1
          simp only [Bool.and_eq_true] at hx1
          exact ⟨hx1.1, hx1.2.1⟩
        obtain ⟨new2, e1, c1, c2, c3, c4⟩ := findMovesX_inv s shp initial_st rot (y + 1) _
          (res ++ new) rem acc2 (set_bits_nodup _) (fun x hx1 => (hxs x hx1).1) hx
        have hacc : acc2 = (res ++ (new ++ new2), acc2.2) := by
          rw [← List.append_assoc, ← e1]
        rw [hacc] at he
        refine ih res (new ++ new2) acc2.2 acc1 ⟨?_, ?_, ?_⟩ he
        · intro c hc
          rcases List.mem_append.1 hc with h | h
          · obtain ⟨a1, a2, a3, x, a4, a5⟩ := i1 c h
            refine ⟨a1, ?_, a3, x, a4, ?_⟩
            · push_cast at a2; omega
            · cases hb : acc2.2.testBit x
              · rfl
              · rw [(c3 x hb).1] at a5
                exact absurd a5 (by simp)
          · obtain ⟨a1, a2, a3, x, a4, a5⟩ := c1 c h
            obtain ⟨_, hbit⟩ := hxs x a4
            obtain ⟨b1, b2, b3⟩ := i3 x hbit
            refine ⟨a1, ?_, ⟨a3, ?_⟩, x, a5, ?_⟩
            · rw [a2]; push_cast; omega
            · intro y1 hy1
              rw [a5, a1]
              refine b3 y1 ?_
              rw [a2] at hy1
              exact hy1
            · cases hb : acc2.2.testBit x
              · rfl
              · exact absurd a5 ((c3 x hb).2 c h)
        · refine List.pairwise_append.2 ⟨i2, c2, ?_⟩
          intro a ha b hb
          obtain ⟨_, _, _, x, a4, a5⟩ := c1 b hb
          obtain ⟨_, hbit⟩ := hxs x a4
          rw [a5]
          exact (i3 x hbit).2.1 a ha
        · intro x hx1
          obtain ⟨hbit, hnew2⟩ := c3 x hx1
          obtain ⟨b1, b2, b3⟩ := i3 x hbit
          refine ⟨b1, ?_, ?_⟩
          · intro c hc
            rcases List.mem_append.1 hc with h | h
            · exact b2 c h
            · exact hnew2 c h
          · intro y1 hy1
            by_cases hyy : y1 = ((y + 1 : Nat) : Int)
            · rw [hyy]
              by_cases hmem : x ∈ set_bits (rem &&& (4294967295 - s.row (y + 1)))
              · exact c4 x hmem hnew2
              · intro hg
                have hcell := Fits_origin_empty s shp x (y + 1) rot hrot hg.1
                apply hmem
                rw [mem_set_bits, Nat.testBit_and, not32_sub_testBit _ _ hrow]
                have hx32 : x < 32 := by simp only [kW] at b1; omega
                simp [hx32, hbit, hcell]
            · refine b3 y1 ?_
              push_cast at hyy hy1 ⊢
              omega

theorem findMovesRot_inv (s : Situation) (hwf : s.WF) (shp : Shape)
    (initial_st : BrickStatus) :
    ∀ (rots : List Nat) (res res1 : List Candidate), rots.Nodup →
      (∀ r ∈ rots, r < shp.cnt) →
      findMovesRot s shp initial_st rots res = some res1 →
      ∃ new, res1 = res ++ new ∧
        (∀ c ∈ new, c.st.rot ∈ rots ∧ LowestGood s shp initial_st c) ∧
        new.Pairwise (fun c1 c2 => ¬ (c1.st.rot = c2.st.rot ∧ c1.st.x = c2.st.x)) := by
  intro rots
  induction rots with
  | nil =>
    intro res res1 _ _ he
    simp only [findMovesRot, Option.some.injEq] at he
    subst he
    exact ⟨[], by simp, by simp, List.Pairwise.nil⟩
  | cons rot more ih =>
    intro res res1 hnd hr he
    rw [findMovesRot] at he
    split at he
    · exact absurd he (by simp)
    · rename_i acc hy
      have hy2 : findMovesY s shp initial_st rot (kH - 1) (res ++ [], kRowBitMask) = some acc := by
        rw [List.append_nil]; exact hy
      obtain ⟨new1, e1, c1, c2⟩ := findMovesY_inv s hwf shp initial_st rot
        (hr rot (List.mem_cons_self _ _)) (kH - 1) res [] kRowBitMask acc
        (RotInv_init s shp initial_st rot) hy2
      obtain ⟨new2, e2, d1, d2⟩ := ih acc.1 res1 (List.nodup_cons.1 hnd).2
        (fun r hm => hr r (List.mem_cons_of_mem _ hm)) he
      refine ⟨new1 ++ new2, ?_, ?_, ?_⟩
      · rw [e2, e1, List.append_assoc]
      · intro c hc
        rcases List.mem_append.1 hc with h | h
        · exact ⟨by rw [(c1 c h).1]; exact List.mem_cons_self _ _, (c1 c h).2⟩
        · exact ⟨List.mem_cons_of_mem _ (d1 c h).1, (d1 c h).2⟩
      · refine List.pairwise_append.2 ⟨?_, d2, ?_⟩
        · exact c2.imp (fun h hh => h hh.2)
        · intro a ha b hb hh
          have h1 := (c1 a ha).1
          have h2 := (d1 b hb).1
          rw [← hh.1, h1] at h2
          exact (List.nodup_cons.1 hnd).1 h2

/-- C21: on a board of `kH` rows of 16 bits, the candidates that `FindAllMoves`
returns are pairwise different in the pair (rotation, column `x` of the piece
origin), and each of them is the lowest accepted pose of its column and
rotation: it is a resting pose that leaves row 0 empty and to which `AppendRoute`
finds a route from the spawn pose, and no pose of the same column and rotation
with a larger `y` is such a pose.  For a spawn rotation below the rotation count
the enumeration returns. -/
theorem C21_lowest_pose_per_column (s : Situation) (hwf : s.WF) (shp : Shape)
    (initial_st : BrickStatus) :
    (∀ cands, s.FindAllMoves shp initial_st = some cands →
      cands.Pairwise (fun c1 c2 => ¬ (c1.st.rot = c2.st.rot ∧ c1.st.x = c2.st.x)) ∧
      ∀ c ∈ cands, LowestGood s shp initial_st c) ∧
    (initial_st.rot < shp.cnt → ∃ cands, s.FindAllMoves shp initial_st = some cands) := by
  refine ⟨?_, ?_⟩
  · intro cands he
    unfold Situation.FindAllMoves at he
    split at he
    · simp only [Option.some.injEq] at he
      subst he
      exact ⟨List.Pairwise.nil, by simp⟩
    · obtain ⟨new, e1, c1, c2⟩ := findMovesRot_inv s hwf shp initial_st (List.range shp.cnt) []
        cands (List.nodup_range _) (fun r hr => List.mem_range.1 hr) he
      rw [List.nil_append] at e1
      subst e1
      exact ⟨c2, fun c hc => (c1 c hc).2⟩
  · intro hinit
    obtain ⟨cands, he, _⟩ := FindAllMoves_spec s shp initial_st hinit
    exact ⟨cands, he⟩

/-- C21, witness: on `notchBoard` the enumeration for the piece Z spawned at
`(4, 0, rot 0)` returns the candidate in the notch, the lowest accepted pose of
its column and rotation. -/
theorem C21_lowest_pose_per_column_witness :
    notchBoard.WF ∧
    notchBoard.FindAllMoves .kShapeZ ⟨4, 0, 0⟩ = some notchMoves ∧
    notchMoves.Pairwise
      (fun c1 c2 => ¬ (c1.st.rot = c2.st.rot ∧ c1.st.x = c2.st.x)) ∧
    ∀ c ∈ notchMoves, LowestGood notchBoard .kShapeZ ⟨4, 0, 0⟩ c :=
  ⟨by decide, notch_moves,
    (C21_lowest_pose_per_column notchBoard (by decide) .kShapeZ ⟨4, 0, 0⟩).1 _ notch_moves⟩

/-! ## Theorems: cell conservation of the candidates (C29) -/

theorem popcnt_succ (w x : Nat) :
    popcnt (w + 1) x = popcnt w x + (if x.testBit w = true then 1 else 0) := by
  unfold popcnt
  rw [List.range_succ, List.filter_append, List.length_append]
  by_cases h : x.testBit w = true <;> simp [h]

theorem popcnt_or_bit (r x : Nat) (hbit : r.testBit x = false) :
    ∀ w, popcnt w (r ||| 1 <<< x) = popcnt w r + (if x < w then 1 else 0) := by
  intro w
  induction w with
  | zero => simp [popcnt]
  | succ w ih =>
    rw [popcnt_succ, popcnt_succ, ih, Nat.testBit_or, Nat.one_shiftLeft, Nat.testBit_two_pow]
    by_cases h1 : x = w
    · subst h1
      simp [hbit]
    · by_cases h2 : x < w
      · have h3 : x < w + 1 := by omega
        simp [h1, h2, h3]
        omega
      · have h3 : ¬ x < w + 1 := by omega
        simp [h1, h2, h3]

theorem popcnt_pack (a b c d : Nat) (ha : a < 65536) (hb : b < 65536) (hc : c < 65536) :
    popcnt 64 (a + b * 2 ^ 16 + c * 2 ^ 32 + d * 2 ^ 48)
      = popcnt 16 a + popcnt 16 b + popcnt 16 c + popcnt 16 d := by
  have h64 : List.range 64 = List.range 16 ++ (List.range 16).map (fun i => 16 + i)
      ++ (List.range 16).map (fun i => 32 + i) ++ (List.range 16).map (fun i => 48 + i) := by
    decide
  have hblock : ∀ (k : Nat) (v : Nat),
      (∀ i, i < 16 → (a + b * 2 ^ 16 + c * 2 ^ 32 + d * 2 ^ 48).testBit (k + i) = v.testBit i) →
      (((List.range 16).map (fun i => k + i)).filter
        (fun i => (a + b * 2 ^ 16 + c * 2 ^ 32 + d * 2 ^ 48).testBit i)).length = popcnt 16 v := by
    intro k v hv
    unfold popcnt
    rw [List.filter_map, List.length_map]
    congr 1
    apply List.filter_congr
    intro i hi
    exact hv i (List.mem_range.1 hi)
  have h0 : ((List.range 16).filter
      (fun i => (a + b * 2 ^ 16 + c * 2 ^ 32 + d * 2 ^ 48).testBit i)).length = popcnt 16 a := by
    unfold popcnt
    congr 1
    apply List.filter_congr
    intro i hi
    rw [testBit_pack a b c d ha hb hc, if_pos (List.mem_range.1 hi)]
  conv_lhs => unfold popcnt
  rw [h64, List.filter_append, List.filter_append, List.filter_append, List.length_append,
    List.length_append, List.length_append, h0,
    hblock 16 b (fun i hi => by
      rw [testBit_pack a b c d ha hb hc, if_neg (by omega), if_pos (by omega)]
      congr 1; omega),
    hblock 32 c (fun i hi => by
      rw [testBit_pack a b c d ha hb hc, if_neg (by omega), if_neg (by omega), if_pos (by omega)]
      congr 1; omega),
    hblock 48 d (fun i hi => by
      rw [testBit_pack a b c d ha hb hc, if_neg (by omega), if_neg (by omega), if_neg (by omega)]
      congr 1; omega)]

theorem rows_eq_map (s : Situation) (hlen : s.row_.length = kH) :
    s.row_ = (List.range kH).map s.row := by
  apply List.ext_getElem
  · simp [hlen]
  · intro i h1 h2
    simp only [List.getElem_map, List.getElem_range, Situation.row]
    rw [List.getD_eq_getElem _ _ h1]

theorem TotalOccupied_eq (s : Situation) (hwf : s.WF) :
    s.TotalOccupied = rowsCells s.row_ := by
  have h := row_lt_of_WF s hwf
  have h5 : List.range (kH / 4) = [0, 1, 2, 3, 4] := by decide
  have h20 : List.range kH
      = [0, 1, 2, 3, 4, 5, 6, 7, 8, 9, 10, 11, 12, 13, 14, 15, 16, 17, 18, 19] := by decide
  unfold rowsCells
  rw [rows_eq_map s hwf.1, List.map_map, h20]
  unfold Situation.TotalOccupied
  rw [h5]
  simp only [List.map_cons, List.map_nil, List.sum_cons, List.sum_nil, Situation.row_4_,
    Function.comp]
  rw [popcnt_pack _ _ _ _ (h _) (h _) (h _), popcnt_pack _ _ _ _ (h _) (h _) (h _),
    popcnt_pack _ _ _ _ (h _) (h _) (h _), popcnt_pack _ _ _ _ (h _) (h _) (h _),
    popcnt_pack _ _ _ _ (h _) (h _) (h _)]
  simp only [Nat.mul_zero, Nat.zero_add, Nat.mul_one, Nat.reduceMul, Nat.reduceAdd]
  omega

theorem rowsCells_set (l : List Nat) (i v : Nat) (h : i < l.length) :
    rowsCells (l.set i v) + popcnt 16 (l.getD i 0) = rowsCells l + popcnt 16 v := by
  unfold rowsCells
  induction l generalizing i with
  | nil => simp at h
  | cons a t ih =>
    cases i with
    | zero => simp; omega
    | succ i =>
      simp only [List.length_cons, Nat.add_lt_add_iff_right] at h
      have := ih i h
      simp only [List.set_cons_succ, List.map_cons, List.sum_cons, List.getD_cons_succ]
      omega

theorem setCell_cells (s : Situation) (x y : Nat) (hx : x < 16) (hy : y < s.row_.length)
    (hc : s.cell x y = false) :
    rowsCells (s.setCell x y).row_ = rowsCells s.row_ + 1 := by
  have h1 := rowsCells_set s.row_ y (s.row y ||| 1 <<< x) hy
  have h2 := popcnt_or_bit (s.row y) x hc 16
  rw [if_pos hx] at h2
  unfold Situation.setCell
  simp only []
  unfold Situation.row at h1 h2 ⊢
  omega

theorem setCell_cell (s : Situation) (x y x1 y1 : Nat) :
    (s.setCell x y).cell x1 y1
      = (s.cell x1 y1 || (decide (y = y1) && decide (y < s.row_.length) && decide (x = x1))) := by
  unfold Situation.cell Situation.row Situation.setCell
  simp only []
  rw [getD_set_eq]
  by_cases h : y = y1 ∧ y < s.row_.length
  · rw [if_pos h, Nat.testBit_or, Nat.one_shiftLeft, Nat.testBit_two_pow]
    obtain ⟨h1, h2⟩ := h
    subst h1
    simp [h2, Situation.row, List.getD_eq_getElem _ _ h2]
  · rw [if_neg h]
    by_cases h1 : y = y1
    · have h2 : ¬ y < s.row_.length := fun h2 => h ⟨h1, h2⟩
      simp [h2]
    · simp [h1]

theorem PutCopy_eq_putCells (s : Situation) (shp : Shape) (st : BrickStatus) :
    s.PutCopy shp st = putCells st (shp.pos st.rot) s := rfl

theorem putCells_length (st : BrickStatus) (l : List Pos) (s : Situation) :
    (putCells st l s).row_.length = s.row_.length := by
  unfold putCells
  induction l generalizing s with
  | nil => rfl
  | cons p t ih =>
    rw [List.foldl_cons]
    simp only []
    split
    · rw [ih]; exact (setCell_fields s _ _).2.2.2.2
    · exact ih s

theorem putCells_mono (st : BrickStatus) (l : List Pos) (s : Situation) (x y : Nat)
    (h : s.cell x y = true) : (putCells st l s).cell x y = true := by
  unfold putCells
  induction l generalizing s with
  | nil => exact h
  | cons p t ih =>
    rw [List.foldl_cons]
    simp only []
    split
    · apply ih
      rw [setCell_cell, h]
      rfl
    · exact ih s h

theorem putCells_sets (st : BrickStatus) (l : List Pos) (s : Situation) (hlen : s.row_.length = kH)
    (q : Pos) (hq : q ∈ l) (hx : XInRange (st.x + q.x) = true) (hy : YInRange (st.y + q.y) = true) :
    (putCells st l s).cell (st.x + q.x).toNat (st.y + q.y).toNat = true := by
  induction l generalizing s with
  | nil => simp at hq
  | cons p t ih =>
    have hstep : putCells st (p :: t) s = putCells st t
        (if XInRange (st.x + p.x) && YInRange (st.y + p.y)
          then s.setCell (st.x + p.x).toNat (st.y + p.y).toNat else s) := rfl
    rw [hstep]
    rcases List.mem_cons.1 hq with h | h
    · subst h
      rw [if_pos (by simp [hx, hy])]
      apply putCells_mono
      rw [setCell_cell]
      have : (st.y + q.y).toNat < s.row_.length := by
        rw [hlen]
        simp only [YInRange, Bool.and_eq_true, decide_eq_true_eq] at hy
        omega
      simp [this]
    · split
      · exact ih _ (by rw [(setCell_fields s _ _).2.2.2.2]; exact hlen) h
      · exact ih _ hlen h

theorem putCells_cells (st : BrickStatus) (l : List Pos) (s : Situation)
    (hlen : s.row_.length = kH) (hnd : l.Nodup)
    (hr : ∀ p ∈ l, 0 ≤ st.x + p.x ∧ st.x + p.x < (kW : Int) ∧ 0 ≤ st.y + p.y ∧
      st.y + p.y < (kH : Int))
    (he : ∀ p ∈ l, s.cell (st.x + p.x).toNat (st.y + p.y).toNat = false) :
    rowsCells (putCells st l s).row_ = rowsCells s.row_ + l.length := by
  induction l generalizing s with
  | nil => rfl
  | cons p t ih =>
    have hstep : putCells st (p :: t) s = putCells st t
        (if XInRange (st.x + p.x) && YInRange (st.y + p.y)
          then s.setCell (st.x + p.x).toNat (st.y + p.y).toNat else s) := rfl
    obtain ⟨r1, r2, r3, r4⟩ := hr p (List.mem_cons_self _ _)
    have hk : kW = 10 ∧ kH = 20 := ⟨rfl, rfl⟩
    rw [hstep, if_pos (by simp [XInRange, YInRange, r1, r2, r3, r4])]
    rw [ih _ (by rw [(setCell_fields s _ _).2.2.2.2]; exact hlen) (List.nodup_cons.1 hnd).2
      (fun q hq => hr q (List.mem_cons_of_mem _ hq))]
    · rw [setCell_cells s _ _ (by omega) (by omega) (he p (List.mem_cons_self _ _)),
        List.length_cons]
      omega
    · intro q hq
      rw [setCell_cell, he q (List.mem_cons_of_mem _ hq)]
      obtain ⟨q1, q2, q3, q4⟩ := hr q (List.mem_cons_of_mem _ hq)
      have hne : p ≠ q := fun h => (List.nodup_cons.1 hnd).1 (h ▸ hq)
      have hne2 : ¬ (p.x = q.x ∧ p.y = q.y) := by
        intro h
        apply hne
        cases p; cases q
        simp only [Pos.mk.injEq]
        exact h
      by_cases hyy : (st.y + p.y).toNat = (st.y + q.y).toNat
      · have hxx : (st.x + p.x).toNat ≠ (st.x + q.x).toNat := by
          intro hxx
          apply hne2
          constructor <;> omega
        simp [hxx]
      · simp [hyy]

theorem rowsCells_replicate (n : Nat) (l : List Nat) :
    rowsCells (List.replicate n 0 ++ l) = rowsCells l := by
  unfold rowsCells
  induction n with
  | zero => simp
  | succ n ih =>
    rw [List.replicate_succ, List.cons_append, List.map_cons, List.sum_cons, ih, popcnt_zero]
    omega

theorem rowsCells_filter (l : List Nat) :
    rowsCells (l.filter (fun r => r ≠ kRowBitMask))
      + kW * (l.filter (fun r => r = kRowBitMask)).length = rowsCells l := by
  have hfull : popcnt 16 kRowBitMask = kW := by decide
  unfold rowsCells
  induction l with
  | nil => simp
  | cons a t ih =>
    by_cases h : a = kRowBitMask
    · rw [List.filter_cons_of_neg (by simpa using h), List.filter_cons_of_pos (by simpa using h),
        List.length_cons, List.map_cons, List.sum_cons, h, hfull, Nat.mul_succ]
      omega
    · rw [List.filter_cons_of_pos (by simpa using h), List.filter_cons_of_neg (by simpa using h),
        List.map_cons, List.sum_cons, List.map_cons, List.sum_cons]
      omega

theorem fullRows_eq (s : Situation) (hlen : s.row_.length = kH) :
    s.fullRows = (s.row_.filter (fun r => r = kRowBitMask)).length := by
  unfold Situation.fullRows
  conv_rhs => rw [rows_eq_map s hlen]
  rw [List.filter_map, List.length_map]
  rfl

theorem collapse_cells (s : Situation) (hlen : s.row_.length = kH) (h0 : s.row 0 = 0) :
    rowsCells (collapseSpec s) + kW * s.fullRows = rowsCells s.row_ := by
  have hrows : s.row_ = 0 :: s.row_.drop 1 := by
    cases hl : s.row_ with
    | nil => rw [hl] at hlen; exact absurd hlen (by decide)
    | cons a t =>
      have : a = 0 := by
        unfold Situation.row at h0
        rw [hl] at h0
        simpa using h0
      rw [this]
      rfl
  have h1 := rowsCells_filter (s.row_.drop 1)
  have h2 : s.fullRows = ((s.row_.drop 1).filter (fun r => r = kRowBitMask)).length := by
    rw [fullRows_eq s hlen]
    conv_lhs => rw [hrows]
    rw [List.filter_cons_of_neg (by decide)]
  have h3 : rowsCells s.row_ = rowsCells (s.row_.drop 1) := by
    conv_lhs => rw [hrows]
    unfold rowsCells
    rw [List.map_cons, List.sum_cons, popcnt_zero]
    omega
  unfold collapseSpec
  simp only []
  rw [rowsCells_replicate, h2, h3]
  exact h1

theorem pos_rows (shp : Shape) (rot : Nat) (h : rot < shp.cnt) :
    (shp.pos rot).Nodup ∧ ∀ p ∈ shp.pos rot, -2 ≤ p.y ∧
      (p.y = -2 → ∃ q ∈ shp.pos rot, q.y = -1) := by
  have h4 := cnt_le_four shp
  have hr : rot < 4 := by omega
  cases shp <;> interval_cases rot <;> first | decide | exact absurd h (by decide)

/-- A resting pose with `y ≥ 1` that leaves row 0 empty has all four cells in
rows `1 .. kH - 1`, in columns `0 .. kW - 1`, on empty cells of the board. -/
theorem candidate_cells (b : Situation) (hwf : b.WF) (shp : Shape) (c : Candidate)
    (hc : CandidateRests b shp c) :
    ∀ p ∈ shp.pos c.st.rot, 0 ≤ c.st.x + p.x ∧ c.st.x + p.x < (kW : Int) ∧
      1 ≤ c.st.y + p.y ∧ c.st.y + p.y < (kH : Int) ∧
      b.cell (c.st.x + p.x).toNat (c.st.y + p.y).toNat = false := by
  obtain ⟨hy1, hrot, hfit, _, hrow0, _⟩ := hc
  obtain ⟨f1, f2, f3⟩ := (Fits_iff_spec b shp c.st hrot).1 hfit
  obtain ⟨_, hb, _, _, _, e4⟩ := kShapeBounds_spec shp c.st.rot hrot
  obtain ⟨_, hrows⟩ := pos_rows shp c.st.rot hrot
  have hk : kW = 10 ∧ kH = 20 := ⟨rfl, rfl⟩
  -- no cell of the piece is in row 0
  have hno : ∀ q ∈ shp.pos c.st.rot, c.st.y + q.y ≠ 0 := by
    intro q hq hz
    have hset := putCells_sets c.st (shp.pos c.st.rot) b hwf.1 q hq
      (by simp [XInRange, (f1 q hq).1, (f1 q hq).2])
      (by simp [YInRange, hz, hk.2])
    rw [← PutCopy_eq_putCells, hz] at hset
    unfold Situation.cell at hset
    rw [Int.toNat_zero, hrow0] at hset
    simp at hset
  intro p hp
  have hge : 1 ≤ c.st.y + p.y := by
    by_contra hlt
    obtain ⟨g1, g2⟩ := hrows p hp
    by_cases h2 : p.y = -2
    · obtain ⟨q, hq, hq1⟩ := g2 h2
      by_cases hy : c.st.y = 1
      · exact hno q hq (by omega)
      · exact hno p hp (by omega)
    · exact hno p hp (by omega)
  have hlt : c.st.y + p.y < (kH : Int) := by
    have := (hb p hp).2.2
    rw [e4] at this
    omega
  exact ⟨(f1 p hp).1, (f1 p hp).2, hge, hlt, f3 p hp (by omega)⟩

theorem PutCopy_cells (b : Situation) (hwf : b.WF) (shp : Shape) (c : Candidate)
    (hc : CandidateRests b shp c) :
    rowsCells (b.PutCopy shp c.st).row_ = rowsCells b.row_ + 4 := by
  have hcells := candidate_cells b hwf shp c hc
  have hrot := hc.2.1
  rw [PutCopy_eq_putCells, putCells_cells c.st _ b hwf.1 (pos_rows shp c.st.rot hrot).1
    (fun p hp => ⟨(hcells p hp).1, (hcells p hp).2.1, by have := (hcells p hp).2.2.1; omega,
      (hcells p hp).2.2.2.1⟩)
    (fun p hp => (hcells p hp).2.2.2.2), (kShapeBounds_spec shp c.st.rot hrot).1]

theorem candidate_total (b : Situation) (hwf : b.WF) (hlines : b.collapse_lines_ + kH < 2 ^ 32)
    (shp : Shape) (c : Candidate) (hc : CandidateRests b shp c) :
    (c.situ.TotalOccupied : Int) = (b.TotalOccupied : Int) + 4
      - (kW : Int) * ((c.situ.collapse_lines_ : Int) - (b.collapse_lines_ : Int)) := by
  have hput := PutCopy_cells b hwf shp c hc
  obtain ⟨_, _, _, _, hrow0, hsitu⟩ := hc
  have hwfp := WF_PutCopy shp c.st b hwf
  have hwfc : c.situ.WF := by rw [hsitu]; exact (WF_CollapseInPlace _ hwfp).1
  have hl := candidate_lines b shp c hlines hsitu
  have hstepeq := (PutCopy_fields shp c.st b).1
  rw [TotalOccupied_eq _ hwfc, TotalOccupied_eq _ hwf, hl]
  by_cases hstep : (b.step_ + 1) % 2 ^ 32 < kSteps
  · rw [if_pos hstep]
    by_cases hf : (b.PutCopy shp c.st).fullRows = 0
    · rw [hsitu, CollapseInPlace_noop _ (Or.inr ((fullRows_eq_zero_iff _).1 hf)), hf]
      simp only []
      rw [hput]
      push_cast
      ring
    · have hfull : ∃ y, y < kH ∧ (b.PutCopy shp c.st).row y = kRowBitMask := by
        by_contra hno
        apply hf
        rw [fullRows_eq_zero_iff]
        intro y hy hfy
        exact hno ⟨y, hy, hfy⟩
      obtain ⟨hrows, _, _⟩ := CollapseInPlace_collapse _ hwfp.1 (by rw [hstepeq]; exact hstep) hfull
      have hcc := collapse_cells _ hwfp.1 hrow0
      rw [hsitu, hrows]
      have : (rowsCells (collapseSpec (b.PutCopy shp c.st)) : Int)
          = (rowsCells b.row_ : Int) + 4 - (kW : Int) * ((b.PutCopy shp c.st).fullRows : Int) := by
        have h2 : (rowsCells (collapseSpec (b.PutCopy shp c.st)) : Int)
            + (kW : Int) * ((b.PutCopy shp c.st).fullRows : Int)
            = (rowsCells b.row_ : Int) + 4 := by
          have h3 : rowsCells (collapseSpec (b.PutCopy shp c.st))
              + kW * (b.PutCopy shp c.st).fullRows = rowsCells b.row_ + 4 := by
            rw [hcc, hput]
          exact_mod_cast h3
        omega
      rw [this]
      push_cast
      ring
  · rw [if_neg hstep, hsitu, CollapseInPlace_noop _ (Or.inl (by rw [hstepeq]; omega))]
    simp only []
    rw [hput]
    push_cast
    ring

/-- C29: cell conservation.  For a board `b` of `kH` rows of 16 bits (with
`collapse_lines` below the wrap of `uint32_t`) and every candidate `c` that
`FindAllMoves` returns on `b`, the four cells of the piece are four different
cells in columns `0 .. kW - 1` and rows `1 .. kH - 1` that are empty on `b`, so
`PutCopy` adds exactly four cells, and
`TotalOccupied(c.situ) = TotalOccupied(b) + 4 - kW * (c.situ.collapse_lines - b.collapse_lines)`.
For a spawn rotation below the rotation count the enumeration returns. -/
theorem C29_cell_conservation (b : Situation) (hwf : b.WF)
    (hlines : b.collapse_lines_ + kH < 2 ^ 32) (shp : Shape) (initial_st : BrickStatus) :
    (∀ cands, b.FindAllMoves shp initial_st = some cands → ∀ c ∈ cands,
      ((shp.pos c.st.rot).Nodup ∧ (shp.pos c.st.rot).length = 4 ∧
        ∀ p ∈ shp.pos c.st.rot, 0 ≤ c.st.x + p.x ∧ c.st.x + p.x < (kW : Int) ∧
          1 ≤ c.st.y + p.y ∧ c.st.y + p.y < (kH : Int) ∧
          b.cell (c.st.x + p.x).toNat (c.st.y + p.y).toNat = false) ∧
      (b.PutCopy shp c.st).TotalOccupied = b.TotalOccupied + 4 ∧
      (c.situ.TotalOccupied : Int) = (b.TotalOccupied : Int) + 4
        - (kW : Int) * ((c.situ.collapse_lines_ : Int) - (b.collapse_lines_ : Int))) ∧
    (initial_st.rot < shp.cnt → ∃ cands, b.FindAllMoves shp initial_st = some cands) := by
  refine ⟨?_, ?_⟩
  · intro cands he c hc
    have hrest := FindAllMoves_rests b shp initial_st cands he c hc
    have hrot := hrest.2.1
    refine ⟨⟨(pos_rows shp c.st.rot hrot).1, (kShapeBounds_spec shp c.st.rot hrot).1,
      candidate_cells b hwf shp c hrest⟩, ?_, candidate_total b hwf hlines shp c hrest⟩
    rw [TotalOccupied_eq _ (WF_PutCopy shp c.st b hwf), TotalOccupied_eq _ hwf]
    exact PutCopy_cells b hwf shp c hrest
  · intro hinit
    obtain ⟨cands, he, _⟩ := FindAllMoves_spec b shp initial_st hinit
    exact ⟨cands, he⟩

/-- C29, witness: on `notchBoard` (168 cells) the enumeration for the piece Z
spawned at `(4, 0, rot 0)` returns the candidate in the notch, with one row
collapsed and 162 cells left, and the candidate board satisfies the conservation
equation. -/
theorem C29_cell_conservation_witness :
    notchBoard.WF ∧ notchBoard.collapse_lines_ + kH < 2 ^ 32 ∧
    notchBoard.TotalOccupied = 168 ∧
    notchBoard.FindAllMoves .kShapeZ ⟨4, 0, 0⟩ = some notchMoves ∧
    notchMoves.map (fun c => (c.situ.collapse_lines_, c.situ.TotalOccupied)) = [(1, 162)] ∧
    ∀ c ∈ notchMoves,
      (c.situ.TotalOccupied : Int) = (notchBoard.TotalOccupied : Int) + 4
        - (kW : Int) * ((c.situ.collapse_lines_ : Int) - (notchBoard.collapse_lines_ : Int)) :=
  ⟨by decide, by decide, by decide, notch_moves, by decide,
    fun c hc => ((C29_cell_conservation notchBoard (by decide) (by decide) .kShapeZ ⟨4, 0, 0⟩).1 _
      notch_moves c hc).2.2⟩

/-! ## Theorems: at most four full rows, the index of kMul (C31) -/

theorem filter_length_le_add_count (l : List Nat) (p q : Nat → Bool) (y : Nat)
    (h : ∀ i ∈ l, p i = true → q i = true ∨ i = y) :
    (l.filter p).length ≤ (l.filter q).length + l.count y := by
  induction l with
  | nil => simp
  | cons a t ih =>
    have iht := ih (fun i hi => h i (List.mem_cons_of_mem _ hi))
    by_cases hp : p a = true
    · rw [List.filter_cons_of_pos hp, List.length_cons]
      rcases h a (List.mem_cons_self _ _) hp with hq | hy
      · rw [List.filter_cons_of_pos hq, List.length_cons, List.count_cons]
        omega
      · rw [hy, List.count_cons_self]
        have := List.length_filter_le q t
        by_cases hq : q y = true
        · rw [List.filter_cons_of_pos hq, List.length_cons]; omega
        · rw [List.filter_cons_of_neg hq]; omega
    · rw [List.filter_cons_of_neg hp, List.count_cons]
      by_cases hq : q a = true
      · rw [List.filter_cons_of_pos hq, List.length_cons]; omega
      · rw [List.filter_cons_of_neg hq]; omega

theorem setCell_row (s : Situation) (x y y1 : Nat) (h : y ≠ y1) :
    (s.setCell x y).row y1 = s.row y1 := by
  unfold Situation.setCell Situation.row
  simp only []
  rw [getD_set_eq, if_neg (fun hh => h hh.1)]

theorem fullRows_setCell_le (s : Situation) (x y : Nat) :
    (s.setCell x y).fullRows ≤ s.fullRows + 1 := by
  unfold Situation.fullRows
  have h1 := filter_length_le_add_count (List.range kH)
    (fun y1 => decide ((s.setCell x y).row y1 = kRowBitMask))
    (fun y1 => decide (s.row y1 = kRowBitMask)) y (by
      intro i _ hp
      by_cases hy : i = y
      · exact Or.inr hy
      · left
        have hp2 : decide ((s.setCell x y).row i = kRowBitMask) = true := hp
        rw [setCell_row s x y i (fun hh => hy hh.symm)] at hp2
        exact hp2)
  have h2 : (List.range kH).count y ≤ 1 :=
    List.nodup_iff_count_le_one.1 (List.nodup_range kH) y
  omega

theorem fullRows_putCells_le (st : BrickStatus) (l : List Pos) (s : Situation) :
    (putCells st l s).fullRows ≤ s.fullRows + l.length := by
  induction l generalizing s with
  | nil => exact le_refl _
  | cons p t ih =>
    have hstep : putCells st (p :: t) s = putCells st t
        (if XInRange (st.x + p.x) && YInRange (st.y + p.y)
          then s.setCell (st.x + p.x).toNat (st.y + p.y).toNat else s) := rfl
    rw [hstep, List.length_cons]
    split
    · have h1 := ih (s.setCell (st.x + p.x).toNat (st.y + p.y).toNat)
      have h2 := fullRows_setCell_le s (st.x + p.x).toNat (st.y + p.y).toNat
      omega
    · have h1 := ih s
      omega

theorem pos_length (shp : Shape) (rot : Nat) : (shp.pos rot).length = 4 := by
  cases shp <;> (rcases rot with _ | _ | _ | _ | _ <;> rfl)

/-- After `CollapseInPlace` with the incremented step below `kSteps` no row of
the board is full. -/
theorem CollapseInPlace_fullRows (s : Situation) (hstep : (s.step_ + 1) % 2 ^ 32 < kSteps) :
    s.CollapseInPlace.fullRows = 0 := by
  rw [fullRows_eq_zero_iff]
  intro y hy
  unfold Situation.CollapseInPlace
  simp only []
  rw [if_neg (by omega)]
  by_cases hm : s.CollapsableBitmask = 0
  · rw [if_neg (by simpa using hm)]
    exact (CollapsableBitmask_eq_zero_iff s).1 hm y hy
  · rw [if_pos hm]
    show (clearRows _ _).getD y 0 ≠ kRowBitMask
    rw [clearRows_getD]
    split
    · decide
    · rename_i hlt
      apply packRows_inv s.CollapsableBitmask s.row_ ?_ (kH - 1) s.row_ (kH - 1) (le_refl _)
        (by decide) (fun _ _ => rfl) ?_ y (by omega) hy
      · intro i hk hi
        rw [CollapsableBitmask_testBit] at hi
        simpa [hk, Situation.row] using hi
      · intro i hi hk
        have : kH = 20 := rfl
        omega

theorem CollapseInPlace_step (s : Situation) :
    s.CollapseInPlace.step_ = (s.step_ + 1) % 2 ^ 32 := by
  unfold Situation.CollapseInPlace
  simp only []
  split
  · rfl
  · split <;> rfl

/-- C31: for a board with no full row, every shape and every pose, the board
returned by `PutCopy` has at most 4 full rows; hence, when `CollapseInPlace` on
that board reads `kMul[lines - 1]` (the collapsable bitmask is not zero), `lines`
is at least 1 and `lines - 1` is an index of the 4-entry table.  The boards that
reach expansion have no full row: the empty board has none, the board after
`CollapseInPlace` has none when its step is below `kSteps`, and so has the board
of every state with step below `kSteps` that `SearchFrom` emits. -/
theorem C31_kMul_index_in_bounds (s : Situation) (h : s.fullRows = 0) (shp : Shape)
    (st : BrickStatus) :
    (s.PutCopy shp st).fullRows ≤ 4 ∧
    ((s.PutCopy shp st).CollapsableBitmask ≠ 0 →
      1 ≤ popcnt 32 (s.PutCopy shp st).CollapsableBitmask ∧
      popcnt 32 (s.PutCopy shp st).CollapsableBitmask - 1 < kMul.length) ∧
    Situation.fullRows {} = 0 ∧
    ((s.PutCopy shp st).CollapseInPlace.step_ < kSteps →
      (s.PutCopy shp st).CollapseInPlace.fullRows = 0) ∧
    (∀ f parent children, parent.situ = s → SearchFrom f parent = some children →
      ∀ c ∈ children, c.situ.step_ < kSteps → c.situ.fullRows = 0) := by
  have h4 : (s.PutCopy shp st).fullRows ≤ 4 := by
    have := fullRows_putCells_le st (shp.pos st.rot) s
    rw [pos_length, h] at this
    rw [PutCopy_eq_putCells]
    omega
  refine ⟨h4, ?_, by decide, ?_, ?_⟩
  · intro hm
    rw [fullRows_eq_popcnt]
    have h1 : (s.PutCopy shp st).fullRows ≠ 0 := by
      intro h0
      exact hm ((CollapsableBitmask_eq_zero_iff _).2 ((fullRows_eq_zero_iff _).1 h0))
    have hk : kMul.length = 4 := rfl
    omega
  · intro hstep
    rw [CollapseInPlace_step] at hstep
    exact CollapseInPlace_fullRows _ hstep
  · intro f parent children hp hs c hc hstep
    unfold SearchFrom at hs
    simp only [] at hs
    split at hs
    · exact absurd hs (by simp)
    · rename_i vec hv
      rcases searchFromLoop_mem f parent vec [] children hs c hc with h1 | ⟨cand, hcand, he⟩
      · simp at h1
      · have hrest := FindAllMoves_rests _ _ _ vec hv cand hcand
        have hsitu : c.situ = cand.situ := by rw [he]; rfl
        rw [hsitu, hrest.2.2.2.2.2] at hstep ⊢
        rw [CollapseInPlace_step] at hstep
        exact CollapseInPlace_fullRows _ hstep

/-- C31, witness: `fourWellBoard` has no full row; the piece I upright in
column 0 fills four rows, `lines = 4` indexes the last entry of `kMul`, and the
board after `CollapseInPlace` has no full row. -/
theorem C31_kMul_index_in_bounds_witness :
    fourWellBoard.fullRows = 0 ∧
    (fourWellBoard.PutCopy .kShapeI ⟨0, 18, 0⟩).fullRows = 4 ∧
    popcnt 32 (fourWellBoard.PutCopy .kShapeI ⟨0, 18, 0⟩).CollapsableBitmask - 1 < kMul.length ∧
    (fourWellBoard.PutCopy .kShapeI ⟨0, 18, 0⟩).CollapseInPlace.fullRows = 0 :=
  ⟨by decide, by decide,
    ((C31_kMul_index_in_bounds fourWellBoard (by decide) .kShapeI ⟨0, 18, 0⟩).2.1
      (by decide)).2,
    (C31_kMul_index_in_bounds fourWellBoard (by decide) .kShapeI ⟨0, 18, 0⟩).2.2.2.1
      (by decide)⟩

/-! ## Theorems: the quota bound of MoveTopN (C32) -/

theorem parent_depth (s p : State) (h : s.parent = some p) : s.depth = p.depth + 1 := by
  cases s with
  | orphan a b c d => simp [State.parent] at h
  | child a b c q d =>
    simp only [State.parent, Option.some.injEq] at h
    subst h
    rfl

theorem hasAncestor_depth (P : State) : ∀ (L : Nat) (node : State),
    hasAncestor P node L = true → P.depth < node.depth := by
  intro L
  induction L with
  | zero => intro node h; simp [hasAncestor] at h
  | succ L ih =>
    intro node h
    rw [hasAncestor] at h
    split at h
    · exact absurd h (by simp)
    · rename_i p hp
      have hd := parent_depth node p hp
      simp only [Bool.or_eq_true, decide_eq_true_eq] at h
      rcases h with h | h
      · rw [← h]; omega
      · have := ih p h
        omega

theorem hasAncestor_of_ancestor (P : State) : ∀ (L : Nat) (node : State) (j : Nat), j < L →
    node.ancestor (j + 1) = some P → hasAncestor P node L = true := by
  intro L
  induction L with
  | zero => intro node j hj; omega
  | succ L ih =>
    intro node j hj h
    rw [State.ancestor] at h
    rw [hasAncestor]
    split at h
    · exact absurd h (by simp)
    · rename_i p hp
      simp only [Bool.or_eq_true, decide_eq_true_eq]
      cases j with
      | zero =>
        left
        simpa [State.ancestor] using h
      | succ j => exact Or.inr (ih p j (by omega) h)

theorem ancestorSkip_false {κ : Type} [DecidableEq κ] (quota_map : State → ParentQuotaInfo κ)
    (value : κ) : ∀ (ancestor_max : List Nat) (node : State),
    ancestorSkip quota_map value node ancestor_max = false →
    ∀ (j : Nat) (P : State), j < ancestor_max.length → node.ancestor (j + 1) = some P →
      quota_check (quota_map P) value (ancestor_max.getD j 0) = true := by
  intro ancestor_max
  induction ancestor_max with
  | nil => intro node _ j P hj; simp at hj
  | cons max more ih =>
    intro node h j P hj ha
    rw [ancestorSkip] at h
    rw [State.ancestor] at ha
    split at h
    · rename_i hp
      rw [hp] at ha
      exact absurd ha (by simp)
    · rename_i parent hp
      rw [hp] at ha
      simp only [] at ha
      split at h
      · exact absurd h (by simp)
      · rename_i hq
        cases j with
        | zero =>
          simp only [State.ancestor, Option.some.injEq] at ha
          rw [← ha]
          simpa using hq
        | succ j =>
          rw [List.getD_cons_succ]
          exact ih parent h j P (by simpa using hj) ha

theorem ancestorCount_spec {κ : Type} : ∀ (ancestor_max : List Nat) (node : State)
    (quota_map : State → ParentQuotaInfo κ) (P : State),
    (ancestorCount quota_map node ancestor_max P).value = (quota_map P).value ∧
    (ancestorCount quota_map node ancestor_max P).cnt =
      if hasAncestor P node ancestor_max.length = true then ((quota_map P).cnt + 1) % 2 ^ 32
      else (quota_map P).cnt := by
  intro ancestor_max
  induction ancestor_max with
  | nil => intro node quota_map P; simp [ancestorCount, hasAncestor]
  | cons max more ih =>
    intro node quota_map P
    rw [ancestorCount, List.length_cons, hasAncestor]
    cases hp : node.parent with
    | none => simp
    | some parent =>
      simp only []
      obtain ⟨h1, h2⟩ := ih parent
        (fun k => if k = parent then
          { quota_map k with cnt := ((quota_map k).cnt + 1) % 2 ^ 32 } else quota_map k) P
      rw [h1, h2]
      by_cases hP : P = parent
      · subst hP
        have hno : hasAncestor P P more.length = false := by
          cases hh : hasAncestor P P more.length
          · rfl
          · have := hasAncestor_depth P _ P hh
            omega
        simp [hno]
      · have hP2 : ¬ parent = P := fun hh => hP hh.symm
        simp [hP, hP2]

theorem countP_snoc (l : List State) (p : State → Bool) (s : State) :
    (l ++ [s]).countP p = l.countP p + (if p s = true then 1 else 0) := by
  rw [List.countP_append, List.countP_cons, List.countP_nil]
  simp

theorem quota_check_lt {κ : Type} [DecidableEq κ] (info : ParentQuotaInfo κ) (value : κ)
    (max : Nat) (hv : value ≠ info.value) (h : quota_check info value max = true) :
    info.cnt < max := by
  unfold quota_check at h
  simpa [hv] using h

theorem moveTopNLoop_quota {κ : Type} [DecidableEq κ] (key_func : State → κ) (zero : κ)
    (ancestor_max : List Nat) (height_max : Nat) :
    ∀ (l : List State) (w : TopNWalk κ),
      w.res_buffer.length + l.length < 2 ^ 32 →
      (∀ h, (w.height_quota_map h).value = zero ∧ (w.height_quota_map h).cnt
        = w.res_buffer.countP (fun s => decide (s.occupied_height = h))) →
      (∀ P, (w.quota_map P).value = zero ∧ (w.quota_map P).cnt
        = w.res_buffer.countP (fun s => hasAncestor P s ancestor_max.length)) →
      (∀ h, w.res_buffer.countP
        (fun s => decide (s.occupied_height = h) && decide (key_func s ≠ zero)) ≤ height_max) →
      (∀ i P, i < ancestor_max.length → w.res_buffer.countP
        (fun s => decide (s.ancestor (i + 1) = some P) && decide (key_func s ≠ zero))
          ≤ ancestor_max.getD i 0) →
      (∀ h, (moveTopNLoop key_func ancestor_max height_max l w).res_buffer.countP
        (fun s => decide (s.occupied_height = h) && decide (key_func s ≠ zero)) ≤ height_max) ∧
      (∀ i P, i < ancestor_max.length →
        (moveTopNLoop key_func ancestor_max height_max l w).res_buffer.countP
          (fun s => decide (s.ancestor (i + 1) = some P) && decide (key_func s ≠ zero))
            ≤ ancestor_max.getD i 0) := by
  intro l
  induction l with
  | nil =>
    intro w _ _ _ bH bA
    exact ⟨bH, bA⟩
  | cons s more ih =>
    intro w hlen hH hA bH bA
    rw [List.length_cons] at hlen
    rw [moveTopNLoop]
    simp only []
    split
    · exact ih _ (by show w.res_buffer.length + more.length < 2 ^ 32; omega) hH hA bH bA
    · rename_i hskip
      split
      · exact ih _ (by show w.res_buffer.length + more.length < 2 ^ 32; omega) hH hA bH bA
      · rename_i hheight
        split
        · exact ⟨bH, bA⟩
        · have hskip2 : ancestorSkip w.quota_map (key_func s) s ancestor_max = false := by
            simpa using hskip
          have hheight2 : quota_check (w.height_quota_map s.occupied_height) (key_func s)
              height_max = true := by simpa using hheight
          have hres : w.res_buffer.length < 2 ^ 32 - 1 := by omega
          refine ih _ ?_ ?_ ?_ ?_ ?_
          · show (w.res_buffer ++ [s]).length + more.length < 2 ^ 32
            rw [List.length_append, List.length_singleton]
            omega
          · intro h
            show (if h = s.occupied_height then
                ({ w.height_quota_map s.occupied_height with
                  cnt := ((w.height_quota_map s.occupied_height).cnt + 1) % 2 ^ 32 } :
                  ParentQuotaInfo κ)
              else w.height_quota_map h).value = zero ∧
              (if h = s.occupied_height then
                ({ w.height_quota_map s.occupied_height with
                  cnt := ((w.height_quota_map s.occupied_height).cnt + 1) % 2 ^ 32 } :
                  ParentQuotaInfo κ)
              else w.height_quota_map h).cnt
                = (w.res_buffer ++ [s]).countP (fun s => decide (s.occupied_height = h))
            rw [countP_snoc]
            by_cases hh : h = s.occupied_height
            · rw [if_pos hh]
              subst hh
              have hle := List.countP_le_length (fun s1 : State =>
                decide (s1.occupied_height = s.occupied_height)) (l := w.res_buffer)
              refine ⟨(hH _).1, ?_⟩
              show ((w.height_quota_map s.occupied_height).cnt + 1) % 2 ^ 32 = _
              rw [(hH _).2, Nat.mod_eq_of_lt (by omega)]
              simp
            · rw [if_neg hh]
              refine ⟨(hH h).1, ?_⟩
              rw [(hH h).2]
              have : ¬ s.occupied_height = h := fun e => hh e.symm
              simp [this]
          · intro P
            show (ancestorCount w.quota_map s ancestor_max P).value = zero ∧
              (ancestorCount w.quota_map s ancestor_max P).cnt
                = (w.res_buffer ++ [s]).countP (fun s => hasAncestor P s ancestor_max.length)
            obtain ⟨h1, h2⟩ := ancestorCount_spec ancestor_max s w.quota_map P
            rw [h1, h2, countP_snoc, (hA P).2]
            refine ⟨(hA P).1, ?_⟩
            have hle := List.countP_le_length (fun s1 : State =>
              hasAncestor P s1 ancestor_max.length) (l := w.res_buffer)
            by_cases hh : hasAncestor P s ancestor_max.length = true
            · rw [if_pos hh, if_pos hh, Nat.mod_eq_of_lt (by omega)]
            · rw [if_neg hh, if_neg hh]
              rfl
          · intro h
            show (w.res_buffer ++ [s]).countP
              (fun s => decide (s.occupied_height = h) && decide (key_func s ≠ zero)) ≤ height_max
            rw [countP_snoc]
            split
            · rename_i hp
              simp only [Bool.and_eq_true, decide_eq_true_eq] at hp
              have hlt := quota_check_lt _ _ _ (by rw [(hH _).1]; exact hp.2) hheight2
              rw [(hH _).2, hp.1] at hlt
              have hmono : w.res_buffer.countP
                  (fun s => decide (s.occupied_height = h) && decide (key_func s ≠ zero))
                  ≤ w.res_buffer.countP (fun s => decide (s.occupied_height = h)) := by
                apply List.countP_mono_left
                intro x _ hx
                simp only [Bool.and_eq_true, decide_eq_true_eq] at hx
                simpa using hx.1
              omega
            · exact bH h
          · intro i P hi
            show (w.res_buffer ++ [s]).countP
              (fun s => decide (s.ancestor (i + 1) = some P) && decide (key_func s ≠ zero))
                ≤ ancestor_max.getD i 0
            rw [countP_snoc]
            split
            · rename_i hp
              simp only [Bool.and_eq_true, decide_eq_true_eq] at hp
              have hq := ancestorSkip_false w.quota_map (key_func s) ancestor_max s hskip2 i P hi
                hp.1
              have hlt := quota_check_lt _ _ _ (by rw [(hA _).1]; exact hp.2) hq
              rw [(hA _).2] at hlt
              have hmono : w.res_buffer.countP
                  (fun s => decide (s.ancestor (i + 1) = some P) && decide (key_func s ≠ zero))
                  ≤ w.res_buffer.countP (fun s => hasAncestor P s ancestor_max.length) := by
                apply List.countP_mono_left
                intro x _ hx
                simp only [Bool.and_eq_true, decide_eq_true_eq] at hx
                exact hasAncestor_of_ancestor P _ x i hi hx.1
              omega
            · exact bA i P hi

/-- C32: hard quota bound of `MoveTopN`.  When the input list is longer than `n`
(and shorter than `2 ^ 32`, so that no counter `cnt` wraps), `MoveTopN` appends to
`*to` a list `sel` of states of the input such that, for every value `h` of
`occupied_height`, at most `height_max` states of `sel` have that height and a
key other than the value-initialised key `zero`, and, for every level
`i + 1 ≤ ancestor_max.size()` and every node `P`, at most `ancestor_max[i]`
states of `sel` have `P` as their ancestor of level `i + 1` and a key other than
`zero`. -/
theorem C32_quota_bound {κ : Type} [LinearOrder κ] (zero : κ) (from_ to_ : List State)
    (n : Nat) (ancestor_max : List Nat) (height_max : Nat) (key_func : State → κ)
    (hn : n < from_.length) (hlen : from_.length < 2 ^ 32) :
    ∃ sel, (MoveTopN zero from_ to_ n ancestor_max height_max key_func).2 = to_ ++ sel ∧
      (∀ s ∈ sel, s ∈ from_) ∧
      (∀ h, sel.countP
        (fun s => decide (s.occupied_height = h) && decide (key_func s ≠ zero)) ≤ height_max) ∧
      (∀ i P, i < ancestor_max.length → sel.countP
        (fun s => decide (s.ancestor (i + 1) = some P) && decide (key_func s ≠ zero))
          ≤ ancestor_max.getD i 0) := by
  unfold MoveTopN
  by_cases h0 : n = 0
  · rw [if_pos h0]
    exact ⟨[], by simp, by simp, by simp, by simp⟩
  · rw [if_neg h0, if_neg (by omega)]
    simp only []
    have hperm := List.perm_insertionSort
      (fun a b => moveTopNComp key_func b a = false) from_
    obtain ⟨bH, bA⟩ := moveTopNLoop_quota key_func zero ancestor_max height_max
      (from_.insertionSort (fun a b => moveTopNComp key_func b a = false))
      ⟨n, fun _ => ⟨0, zero⟩, fun _ => ⟨0, zero⟩, [], []⟩
      (by
        show ([] : List State).length + _ < 2 ^ 32
        rw [List.length_insertionSort, List.length_nil]
        omega)
      (fun h => ⟨rfl, rfl⟩) (fun P => ⟨rfl, rfl⟩) (fun h => Nat.zero_le _)
      (fun i P _ => Nat.zero_le _)
    refine ⟨_, rfl, ?_, bH, bA⟩
    intro s hs
    rcases moveTopNLoop_buffer key_func ancestor_max height_max _ _ s hs with h1 | h1
    · simp at h1
    · exact hperm.subset h1

set_option maxRecDepth 100000 in
/-- C32, witness: on `quotaExample` (three children of `quotaParent` at height
1) with `n = 2`, an ancestor quota of 1 and a height quota of 10, two states are
selected, both children of `quotaParent`; one of them has a key other than the
all-zero key, within the quota of 1. -/
theorem C32_quota_bound_witness :
    (MoveTopN (toLex (0, toLex (0, 0))) quotaExample [] 2 [1] 10 scoreKey).2.countP
      (fun s => decide (s.ancestor 1 = some quotaParent)) = 2 ∧
    (MoveTopN (toLex (0, toLex (0, 0))) quotaExample [] 2 [1] 10 scoreKey).2.countP
      (fun s => decide (s.ancestor 1 = some quotaParent) &&
        decide (scoreKey s ≠ toLex (0, toLex (0, 0)))) = 1 ∧
    ∃ sel, (MoveTopN (toLex (0, toLex (0, 0))) quotaExample [] 2 [1] 10 scoreKey).2 = [] ++ sel ∧
      (∀ s ∈ sel, s ∈ quotaExample) ∧
      (∀ h, sel.countP (fun s => decide (s.occupied_height = h) &&
        decide (scoreKey s ≠ toLex (0, toLex (0, 0)))) ≤ 10) ∧
      (∀ i P, i < [1].length → sel.countP
        (fun s => decide (s.ancestor (i + 1) = some P) &&
          decide (scoreKey s ≠ toLex (0, toLex (0, 0)))) ≤ [1].getD i 0) :=
  ⟨by decide, by decide,
    C32_quota_bound (toLex (0, toLex (0, 0))) quotaExample [] 2 [1] 10 scoreKey
      (by decide) (by decide)⟩
end Tetris
